import Mathlib

/-!
Verification of hexdiff: the difference engine (`sbuf_diff.c`), the window and the
reader it works on (`sbuf.c`), the line cache (`sbuf_cache.c`, `llq.c`) and the main
loop of the driver (`hexdiff.c`).

Shallow embedding.

* `size_t` values are natural numbers; every `size_t` operation of the source that
  can wrap (position sums, shifts, the word subtraction, the difference count) is
  written with an explicit `% SIZE_T`, where `SIZE_T = 2 ^ 64`.
* `unsigned char` cells are natural numbers; the increments of the source on such
  cells are written with an explicit `% 256`.
* A byte array (`unsigned char*` obtained from `malloc`) is a `List Nat`, read with
  `rd` and written with `wr`.  An index past the allocation is outside the C
  semantics (here a read gives 0 and a write is dropped); the statements keep every
  index inside the allocation through their hypotheses, except where they say
  otherwise.
* Array indices `i + j` are bounded by the allocation and are not reduced modulo
  `SIZE_T`.
* A pointer returned by `sbuf_char` is modelled by the byte it points to
  (`some b`), the NULL pointer by `none`.  A pointer returned by `sbuf_ptr` is
  modelled by its offset from `sb->ptr` (`some k` is `sb->ptr + k`).
* A `size_t` subtraction that the source performs only under a comparison that
  excludes a borrow (`pos - sb->pos` after `pos > sb->pos`) is the subtraction of
  natural numbers; the unguarded subtraction `sb->size - sb->len` of `sfile_read`
  is written modulo `SIZE_T`.
* The operating system's `read` is a parameter of `sfile_read`: a `read_outcome`
  gives the result and the bytes of the one call the function may make.
* The `sb == NULL` and `d == NULL` guards of the source are outside the types used
  here (windows and engines are values); the NULL ignore list is `none`.
* A source read by the driver is the script of the outcomes of its coming `read`
  calls; a script that is used up is the end of the file.  The result of `lseek` is
  a parameter of `sfile_seek`.
* A linked list (`llq_list`) is its counter and the list of its nodes, head first;
  the head pointer is NULL exactly when there is no node.  The memory that
  `sbuf_cache_malloc` obtains from `malloc` is a parameter: its content is
  indeterminate and the function does not write the lists.
* A loop of the source whose end is not bounded by a counter takes a bound on its
  passes as first argument and gives `none` when the bound does not suffice, which
  includes the loop that never ends.
* What `main` hands to its printing functions is recorded as a list of `out_event`;
  the fields `lines` and `out` of `main_state` are records kept for the statements.
* `print_sbuf` is the triple of arguments it passes to `print_buf`, and
  `print_buf_column` is the index of the buffer byte that `print_buf` shows in a
  column, if any.  A sequence of calls of the engine is a list of `diff_op`.
-/

namespace hexdiff

/-- Modulus of `size_t` (64-bit target: `sizeof(size_t) == sizeof(void*)`, `llq_num.c`). -/
abbrev SIZE_T : Nat := 18446744073709551616

/-- Array read `a[i]`. -/
def rd (a : List Nat) (i : Nat) : Nat := a.getD i 0

/-- Array write `a[i] = v`. -/
def wr (a : List Nat) (i v : Nat) : List Nat := a.set i v

/-- Conversion of a `size_t` to `int` (`return d->cnt;` in an `int` function):
reduction modulo `2 ^ 32`, read as two's complement (what gcc and clang define for
this implementation-defined conversion). -/
def to_int (n : Nat) : Int :=
  if n % 4294967296 < 2147483648 then ((n % 4294967296 : Nat) : Int)
  else ((n % 4294967296 : Nat) : Int) - 4294967296

/-- `struct sbuf` (`sbuf.h`): `ptr` is the buffer, `size` its capacity, `pos` the
position of `ptr[0]`, `len` the number of real bytes held. -/
structure sbuf where
  ptr : List Nat
  size : Nat
  pos : Nat
  len : Nat
deriving DecidableEq, Repr

/-- `struct sbuf_diff` (`sbuf_diff.h`). -/
structure sbuf_diff where
  cmp : List Nat
  sub : sbuf
  null : sbuf
  width : Nat
  pos : Nat
  cnt : Nat
  nbd : Int
deriving DecidableEq, Repr

/-- A window as the C code can hold it: the buffer has `size` cells of one byte
each and the real data fits in it. -/
def sbuf.valid (sb : sbuf) : Prop :=
  sb.ptr.length = sb.size ∧ sb.len ≤ sb.size ∧ ∀ b ∈ sb.ptr, b < 256

instance (sb : sbuf) : Decidable sb.valid := by
  unfold sbuf.valid; infer_instance

/-- An engine as `sbuf_diff_malloc(width)` allocates it: three arrays of `width`
cells (`cmp`, `sub->ptr`, `null->ptr`). -/
def sbuf_diff.allocated (d : sbuf_diff) : Prop :=
  d.cmp.length = d.width ∧ d.sub.ptr.length = d.width ∧ d.null.ptr.length = d.width

instance (d : sbuf_diff) : Decidable d.allocated := by
  unfold sbuf_diff.allocated; infer_instance

/-- `sbuf_char` (`sbuf.c` 227-246): the byte at `pos`, `none` (NULL) when `pos` is
before the window or at/after the end of its real data. -/
def sbuf_char (sb : sbuf) (pos : Nat) : Option Nat :=
  if pos < sb.pos then none
  else if pos ≥ (sb.pos + sb.len) % SIZE_T then none
  else some (rd sb.ptr (pos - sb.pos))

/-- First `while` of `sbuf_word` (`sbuf.c` 277-285); the first argument bounds the
number of iterations, the loop runs at most `word_size` times
(`sbuf_word_fuel_enough`). -/
def sbuf_word_read (sb : sbuf) (pos word_size : Nat) : Nat → Nat → Nat → Nat × Nat
  | 0, i, value => (i, value)
  | fuel + 1, i, value =>
    if i ≥ sb.pos ∧ i < (sb.pos + sb.len) % SIZE_T ∧ i < (pos + word_size) % SIZE_T then
      sbuf_word_read sb pos word_size fuel (i + 1)
        (((value <<< 8) % SIZE_T) ||| rd sb.ptr (i - sb.pos))
    else (i, value)

/-- Second `while` of `sbuf_word` (`sbuf.c` 288-291): pad with zero bytes; bounded
like the first loop. -/
def sbuf_word_pad (pos word_size : Nat) : Nat → Nat → Nat → Nat × Nat
  | 0, i, value => (i, value)
  | fuel + 1, i, value =>
    if i < (pos + word_size) % SIZE_T then
      sbuf_word_pad pos word_size fuel (i + 1) ((value <<< 8) % SIZE_T)
    else (i, value)

/-- `sbuf_word` (`sbuf.c` 255-294). -/
def sbuf_word (sb : sbuf) (pos word_size : Nat) : Nat :=
  if pos < sb.pos then 0
  else if pos ≥ (sb.pos + sb.len) % SIZE_T then 0
  else
    let r := sbuf_word_read sb pos word_size word_size pos 0
    (sbuf_word_pad pos word_size word_size r.1 r.2).2

/-- Body of the loop of `sbuf_diff_init` (`sbuf_diff.c` 32-36). -/
def sbuf_diff_init_step (d : sbuf_diff) (i : Nat) : sbuf_diff :=
  { d with cmp := wr d.cmp i 0,
           sub := { d.sub with ptr := wr d.sub.ptr i 0 },
           null := { d.null with ptr := wr d.null.ptr i 0 } }

/-- `sbuf_diff_init` (`sbuf_diff.c` 21-40); the returned `int` is always 0. -/
def sbuf_diff_init (d : sbuf_diff) : sbuf_diff :=
  let d1 := (List.range d.width).foldl sbuf_diff_init_step { d with pos := 0, cnt := 0 }
  { d1 with nbd := 0 }

/-- `sbuf_diff_malloc` (`sbuf_diff.c` 47-87): `none` when `sbuf_malloc(width)` refuses
a zero size.  The content of fresh memory is indeterminate; `sbuf_diff_init`
overwrites all of it, it is written as zeros here. -/
def sbuf_diff_malloc (width : Nat) : Option sbuf_diff :=
  if width = 0 then none
  else some (sbuf_diff_init
    { cmp := List.replicate width 0,
      sub := { ptr := List.replicate width 0, size := width, pos := 0, len := 0 },
      null := { ptr := List.replicate width 0, size := width, pos := 0, len := 0 },
      width := width, pos := 0, cnt := 0, nbd := 0 })

/-- `d->null->ptr[k]++` on an `unsigned char` cell. -/
def null_inc (d : sbuf_diff) (k : Nat) : sbuf_diff :=
  { d with null := { d.null with ptr := wr d.null.ptr k ((rd d.null.ptr k + 1) % 256) } }

/-- Locals of one iteration of the outer loop of `sbuf_diff_cmp`, with the engine. -/
structure cmp_locals where
  val1 : Nat
  val2 : Nat
  diff : Bool
  d : sbuf_diff

/-- Body of the inner loop of `sbuf_diff_cmp` (`sbuf_diff.c` 158-225), word at `i`,
byte `j`. -/
def cmp_byte (sb1 sb2 : sbuf) (pos len i : Nat) (st : cmp_locals) (j : Nat) : cmp_locals :=
  let val1 := (st.val1 <<< 8) % SIZE_T
  let val2 := (st.val2 <<< 8) % SIZE_T
  if i + j ≥ len then { st with val1 := val1, val2 := val2 }
  else
    match sbuf_char sb1 ((pos + i + j) % SIZE_T), sbuf_char sb2 ((pos + i + j) % SIZE_T) with
    | none, none =>
      { val1 := val1, val2 := val2, diff := st.diff, d := null_inc st.d (i + j) }
    | none, some c2 =>
      if st.d.nbd ≠ 0 then
        { val1 := val1, val2 := (val2 + c2) % SIZE_T, diff := true, d := st.d }
      else
        { val1 := val1, val2 := val2, diff := st.diff, d := null_inc st.d (i + j) }
    | some c1, none =>
      if st.d.nbd ≠ 0 then
        { val1 := (val1 + c1) % SIZE_T, val2 := val2, diff := true, d := st.d }
      else
        { val1 := val1, val2 := val2, diff := st.diff, d := null_inc st.d (i + j) }
    | some c1, some c2 =>
      { val1 := (val1 + c1) % SIZE_T, val2 := (val2 + c2) % SIZE_T,
        diff := st.diff || decide ((val1 + c1) % SIZE_T ≠ (val2 + c2) % SIZE_T),
        d := st.d }

/-- Body of the marking loop of `sbuf_diff_cmp` (`sbuf_diff.c` 238-243).  The loop
condition `j < word_size && i + j < len` is monotone in `j`, so the loop is the
fold over `j < word_size` of the body guarded by `i + j < len`. -/
def cmp_mark (len word_size i vald : Nat) (d : sbuf_diff) (j : Nat) : sbuf_diff :=
  if i + j < len then
    let d1 : sbuf_diff :=
      if rd d.cmp (i + j) = 0 then
        { d with sub := { d.sub with
            ptr := wr d.sub.ptr (i + j) ((vald >>> (8 * (word_size - 1 - j))) &&& 0xff) } }
      else d
    { d1 with cmp := wr d1.cmp (i + j) ((rd d1.cmp (i + j) + 1) % 256) }
  else d

/-- One iteration of the outer loop of `sbuf_diff_cmp` (`sbuf_diff.c` 150-245), for
the word starting at `i`. -/
def cmp_word (sb1 sb2 : sbuf) (pos len word_size : Nat) (d : sbuf_diff) (i : Nat) : sbuf_diff :=
  let st := (List.range word_size).foldl (cmp_byte sb1 sb2 pos len i)
    { val1 := 0, val2 := 0, diff := false, d := d }
  if st.diff then
    let vald := (st.val2 + SIZE_T - st.val1) % SIZE_T
    (List.range word_size).foldl (cmp_mark len word_size i vald)
      { st.d with cnt := (st.d.cnt + word_size) % SIZE_T }
  else st.d

/-- `sbuf_diff_cmp` (`sbuf_diff.c` 124-248) for `word_size ≥ 1`: the loop
`for (i = 0; i < len; i += word_size)` visits `i = k * word_size` for
`k < ⌈len / word_size⌉`, that is for `k * word_size < len` (`lt_words_of_mul_lt`).
With `word_size = 0` the C loop does not terminate; `main` rejects it, and the word
sizes above 8 for which the shift of the marking loop is undefined
(`hexdiff.c` 942).  Returns the `int` result and the engine. -/
def sbuf_diff_cmp (sb1 sb2 : sbuf) (pos len : Nat) (d : sbuf_diff) (word_size : Nat) :
    Int × sbuf_diff :=
  let d0 : sbuf_diff := { d with pos := pos, sub := { d.sub with pos := pos, len := len } }
  let d1 := (List.range ((len + word_size - 1) / word_size)).foldl
    (fun d k => cmp_word sb1 sb2 pos len word_size d (k * word_size)) d0
  (to_int d1.cnt, d1)

/-- Body of the innermost loop of `sbuf_diff_unmark_ignore` (`sbuf_diff.c` 286-294). -/
def unmark_byte (d : sbuf_diff) (j : Nat) : sbuf_diff :=
  if rd d.cmp j > 0 then
    { d with cnt := (d.cnt + SIZE_T - rd d.cmp j) % SIZE_T,
             cmp := wr d.cmp j 0,
             sub := { d.sub with ptr := wr d.sub.ptr j 0 },
             null := { d.null with ptr := wr d.null.ptr j 0 } }
  else d

/-- One word of `sbuf_diff_unmark_ignore` (`sbuf_diff.c` 277-296), ignore value `v`,
word at `i`; the loop `for (j = i; j < i + word_size; j++)` is `j = i + t`,
`t < word_size`. -/
def unmark_word (word_size v : Nat) (d : sbuf_diff) (i : Nat) : sbuf_diff :=
  if sbuf_word d.sub ((d.pos + i) % SIZE_T) word_size = v then
    (List.range word_size).foldl (fun d t => unmark_byte d (i + t)) d
  else d

/-- One node of the ignore list (`sbuf_diff.c` 271-300), for `word_size ≥ 1`: the loop
`for (i = 0; i < d->width; i += word_size)` visits `i = k * word_size` for
`k * word_size < d->width`. -/
def unmark_value (word_size : Nat) (d : sbuf_diff) (v : Nat) : sbuf_diff :=
  (List.range ((d.width + word_size - 1) / word_size)).foldl
    (fun d k => unmark_word word_size v d (k * word_size)) d

/-- `sbuf_diff_unmark_ignore` (`sbuf_diff.c` 255-304); the ignore list is the list of
the values of its nodes, head first, `none` for a NULL list.  The returned `int` is
always 0. -/
def sbuf_diff_unmark_ignore (d : sbuf_diff) (word_size : Nat) (ignore : Option (List Nat)) :
    sbuf_diff :=
  match ignore with
  | none => d
  | some l => l.foldl (unmark_value word_size) d

/-- `FLAG_VERBOSE` (`hexdiff.c` 29). -/
def FLAG_VERBOSE : Nat := 8

/-- `FLAG_NULL_BYTES_DIFF` (`hexdiff.c` 34). -/
def FLAG_NULL_BYTES_DIFF : Nat := 512

/-- Body of the double loop of `main` (`hexdiff.c` 1121-1126) for the pair `(j, i)`;
a missing stream is a NULL window, for which `sbuf_diff_cmp` returns -1 and leaves
the engine alone. -/
def main_compare_pair (sb : List sbuf) (pos width hl_width : Nat) (ignore : Option (List Nat))
    (d : sbuf_diff) (i j : Nat) : sbuf_diff :=
  match sb[j]?, sb[i]? with
  | some sbj, some sbi =>
    let r := sbuf_diff_cmp sbj sbi pos width d hl_width
    if r.1 > 0 then sbuf_diff_unmark_ignore r.2 hl_width ignore else r.2
  | _, _ => d

/-- The per-line comparison of `main` (`hexdiff.c` 1109-1128): reset, set the null
policy from the flags, then `for (i = 1; i < file_cnt; i++) for (j = 0; j < i; j++)`
with `file_cnt = sb.length`. -/
def main_compare_line (sb : List sbuf) (pos width hl_width flags : Nat)
    (ignore : Option (List Nat)) (diff : sbuf_diff) : sbuf_diff :=
  let d0 := sbuf_diff_init diff
  let d1 : sbuf_diff := if flags &&& FLAG_NULL_BYTES_DIFF ≠ 0 then { d0 with nbd := 1 } else d0
  (List.range' 1 (sb.length - 1)).foldl
    (fun d i => (List.range i).foldl
      (fun d j => main_compare_pair sb pos width hl_width ignore d i j) d) d1

/-- The display decision of `main` (`hexdiff.c` 1132-1154): the flag `print_line`
and the updated `context_after`. -/
def main_print_line (flags file_cnt cnt context_after context : Nat) : Bool × Nat :=
  if flags &&& FLAG_VERBOSE ≠ 0 ∨ file_cnt = 1 then (true, context_after)
  else if cnt > 0 then (true, 0)
  else if context_after < context then (true, (context_after + 1) % SIZE_T)
  else (false, context_after)

/-! ### Vocabulary of the statements -/

/-- The byte of window `sb` at offset `k` of the line starting at `pos`, as
`sbuf_diff_cmp` fetches it: `sbuf_char(sb, pos + k)`. -/
def line_byte (sb : sbuf) (pos k : Nat) : Option Nat :=
  sbuf_char sb ((pos + k) % SIZE_T)

/-- Two fetched bytes count as a difference: two real bytes that are unequal, or,
when the null policy `nbd` is on, exactly one real byte. -/
def byte_differs (nbd : Int) : Option Nat → Option Nat → Bool
  | some a, some b => a != b
  | none, none => false
  | _, _ => nbd != 0

/-- The word starting at `i` differs between the two windows: one of its offsets
inside the line holds a difference. -/
def word_differs (sb1 sb2 : sbuf) (pos len ws : Nat) (nbd : Int) (i : Nat) : Bool :=
  (List.range ws).any fun j =>
    decide (i + j < len) && byte_differs nbd (line_byte sb1 pos (i + j)) (line_byte sb2 pos (i + j))

/-- Number of differing words of the line, in the vocabulary of the statements. -/
def differing_words (sb1 sb2 : sbuf) (pos len ws : Nat) (nbd : Int) : Nat :=
  ((List.range ((len + ws - 1) / ws)).filter fun k =>
    word_differs sb1 sb2 pos len ws nbd (k * ws)).length

/-- Big-endian value of a list of bytes. -/
def be_value (bs : List Nat) : Nat :=
  bs.foldl (fun acc b => acc * 256 + b) 0

/-- The `ws` subtraction bytes `sub[i .. i+ws)` of the engine, read big-endian. -/
def sub_word (d : sbuf_diff) (i ws : Nat) : Nat :=
  be_value ((List.range ws).map fun j => rd d.sub.ptr (i + j))

/-- The `ws` bytes of window `sb` at line offsets `i .. i+ws)`, read big-endian
(an absent byte reads as zero). -/
def window_word (sb : sbuf) (pos i ws : Nat) : Nat :=
  be_value ((List.range ws).map fun j => (line_byte sb pos (i + j)).getD 0)

/-- An engine freshly reset by `sbuf_diff_init`, with the null policy the driver
sets right after the reset (`hexdiff.c` 1110-1115). -/
def reset_engine (d : sbuf_diff) (nbd : Int) : sbuf_diff :=
  { sbuf_diff_init d with nbd := nbd }

/-- The null policy the driver derives from its flags (`hexdiff.c` 1113-1115). -/
def main_nbd (flags : Nat) : Int :=
  if flags &&& FLAG_NULL_BYTES_DIFF ≠ 0 then 1 else 0

/-- The unordered pairs `(j, i)`, `j < i < n`, of `n` streams, in the order of the
driver. -/
def stream_pairs (n : Nat) : List (Nat × Nat) :=
  (List.range' 1 (n - 1)).flatMap fun i => (List.range i).map fun j => (j, i)

/-- The word containing byte `x` differs between the streams of the pair `p`. -/
def pair_differs (sb : List sbuf) (pos len ws : Nat) (nbd : Int) (x : Nat) (p : Nat × Nat) : Bool :=
  match sb[p.1]?, sb[p.2]? with
  | some a, some b => word_differs a b pos len ws nbd (x / ws * ws)
  | _, _ => false

/-- The number of pairs of streams whose word containing byte `x` differs. -/
def pairs_differing (sb : List sbuf) (pos len ws : Nat) (nbd : Int) (x : Nat) : Nat :=
  ((stream_pairs sb.length).filter (pair_differs sb pos len ws nbd x)).length

/-- What byte `k` of the line adds to the word value of window `sb` when it is
compared with `sb'` (inner loop of `sbuf_diff_cmp`). -/
def byte_val (sb sb' : sbuf) (pos len : Nat) (nbd : Int) (k : Nat) : Nat :=
  if k ≥ len then 0
  else
    match line_byte sb pos k, line_byte sb' pos k with
    | some c, some _ => c
    | some c, none => if nbd ≠ 0 then c else 0
    | none, _ => 0

/-- Word value of window `sb` after `n` bytes of the word at `i`. -/
def word_val (sb sb' : sbuf) (pos len : Nat) (nbd : Int) (i : Nat) : Nat → Nat
  | 0 => 0
  | n + 1 =>
    ((word_val sb sb' pos len nbd i n <<< 8) % SIZE_T + byte_val sb sb' pos len nbd (i + n)) % SIZE_T

/-- Byte `n` of the word at `i` sets the `diff` flag. -/
def byte_flag (sb1 sb2 : sbuf) (pos len : Nat) (nbd : Int) (i n : Nat) : Bool :=
  decide (i + n < len) &&
    match line_byte sb1 pos (i + n), line_byte sb2 pos (i + n) with
    | none, none => false
    | some _, some _ =>
      decide (word_val sb1 sb2 pos len nbd i (n + 1) ≠ word_val sb2 sb1 pos len nbd i (n + 1))
    | _, _ => decide (nbd ≠ 0)

/-- The `diff` flag after `n` bytes of the word at `i`. -/
def word_flag (sb1 sb2 : sbuf) (pos len : Nat) (nbd : Int) (i n : Nat) : Bool :=
  (List.range n).any (byte_flag sb1 sb2 pos len nbd i)

/-- Byte `k` of the line increments `null->ptr[k]`. -/
def null_hit (sb1 sb2 : sbuf) (pos len : Nat) (nbd : Int) (k : Nat) : Bool :=
  decide (k < len) &&
    match line_byte sb1 pos k, line_byte sb2 pos k with
    | none, none => true
    | some _, some _ => false
    | _, _ => decide (nbd = 0)

/-- The value `vald = val2 - val1` of the word at `i`. -/
def word_vald (sb1 sb2 : sbuf) (pos len ws : Nat) (nbd : Int) (i : Nat) : Nat :=
  (word_val sb2 sb1 pos len nbd i ws + SIZE_T - word_val sb1 sb2 pos len nbd i ws) % SIZE_T

/-- Number of differing words among the first `n` words of the line. -/
def diff_words (sb1 sb2 : sbuf) (pos len ws : Nat) (nbd : Int) (n : Nat) : Nat :=
  ((List.range n).filter fun k => word_flag sb1 sb2 pos len nbd (k * ws) ws).length

/-- Fields that `sbuf_diff_cmp` and `sbuf_diff_unmark_ignore` leave alone once the
line position is stored, and the lengths of the three arrays. -/
def same_frame (d d' : sbuf_diff) : Prop :=
  d'.width = d.width ∧ d'.pos = d.pos ∧ d'.nbd = d.nbd ∧
  d'.sub.pos = d.sub.pos ∧ d'.sub.len = d.sub.len ∧ d'.sub.size = d.sub.size ∧
  d'.null.pos = d.null.pos ∧ d'.null.len = d.null.len ∧ d'.null.size = d.null.size ∧
  d'.cmp.length = d.cmp.length ∧ d'.sub.ptr.length = d.sub.ptr.length ∧
  d'.null.ptr.length = d.null.ptr.length

/-- A window at base position 0 holding `01 02 03 04`. -/
def demo_a : sbuf := { ptr := [1, 2, 3, 4], size := 4, pos := 0, len := 4 }

/-- A window at base position 0 holding `01 99 03 04`. -/
def demo_b : sbuf := { ptr := [1, 0x99, 3, 4], size := 4, pos := 0, len := 4 }

/-- A window of capacity 4 at base position 0 holding the single byte `00`. -/
def demo_short : sbuf := { ptr := [0, 0, 0, 0], size := 4, pos := 0, len := 1 }

/-- An allocated engine of the given width (as `sbuf_diff_malloc` leaves it before
its call of `sbuf_diff_init`). -/
def demo_engine (width : Nat) : sbuf_diff :=
  { cmp := List.replicate width 0,
    sub := { ptr := List.replicate width 0, size := width, pos := 0, len := 0 },
    null := { ptr := List.replicate width 0, size := width, pos := 0, len := 0 },
    width := width, pos := 0, cnt := 0, nbd := 0 }

/-- A window at base position 0 holding `00 00 00`. -/
def demo_p : sbuf := { ptr := [0, 0, 0], size := 3, pos := 0, len := 3 }

/-- A window at base position 0 holding `00 00 01`. -/
def demo_q : sbuf := { ptr := [0, 0, 1], size := 3, pos := 0, len := 3 }

/-- Three one-byte streams `00`, `01`, `02` at base position 0. -/
def demo_s0 : sbuf := { ptr := [0], size := 1, pos := 0, len := 1 }

/-- See `demo_s0`. -/
def demo_s1 : sbuf := { ptr := [1], size := 1, pos := 0, len := 1 }

/-- See `demo_s0`. -/
def demo_s2 : sbuf := { ptr := [2], size := 1, pos := 0, len := 1 }

/-- The driver's default flags `FLAG_COLOR | FLAG_HEX | FLAG_ASCII` (`hexdiff.c` 712). -/
def demo_flags : Nat := 7

/-! ### The window accessors and the reader (`sbuf.c`) -/

/-- `sbuf_malloc` (`sbuf.c` 23-51): `NULL` for a zero size, otherwise a window of
capacity `buf_size` at position 0 holding no byte (`malloc` is taken to succeed;
the contents of the fresh allocation are indeterminate and no statement reads
them). -/
def sbuf_malloc (buf_size : Nat) : Option sbuf :=
  if buf_size = 0 then none
  else some { ptr := List.replicate buf_size 0, size := buf_size, pos := 0, len := 0 }

/-- `sbuf_avail` (`sbuf.c` 75-104). -/
def sbuf_avail (sb : sbuf) (pos : Nat) : Nat :=
  -- at or after end of buffer
  if pos > sb.pos ∧ pos - sb.pos ≥ sb.len then 0
  -- before start of buffer
  else if pos < sb.pos then ((sb.pos - pos) + sb.len) % SIZE_T
  -- same as buffer
  else if pos = sb.pos then sb.len
  -- after start of buffer
  else sb.len - (pos - sb.pos)

/-- `sbuf_before` (`sbuf.c` 111-140). -/
def sbuf_before (sb : sbuf) (pos : Nat) : Nat :=
  if pos > sb.pos ∧ pos - sb.pos ≥ sb.len then 0
  else if pos < sb.pos then sb.pos - pos
  else if pos = sb.pos then 0
  else 0

/-- `sbuf_rpos` (`sbuf.c` 148-177). -/
def sbuf_rpos (sb : sbuf) (pos : Nat) : Nat :=
  if pos > sb.pos ∧ pos - sb.pos ≥ sb.len then pos
  else if pos < sb.pos then sb.pos
  else if pos = sb.pos then pos
  else pos

/-- `sbuf_ptr` (`sbuf.c` 189-218): `some k` is the pointer `sb->ptr + k`, `none` is
`NULL`. -/
def sbuf_ptr (sb : sbuf) (pos : Nat) : Option Nat :=
  if pos > sb.pos ∧ pos - sb.pos ≥ sb.len then none
  else if pos < sb.pos then some 0
  else if pos = sb.pos then some 0
  else some (pos - sb.pos)

/-- `sbuf_len` (`sbuf.c` 301-330). -/
def sbuf_len (sb : sbuf) (pos : Nat) : Nat :=
  -- at or after end of buffer
  if pos ≥ (sb.pos + sb.len) % SIZE_T then 0
  -- before start of buffer
  else if pos < sb.pos then sb.len
  -- same as buffer
  else if pos = sb.pos then sb.len
  -- after start of buffer
  else sb.len - (pos - sb.pos)

/-- `memmove(p, p + off, n)`: the first `n` cells receive the old cells `off` further
on, the other cells keep their value. -/
def memmove_front (p : List Nat) (off n : Nat) : List Nat :=
  (List.range p.length).map fun i => if i < n then rd p (i + off) else rd p i

/-- `sbuf_reduce` (`sbuf.c` 339-372); the result `0` of the source is left out (it
is the only result once `sb` is not `NULL`). -/
def sbuf_reduce (sb : sbuf) (pos : Nat) : sbuf :=
  -- position is at or before the buffer, do nothing
  if pos ≤ sb.pos then sb
  else
    let rbytes := pos - sb.pos
    -- buffer is bigger, shift data in buffer
    if sb.len > rbytes then
      { sb with
        ptr := memmove_front sb.ptr rbytes (sb.len - rbytes)
        pos := (sb.pos + rbytes) % SIZE_T
        len := sb.len - rbytes }
    -- buffer is same size or smaller, empty entire buffer
    else
      { sb with pos := (sb.pos + sb.len) % SIZE_T, len := 0 }

/-- `struct sfile` (`sbuf.h`). -/
structure sfile where
  fd : Int
  eof : Int
  start_pos : Nat
  bytes_read : Nat
deriving DecidableEq, Repr

/-- `sfile_malloc` (`sbuf.c` 379-395), `malloc` taken to succeed. -/
def sfile_malloc : sfile :=
  { fd := -1, eof := 0, start_pos := 0, bytes_read := 0 }

/-- One call `read(fd, buf, count)` of the operating system, as seen by the program:
its result `br` and, when `br > 0`, the bytes it stored from `buf` on (the first
`br` entries of `bytes`). -/
structure read_outcome where
  br : Int
  bytes : List Nat
deriving DecidableEq, Repr

/-- The cells `p[off] .. p[off + n - 1]` receive `bytes[0] .. bytes[n - 1]`. -/
def read_store (p : List Nat) (off : Nat) (bytes : List Nat) (n : Nat) : List Nat :=
  (List.range p.length).map fun i =>
    if off ≤ i ∧ i < off + n then rd bytes (i - off) else rd p i

/-- `sfile_read` (`sbuf.c` 483-520): the result and the reader and window it leaves.
`o` is what the call of `read` does if the function gets as far as calling it. -/
def sfile_read (sf : sfile) (sb : sbuf) (o : read_outcome) : Int × sfile × sbuf :=
  -- end-of-file
  if sf.eof ≠ 0 then (0, sf, sb)
  else
    let read_size := (sb.size + SIZE_T - sb.len) % SIZE_T
    -- buffer is already full
    if read_size = 0 then (-1, sf, sb)
    else if o.br > 0 then
      (o.br,
       { sf with bytes_read := (sf.bytes_read + o.br.toNat) % SIZE_T },
       { sb with
         ptr := read_store sb.ptr sb.len o.bytes o.br.toNat
         len := (sb.len + o.br.toNat) % SIZE_T })
    else if o.br = 0 then (o.br, { sf with eof := 1 }, sb)
    else (o.br, sf, sb)

/-- `sfile_shift` (`sbuf.c` 595-607); the result `0` of the source is left out. -/
def sfile_shift (sf : sfile) (sb : sbuf) (len : Nat) : sfile × sbuf :=
  ({ sf with start_pos := (sf.start_pos + len) % SIZE_T },
   { sb with pos := (sb.pos + len) % SIZE_T })

/-- `sfile_eoo` (`sbuf.c` 616-632). -/
def sfile_eoo (sf : sfile) (sb : sbuf) (pos : Nat) : Int :=
  if sf.eof ≠ 0 ∧ pos ≥ sb.pos ∧ pos - sb.pos ≥ sb.len then 1 else 0

/-! ### Vocabulary of the statements on the window and the reader -/

/-- The byte position `q` contributes to a word: the stored byte inside the real-data
range `[sb.pos, sb.pos + sb.len)`, zero outside it. -/
def byte_or_zero (sb : sbuf) (q : Nat) : Nat :=
  if sb.pos ≤ q ∧ q < sb.pos + sb.len then rd sb.ptr (q - sb.pos) else 0

/-- A sequence of `sfile_read` calls, one outcome of `read` per call. -/
def sfile_reads (sf : sfile) (sb : sbuf) (os : List read_outcome) : sfile × sbuf :=
  os.foldl (fun s o => (sfile_read s.1 s.2 o).2) (sf, sb)

/-- Window with one stored byte 5 at position 1. -/
def demo_late : sbuf := { ptr := [5], size := 1, pos := 1, len := 1 }

/-- Window holding the two bytes 10 20 at positions 0 and 1, capacity 4. -/
def demo_two : sbuf := { ptr := [10, 20, 0, 0], size := 4, pos := 0, len := 2 }

/-- Window of capacity 1 at position 1 holding no byte. -/
def demo_empty : sbuf := { ptr := [0], size := 1, pos := 1, len := 0 }

/-- Window of capacity 4 holding 1 2 3 4 at positions 3 .. 6. -/
def demo_mid : sbuf := { ptr := [1, 2, 3, 4], size := 4, pos := 3, len := 4 }

/-- A read that delivers the two bytes 7 8. -/
def demo_read2 : read_outcome := { br := 2, bytes := [7, 8] }

/-- A read at end of file. -/
def demo_read0 : read_outcome := { br := 0, bytes := [] }

/-! ### Reading from a source, and `sfile_seek` (`sbuf.c`) -/

/-- The end-of-file outcome of `read`. -/
def read_eof : read_outcome := { br := 0, bytes := [] }

/-- `sfile_read` on a source.  A source is the script of the outcomes of its coming
`read` calls; when the script is used up the source is at its end and `read`
returns 0.  The call takes one outcome from the script if it gets as far as calling
`read`. -/
def sfile_read_src (sf : sfile) (sb : sbuf) (src : List read_outcome) :
    Int × sfile × sbuf × List read_outcome :=
  let r := sfile_read sf sb (src.headD read_eof)
  if sf.eof ≠ 0 ∨ (sb.size + SIZE_T - sb.len) % SIZE_T = 0 then (r.1, r.2.1, r.2.2, src)
  else (r.1, r.2.1, r.2.2, src.tail)

/-- The loop of `sfile_seek` (`sbuf.c` 556-576) on a source that cannot be
positioned.  The first argument bounds the number of passes; `none` is returned if
it does not suffice (every pass that goes on has taken one outcome from the script,
so the length of the script plus one always suffices, `sfile_seek_loop_total`). -/
def sfile_seek_loop (pos : Nat) :
    Nat → sfile → sbuf → List read_outcome → Option (sfile × sbuf × List read_outcome)
  | 0, sf, sb, src => if sb.pos < pos then none else some (sf, sb, src)
  | fuel + 1, sf, sb, src =>
    if sb.pos < pos then
      -- reduce current buffer to zero
      let sb1 := sbuf_reduce sb ((sb.pos + sb.len) % SIZE_T)
      -- read more data into buffer
      let r := sfile_read_src sf sb1 src
      -- position is past EOF
      if r.1 ≤ 0 then some (r.2.1, sbuf_reduce r.2.2.1 pos, r.2.2.2)
      -- position is within buffer
      else if r.2.2.1.pos < pos ∧ pos ≤ (r.2.2.1.pos + r.2.2.1.len) % SIZE_T then
        sfile_seek_loop pos fuel r.2.1 (sbuf_reduce r.2.2.1 pos) r.2.2.2
      else sfile_seek_loop pos fuel r.2.1 r.2.2.1 r.2.2.2
    else some (sf, sb, src)

/-- `sfile_seek` (`sbuf.c` 531-588); `off` is the result of `lseek(fd, pos, SEEK_SET)`
(when it is not negative the script `src` is that of the reads that follow the
repositioning).  The test `(size_t)(off_t)pos != pos` of the source never holds
with a 64-bit `off_t`.  The result is the `int` returned (always 0), the reader,
the window and the rest of the script. -/
def sfile_seek (sf : sfile) (sb : sbuf) (pos : Nat) (off : Int) (src : List read_outcome) :
    Option (Int × sfile × sbuf × List read_outcome) :=
  if pos = 0 then some (0, sf, sb, src)
  -- lseek() doesn't work on STDIN
  else if off < 0 then
    match sfile_seek_loop pos (src.length + 1) sf sb src with
    | none => none
    | some (sf1, sb1, src1) =>
      -- adjust bytes read as if seeking was performed
      some (0,
        { sf1 with bytes_read := if sf1.bytes_read > pos then sf1.bytes_read - pos else 0 },
        sb1, src1)
  else some (0, sf, sb, src)

/-! ### The linked list queue (`llq.c`) and the cache (`sbuf_cache.c`) -/

/-- `struct llq_list` (`llq.h`): `size` is the counter field, `nodes` are the objects
(`node->obj`, here always a `struct sbuf`) of the nodes linked from `head` to
`tail`; `head == NULL` is `nodes = []`. -/
structure llq_list where
  size : Nat
  nodes : List sbuf
deriving DecidableEq, Repr

/-- `llq_list_init` (`llq.c` 29-42). -/
def llq_list_init (_list : llq_list) : llq_list := { size := 0, nodes := [] }

/-- `llq_append` (`llq.c` 72-106) of a detached node (every node this program appends
comes from `sbuf_cache_node_malloc` or from `llq_remove`, which detach it). -/
def llq_append (list : llq_list) (node : sbuf) : llq_list :=
  { size := (list.size + 1) % SIZE_T, nodes := list.nodes ++ [node] }

/-- `llq_remove` (`llq.c` 114-148): the removed node (`none` is `NULL`) and the list. -/
def llq_remove (list : llq_list) : Option sbuf × llq_list :=
  match list.nodes with
  -- empty list
  | [] => (none, list)
  -- remove head
  | node :: rest => (some node, { size := (list.size + SIZE_T - 1) % SIZE_T, nodes := rest })

/-- `struct sbuf_cache` (`sbuf_cache.h`). -/
structure sbuf_cache where
  active : llq_list
  inactive : llq_list
  max_buf_len : Nat
deriving DecidableEq, Repr

/-- `sbuf_cache_malloc` (`sbuf_cache.c` 21-34), `malloc` taken to succeed.  The
function stores `max_buf_len` and nothing else: the two lists of the result are what
the fresh memory holds, which is indeterminate and given here by `mem`. -/
def sbuf_cache_malloc (max_buf_len : Nat) (mem : sbuf_cache) : sbuf_cache :=
  { mem with max_buf_len := max_buf_len }

/-- `sbuf_cache_node_malloc` (`sbuf_cache.c` 67-101), `malloc` taken to succeed: the
object of the new node (the contents of its buffer are indeterminate, written as
zeros). -/
def sbuf_cache_node_malloc (size : Nat) : sbuf :=
  { ptr := List.replicate size 0, size := size, pos := 0, len := 0 }

/-- `memcpy(dst, src, n)`. -/
def memcpy (dst src : List Nat) (n : Nat) : List Nat :=
  (List.range dst.length).map fun i => if i < n then rd src i else rd dst i

/-- `sbuf_cache_append` (`sbuf_cache.c` 157-215): the node appended and the cache.
`buf` is `none` for `NULL`, otherwise the bytes from the pointer on. -/
def sbuf_cache_append (cache : sbuf_cache) (buf : Option (List Nat)) (pos len : Nat) :
    sbuf × sbuf_cache :=
  -- truncate length for NULL buffer
  let len1 := if buf = none then 0 else len
  -- truncate to maximum length
  let len2 := if len1 > cache.max_buf_len then cache.max_buf_len else len1
  -- attempt to reuse an inactive node
  let r := llq_remove cache.inactive
  let obj :=
    match r.1 with
    | none => sbuf_cache_node_malloc cache.max_buf_len
    | some node => node
  -- truncate to buffer length of node
  let len3 := if len2 > obj.size then obj.size else len2
  let obj1 : sbuf := { obj with pos := pos, len := len3 }
  -- copy buffer to cache node
  let obj2 : sbuf :=
    if obj1.len > 0 then { obj1 with ptr := memcpy obj1.ptr (buf.getD []) obj1.len } else obj1
  (obj2, { cache with inactive := r.2, active := llq_append cache.active obj2 })

/-- `sbuf_cache_remove` (`sbuf_cache.c` 229-250): the cache buffer returned (`none`
is `NULL`; a value, as the caller is to use it at once) and the cache. -/
def sbuf_cache_remove (cache : sbuf_cache) : Option sbuf × sbuf_cache :=
  match llq_remove cache.active with
  | (none, _) => (none, cache)
  | (some node, active) =>
    (some node, { cache with active := active, inactive := llq_append cache.inactive node })

/-- The `while` loop of `cache_add` (`hexdiff.c` 640-647).  The first argument bounds
the number of passes, `none` is returned if it does not suffice.  A pass whose
`sbuf_cache_remove` finds the list empty changes nothing, after it the loop never
ends; every other pass lowers `active.size` by one, so `active.size + 1` passes
suffice whenever the loop ends. -/
def cache_add_evict (max_lines : Nat) : Nat → sbuf_cache → Int → Option (sbuf_cache × Int)
  | 0, c, removed => if c.active.size ≥ max_lines then none else some (c, removed)
  | fuel + 1, c, removed =>
    if c.active.size ≥ max_lines then
      cache_add_evict max_lines fuel (sbuf_cache_remove c).2 (removed + 1)
    else some (c, removed)

/-- `cache_add` (`hexdiff.c` 627-686): the `int` returned and the cache; `none` when
the eviction loop does not end. -/
def cache_add (sb : sbuf) (c : sbuf_cache) (pos max_lines : Nat) : Option (Int × sbuf_cache) :=
  match cache_add_evict max_lines (c.active.size + 1) c 0 with
  | none => none
  | some (c1, removed) =>
    -- obtain values to add to cache
    let sb_ptr := sbuf_ptr sb pos
    let sb_before := sbuf_before sb pos
    let sb_rpos := sbuf_rpos sb pos
    let sb_len := sbuf_len sb pos
    -- buffer is past position
    if sb_rpos > (pos + c1.max_buf_len) % SIZE_T then
      some (removed, (sbuf_cache_append c1 none pos 0).2)
    else
      -- position is included in buffer, but preceded by NULLS
      let sb_len1 :=
        if sb_rpos > pos then
          (if sb_before ≤ c1.max_buf_len then c1.max_buf_len - sb_before else sb_len)
        else sb_len
      -- truncate length to cache size
      let sb_len2 := if sb_len1 > c1.max_buf_len then c1.max_buf_len else sb_len1
      some (removed,
        (sbuf_cache_append c1 (sb_ptr.map fun k => sb.ptr.drop k) sb_rpos sb_len2).2)

/-! ### The main loop of the driver (`hexdiff.c`) -/

/-- `MAX_LENGTH` (`hexdiff.c` 22). -/
def MAX_LENGTH : Nat := SIZE_T - 1

/-- `FLAG_QUIET1` (`hexdiff.c` 30). -/
def FLAG_QUIET1 : Nat := 32

/-- What the driver hands to the printing layer, in order: a line taken back from the
caches (`print_pos(tmp_pos)` and one `print_sbuf` per cache entry), the current
line (`print_pos(pos)`, the `print_sbuf` calls with `mlw`, with the difference
count of the line), the gap marker (`print_spacer`), the byte counts of the last
line of output (`print_bytes`).  The exclusion flags and what the print functions
do with `flags` are left out. -/
inductive out_event where
  | cached (pos : Nat) (entries : List (Option sbuf))
  | line (pos mlw cnt : Nat)
  | spacer
  | bytes (counts : List Nat)
deriving DecidableEq, Repr

/-- `cache[0]->active.size` (0 when there is no cache). -/
def cache0_size (cache : List sbuf_cache) : Nat :=
  match cache with
  | [] => 0
  | c :: _ => c.active.size

/-- The loop that prints the cached lines (`hexdiff.c` 1172-1210).  The first
argument bounds the number of passes, `none` is returned if it does not suffice.
A pass lowers `cache[0]->active.size` by one unless the list of `cache[0]` is empty
(then the loop never ends), so `cache[0]->active.size` passes suffice whenever the
loop ends. -/
def main_drain (context width pos : Nat) :
    Nat → List sbuf_cache → List out_event → Option (List sbuf_cache × List out_event)
  | 0, cache, out => if context > 0 ∧ cache0_size cache > 0 then none else some (cache, out)
  | fuel + 1, cache, out =>
    if context > 0 ∧ cache0_size cache > 0 then
      -- determine position by counting backwards
      let t := (pos + SIZE_T - (cache0_size cache * width) % SIZE_T) % SIZE_T
      let tmp_pos := if t > pos then 0 else t
      main_drain context width pos fuel (cache.map fun c => (sbuf_cache_remove c).2)
        (out ++ [out_event.cached tmp_pos (cache.map fun c => (sbuf_cache_remove c).1)])
    else some (cache, out)

/-- The loop over the files that adds the line to the caches (`hexdiff.c`
1261-1271): the value of `cache_add` and the cache, per file. -/
def main_cache_adds (pos context : Nat) :
    List sbuf → List sbuf_cache → Option (List (Int × sbuf_cache))
  | sbi :: sbs, c :: cs =>
    match cache_add sbi c pos context, main_cache_adds pos context sbs cs with
    | some r, some rs => some (r :: rs)
    | _, _ => none
  | _, _ => some []

/-- The value `tmp` of `cache_add` for file 0 (`hexdiff.c` 1264, 1267); 0 when there
is no file. -/
def first_removed : List (Int × sbuf_cache) → Int
  | [] => 0
  | r :: _ => r.1

/-- The tracking variables of `main` that live across lines, with the caches. -/
structure main_track where
  context_after : Nat
  spacer_printed : Int
  cache : List sbuf_cache
deriving DecidableEq, Repr

/-- `mlw` (`hexdiff.c` 1156-1160). -/
def main_mlw (pos width end_pos : Nat) : Nat :=
  if pos < end_pos ∧ end_pos < (pos + width) % SIZE_T then end_pos - pos else width

/-- The part of a pass of the main loop that decides on the output of the line
(`hexdiff.c` 1132-1280), for the windows `sb` and the difference count `cnt` of the
line: the tracking variables it leaves and what it hands to the printing layer;
`none` when one of its loops does not end. -/
def main_output_line (flags context width end_pos pos : Nat) (sb : List sbuf) (cnt : Nat)
    (t : main_track) : Option (main_track × List out_event) :=
  let p := main_print_line flags sb.length cnt t.context_after context
  let mlw := main_mlw pos width end_pos
  -- print current line
  if p.1 then
    match main_drain context width pos (cache0_size t.cache) t.cache [] with
    | none => none
    | some (cache, out) =>
      some ({ context_after := p.2, spacer_printed := 0, cache := cache },
        out ++ [out_event.line pos mlw cnt])
  -- do not print line, add to cache
  else if context > 0 then
    match main_cache_adds pos context sb t.cache with
    | none => none
    | some rs =>
      -- printer spacer
      if t.spacer_printed = 0 ∧ first_removed rs ≠ 0 then
        some ({ context_after := p.2, spacer_printed := 1, cache := rs.map Prod.snd },
          [out_event.spacer])
      else some ({ t with context_after := p.2, cache := rs.map Prod.snd }, [])
  -- do not print line, print spacer instead
  else if t.spacer_printed = 0 then
    some ({ t with context_after := p.2, spacer_printed := 1 }, [out_event.spacer])
  else some ({ t with context_after := p.2 }, [])

/-- The loop that tops up a window (`hexdiff.c` 1083-1093).  The first argument
bounds the number of passes, `none` is returned if it does not suffice (a pass that
goes on has taken a positive outcome from the script or has set `eof`). -/
def main_fill (pos width : Nat) :
    Nat → sfile → sbuf → List read_outcome → Option (sfile × sbuf × List read_outcome)
  | 0, sf, sb, src =>
    if sf.eof = 0 ∧ sbuf_avail sb pos < width then none else some (sf, sb, src)
  | fuel + 1, sf, sb, src =>
    if sf.eof = 0 ∧ sbuf_avail sb pos < width then
      let r := sfile_read_src sf (sbuf_reduce sb pos) src
      if r.1 < 0 then some (r.2.1, r.2.2.1, r.2.2.2)
      else main_fill pos width fuel r.2.1 r.2.2.1 r.2.2.2
    else some (sf, sb, src)

/-- One input stream of the driver: reader, window and source. -/
structure main_stream where
  sf : sfile
  sb : sbuf
  src : List read_outcome
deriving DecidableEq, Repr

/-- The state of the main loop.  `lines` and `out` are records kept for the
statements, not variables of the source: the positions of the lines compared so
far, and what has been handed to the printing layer so far. -/
structure main_state where
  streams : List main_stream
  diff : sbuf_diff
  track : main_track
  pos : Nat
  lines : List Nat
  out : List out_event
deriving DecidableEq, Repr

/-- The settings of a run that the main loop reads. -/
structure main_config where
  flags : Nat
  width : Nat
  hl_width : Nat
  context : Nat
  end_pos : Nat
  ignore : Option (List Nat)
deriving DecidableEq, Repr

/-- The top-up of every stream at the head of a pass (`hexdiff.c` 1080-1093). -/
def main_fill_all (pos width : Nat) : List main_stream → Option (List main_stream)
  | [] => some []
  | s :: rest =>
    match main_fill pos width (s.src.length + 2) s.sf s.sb s.src, main_fill_all pos width rest with
    | some (sf, sb, src), some rs => some ({ sf := sf, sb := sb, src := src } :: rs)
    | _, _ => none

/-- `eoo_cnt` (`hexdiff.c` 1095-1098). -/
def main_eoo_cnt (pos : Nat) (streams : List main_stream) : Nat :=
  (streams.filter fun s => sfile_eoo s.sf s.sb pos != 0).length

/-- The re-read of every stream after the position has moved (`hexdiff.c`
1302-1304). -/
def main_reread (streams : List main_stream) : List main_stream :=
  streams.map fun s =>
    let r := sfile_read_src s.sf s.sb s.src
    { sf := r.2.1, sb := r.2.2.1, src := r.2.2.2 }

/-- One pass of the main loop (`hexdiff.c` 1074-1306): the state it leaves and the
value of `loop`; `none` when one of its inner loops does not end. -/
def main_pass (cfg : main_config) (st : main_state) : Option (main_state × Bool) :=
  match main_fill_all st.pos cfg.width st.streams with
  | none => none
  | some streams =>
    -- all files are end-of-output
    if main_eoo_cnt st.pos streams = streams.length then
      some ({ st with streams := streams }, false)
    else
      let sb := streams.map fun s => s.sb
      let diff := main_compare_line sb st.pos cfg.width cfg.hl_width cfg.flags cfg.ignore st.diff
      match main_output_line cfg.flags cfg.context cfg.width cfg.end_pos st.pos sb diff.cnt
          st.track with
      | none => none
      | some (track, out) =>
        let st1 : main_state :=
          { st with streams := streams, diff := diff, track := track,
                    lines := st.lines ++ [st.pos], out := st.out ++ out }
        -- position overflow
        if (st.pos + cfg.width) % SIZE_T < st.pos then some (st1, false)
        -- new position is past specified length
        else if (st.pos + cfg.width) % SIZE_T ≥ cfg.end_pos then some (st1, false)
        -- increment position for loop
        else
          some ({ st1 with pos := (st.pos + cfg.width) % SIZE_T,
                           streams := main_reread streams }, true)

/-- The main loop (`hexdiff.c` 1072-1306).  The first argument bounds the number of
passes, `none` is returned if it does not suffice or an inner loop does not end (a
pass that goes on has moved the position `width` further, so the loop ends). -/
def main_loop (cfg : main_config) : Nat → main_state → Option main_state
  | 0, _ => none
  | fuel + 1, st =>
    match main_pass cfg st with
    | none => none
    | some (st1, true) => main_loop cfg fuel st1
    | some (st1, false) => some st1

/-- The state in which `main` enters its loop (`hexdiff.c` 718-719, 967, 985,
1007): position `start_pos`, `context_after = MAX_LENGTH`, no marker printed. -/
def main_enter (start_pos : Nat) (streams : List main_stream) (diff : sbuf_diff)
    (cache : List sbuf_cache) : main_state :=
  { streams := streams, diff := diff,
    track := { context_after := MAX_LENGTH, spacer_printed := 0, cache := cache },
    pos := start_pos, lines := [], out := [] }

/-- The number of bytes reported for a stream (`hexdiff.c` 1325-1336). -/
def main_bytes (end_pos : Nat) (sf : sfile) : Nat :=
  let tmp := if end_pos > sf.start_pos then end_pos - sf.start_pos else 0
  if sf.bytes_read < tmp then sf.bytes_read else tmp

/-- What `main` prints after the loop (`hexdiff.c` 1310-1354): the byte counts, then
the final gap marker when lines are left in the cache and no marker was printed
for them. -/
def main_finish (cfg : main_config) (st : main_state) : main_state :=
  let out1 :=
    if cfg.flags &&& FLAG_QUIET1 = 0 then
      st.out ++ [out_event.bytes (st.streams.map fun s => main_bytes cfg.end_pos s.sf)]
    else st.out
  if cfg.context > 0 ∧ cache0_size st.track.cache > 0 ∧ st.track.spacer_printed = 0 then
    { st with out := out1 ++ [out_event.spacer],
              track := { st.track with spacer_printed := 1 } }
  else { st with out := out1 }

/-- The end position `main` derives from the start position and the length
(`hexdiff.c` 969-980). -/
def main_end_pos (start_pos len : Nat) : Nat :=
  let len1 :=
    if len = MAX_LENGTH ∧ start_pos > 0 then (len + SIZE_T - start_pos) % SIZE_T
    else if (start_pos + len) % SIZE_T < start_pos then (MAX_LENGTH + SIZE_T - start_pos) % SIZE_T
    else len
  (start_pos + len1) % SIZE_T

/-- The set-up of one stream (`hexdiff.c` 994-1000, 1022-1045): allocation, seek or
shift, first read.  `off` is the result of the `lseek` that `sfile_seek` may call;
`none` when the buffer cannot be allocated (`buf_size = 0`) or a loop does not
end. -/
def main_open (start_pos buf_size seek shift : Nat) (off : Int) (src : List read_outcome) :
    Option main_stream :=
  match sbuf_malloc buf_size with
  | none => none
  | some sb0 =>
    let sf0 := sfile_malloc
    let tmp := (start_pos + seek) % SIZE_T
    let positioned : Option (sfile × sbuf × List read_outcome) :=
      -- position is not negated by shift
      if tmp > shift then
        match sfile_seek sf0 sb0 (tmp - shift) off src with
        | none => none
        | some r =>
          some ({ r.2.1 with start_pos := start_pos }, { r.2.2.1 with pos := start_pos }, r.2.2.2)
      else
        some ((sfile_shift sf0 sb0 shift).1, (sfile_shift sf0 sb0 shift).2, src)
    match positioned with
    | none => none
    | some (sf, sb, src1) =>
      -- initial file read
      let r := sfile_read_src sf sb src1
      some { sf := r.2.1, sb := r.2.2.1, src := r.2.2.2 }

/-! ### Vocabulary of the statements on the cache and the main loop -/

/-- The bytes a source delivers when it is read with the read sizes `sizes`: one
outcome per size, each the next bytes of `stream`. -/
def pipe_script : List Nat → List Nat → List read_outcome
  | _, [] => []
  | stream, n :: ns =>
    { br := (n : Int), bytes := stream.take n } :: pipe_script (stream.drop n) ns

/-- A list whose counter field is the number of its nodes. -/
def llq_list.wf (l : llq_list) : Prop := l.size = l.nodes.length

instance (l : llq_list) : Decidable l.wf := by
  unfold llq_list.wf; infer_instance

/-- A cache as the driver keeps it for `max_lines = k`: the counter of each list is
the number of its nodes, there are at most `k` nodes in all, and every node has a
buffer of `max_buf_len` cells. -/
def sbuf_cache.ok (c : sbuf_cache) (k : Nat) : Prop :=
  c.active.wf ∧ c.inactive.wf ∧
  c.active.nodes.length + c.inactive.nodes.length ≤ k ∧
  ∀ e ∈ c.active.nodes ++ c.inactive.nodes,
    e.size = c.max_buf_len ∧ e.ptr.length = c.max_buf_len

instance (c : sbuf_cache) (k : Nat) : Decidable (c.ok k) := by
  unfold sbuf_cache.ok; infer_instance

/-- Every cache of the list is kept well for `max_lines = k` and holds `a` lines. -/
def caches_hold (k a : Nat) (cache : List sbuf_cache) : Prop :=
  ∀ c ∈ cache, c.ok k ∧ c.active.nodes.length = a

instance (k a : Nat) (cache : List sbuf_cache) : Decidable (caches_hold k a cache) := by
  unfold caches_hold; infer_instance

/-- The buffer, position and length that `cache_add` hands to `sbuf_cache_append` for
the window `sb` at `pos`, in a cache of line width `w` (`hexdiff.c` 649-681). -/
def cache_add_args (w : Nat) (sb : sbuf) (pos : Nat) : Option (List Nat) × Nat × Nat :=
  if sbuf_rpos sb pos > (pos + w) % SIZE_T then (none, pos, 0)
  else
    let sb_len1 :=
      if sbuf_rpos sb pos > pos then
        (if sbuf_before sb pos ≤ w then w - sbuf_before sb pos else sbuf_len sb pos)
      else sbuf_len sb pos
    ((sbuf_ptr sb pos).map fun k => sb.ptr.drop k, sbuf_rpos sb pos,
      if sb_len1 > w then w else sb_len1)

/-- What the entry records that `sbuf_cache_append` makes of a buffer, a position and
a length in a cache of line width `w`. -/
def append_view (w : Nat) (a : Option (List Nat) × Nat × Nat) : Nat × Nat × List Nat :=
  (a.2.1, min (if a.1 = none then 0 else a.2.2) w,
    (List.range (min (if a.1 = none then 0 else a.2.2) w)).map fun i => rd (a.1.getD []) i)

/-- The empty cache: what `sbuf_cache_malloc` followed by `llq_list_init` on both
lists gives. -/
def empty_cache (max_buf_len : Nat) : sbuf_cache :=
  { active := { size := 0, nodes := [] }, inactive := { size := 0, nodes := [] },
    max_buf_len := max_buf_len }

/-- What a cache entry records: position, length and the `len` bytes stored. -/
def entry_view (e : sbuf) : Nat × Nat × List Nat :=
  (e.pos, e.len, (List.range e.len).map fun i => rd e.ptr i)

/-- The snapshot `cache_add` takes of a window at `pos` for a cache of line width
`w`: the view of the entry it appends to an empty cache. -/
def snapshot (w : Nat) (x : sbuf × Nat) : Option (Nat × Nat × List Nat) :=
  match cache_add x.1 (empty_cache w) x.2 1 with
  | none => none
  | some r => (r.2.active.nodes.getLast?).map entry_view

/-- A sequence of `cache_add` calls with the same `max_lines`, on the windows and
positions `xs`: the sum of the values returned and the cache. -/
def cache_adds (max_lines : Nat) : List (sbuf × Nat) → sbuf_cache → Option (Int × sbuf_cache)
  | [], c => some (0, c)
  | x :: xs, c =>
    match cache_add x.1 c x.2 max_lines with
    | none => none
    | some r =>
      match cache_adds max_lines xs r.2 with
      | none => none
      | some r2 => some (r.1 + r2.1, r2.2)

/-- Successive `sbuf_cache_remove` calls: what they return and the cache. -/
def cache_removes : Nat → sbuf_cache → List (Option sbuf) × sbuf_cache
  | 0, c => ([], c)
  | n + 1, c =>
    let r := sbuf_cache_remove c
    let rs := cache_removes n r.2
    (r.1 :: rs.1, rs.2)

/-- An operation on a cache: `cache_add` of a window at a position, or
`sbuf_cache_remove`. -/
inductive cache_op where
  | add (sb : sbuf) (pos : Nat)
  | remove
deriving DecidableEq, Repr

/-- A sequence of cache operations with a fixed `max_lines`; `none` when a
`cache_add` does not end. -/
def cache_run (max_lines : Nat) : List cache_op → sbuf_cache → Option sbuf_cache
  | [], c => some c
  | cache_op.add sb pos :: ops, c =>
    match cache_add sb c pos max_lines with
    | none => none
    | some r => cache_run max_lines ops r.2
  | cache_op.remove :: ops, c => cache_run max_lines ops (sbuf_cache_remove c).2

/-- The number of nodes of a cache, active and inactive. -/
def cache_nodes (c : sbuf_cache) : Nat := c.active.nodes.length + c.inactive.nodes.length

/-- The display decisions over consecutive lines with difference counts `cnts`,
from the counter value `context_after`: the decisions and the counter left. -/
def main_print_lines (flags file_cnt context : Nat) : List Nat → Nat → List Bool × Nat
  | [], ca => ([], ca)
  | cnt :: rest, ca =>
    let p := main_print_line flags file_cnt cnt ca context
    let r := main_print_lines flags file_cnt context rest p.2
    (p.1 :: r.1, r.2)

/-- The output part of the passes over consecutive lines: the line with windows and
difference count `l` is at `pos`, the next one `width` further; what each line hands
to the printing layer, and the tracking variables left. -/
def main_output_lines (flags context width end_pos : Nat) :
    Nat → List (List sbuf × Nat) → main_track → Option (main_track × List (List out_event))
  | _, [], t => some (t, [])
  | pos, l :: rest, t =>
    match main_output_line flags context width end_pos pos l.1 l.2 t with
    | none => none
    | some r =>
      match main_output_lines flags context width end_pos (pos + width) rest r.1 with
      | none => none
      | some r2 => some (r2.1, r.2 :: r2.2)

/-- A fresh allocation whose `active.size` field holds 1 and whose other fields are
zero. -/
def demo_stale : sbuf_cache :=
  { active := { size := 1, nodes := [] }, inactive := { size := 0, nodes := [] },
    max_buf_len := 0 }

/-- The settings of the scenario: the driver's default flags (verbose off), width 8,
word size 1, context 2, no start offset, no length limit, nothing to ignore. -/
def scenario_cfg : main_config :=
  { flags := demo_flags, width := 8, hl_width := 1, context := 2,
    end_pos := main_end_pos 0 MAX_LENGTH, ignore := some [] }

/-- The set-up of one stream of the scenario: a buffer of `buf_size` bytes, no seek
and no shift, and a source whose first `read` delivers the whole content `D`. -/
def scenario_stream (buf_size : Nat) (D : List Nat) : Option main_stream :=
  main_open 0 buf_size 0 0 (-1) (pipe_script D [D.length])

/-- The state in which the loop is entered with three copies of the stream `s`, the
engine `d` and three caches for lines of 8 bytes whose lists are empty. -/
def scenario_start (s : main_stream) (d : sbuf_diff) : main_state :=
  main_enter 0 [s, s, s] d (List.replicate 3 (sbuf_cache_malloc 8 (empty_cache 0)))

/-- A cache for `max_lines = 2` that holds one line of 4 bytes, stored for
position 3. -/
def demo_cache1 : sbuf_cache :=
  { active := { size := 1, nodes := [demo_mid] }, inactive := { size := 0, nodes := [] },
    max_buf_len := 4 }

/-- Tracking variables with one cached line per stream, two streams. -/
def demo_track1 : main_track :=
  { context_after := MAX_LENGTH, spacer_printed := 0, cache := [demo_cache1, demo_cache1] }

/-! ### The printing of a window (`hexdiff.c`) -/

/-- `print_sbuf` (`hexdiff.c` 500-529) for a window that is not `NULL`: the arguments
`buf`, `len` and `before` of its call of `print_buf` (`buf` as the offset of the
pointer from `sb->ptr`, `none` for `NULL`). -/
def print_sbuf (sb : sbuf) (pos mlw : Nat) : Option Nat × Nat × Nat :=
  -- obtain pointer
  let ptr := sbuf_ptr sb pos
  -- calculate the number of bytes to print
  let btp := sbuf_avail sb pos
  -- limit by maximum line width
  let btp1 := if btp > mlw then mlw else btp
  -- obtain the number of NULL bytes before the buffer
  let before := sbuf_before sb pos
  let btp2 := if before > 0 ∧ btp1 ≥ before then btp1 - before else btp1
  (ptr, btp2, before)

/-- What `print_buf` (`hexdiff.c` 344-409) shows in column `i < width` of its
hexadecimal and ASCII panes: `none` for an empty column, `some k` for the byte
`buf[k]`. -/
def print_buf_column (buf : Option Nat) (len before i : Nat) : Option Nat :=
  -- NOTE: buf can be NULL to print empty space
  let len1 := if buf = none then 0 else len
  if i < before then none
  else if i ≥ len1 + before then none
  else some (i - before)

/-- The positioning part of the set-up of a stream (`hexdiff.c` 1022-1041), as in
`main_open`: the reader, the window and the source on which the initial read is
made. -/
def main_position (start_pos buf_size seek shift : Nat) (off : Int) (src : List read_outcome) :
    Option (sfile × sbuf × List read_outcome) :=
  match sbuf_malloc buf_size with
  | none => none
  | some sb0 =>
    let sf0 := sfile_malloc
    let tmp := (start_pos + seek) % SIZE_T
    -- position is not negated by shift
    if tmp > shift then
      match sfile_seek sf0 sb0 (tmp - shift) off src with
      | none => none
      | some r =>
        some ({ r.2.1 with start_pos := start_pos }, { r.2.2.1 with pos := start_pos }, r.2.2.2)
    else
      some ((sfile_shift sf0 sb0 shift).1, (sfile_shift sf0 sb0 shift).2, src)

/-- The call of `sfile_read` is made on a window without room: the count
`sb->size - sb->len` it would ask for is 0 (`sbuf.c` 501-504). -/
def read_finds_full (sb : sbuf) : Prop := (sb.size + SIZE_T - sb.len) % SIZE_T = 0

instance (sb : sbuf) : Decidable (read_finds_full sb) := by
  unfold read_finds_full; infer_instance

/-! ### Vocabulary of the statements on the engine -/

/-- A call made on the engine between two resets. -/
inductive diff_op where
  | cmp (sb1 sb2 : sbuf) (pos len word_size : Nat)
  | unmark (word_size : Nat) (ignore : Option (List Nat))
deriving DecidableEq, Repr

/-- The engine after a call. -/
def diff_step (d : sbuf_diff) : diff_op → sbuf_diff
  | diff_op.cmp sb1 sb2 pos len word_size => (sbuf_diff_cmp sb1 sb2 pos len d word_size).2
  | diff_op.unmark word_size ignore => sbuf_diff_unmark_ignore d word_size ignore

/-- The engine after a sequence of calls. -/
def diff_run (d : sbuf_diff) (ops : List diff_op) : sbuf_diff :=
  ops.foldl diff_step d

/-- The `int` values returned by the calls of a sequence (`sbuf_diff_unmark_ignore`
returns 0). -/
def diff_results : sbuf_diff → List diff_op → List Int
  | _, [] => []
  | d, diff_op.cmp sb1 sb2 pos len word_size :: ops =>
    (sbuf_diff_cmp sb1 sb2 pos len d word_size).1 ::
      diff_results (sbuf_diff_cmp sb1 sb2 pos len d word_size).2 ops
  | d, diff_op.unmark word_size ignore :: ops =>
    0 :: diff_results (sbuf_diff_unmark_ignore d word_size ignore) ops

/-- The call is a compare. -/
def diff_op.is_cmp : diff_op → Bool
  | diff_op.cmp _ _ _ _ _ => true
  | diff_op.unmark _ _ => false

/-- The engine `d` with other values in the fields that `sbuf_diff_init` does not
write: the capacity, position and length of the subtraction buffer and of the null
buffer. -/
def reframe (sub_size sub_pos sub_len null_size null_pos null_len : Nat) (d : sbuf_diff) :
    sbuf_diff :=
  { d with sub := { d.sub with size := sub_size, pos := sub_pos, len := sub_len },
           null := { d.null with size := null_size, pos := null_pos, len := null_len } }

/-- The call uses the word size `ws` and, if it is a compare, the length `width`. -/
def diff_op.regular (ws width : Nat) : diff_op → Bool
  | diff_op.cmp _ _ _ len word_size => decide (len = width) && decide (word_size = ws)
  | diff_op.unmark word_size _ => decide (word_size = ws)

/-- The sum of the `cmp` flags of the line. -/
def cmp_sum (d : sbuf_diff) : Nat :=
  ((List.range d.width).map fun i => rd d.cmp i).sum

/-- The counter is the sum of the flags of an allocated engine of width `W`, with every
flag at most `m`. -/
def count_inv (W m : Nat) (d : sbuf_diff) : Prop :=
  d.allocated ∧ d.width = W ∧ d.cnt = cmp_sum d ∧ (∀ x, rd d.cmp x ≤ m) ∧ d.cnt ≤ W * m

/-- The number of positions `q < n` at or after `start` at which the window holds
a real byte. -/
def real_from (sb : sbuf) (start n : Nat) : Nat :=
  ((List.range n).filter fun q => decide (start ≤ q) && (sbuf_char sb q).isSome).length

/-! ### Data of the examples -/

/-- A window of capacity 8 holding the two bytes 10 20 at positions 4 and 5; the rest
of its buffer holds 99. -/
def demo_tail : sbuf := { ptr := [10, 20, 99, 99, 99, 99, 99, 99], size := 8, pos := 4, len := 2 }

/-- A window of capacity 8 that is full: 8 bytes at positions 0 .. 7. -/
def demo_full : sbuf := { ptr := [1, 2, 3, 4, 5, 6, 7, 8], size := 8, pos := 0, len := 8 }

/-- Settings with width 8, no context, no length limit and nothing to ignore. -/
def demo_cfg8 : main_config :=
  { flags := demo_flags, width := 8, hl_width := 1, context := 0,
    end_pos := main_end_pos 0 MAX_LENGTH, ignore := some [] }

/-! ### Data of the examples at the top of the position range -/

/-- A window of capacity 4 that holds `01 02 03 04` from position `2^64 - 2` on, as the
set-up of a stream shifted by `2^64 - 2` leaves it after the initial read: the sum
`sb.pos + sb.len` passes `2^64`. -/
def demo_wrap : sbuf := { ptr := [1, 2, 3, 4], size := 4, pos := SIZE_T - 2, len := 4 }

/-- A full window of capacity 8 whose base is the last position `2^64 - 1`, as the
set-up of a stream shifted by `2^64 - 1` leaves it after an initial read of 8 bytes. -/
def demo_top : sbuf :=
  { ptr := [0, 1, 2, 3, 4, 5, 6, 7], size := 8, pos := SIZE_T - 1, len := 8 }

/-- The call keeps every index inside the arrays of an engine of the given width and
every shift below the width of a `size_t`: a compare has `len <= width` and a word
size from 1 to 8 (`sbuf_diff.c` 149, 239, 241), an unmark a word size that divides
the width (`sbuf_diff.c` 277, 286). -/
def diff_op.in_bounds (width : Nat) : diff_op → Bool
  | diff_op.cmp _ _ _ len word_size =>
    decide (len ≤ width) && decide (1 ≤ word_size) && decide (word_size ≤ 8)
  | diff_op.unmark word_size _ => decide (1 ≤ word_size) && decide (width % word_size = 0)

theorem rd_wr (l : List Nat) (i k v : Nat) :
    rd (wr l i v) k = if i = k ∧ i < l.length then v else rd l k := by
  simp only [rd, wr, List.getD_eq_getElem?_getD, List.getElem?_set]
  by_cases h : i = k
  · subst h
    by_cases h2 : i < l.length
    · simp [h2]
    · have h3 : l[i]? = none := by simp; omega
      simp [h2, h3]
  · simp [h]

@[simp] theorem length_wr (l : List Nat) (i v : Nat) : (wr l i v).length = l.length := by
  simp [wr]

theorem rd_ge (l : List Nat) (k : Nat) (h : l.length ≤ k) : rd l k = 0 := by
  simp [rd, List.getD_eq_getElem?_getD, List.getElem?_eq_none h]

theorem list_ext_rd (l1 l2 : List Nat) (hl : l1.length = l2.length)
    (h : ∀ x, x < l1.length → rd l1 x = rd l2 x) : l1 = l2 := by
  apply List.ext_getElem hl
  intro n h1 h2
  have h3 := h n h1
  simpa [rd, List.getD_eq_getElem?_getD, List.getElem?_eq_getElem h1,
    List.getElem?_eq_getElem h2] using h3

theorem same_frame_refl (d : sbuf_diff) : same_frame d d := by
  simp [same_frame]

theorem same_frame_trans {a b c : sbuf_diff} (h1 : same_frame a b) (h2 : same_frame b c) :
    same_frame a c := by
  simp only [same_frame] at *
  omega

/-! ### `sbuf_diff_init` -/

theorem init_fold (n : Nat) (d : sbuf_diff) :
    same_frame d ((List.range n).foldl sbuf_diff_init_step d) ∧
    ((List.range n).foldl sbuf_diff_init_step d).cnt = d.cnt ∧
    ∀ x, (rd ((List.range n).foldl sbuf_diff_init_step d).cmp x =
            if x < n then 0 else rd d.cmp x) ∧
         (rd ((List.range n).foldl sbuf_diff_init_step d).sub.ptr x =
            if x < n then 0 else rd d.sub.ptr x) ∧
         (rd ((List.range n).foldl sbuf_diff_init_step d).null.ptr x =
            if x < n then 0 else rd d.null.ptr x) := by
  induction n with
  | zero => simp [same_frame_refl]
  | succ n ih =>
    rw [List.range_succ, List.foldl_append]
    simp only [List.foldl_cons, List.foldl_nil]
    obtain ⟨hf, hc, hx⟩ := ih
    refine ⟨?_, ?_, ?_⟩
    · refine same_frame_trans hf ?_
      simp [same_frame, sbuf_diff_init_step]
    · simp [sbuf_diff_init_step, hc]
    · intro x
      obtain ⟨h1, h2, h3⟩ := hx x
      obtain ⟨-, -, -, -, -, -, -, -, -, l1, l2, l3⟩ := hf
      simp only [sbuf_diff_init_step, rd_wr, h1, h2, h3, l1, l2, l3]
      refine ⟨?_, ?_, ?_⟩ <;>
      · rcases Nat.lt_trichotomy x n with h | h | h
        · have h4 : x < n + 1 := by omega
          simp [h, h4]
        · subst h
          split_ifs <;> first | rfl | omega | (apply rd_ge; omega)
        · have h4 : ¬ x < n + 1 := by omega
          have h5 : ¬ x < n := by omega
          have h6 : ¬ n = x := by omega
          simp [h4, h5, h6]

theorem reset_spec (d : sbuf_diff) (n : Int) (hd : d.allocated) :
    (reset_engine d n).allocated ∧ (reset_engine d n).width = d.width ∧
    (reset_engine d n).cnt = 0 ∧ (reset_engine d n).nbd = n ∧
    ∀ x, rd (reset_engine d n).cmp x = 0 ∧ rd (reset_engine d n).sub.ptr x = 0 ∧
      rd (reset_engine d n).null.ptr x = 0 := by
  obtain ⟨hf, hc, hx⟩ := init_fold d.width { d with pos := 0, cnt := 0 }
  obtain ⟨a1, a2, a3⟩ := hd
  obtain ⟨f1, -, -, -, -, -, -, -, -, l1, l2, l3⟩ := hf
  simp only [reset_engine, sbuf_diff_init, sbuf_diff.allocated] at *
  refine ⟨⟨by omega, by omega, by omega⟩, f1, hc, trivial, ?_⟩
  intro x
  obtain ⟨h1, h2, h3⟩ := hx x
  rw [h1, h2, h3]
  refine ⟨?_, ?_, ?_⟩ <;> split_ifs <;> first | rfl | (apply rd_ge; omega)

/-! ### The inner loop of `sbuf_diff_cmp` -/

theorem word_flag_succ (sb1 sb2 : sbuf) (pos len : Nat) (nbd : Int) (i n : Nat) :
    word_flag sb1 sb2 pos len nbd i (n + 1) =
      (word_flag sb1 sb2 pos len nbd i n || byte_flag sb1 sb2 pos len nbd i n) := by
  simp [word_flag, List.range_succ, List.any_append]

theorem null_inc_frame (d : sbuf_diff) (k : Nat) :
    same_frame d (null_inc d k) ∧ (null_inc d k).cmp = d.cmp ∧ (null_inc d k).sub = d.sub ∧
    (null_inc d k).cnt = d.cnt := by
  simp [same_frame, null_inc]

/-- Pointwise effect of one more byte on the null counts. -/
theorem null_step (a0 a : List Nat) (i n : Nat) (hit : Nat → Bool) (b : Bool)
    (hb : b = hit (i + n)) (hl : a.length = a0.length)
    (h : ∀ x, rd a x = if i ≤ x ∧ x < i + n ∧ hit x = true ∧ x < a0.length
      then (rd a0 x + 1) % 256 else rd a0 x) (x : Nat) :
    rd (if b then wr a (i + n) ((rd a (i + n) + 1) % 256) else a) x =
      if i ≤ x ∧ x < i + (n + 1) ∧ hit x = true ∧ x < a0.length
      then (rd a0 x + 1) % 256 else rd a0 x := by
  by_cases hx : x = i + n
  · subst hx
    have h0 := h (i + n)
    have e0 : ¬ (i ≤ i + n ∧ i + n < i + n ∧ hit (i + n) = true ∧ i + n < a0.length) := by omega
    rw [if_neg e0] at h0
    cases hbb : b
    · have hh : hit (i + n) = false := by rw [← hb, hbb]
      simp [hh, h0]
    · have hh : hit (i + n) = true := by rw [← hb, hbb]
      simp only [if_true, rd_wr, hl, h0, hh, true_and]
      by_cases hlt : i + n < a0.length
      · have e1 : (i ≤ i + n ∧ i + n < i + (n + 1) ∧ i + n < a0.length) := by omega
        simp [e1, hlt]
      · have e1 : ¬ (i ≤ i + n ∧ i + n < i + (n + 1) ∧ i + n < a0.length) := by omega
        simp [e1, hlt]
  · have e1 : (i ≤ x ∧ x < i + (n + 1) ∧ hit x = true ∧ x < a0.length) ↔
        (i ≤ x ∧ x < i + n ∧ hit x = true ∧ x < a0.length) := by
      constructor
      · rintro ⟨p, q, r, t⟩; exact ⟨p, by omega, r, t⟩
      · rintro ⟨p, q, r, t⟩; exact ⟨p, by omega, r, t⟩
    have e2 : rd (if b then wr a (i + n) ((rd a (i + n) + 1) % 256) else a) x = rd a x := by
      cases b
      · simp
      · have : ¬ (i + n = x ∧ i + n < a.length) := by omega
        simp [rd_wr, this]
    rw [e2, h x]
    simp only [e1]

/-- One step of the inner loop, in terms of the loop summaries. -/
theorem cmp_byte_step (sb1 sb2 : sbuf) (pos len i : Nat) (st : cmp_locals) (j : Nat) :
    (cmp_byte sb1 sb2 pos len i st j).val1 =
      ((st.val1 <<< 8) % SIZE_T + byte_val sb1 sb2 pos len st.d.nbd (i + j)) % SIZE_T ∧
    (cmp_byte sb1 sb2 pos len i st j).val2 =
      ((st.val2 <<< 8) % SIZE_T + byte_val sb2 sb1 pos len st.d.nbd (i + j)) % SIZE_T ∧
    (cmp_byte sb1 sb2 pos len i st j).diff =
      (st.diff || (decide (i + j < len) &&
        match line_byte sb1 pos (i + j), line_byte sb2 pos (i + j) with
        | none, none => false
        | some _, some _ =>
          decide (((st.val1 <<< 8) % SIZE_T + byte_val sb1 sb2 pos len st.d.nbd (i + j)) % SIZE_T ≠
            ((st.val2 <<< 8) % SIZE_T + byte_val sb2 sb1 pos len st.d.nbd (i + j)) % SIZE_T)
        | _, _ => decide (st.d.nbd ≠ 0))) ∧
    (cmp_byte sb1 sb2 pos len i st j).d =
      if null_hit sb1 sb2 pos len st.d.nbd (i + j) = true then null_inc st.d (i + j) else st.d := by
  unfold cmp_byte
  simp only [byte_val, null_hit, line_byte, ← Nat.add_assoc]
  by_cases hl : i + j ≥ len
  · have hl2 : ¬ i + j < len := by omega
    simp [hl, hl2]
  · have hl2 : i + j < len := by omega
    simp only [hl, hl2, if_false, decide_True, Bool.true_and]
    rcases sbuf_char sb1 ((pos + i + j) % SIZE_T) with _ | c1 <;>
    rcases sbuf_char sb2 ((pos + i + j) % SIZE_T) with _ | c2 <;>
    by_cases hn : st.d.nbd = 0 <;> simp [hn]

theorem cmp_byte_fold (sb1 sb2 : sbuf) (pos len i : Nat) (d : sbuf_diff) (n : Nat) :
    ((List.range n).foldl (cmp_byte sb1 sb2 pos len i) ⟨0, 0, false, d⟩).val1 =
        word_val sb1 sb2 pos len d.nbd i n ∧
    ((List.range n).foldl (cmp_byte sb1 sb2 pos len i) ⟨0, 0, false, d⟩).val2 =
        word_val sb2 sb1 pos len d.nbd i n ∧
    ((List.range n).foldl (cmp_byte sb1 sb2 pos len i) ⟨0, 0, false, d⟩).diff =
        word_flag sb1 sb2 pos len d.nbd i n ∧
    same_frame d ((List.range n).foldl (cmp_byte sb1 sb2 pos len i) ⟨0, 0, false, d⟩).d ∧
    ((List.range n).foldl (cmp_byte sb1 sb2 pos len i) ⟨0, 0, false, d⟩).d.cmp = d.cmp ∧
    ((List.range n).foldl (cmp_byte sb1 sb2 pos len i) ⟨0, 0, false, d⟩).d.sub = d.sub ∧
    ((List.range n).foldl (cmp_byte sb1 sb2 pos len i) ⟨0, 0, false, d⟩).d.cnt = d.cnt ∧
    ∀ x, rd ((List.range n).foldl (cmp_byte sb1 sb2 pos len i) ⟨0, 0, false, d⟩).d.null.ptr x =
      if i ≤ x ∧ x < i + n ∧ null_hit sb1 sb2 pos len d.nbd x = true ∧ x < d.null.ptr.length
      then (rd d.null.ptr x + 1) % 256 else rd d.null.ptr x := by
  induction n with
  | zero =>
    refine ⟨rfl, rfl, rfl, same_frame_refl d, rfl, rfl, rfl, ?_⟩
    intro x
    have h0 : ¬ (i ≤ x ∧ x < i + 0 ∧ null_hit sb1 sb2 pos len d.nbd x = true ∧
        x < d.null.ptr.length) := by omega
    rw [if_neg h0]; rfl
  | succ n ih =>
    rw [List.range_succ, List.foldl_append]
    simp only [List.foldl_cons, List.foldl_nil]
    generalize (List.range n).foldl (cmp_byte sb1 sb2 pos len i) ⟨0, 0, false, d⟩ = st at ih
    obtain ⟨h1, h2, h3, hf, h5, h6, h7, h8⟩ := ih
    have hnbd : st.d.nbd = d.nbd := hf.2.2.1
    have hlen : st.d.null.ptr.length = d.null.ptr.length := hf.2.2.2.2.2.2.2.2.2.2.2
    obtain ⟨s1, s2, s3, s4⟩ := cmp_byte_step sb1 sb2 pos len i st n
    rw [hnbd] at s1 s2 s3 s4
    rw [h1] at s1 s3
    rw [h2] at s2 s3
    rw [h3] at s3
    refine ⟨?_, ?_, ?_, ?_, ?_, ?_, ?_, ?_⟩
    · rw [s1]; rfl
    · rw [s2]; rfl
    · rw [s3, word_flag_succ]; rfl
    · rw [s4]; split_ifs
      · exact same_frame_trans hf (null_inc_frame _ _).1
      · exact hf
    · rw [s4]; split_ifs
      · rw [(null_inc_frame _ _).2.1, h5]
      · exact h5
    · rw [s4]; split_ifs
      · rw [(null_inc_frame _ _).2.2.1, h6]
      · exact h6
    · rw [s4]; split_ifs
      · rw [(null_inc_frame _ _).2.2.2, h7]
      · exact h7
    · intro x
      have key := null_step d.null.ptr st.d.null.ptr i n (null_hit sb1 sb2 pos len d.nbd)
        (null_hit sb1 sb2 pos len d.nbd (i + n)) rfl hlen h8 x
      rw [← key, s4]
      cases null_hit sb1 sb2 pos len d.nbd (i + n) <;> simp [null_inc]

/-! ### The marking loop of `sbuf_diff_cmp` -/

theorem cmp_mark_step (len ws i vald : Nat) (d : sbuf_diff) (j : Nat) :
    same_frame d (cmp_mark len ws i vald d j) ∧ (cmp_mark len ws i vald d j).cnt = d.cnt ∧
    (cmp_mark len ws i vald d j).null = d.null ∧
    ∀ x, (rd (cmp_mark len ws i vald d j).cmp x =
        if x = i + j ∧ x < len ∧ x < d.cmp.length then (rd d.cmp x + 1) % 256 else rd d.cmp x) ∧
      (rd (cmp_mark len ws i vald d j).sub.ptr x =
        if x = i + j ∧ x < len ∧ x < d.sub.ptr.length ∧ rd d.cmp x = 0
        then (vald >>> (8 * (ws - 1 - j))) &&& 0xff else rd d.sub.ptr x) := by
  unfold cmp_mark
  by_cases hl : i + j < len
  · by_cases hc : rd d.cmp (i + j) = 0
    · simp only [hl, hc, if_true]
      refine ⟨by simp [same_frame], trivial, trivial, ?_⟩
      intro x
      simp only [rd_wr]
      by_cases hx : x = i + j
      · subst hx; simp [hl, hc]
      · have hx2 : ¬ i + j = x := fun h => hx h.symm
        simp [hx, hx2]
    · simp only [hl, hc, if_true, if_false]
      refine ⟨by simp [same_frame], trivial, trivial, ?_⟩
      intro x
      simp only [rd_wr]
      by_cases hx : x = i + j
      · subst hx; simp [hl, hc]
      · have hx2 : ¬ i + j = x := fun h => hx h.symm
        simp [hx, hx2]
  · simp only [hl, if_false]
    refine ⟨same_frame_refl d, trivial, trivial, ?_⟩
    intro x
    have e1 : ¬ (x = i + j ∧ x < len ∧ x < d.cmp.length) := by omega
    have e2 : ¬ (x = i + j ∧ x < len ∧ x < d.sub.ptr.length ∧ rd d.cmp x = 0) := by omega
    simp [e1, e2]

theorem cmp_mark_fold (len ws i vald : Nat) (d : sbuf_diff) (n : Nat)
    (hc : len ≤ d.cmp.length) (hs : len ≤ d.sub.ptr.length) :
    same_frame d ((List.range n).foldl (cmp_mark len ws i vald) d) ∧
    ((List.range n).foldl (cmp_mark len ws i vald) d).cnt = d.cnt ∧
    ((List.range n).foldl (cmp_mark len ws i vald) d).null = d.null ∧
    ∀ x, (rd ((List.range n).foldl (cmp_mark len ws i vald) d).cmp x =
        if i ≤ x ∧ x < i + n ∧ x < len then (rd d.cmp x + 1) % 256 else rd d.cmp x) ∧
      (rd ((List.range n).foldl (cmp_mark len ws i vald) d).sub.ptr x =
        if i ≤ x ∧ x < i + n ∧ x < len ∧ rd d.cmp x = 0
        then (vald >>> (8 * (ws - 1 - (x - i)))) &&& 0xff else rd d.sub.ptr x) := by
  induction n with
  | zero =>
    refine ⟨same_frame_refl d, rfl, rfl, ?_⟩
    intro x
    have e1 : ¬ (i ≤ x ∧ x < i + 0 ∧ x < len) := by omega
    have e2 : ¬ (i ≤ x ∧ x < i + 0 ∧ x < len ∧ rd d.cmp x = 0) := by omega
    simp only [List.range_zero, List.foldl_nil, if_neg e1, if_neg e2, and_self]
  | succ n ih =>
    rw [List.range_succ, List.foldl_append]
    simp only [List.foldl_cons, List.foldl_nil]
    generalize (List.range n).foldl (cmp_mark len ws i vald) d = r at ih
    obtain ⟨hf, h1, h2, h3⟩ := ih
    obtain ⟨sf, s1, s2, s3⟩ := cmp_mark_step len ws i vald r n
    have lc : r.cmp.length = d.cmp.length := hf.2.2.2.2.2.2.2.2.2.1
    have ls : r.sub.ptr.length = d.sub.ptr.length := hf.2.2.2.2.2.2.2.2.2.2.1
    refine ⟨same_frame_trans hf sf, by rw [s1, h1], by rw [s2, h2], ?_⟩
    intro x
    obtain ⟨c1, c2⟩ := s3 x
    obtain ⟨d1, d2⟩ := h3 x
    rw [c1, c2, d1, d2, lc, ls]
    by_cases hx : x = i + n
    · subst hx
      have e1 : ¬ (i ≤ i + n ∧ i + n < i + n ∧ i + n < len) := by omega
      have e2 : ¬ (i ≤ i + n ∧ i + n < i + n ∧ i + n < len ∧ rd d.cmp (i + n) = 0) := by omega
      have e3 : i + n - i = n := by omega
      simp only [if_neg e1, if_neg e2, e3]
      by_cases hl : i + n < len
      · have g1 : i + n < d.cmp.length := by omega
        have g2 : i + n < d.sub.ptr.length := by omega
        have g3 : i + n < i + (n + 1) := by omega
        simp [hl, g1, g2, g3]
      · simp [hl]
    · have e1 : (i ≤ x ∧ x < i + (n + 1) ∧ x < len) ↔ (i ≤ x ∧ x < i + n ∧ x < len) := by omega
      have e2 : (i ≤ x ∧ x < i + (n + 1) ∧ x < len ∧ rd d.cmp x = 0) ↔
          (i ≤ x ∧ x < i + n ∧ x < len ∧ rd d.cmp x = 0) := by
        constructor
        · rintro ⟨p, q, r, t⟩; exact ⟨p, by omega, r, t⟩
        · rintro ⟨p, q, r, t⟩; exact ⟨p, by omega, r, t⟩
      simp only [hx, false_and, if_false, e1, e2, and_self]

/-! ### One word, then all the words of the line -/

theorem null_hit_lt (sb1 sb2 : sbuf) (pos len : Nat) (nbd : Int) (k : Nat)
    (h : null_hit sb1 sb2 pos len nbd k = true) : k < len := by
  simp only [null_hit, Bool.and_eq_true, decide_eq_true_eq] at h
  exact h.1

theorem cmp_word_spec (sb1 sb2 : sbuf) (pos len ws : Nat) (d : sbuf_diff) (i : Nat)
    (hc : len ≤ d.cmp.length) (hs : len ≤ d.sub.ptr.length) (hn : len ≤ d.null.ptr.length) :
    same_frame d (cmp_word sb1 sb2 pos len ws d i) ∧
    (cmp_word sb1 sb2 pos len ws d i).cnt =
      (if word_flag sb1 sb2 pos len d.nbd i ws = true then (d.cnt + ws) % SIZE_T else d.cnt) ∧
    ∀ x, (rd (cmp_word sb1 sb2 pos len ws d i).cmp x =
        if word_flag sb1 sb2 pos len d.nbd i ws = true ∧ i ≤ x ∧ x < i + ws ∧ x < len
        then (rd d.cmp x + 1) % 256 else rd d.cmp x) ∧
      (rd (cmp_word sb1 sb2 pos len ws d i).sub.ptr x =
        if word_flag sb1 sb2 pos len d.nbd i ws = true ∧ i ≤ x ∧ x < i + ws ∧ x < len ∧
          rd d.cmp x = 0
        then (word_vald sb1 sb2 pos len ws d.nbd i >>> (8 * (ws - 1 - (x - i)))) &&& 0xff
        else rd d.sub.ptr x) ∧
      (rd (cmp_word sb1 sb2 pos len ws d i).null.ptr x =
        if i ≤ x ∧ x < i + ws ∧ null_hit sb1 sb2 pos len d.nbd x = true
        then (rd d.null.ptr x + 1) % 256 else rd d.null.ptr x) := by
  obtain ⟨h1, h2, h3, hf, h5, h6, h7, h8⟩ := cmp_byte_fold sb1 sb2 pos len i d ws
  have hnull : ∀ x, rd ((List.range ws).foldl (cmp_byte sb1 sb2 pos len i) ⟨0, 0, false, d⟩).d.null.ptr x =
      if i ≤ x ∧ x < i + ws ∧ null_hit sb1 sb2 pos len d.nbd x = true
      then (rd d.null.ptr x + 1) % 256 else rd d.null.ptr x := by
    intro x
    rw [h8 x]
    have e : (i ≤ x ∧ x < i + ws ∧ null_hit sb1 sb2 pos len d.nbd x = true ∧ x < d.null.ptr.length) ↔
        (i ≤ x ∧ x < i + ws ∧ null_hit sb1 sb2 pos len d.nbd x = true) := by
      constructor
      · rintro ⟨p, q, r, -⟩; exact ⟨p, q, r⟩
      · rintro ⟨p, q, r⟩
        have := null_hit_lt _ _ _ _ _ _ r
        exact ⟨p, q, r, by omega⟩
    simp only [e]
  unfold cmp_word
  simp only [h3]
  generalize (List.range ws).foldl (cmp_byte sb1 sb2 pos len i) ⟨0, 0, false, d⟩ = st at *
  cases hw : word_flag sb1 sb2 pos len d.nbd i ws
  · simp only [Bool.false_eq_true, if_false, false_and]
    refine ⟨hf, h7, ?_⟩
    intro x
    exact ⟨by rw [h5], by rw [h6], hnull x⟩
  · simp only [if_true, true_and]
    have hc2 : len ≤ ({ st.d with cnt := (st.d.cnt + ws) % SIZE_T } : sbuf_diff).cmp.length := by
      simp only [h5]; exact hc
    have hs2 : len ≤ ({ st.d with cnt := (st.d.cnt + ws) % SIZE_T } : sbuf_diff).sub.ptr.length := by
      simp only [h6]; exact hs
    obtain ⟨mf, m1, m2, m3⟩ := cmp_mark_fold len ws i ((st.val2 + SIZE_T - st.val1) % SIZE_T)
      { st.d with cnt := (st.d.cnt + ws) % SIZE_T } ws hc2 hs2
    refine ⟨?_, ?_, ?_⟩
    · refine same_frame_trans hf (same_frame_trans ?_ mf)
      simp [same_frame]
    · rw [m1]; simp only [h7]
    · intro x
      obtain ⟨c1, c2⟩ := m3 x
      refine ⟨?_, ?_, ?_⟩
      · rw [c1]; simp only [h5]
      · rw [c2]; simp only [h5, h6, h1, h2, word_vald]
      · rw [m2]; exact hnull x

theorem div_eq_iff_word (n ws x : Nat) (hws : 0 < ws) :
    x / ws = n ↔ (n * ws ≤ x ∧ x < n * ws + ws) := by
  constructor
  · intro h; subst h
    exact ⟨Nat.div_mul_le_self x ws, Nat.lt_div_mul_add hws⟩
  · rintro ⟨h, h2⟩
    apply Nat.div_eq_of_lt_le
    · omega
    · rw [Nat.succ_mul]; omega

theorem diff_words_succ (sb1 sb2 : sbuf) (pos len ws : Nat) (nbd : Int) (n : Nat) :
    diff_words sb1 sb2 pos len ws nbd (n + 1) =
      diff_words sb1 sb2 pos len ws nbd n +
        (if word_flag sb1 sb2 pos len nbd (n * ws) ws = true then 1 else 0) := by
  simp only [diff_words, List.range_succ, List.filter_append, List.length_append]
  cases h : word_flag sb1 sb2 pos len nbd (n * ws) ws <;> simp [List.filter, h]

theorem cmp_words_fold (sb1 sb2 : sbuf) (pos len ws : Nat) (d : sbuf_diff) (n : Nat)
    (hws : 0 < ws) (hcnt : d.cnt < SIZE_T)
    (hc : len ≤ d.cmp.length) (hs : len ≤ d.sub.ptr.length) (hn : len ≤ d.null.ptr.length) :
    same_frame d ((List.range n).foldl (fun d k => cmp_word sb1 sb2 pos len ws d (k * ws)) d) ∧
    ((List.range n).foldl (fun d k => cmp_word sb1 sb2 pos len ws d (k * ws)) d).cnt =
      (d.cnt + ws * diff_words sb1 sb2 pos len ws d.nbd n) % SIZE_T ∧
    ∀ x, (rd ((List.range n).foldl (fun d k => cmp_word sb1 sb2 pos len ws d (k * ws)) d).cmp x =
        if x / ws < n ∧ x < len ∧ word_flag sb1 sb2 pos len d.nbd (x / ws * ws) ws = true
        then (rd d.cmp x + 1) % 256 else rd d.cmp x) ∧
      (rd ((List.range n).foldl (fun d k => cmp_word sb1 sb2 pos len ws d (k * ws)) d).sub.ptr x =
        if x / ws < n ∧ x < len ∧ word_flag sb1 sb2 pos len d.nbd (x / ws * ws) ws = true ∧
          rd d.cmp x = 0
        then (word_vald sb1 sb2 pos len ws d.nbd (x / ws * ws) >>>
          (8 * (ws - 1 - (x - x / ws * ws)))) &&& 0xff
        else rd d.sub.ptr x) ∧
      (rd ((List.range n).foldl (fun d k => cmp_word sb1 sb2 pos len ws d (k * ws)) d).null.ptr x =
        if x / ws < n ∧ null_hit sb1 sb2 pos len d.nbd x = true
        then (rd d.null.ptr x + 1) % 256 else rd d.null.ptr x) := by
  induction n with
  | zero =>
    refine ⟨same_frame_refl d, ?_, ?_⟩
    · simp [diff_words, Nat.mod_eq_of_lt hcnt]
    · intro x
      simp
  | succ n ih =>
    rw [List.range_succ, List.foldl_append]
    simp only [List.foldl_cons, List.foldl_nil]
    generalize (List.range n).foldl (fun d k => cmp_word sb1 sb2 pos len ws d (k * ws)) d = r at ih
    obtain ⟨hf, h1, h3⟩ := ih
    have hnbd : r.nbd = d.nbd := hf.2.2.1
    have lc : r.cmp.length = d.cmp.length := hf.2.2.2.2.2.2.2.2.2.1
    have ls : r.sub.ptr.length = d.sub.ptr.length := hf.2.2.2.2.2.2.2.2.2.2.1
    have ln : r.null.ptr.length = d.null.ptr.length := hf.2.2.2.2.2.2.2.2.2.2.2
    obtain ⟨wf, w1, w3⟩ := cmp_word_spec sb1 sb2 pos len ws r (n * ws)
      (by omega) (by omega) (by omega)
    rw [hnbd] at w1 w3
    refine ⟨same_frame_trans hf wf, ?_, ?_⟩
    · rw [w1, h1, diff_words_succ]
      cases word_flag sb1 sb2 pos len d.nbd (n * ws) ws
      · simp
      · simp only [if_true, Nat.mod_add_mod]
        congr 1
        rw [Nat.mul_add]; omega
    · intro x
      obtain ⟨a1, a2, a3⟩ := w3 x
      obtain ⟨b1, b2, b3⟩ := h3 x
      rw [a1, a2, a3, b1, b2, b3]
      have hword := div_eq_iff_word n ws x hws
      by_cases hx : x / ws = n
      · have hin := hword.mp hx
        have e0 : ¬ x / ws < n := by omega
        have e1 : x / ws < n + 1 := by omega
        have e2 : x / ws * ws = n * ws := by rw [hx]
        simp only [e0, e1, e2, false_and, if_false, true_and, hin.1, hin.2]
        refine ⟨?_, ?_, ?_⟩
        · by_cases hl : x < len <;> simp [hl]
        · by_cases hl : x < len <;> simp [hl]
        · trivial
      · have hout : ¬ (n * ws ≤ x ∧ x < n * ws + ws) := fun h => hx (hword.mpr h)
        have e1 : x / ws < n + 1 ↔ x / ws < n := by omega
        simp only [e1]
        refine ⟨?_, ?_, ?_⟩
        · rw [if_neg (fun h => hout ⟨h.2.1, h.2.2.1⟩)]
        · rw [if_neg (fun h => hout ⟨h.2.1, h.2.2.1⟩)]
        · rw [if_neg (fun h => hout ⟨h.1, h.2.1⟩)]

theorem words_cover (len ws : Nat) (hws : 0 < ws) : len ≤ (len + ws - 1) / ws * ws := by
  have h1 := Nat.div_add_mod (len + ws - 1) ws
  have h2 := Nat.mod_lt (len + ws - 1) hws
  have h3 : ws * ((len + ws - 1) / ws) = (len + ws - 1) / ws * ws := Nat.mul_comm _ _
  omega

/-- Effect of `sbuf_diff_cmp` on an arbitrary engine, cell by cell. -/
theorem cmp_spec (sb1 sb2 : sbuf) (pos len : Nat) (d : sbuf_diff) (ws : Nat)
    (hws : 0 < ws) (hcnt : d.cnt < SIZE_T)
    (hc : len ≤ d.cmp.length) (hs : len ≤ d.sub.ptr.length) (hn : len ≤ d.null.ptr.length) :
    (sbuf_diff_cmp sb1 sb2 pos len d ws).1 = to_int (sbuf_diff_cmp sb1 sb2 pos len d ws).2.cnt ∧
    same_frame { d with pos := pos, sub := { d.sub with pos := pos, len := len } }
      (sbuf_diff_cmp sb1 sb2 pos len d ws).2 ∧
    (sbuf_diff_cmp sb1 sb2 pos len d ws).2.cnt =
      (d.cnt + ws * diff_words sb1 sb2 pos len ws d.nbd ((len + ws - 1) / ws)) % SIZE_T ∧
    ∀ x, (rd (sbuf_diff_cmp sb1 sb2 pos len d ws).2.cmp x =
        if x < len ∧ word_flag sb1 sb2 pos len d.nbd (x / ws * ws) ws = true
        then (rd d.cmp x + 1) % 256 else rd d.cmp x) ∧
      (rd (sbuf_diff_cmp sb1 sb2 pos len d ws).2.sub.ptr x =
        if x < len ∧ word_flag sb1 sb2 pos len d.nbd (x / ws * ws) ws = true ∧ rd d.cmp x = 0
        then (word_vald sb1 sb2 pos len ws d.nbd (x / ws * ws) >>>
          (8 * (ws - 1 - (x - x / ws * ws)))) &&& 0xff
        else rd d.sub.ptr x) ∧
      (rd (sbuf_diff_cmp sb1 sb2 pos len d ws).2.null.ptr x =
        if null_hit sb1 sb2 pos len d.nbd x = true
        then (rd d.null.ptr x + 1) % 256 else rd d.null.ptr x) := by
  obtain ⟨hf, h1, h3⟩ := cmp_words_fold sb1 sb2 pos len ws
    { d with pos := pos, sub := { d.sub with pos := pos, len := len } }
    ((len + ws - 1) / ws) hws hcnt hc hs hn
  have hcov := words_cover len ws hws
  refine ⟨rfl, hf, h1, ?_⟩
  have e : (sbuf_diff_cmp sb1 sb2 pos len d ws).2 =
      (List.range ((len + ws - 1) / ws)).foldl
        (fun d k => cmp_word sb1 sb2 pos len ws d (k * ws))
        { d with pos := pos, sub := { d.sub with pos := pos, len := len } } := rfl
  intro x
  obtain ⟨a1, a2, a3⟩ := h3 x
  have hlt : x < len → x / ws < (len + ws - 1) / ws := by
    intro hx
    rw [Nat.div_lt_iff_lt_mul hws]; omega
  refine ⟨?_, ?_, ?_⟩
  · rw [e, a1]
    by_cases hx : x < len
    · simp [hx, hlt hx]
    · simp [hx]
  · rw [e, a2]
    by_cases hx : x < len
    · simp [hx, hlt hx]
    · simp [hx]
  · rw [e, a3]
    by_cases hx : null_hit sb1 sb2 pos len d.nbd x = true
    · have := hlt (null_hit_lt _ _ _ _ _ _ hx)
      simp [hx, this]
    · simp [hx]

/-! ### The `diff` flag says that the word differs -/

theorem rd_lt_256 (l : List Nat) (k : Nat) (h : ∀ b ∈ l, b < 256) : rd l k < 256 := by
  by_cases hk : k < l.length
  · have : rd l k = l[k] := by
      simp [rd, List.getD_eq_getElem?_getD, List.getElem?_eq_getElem hk]
    rw [this]
    exact h _ (List.getElem_mem hk)
  · rw [rd_ge l k (by omega)]; omega

theorem sbuf_char_lt (sb : sbuf) (p a : Nat) (hv : sb.valid) (h : sbuf_char sb p = some a) :
    a < 256 := by
  unfold sbuf_char at h
  split_ifs at h
  simp only [Option.some.injEq] at h
  rw [← h]
  exact rd_lt_256 _ _ hv.2.2

theorem line_byte_lt (sb : sbuf) (pos k a : Nat) (hv : sb.valid) (h : line_byte sb pos k = some a) :
    a < 256 :=
  sbuf_char_lt sb _ a hv h

theorem shl_add_ne (v w a b : Nat) (ha : a < 256) (hb : b < 256) (hvw : v = w) :
    (((v <<< 8) % SIZE_T + a) % SIZE_T ≠ ((w <<< 8) % SIZE_T + b) % SIZE_T) ↔ a ≠ b := by
  subst hvw
  simp only [Nat.shiftLeft_eq, SIZE_T]
  omega

theorem word_flag_eq (sb1 sb2 : sbuf) (pos len : Nat) (nbd : Int) (i : Nat)
    (hv1 : sb1.valid) (hv2 : sb2.valid) (n : Nat) :
    (word_flag sb1 sb2 pos len nbd i n = (List.range n).any fun j =>
      decide (i + j < len) &&
        byte_differs nbd (line_byte sb1 pos (i + j)) (line_byte sb2 pos (i + j))) ∧
    (word_flag sb1 sb2 pos len nbd i n = false →
      word_val sb1 sb2 pos len nbd i n = word_val sb2 sb1 pos len nbd i n) := by
  induction n with
  | zero => simp [word_flag, word_val]
  | succ n ih =>
    obtain ⟨ih1, ih2⟩ := ih
    rw [word_flag_succ, List.range_succ, List.any_append, ← ih1]
    cases hw : word_flag sb1 sb2 pos len nbd i n
    · have hvv := ih2 hw
      simp only [Bool.false_or, List.any_cons, List.any_nil, Bool.or_false]
      simp only [byte_flag, word_val, byte_val]
      by_cases hl : i + n < len
      · have hl2 : ¬ i + n ≥ len := by omega
        simp only [hl, hl2, decide_True, Bool.true_and, if_false]
        rcases h1 : line_byte sb1 pos (i + n) with _ | a <;>
        rcases h2 : line_byte sb2 pos (i + n) with _ | b
        · simp [byte_differs, hvv]
        · by_cases hn : nbd = 0
          · subst hn; simp [byte_differs, hvv]
          · simp [byte_differs, hn, hvv]
        · by_cases hn : nbd = 0
          · subst hn; simp [byte_differs, hvv]
          · simp [byte_differs, hn, hvv]
        · have ha := line_byte_lt sb1 pos _ a hv1 h1
          have hb := line_byte_lt sb2 pos _ b hv2 h2
          have key := shl_add_ne (word_val sb1 sb2 pos len nbd i n)
            (word_val sb2 sb1 pos len nbd i n) a b ha hb hvv
          simp only [byte_differs]
          constructor
          · by_cases hab : a = b
            · simp [hab, hvv]
            · rw [decide_eq_true (key.mpr hab)]
              simp [hab]
          · intro h
            simp only [decide_eq_false_iff_not, not_not] at h
            exact h
      · have hl2 : i + n ≥ len := by omega
        simp [hl, hl2, hvv]
    · simp

theorem word_flag_differs (sb1 sb2 : sbuf) (pos len ws : Nat) (nbd : Int) (i : Nat)
    (hv1 : sb1.valid) (hv2 : sb2.valid) :
    word_flag sb1 sb2 pos len nbd i ws = word_differs sb1 sb2 pos len ws nbd i :=
  (word_flag_eq sb1 sb2 pos len nbd i hv1 hv2 ws).1

theorem diff_words_le (sb1 sb2 : sbuf) (pos len ws : Nat) (nbd : Int) (n : Nat) :
    diff_words sb1 sb2 pos len ws nbd n ≤ n := by
  unfold diff_words
  have := List.length_filter_le (fun k => word_flag sb1 sb2 pos len nbd (k * ws) ws) (List.range n)
  simpa using this

theorem fresh_cmp_spec (sb1 sb2 : sbuf) (pos len : Nat) (d : sbuf_diff) (nbd : Int) (ws : Nat)
    (hws : 0 < ws) (hd : d.allocated) (hlen : len ≤ d.width) :
    (sbuf_diff_cmp sb1 sb2 pos len (reset_engine d nbd) ws).1 =
      to_int (sbuf_diff_cmp sb1 sb2 pos len (reset_engine d nbd) ws).2.cnt ∧
    (sbuf_diff_cmp sb1 sb2 pos len (reset_engine d nbd) ws).2.allocated ∧
    (sbuf_diff_cmp sb1 sb2 pos len (reset_engine d nbd) ws).2.width = d.width ∧
    (sbuf_diff_cmp sb1 sb2 pos len (reset_engine d nbd) ws).2.nbd = nbd ∧
    (sbuf_diff_cmp sb1 sb2 pos len (reset_engine d nbd) ws).2.pos = pos ∧
    (sbuf_diff_cmp sb1 sb2 pos len (reset_engine d nbd) ws).2.sub.pos = pos ∧
    (sbuf_diff_cmp sb1 sb2 pos len (reset_engine d nbd) ws).2.sub.len = len ∧
    (sbuf_diff_cmp sb1 sb2 pos len (reset_engine d nbd) ws).2.cnt =
      (ws * diff_words sb1 sb2 pos len ws nbd ((len + ws - 1) / ws)) % SIZE_T ∧
    ∀ x, (rd (sbuf_diff_cmp sb1 sb2 pos len (reset_engine d nbd) ws).2.cmp x =
        if x < len ∧ word_flag sb1 sb2 pos len nbd (x / ws * ws) ws = true then 1 else 0) ∧
      (rd (sbuf_diff_cmp sb1 sb2 pos len (reset_engine d nbd) ws).2.sub.ptr x =
        if x < len ∧ word_flag sb1 sb2 pos len nbd (x / ws * ws) ws = true
        then (word_vald sb1 sb2 pos len ws nbd (x / ws * ws) >>>
          (8 * (ws - 1 - (x - x / ws * ws)))) &&& 0xff
        else 0) ∧
      (rd (sbuf_diff_cmp sb1 sb2 pos len (reset_engine d nbd) ws).2.null.ptr x =
        if null_hit sb1 sb2 pos len nbd x = true then 1 else 0) := by
  obtain ⟨⟨a1, a2, a3⟩, r2, r3, r4, r5⟩ := reset_spec d nbd hd
  obtain ⟨c1, cf, c3, c4⟩ := cmp_spec sb1 sb2 pos len (reset_engine d nbd) ws hws
    (by rw [r3]; decide) (by omega) (by omega) (by omega)
  obtain ⟨f1, f2, f3, f4, f5, f6, f7, f8, f9, l1, l2, l3⟩ := cf
  simp only at f1 f2 f3 f4 f5 f6 f7 f8 f9 l1 l2 l3
  rw [r4] at c3 c4 f3
  rw [r3] at c3
  refine ⟨c1, ⟨by omega, by omega, by omega⟩, by omega, f3, f2, f4, f5, ?_, ?_⟩
  · rw [c3]; simp
  · intro x
    obtain ⟨x1, x2, x3⟩ := c4 x
    obtain ⟨y1, y2, y3⟩ := r5 x
    rw [x1, x2, x3, y1, y2, y3]
    simp

/-! ### Big-endian values -/

theorem be_fold_append (l : List Nat) (b v : Nat) :
    (l ++ [b]).foldl (fun acc b => acc * 256 + b) v =
      l.foldl (fun acc b => acc * 256 + b) v * 256 + b := by
  simp [List.foldl_append]

theorem be_value_append (l : List Nat) (b : Nat) : be_value (l ++ [b]) = be_value l * 256 + b :=
  be_fold_append l b 0

theorem be_value_range_succ (f : Nat → Nat) (n : Nat) :
    be_value ((List.range (n + 1)).map f) = be_value ((List.range n).map f) * 256 + f n := by
  rw [List.range_succ, List.map_append, List.map_singleton, be_value_append]

theorem be_value_congr (f g : Nat → Nat) (n : Nat) (h : ∀ j, j < n → f j = g j) :
    be_value ((List.range n).map f) = be_value ((List.range n).map g) := by
  congr 1
  apply List.map_congr_left
  intro j hj
  exact h j (List.mem_range.mp hj)

theorem be_value_lt (f : Nat → Nat) (n : Nat) (h : ∀ j, j < n → f j < 256) :
    be_value ((List.range n).map f) < 256 ^ n := by
  induction n with
  | zero => simp [be_value]
  | succ n ih =>
    rw [be_value_range_succ, pow_succ]
    have h1 := ih (fun j hj => h j (by omega))
    have h2 := h n (by omega)
    have h3 : (be_value ((List.range n).map f) + 1) * 256 ≤ 256 ^ n * 256 :=
      Nat.mul_le_mul_right 256 h1
    omega

/-- The bytes `(v >> 8*(ws-1-j)) & 0xff`, `j < m`, read big-endian, are the top `m`
bytes of the low `ws` bytes of `v`. -/
theorem be_value_bytes (v ws m : Nat) (hm : m ≤ ws) :
    be_value ((List.range m).map fun j => (v >>> (8 * (ws - 1 - j))) &&& 0xff) =
      (v >>> (8 * (ws - m))) % 256 ^ m := by
  induction m with
  | zero => simp [be_value, Nat.mod_one]
  | succ m ih =>
    rw [be_value_range_succ, ih (by omega)]
    have e1 : (v >>> (8 * (ws - 1 - m))) &&& 0xff = (v >>> (8 * (ws - 1 - m))) % 256 :=
      Nat.and_pow_two_sub_one_eq_mod _ 8
    have e2 : ws - 1 - m = ws - (m + 1) := by omega
    have e3 : 8 * (ws - m) = 8 * (ws - (m + 1)) + 8 := by omega
    rw [e1, e2, e3, Nat.shiftRight_add]
    generalize v >>> (8 * (ws - (m + 1))) = u
    have e4 : u >>> 8 = u / 256 := by simp [Nat.shiftRight_eq_div_pow]
    rw [e4, pow_succ, Nat.mul_comm (256 ^ m) 256, Nat.mod_mul]
    ring


theorem pow_le_size (n : Nat) (h : n ≤ 8) : 256 ^ n ≤ SIZE_T := by
  have : (256 : Nat) ^ n ≤ 256 ^ 8 := Nat.pow_le_pow_right (by decide) h
  simpa [SIZE_T] using this

theorem shl8_small (v n : Nat) (hv : v < 256 ^ n) (hn : n + 1 ≤ 8) :
    (v <<< 8) % SIZE_T = v * 256 := by
  have h1 : (v + 1) * 256 ≤ 256 ^ n * 256 := Nat.mul_le_mul_right 256 hv
  have h2 : 256 ^ n * 256 = 256 ^ (n + 1) := (pow_succ 256 n).symm
  have h3 := pow_le_size (n + 1) hn
  rw [Nat.shiftLeft_eq]
  apply Nat.mod_eq_of_lt
  simp only [SIZE_T] at *
  norm_num
  omega

/-- On a word whose bytes inside the line are real in both windows the accumulated
value is the big-endian value of the window's bytes. -/
theorem word_val_real (sb sb' : sbuf) (pos len : Nat) (nbd : Int) (i n : Nat)
    (hv : sb.valid) (hn : n ≤ 8) (hin : i + n ≤ len)
    (hreal : ∀ j, j < n → line_byte sb pos (i + j) ≠ none ∧ line_byte sb' pos (i + j) ≠ none) :
    word_val sb sb' pos len nbd i n =
      be_value ((List.range n).map fun j => (line_byte sb pos (i + j)).getD 0) := by
  induction n with
  | zero => simp [word_val, be_value]
  | succ n ih =>
    have ih' := ih (by omega) (by omega) (fun j hj => hreal j (by omega))
    have hlt : be_value ((List.range n).map fun j => (line_byte sb pos (i + j)).getD 0) < 256 ^ n := by
      apply be_value_lt
      intro j hj
      rcases h : line_byte sb pos (i + j) with _ | a
      · simp
      · simpa using line_byte_lt sb pos _ a hv h
    rw [be_value_range_succ, word_val, ih', shl8_small _ n hlt hn]
    obtain ⟨r1, r2⟩ := hreal n (by omega)
    have hb : byte_val sb sb' pos len nbd (i + n) = (line_byte sb pos (i + n)).getD 0 := by
      simp only [byte_val]
      have : ¬ i + n ≥ len := by omega
      rw [if_neg this]
      rcases h1 : line_byte sb pos (i + n) with _ | a
      · exact absurd h1 r1
      · rcases h2 : line_byte sb' pos (i + n) with _ | b
        · exact absurd h2 r2
        · simp
    rw [hb]
    apply Nat.mod_eq_of_lt
    have hc : (line_byte sb pos (i + n)).getD 0 < 256 := by
      rcases h : line_byte sb pos (i + n) with _ | a
      · simp
      · simpa using line_byte_lt sb pos _ a hv h
    have h1 : (be_value ((List.range n).map fun j => (line_byte sb pos (i + j)).getD 0) + 1) * 256
        ≤ 256 ^ n * 256 := Nat.mul_le_mul_right 256 hlt
    have h2 : 256 ^ n * 256 = 256 ^ (n + 1) := (pow_succ 256 n).symm
    have h3 := pow_le_size (n + 1) hn
    omega

/-- The wrapped `size_t` difference, cut to `ws` bytes, is the difference modulo
`256 ^ ws`. -/
theorem wrapped_sub_mod (a b ws : Nat) (hws : ws ≤ 8) (ha : a < 256 ^ ws) (_hb : b < 256 ^ ws) :
    ((b + SIZE_T - a) % SIZE_T) % 256 ^ ws = (b + 256 ^ ws - a) % 256 ^ ws := by
  have hdvd : 256 ^ ws ∣ SIZE_T := by
    have : (256 : Nat) ^ ws ∣ 256 ^ 8 := pow_dvd_pow 256 hws
    simpa [SIZE_T] using this
  rw [Nat.mod_mod_of_dvd _ hdvd]
  obtain ⟨c, hc⟩ := hdvd
  have hle := pow_le_size ws hws
  have hcpos : 1 ≤ c := by
    rcases Nat.eq_zero_or_pos c with h | h
    · subst h; simp [SIZE_T] at hc
    · exact h
  have e : b + SIZE_T - a = (b + 256 ^ ws - a) + 256 ^ ws * (c - 1) := by
    have : 256 ^ ws * (c - 1) = 256 ^ ws * c - 256 ^ ws := by
      rw [Nat.mul_sub, Nat.mul_one]
    rw [this, ← hc]
    omega
  rw [e, Nat.add_mul_mod_self_left]

/-! ### `sbuf_word` -/

/-- The iteration bound of the first loop of `sbuf_word` is never reached with the
loop condition still true: `word_size` iterations are enough. -/
theorem sbuf_word_read_done (sb : sbuf) (pos ws : Nat) (fuel i value : Nat)
    (h : (pos + ws) % SIZE_T ≤ i + fuel) :
    ¬ ((sbuf_word_read sb pos ws fuel i value).1 ≥ sb.pos ∧
       (sbuf_word_read sb pos ws fuel i value).1 < (sb.pos + sb.len) % SIZE_T ∧
       (sbuf_word_read sb pos ws fuel i value).1 < (pos + ws) % SIZE_T) := by
  induction fuel generalizing i value with
  | zero =>
    simp only [sbuf_word_read]
    omega
  | succ fuel ih =>
    simp only [sbuf_word_read]
    split_ifs with hc
    · exact ih (i + 1) _ (by omega)
    · exact hc

/-- The same for the padding loop of `sbuf_word`. -/
theorem sbuf_word_pad_done (pos ws : Nat) (fuel i value : Nat)
    (h : (pos + ws) % SIZE_T ≤ i + fuel) :
    ¬ ((sbuf_word_pad pos ws fuel i value).1 < (pos + ws) % SIZE_T) := by
  induction fuel generalizing i value with
  | zero =>
    simp only [sbuf_word_pad]
    omega
  | succ fuel ih =>
    simp only [sbuf_word_pad]
    split_ifs with hc
    · exact ih (i + 1) _ (by omega)
    · exact hc

theorem sbuf_word_read_ge (sb : sbuf) (pos ws : Nat) (fuel i value : Nat) :
    i ≤ (sbuf_word_read sb pos ws fuel i value).1 := by
  induction fuel generalizing i value with
  | zero => simp [sbuf_word_read]
  | succ fuel ih =>
    simp only [sbuf_word_read]
    split_ifs
    · exact Nat.le_trans (Nat.le_succ i) (ih (i + 1) _)
    · exact Nat.le_refl i

/-- Both loops of `sbuf_word` have stopped by themselves when their `word_size`
iterations are used up. -/
theorem sbuf_word_fuel_enough (sb : sbuf) (pos ws : Nat) :
    ¬ ((sbuf_word_read sb pos ws ws pos 0).1 ≥ sb.pos ∧
       (sbuf_word_read sb pos ws ws pos 0).1 < (sb.pos + sb.len) % SIZE_T ∧
       (sbuf_word_read sb pos ws ws pos 0).1 < (pos + ws) % SIZE_T) ∧
    ¬ ((sbuf_word_pad pos ws ws (sbuf_word_read sb pos ws ws pos 0).1
        (sbuf_word_read sb pos ws ws pos 0).2).1 < (pos + ws) % SIZE_T) := by
  have h1 : (pos + ws) % SIZE_T ≤ pos + ws := Nat.mod_le _ _
  have h2 := sbuf_word_read_ge sb pos ws ws pos 0
  exact ⟨sbuf_word_read_done sb pos ws ws pos 0 h1,
    sbuf_word_pad_done pos ws ws _ _ (by omega)⟩

theorem word_flag_one_sided (sb1 sb2 : sbuf) (pos len ws : Nat) (nbd : Int) (k : Nat)
    (hws : 0 < ws) (hn : nbd ≠ 0) (hk : k < len)
    (h : (line_byte sb1 pos k = none ∧ line_byte sb2 pos k ≠ none) ∨
      (line_byte sb1 pos k ≠ none ∧ line_byte sb2 pos k = none)) :
    word_flag sb1 sb2 pos len nbd (k / ws * ws) ws = true := by
  have hw := (div_eq_iff_word (k / ws) ws k hws).mp rfl
  simp only [word_flag, List.any_eq_true, List.mem_range]
  refine ⟨k - k / ws * ws, by omega, ?_⟩
  have e : k / ws * ws + (k - k / ws * ws) = k := by omega
  simp only [byte_flag, e, hk, decide_True, Bool.true_and]
  rcases h1 : line_byte sb1 pos k with _ | a <;>
  rcases h2 : line_byte sb2 pos k with _ | b <;> simp_all

theorem null_hit_one_sided (sb1 sb2 : sbuf) (pos len : Nat) (nbd : Int) (k : Nat) (hn : nbd ≠ 0)
    (h : (line_byte sb1 pos k = none ∧ line_byte sb2 pos k ≠ none) ∨
      (line_byte sb1 pos k ≠ none ∧ line_byte sb2 pos k = none)) :
    null_hit sb1 sb2 pos len nbd k = false := by
  simp only [null_hit]
  rcases h1 : line_byte sb1 pos k with _ | a <;>
  rcases h2 : line_byte sb2 pos k with _ | b <;> simp_all

/-- C2: with the null policy on (`nbd = 1` set after `sbuf_diff_init`), one
`sbuf_diff_cmp` marks every byte inside the line of every word holding an offset `k`
at which exactly one window has a real byte (whatever that byte is), and does not
count a null at `k`.  The word size is one the driver accepts (1..8). -/
theorem cmp_marks_one_sided_bytes (sb1 sb2 : sbuf) (pos len ws : Nat) (d : sbuf_diff)
    (hd : d.allocated) (hlen : len ≤ d.width) (hws : 1 ≤ ws) (_hws8 : ws ≤ 8)
    (k : Nat) (hk : k < len)
    (hone : (line_byte sb1 pos k = none ∧ line_byte sb2 pos k ≠ none) ∨
      (line_byte sb1 pos k ≠ none ∧ line_byte sb2 pos k = none)) :
    (∀ x, x < len → x / ws = k / ws →
      rd (sbuf_diff_cmp sb1 sb2 pos len { sbuf_diff_init d with nbd := 1 } ws).2.cmp x = 1) ∧
    rd (sbuf_diff_cmp sb1 sb2 pos len { sbuf_diff_init d with nbd := 1 } ws).2.null.ptr k = 0 := by
  obtain ⟨-, -, -, -, -, -, -, -, c9⟩ := fresh_cmp_spec sb1 sb2 pos len d 1 ws hws hd hlen
  have hf := word_flag_one_sided sb1 sb2 pos len ws 1 k hws (by decide) hk hone
  constructor
  · intro x hx hxk
    have := (c9 x).1
    simp only [reset_engine] at this
    rw [this, hxk]
    simp [hx, hf]
  · have := (c9 k).2.2
    simp only [reset_engine] at this
    rw [this, null_hit_one_sided sb1 sb2 pos len 1 k (by decide) hone]
    simp

theorem cmp_marks_one_sided_bytes_witness :
    (∀ x, x < 4 → x / 2 = 1 / 2 →
      rd (sbuf_diff_cmp demo_short demo_a 0 4
        { sbuf_diff_init (demo_engine 4) with nbd := 1 } 2).2.cmp x = 1) ∧
    rd (sbuf_diff_cmp demo_short demo_a 0 4
      { sbuf_diff_init (demo_engine 4) with nbd := 1 } 2).2.null.ptr 1 = 0 :=
  cmp_marks_one_sided_bytes demo_short demo_a 0 4 2 (demo_engine 4)
    (by decide) (by decide) (by decide) (by decide) 1 (by decide) (by decide)

theorem word_start (i ws j : Nat) (hws : 0 < ws) (hi : i % ws = 0) (hj : j < ws) :
    (i + j) / ws * ws = i ∧ (i + j) - (i + j) / ws * ws = j := by
  have h1 := Nat.div_add_mod i ws
  rw [hi, Nat.add_zero] at h1
  have h2 : i / ws * ws = i := by rw [Nat.mul_comm]; exact h1
  have h3 : (i + j) / ws = i / ws := by
    rw [div_eq_iff_word _ _ _ hws]; omega
  rw [h3, h2]
  omega

theorem be_value_zeros (n : Nat) : be_value ((List.range n).map fun _ => 0) = 0 := by
  induction n with
  | zero => simp [be_value]
  | succ n ih => rw [be_value_range_succ, ih]

theorem window_word_lt (sb : sbuf) (pos i ws : Nat) (hv : sb.valid) :
    window_word sb pos i ws < 256 ^ ws := by
  apply be_value_lt
  intro j _
  rcases h : line_byte sb pos (i + j) with _ | a
  · simp
  · simpa using line_byte_lt sb pos _ a hv h

/-- Subtraction bytes of a full word whose bytes are all real, after one compare on
a fresh engine. -/
theorem fresh_sub_word (sb1 sb2 : sbuf) (pos len ws : Nat) (d : sbuf_diff) (nbd : Int) (i : Nat)
    (hv1 : sb1.valid) (hv2 : sb2.valid) (hd : d.allocated) (hlen : len ≤ d.width)
    (hws1 : 1 ≤ ws) (hws8 : ws ≤ 8) (hi : i % ws = 0) (hin : i + ws ≤ len)
    (hreal : ∀ j, j < ws → line_byte sb1 pos (i + j) ≠ none ∧ line_byte sb2 pos (i + j) ≠ none) :
    sub_word (sbuf_diff_cmp sb1 sb2 pos len (reset_engine d nbd) ws).2 i ws =
      (window_word sb2 pos i ws + 256 ^ ws - window_word sb1 pos i ws) % 256 ^ ws := by
  obtain ⟨-, -, -, -, -, -, -, -, c9⟩ := fresh_cmp_spec sb1 sb2 pos len d nbd ws hws1 hd hlen
  have hA := word_val_real sb1 sb2 pos len nbd i ws hv1 hws8 hin hreal
  have hB := word_val_real sb2 sb1 pos len nbd i ws hv2 hws8 hin
    (fun j hj => ⟨(hreal j hj).2, (hreal j hj).1⟩)
  have hAlt := window_word_lt sb1 pos i ws hv1
  have hBlt := window_word_lt sb2 pos i ws hv2
  unfold sub_word
  cases hw : word_flag sb1 sb2 pos len nbd i ws
  · have heq := (word_flag_eq sb1 sb2 pos len nbd i hv1 hv2 ws).2 hw
    rw [hA, hB] at heq
    have hz : be_value ((List.range ws).map fun j =>
        rd (sbuf_diff_cmp sb1 sb2 pos len (reset_engine d nbd) ws).2.sub.ptr (i + j)) =
        be_value ((List.range ws).map fun _ => 0) := by
      apply be_value_congr
      intro j hj
      rw [(c9 (i + j)).2.1, (word_start i ws j hws1 hi hj).1, hw]
      simp
    rw [hz, be_value_zeros]
    unfold window_word
    rw [heq]
    have : be_value ((List.range ws).map fun j => (line_byte sb2 pos (i + j)).getD 0) + 256 ^ ws -
        be_value ((List.range ws).map fun j => (line_byte sb2 pos (i + j)).getD 0) = 256 ^ ws := by
      omega
    rw [this, Nat.mod_self]
  · have hz : be_value ((List.range ws).map fun j =>
        rd (sbuf_diff_cmp sb1 sb2 pos len (reset_engine d nbd) ws).2.sub.ptr (i + j)) =
        be_value ((List.range ws).map fun j =>
          (word_vald sb1 sb2 pos len ws nbd i >>> (8 * (ws - 1 - j))) &&& 0xff) := by
      apply be_value_congr
      intro j hj
      obtain ⟨s1, s2⟩ := word_start i ws j hws1 hi hj
      rw [(c9 (i + j)).2.1, s1, hw]
      have h4 : i + j < len := by omega
      have h5 : i + j - i = j := by omega
      simp [h4, h5]
    rw [hz, be_value_bytes _ ws ws (Nat.le_refl ws)]
    simp only [Nat.sub_self, Nat.mul_zero, Nat.shiftRight_zero, word_vald]
    rw [hA, hB]
    exact wrapped_sub_mod _ _ ws hws8 hAlt hBlt

/-- C4: for the windows `01 02 03 04` and `01 99 03 04` at base position 0, one
`sbuf_diff_cmp` on the reset engine of width 4 with `pos = 0`, `len = 4`, word size 1
returns 1, leaves `cmp = [0,1,0,0]` and stores `(0x99 - 0x02) mod 256 = 0x97` at
offset 1 of the subtraction buffer; the driver's comparison of the line ends with
count 1, so that with default flags, two streams and context 0 the line is
displayed. -/
theorem demo_line_one_difference :
    sbuf_diff_malloc 4 = some (sbuf_diff_init (demo_engine 4)) ∧
    (sbuf_diff_cmp demo_a demo_b 0 4 (sbuf_diff_init (demo_engine 4)) 1).1 = 1 ∧
    (sbuf_diff_cmp demo_a demo_b 0 4 (sbuf_diff_init (demo_engine 4)) 1).2.cmp = [0, 1, 0, 0] ∧
    (sbuf_diff_cmp demo_a demo_b 0 4 (sbuf_diff_init (demo_engine 4)) 1).2.sub.ptr =
      [0, 0x97, 0, 0] ∧
    (0x99 + 256 - 0x02) % 256 = 0x97 ∧
    (main_compare_line [demo_a, demo_b] 0 4 1 demo_flags (some []) (demo_engine 4)).cnt = 1 ∧
    (main_print_line demo_flags 2
      (main_compare_line [demo_a, demo_b] 0 4 1 demo_flags (some []) (demo_engine 4)).cnt
      (SIZE_T - 1) 0).1 = true := by
  decide

/-- C7 (failing input): width 3, word size 2, windows `00 00 00` and `00 00 01`,
ignore list `[0x0100]`.  The truncated last word is marked on one byte while the
count grows by the word size 2; `sbuf_diff_unmark_ignore` takes back 1, so every
`cmp` flag is 0 and the count is still 1 (the cell `cmp[3]` past the allocation,
which the loop of `sbuf_diff_unmark_ignore` reads, is read as 0 here). -/
theorem truncated_word_count_left_over :
    (sbuf_diff_cmp demo_p demo_q 0 3 (sbuf_diff_init (demo_engine 3)) 2).2.cmp = [0, 0, 1] ∧
    (sbuf_diff_cmp demo_p demo_q 0 3 (sbuf_diff_init (demo_engine 3)) 2).2.cnt = 2 ∧
    sbuf_word (sbuf_diff_cmp demo_p demo_q 0 3 (sbuf_diff_init (demo_engine 3)) 2).2.sub 2 2 = 0x0100 ∧
    (sbuf_diff_unmark_ignore (sbuf_diff_cmp demo_p demo_q 0 3 (sbuf_diff_init (demo_engine 3)) 2).2
      2 (some [0x0100])).cmp = [0, 0, 0] ∧
    (sbuf_diff_unmark_ignore (sbuf_diff_cmp demo_p demo_q 0 3 (sbuf_diff_init (demo_engine 3)) 2).2
      2 (some [0x0100])).cnt = 1 := by
  decide

/-! ### `sbuf_diff_unmark_ignore` -/

theorem foldl_fixed {α β : Type} (f : α → β → α) (a : α) (l : List β)
    (h : ∀ b, b ∈ l → f a b = a) : l.foldl f a = a := by
  induction l with
  | nil => rfl
  | cons b l ih =>
    rw [List.foldl_cons, h b (List.mem_cons_self b l)]
    exact ih (fun c hc => h c (List.mem_cons_of_mem b hc))

theorem unmark_word_mismatch (ws v : Nat) (d : sbuf_diff) (i : Nat)
    (h : sbuf_word d.sub ((d.pos + i) % SIZE_T) ws ≠ v) : unmark_word ws v d i = d := by
  simp [unmark_word, h]

theorem lt_words_of_mul_lt (k ws width : Nat) (hws : 0 < ws) :
    k < (width + ws - 1) / ws ↔ k * ws < width := by
  have h1 : k < (width + ws - 1) / ws ↔ k + 1 ≤ (width + ws - 1) / ws := Iff.rfl
  rw [h1, Nat.le_div_iff_mul_le hws, Nat.succ_mul]
  omega

/-- C9: `sbuf_diff_unmark_ignore` changes nothing (count, `cmp`, subtraction bytes,
null counts, and everything else in the engine) when the ignore list is NULL, is
empty, or holds no value equal to the subtraction value `sbuf_word(d->sub, d->pos + i,
ws)` of a word of the line. -/
theorem unmark_without_match_is_noop (d : sbuf_diff) (ws : Nat) (ignore : Option (List Nat))
    (hws : 1 ≤ ws)
    (hno : ∀ l, ignore = some l → ∀ v, v ∈ l → ∀ k, k * ws < d.width →
      sbuf_word d.sub ((d.pos + k * ws) % SIZE_T) ws ≠ v) :
    sbuf_diff_unmark_ignore d ws ignore = d := by
  rcases ignore with _ | l
  · rfl
  · simp only [sbuf_diff_unmark_ignore]
    apply foldl_fixed
    intro v hv
    unfold unmark_value
    apply foldl_fixed
    intro k hk
    apply unmark_word_mismatch
    exact hno l rfl v hv k ((lt_words_of_mul_lt k ws d.width hws).mp (List.mem_range.mp hk))

theorem unmark_without_match_is_noop_witness :
    sbuf_diff_unmark_ignore (sbuf_diff_cmp demo_a demo_b 0 4 (sbuf_diff_init (demo_engine 4)) 1).2
        1 (some [0x98]) =
      (sbuf_diff_cmp demo_a demo_b 0 4 (sbuf_diff_init (demo_engine 4)) 1).2 :=
  unmark_without_match_is_noop _ 1 (some [0x98]) (by decide) (by
    intro l hl v hv k hk
    simp only [Option.some.injEq] at hl
    subst hl
    simp only [List.mem_singleton] at hv
    subst hv
    have hk4 : k < 4 := by
      have : (sbuf_diff_cmp demo_a demo_b 0 4 (sbuf_diff_init (demo_engine 4)) 1).2.width = 4 := by
        decide
      omega
    interval_cases k <;> decide)


theorem unmark_byte_unmarked (d : sbuf_diff) (j : Nat) (h : rd d.cmp j = 0) :
    unmark_byte d j = d := by
  simp [unmark_byte, h]

theorem unmark_word_unmarked (ws v : Nat) (d : sbuf_diff) (i : Nat)
    (h : ∀ t, t < ws → rd d.cmp (i + t) = 0) : unmark_word ws v d i = d := by
  unfold unmark_word
  split_ifs
  · apply foldl_fixed
    intro t ht
    exact unmark_byte_unmarked d (i + t) (h t (List.mem_range.mp ht))
  · rfl

theorem unmark_value_unmarked (ws v : Nat) (d : sbuf_diff) (h : ∀ x, rd d.cmp x = 0) :
    unmark_value ws d v = d := by
  unfold unmark_value
  apply foldl_fixed
  intro k _
  exact unmark_word_unmarked ws v d (k * ws) (fun t _ => h _)

theorem unmark_unmarked (d : sbuf_diff) (ws : Nat) (ignore : Option (List Nat))
    (h : ∀ x, rd d.cmp x = 0) : sbuf_diff_unmark_ignore d ws ignore = d := by
  rcases ignore with _ | l
  · rfl
  · simp only [sbuf_diff_unmark_ignore]
    apply foldl_fixed
    intro v _
    exact unmark_value_unmarked ws v d h

theorem unmark_empty (d : sbuf_diff) (ws : Nat) (ignore : Option (List Nat))
    (h : ignore = some [] ∨ ignore = none) : sbuf_diff_unmark_ignore d ws ignore = d := by
  rcases h with h | h <;> subst h <;> rfl

/-! ### The per-line comparison of the driver -/

theorem compare_line_reset (sb : List sbuf) (pos width ws flags : Nat)
    (ignore : Option (List Nat)) (d : sbuf_diff) :
    main_compare_line sb pos width ws flags ignore d =
      (List.range' 1 (sb.length - 1)).foldl
        (fun d i => (List.range i).foldl
          (fun d j => main_compare_pair sb pos width ws ignore d i j) d)
        (reset_engine d (main_nbd flags)) := by
  have e : (if flags &&& FLAG_NULL_BYTES_DIFF ≠ 0 then { sbuf_diff_init d with nbd := 1 }
      else sbuf_diff_init d) = reset_engine d (main_nbd flags) := by
    unfold reset_engine main_nbd
    split_ifs <;> rfl
  unfold main_compare_line
  simp only [e]

theorem foldl_flatMap_eq {α β γ : Type} (l : List α) (f : α → List β) (g : γ → β → γ) (c : γ) :
    (l.flatMap f).foldl g c = l.foldl (fun acc x => (f x).foldl g acc) c := by
  induction l generalizing c with
  | nil => rfl
  | cons a l ih =>
    rw [List.flatMap_cons, List.foldl_append, ih, List.foldl_cons]

/-- With nothing to ignore the driver's double loop is the fold of `sbuf_diff_cmp`
over the stream pairs. -/
theorem compare_line_no_ignore (sb : List sbuf) (pos width ws flags : Nat)
    (ignore : Option (List Nat)) (d : sbuf_diff) (h : ignore = some [] ∨ ignore = none) :
    main_compare_line sb pos width ws flags ignore d =
      (stream_pairs sb.length).foldl
        (fun d p =>
          match sb[p.1]?, sb[p.2]? with
          | some a, some b => (sbuf_diff_cmp a b pos width d ws).2
          | _, _ => d) (reset_engine d (main_nbd flags)) := by
  rw [compare_line_reset]
  unfold stream_pairs
  rw [foldl_flatMap_eq]
  congr 1
  funext acc i
  rw [List.foldl_map]
  congr 1
  funext acc2 j
  unfold main_compare_pair
  rcases sb[j]? with _ | a <;> rcases sb[i]? with _ | b <;> simp [unmark_empty _ _ _ h]

theorem diff_words_differing (sb1 sb2 : sbuf) (pos len ws : Nat) (nbd : Int)
    (hv1 : sb1.valid) (hv2 : sb2.valid) :
    diff_words sb1 sb2 pos len ws nbd ((len + ws - 1) / ws) =
      differing_words sb1 sb2 pos len ws nbd := by
  unfold diff_words differing_words
  congr 2
  funext k
  exact word_flag_differs sb1 sb2 pos len ws nbd (k * ws) hv1 hv2

/-- Effect of one `sbuf_diff_cmp` on an engine in any state (no reset), in the
vocabulary of the statements. -/
theorem cmp_accumulates_once (sb1 sb2 : sbuf) (pos len ws : Nat) (d : sbuf_diff)
    (hv1 : sb1.valid) (hv2 : sb2.valid) (hd : d.allocated) (hlen : len ≤ d.width)
    (hws : 1 ≤ ws) (hcnt : d.cnt < SIZE_T) :
    (∀ x, x < len →
      rd (sbuf_diff_cmp sb1 sb2 pos len d ws).2.cmp x =
        if word_differs sb1 sb2 pos len ws d.nbd (x / ws * ws) = true
        then (rd d.cmp x + 1) % 256 else rd d.cmp x) ∧
    (∀ x, len ≤ x → rd (sbuf_diff_cmp sb1 sb2 pos len d ws).2.cmp x = rd d.cmp x) ∧
    (sbuf_diff_cmp sb1 sb2 pos len d ws).2.cnt =
      (d.cnt + ws * differing_words sb1 sb2 pos len ws d.nbd) % SIZE_T ∧
    (∀ x, rd d.cmp x ≠ 0 →
      rd (sbuf_diff_cmp sb1 sb2 pos len d ws).2.sub.ptr x = rd d.sub.ptr x) := by
  obtain ⟨a1, a2, a3⟩ := hd
  obtain ⟨-, -, c3, c4⟩ := cmp_spec sb1 sb2 pos len d ws hws hcnt (by omega) (by omega) (by omega)
  refine ⟨?_, ?_, ?_, ?_⟩
  · intro x hx
    rw [(c4 x).1, word_flag_differs _ _ _ _ _ _ _ hv1 hv2]
    simp [hx]
  · intro x hx
    rw [(c4 x).1]
    have : ¬ x < len := by omega
    simp [this]
  · rw [c3, diff_words_differing _ _ _ _ _ _ hv1 hv2]
  · intro x hx
    rw [(c4 x).2.1]
    simp [hx]

/-- The engine invariants that a compare keeps. -/
theorem cmp_keeps (sb1 sb2 : sbuf) (pos len ws : Nat) (d : sbuf_diff)
    (hd : d.allocated) (hlen : len ≤ d.width) (hws : 1 ≤ ws) (hcnt : d.cnt < SIZE_T) :
    (sbuf_diff_cmp sb1 sb2 pos len d ws).2.allocated ∧
    (sbuf_diff_cmp sb1 sb2 pos len d ws).2.width = d.width ∧
    (sbuf_diff_cmp sb1 sb2 pos len d ws).2.nbd = d.nbd ∧
    (sbuf_diff_cmp sb1 sb2 pos len d ws).2.cnt < SIZE_T := by
  obtain ⟨a1, a2, a3⟩ := hd
  obtain ⟨-, cf, c3, -⟩ := cmp_spec sb1 sb2 pos len d ws hws hcnt (by omega) (by omega) (by omega)
  obtain ⟨f1, f2, f3, f4, f5, f6, f7, f8, f9, l1, l2, l3⟩ := cf
  simp only at f1 f2 f3 f4 f5 f6 f7 f8 f9 l1 l2 l3
  refine ⟨⟨by omega, by omega, by omega⟩, f1, f3, ?_⟩
  rw [c3]
  exact Nat.mod_lt _ (by decide)

/-- The body of the fold over the stream pairs. -/
theorem pairs_fold (sb : List sbuf) (pos width ws : Nat) (nbd : Int)
    (hvalid : ∀ s, s ∈ sb → s.valid) (hws : 1 ≤ ws) (ps : List (Nat × Nat)) :
    ∀ e : sbuf_diff, e.allocated → width ≤ e.width → e.cnt < SIZE_T → e.nbd = nbd →
      ∀ x, x < width →
        rd (ps.foldl (fun d p =>
            match sb[p.1]?, sb[p.2]? with
            | some a, some b => (sbuf_diff_cmp a b pos width d ws).2
            | _, _ => d) e).cmp x =
          (rd e.cmp x + (ps.filter (pair_differs sb pos width ws nbd x)).length) % 256 ∨
        (ps.filter (pair_differs sb pos width ws nbd x)).length = 0 ∧
          rd (ps.foldl (fun d p =>
            match sb[p.1]?, sb[p.2]? with
            | some a, some b => (sbuf_diff_cmp a b pos width d ws).2
            | _, _ => d) e).cmp x = rd e.cmp x := by
  induction ps with
  | nil =>
    intro e _ _ _ _ x _
    right
    exact ⟨rfl, rfl⟩
  | cons p ps ih =>
    intro e he hw hc hn x hx
    rw [List.foldl_cons]
    rcases h1 : sb[p.1]? with _ | a
    · have hpd : pair_differs sb pos width ws nbd x p = false := by simp [pair_differs, h1]
      simp only [List.filter_cons, hpd]
      exact ih e he hw hc hn x hx
    · rcases h2 : sb[p.2]? with _ | b
      · have hpd : pair_differs sb pos width ws nbd x p = false := by simp [pair_differs, h1, h2]
        simp only [List.filter_cons, hpd]
        exact ih e he hw hc hn x hx
      · have hva := hvalid a (List.getElem?_mem h1)
        have hvb := hvalid b (List.getElem?_mem h2)
        obtain ⟨k1, k2, k3, k4⟩ := cmp_keeps a b pos width ws e he hw hws hc
        obtain ⟨m1, -, -, -⟩ := cmp_accumulates_once a b pos width ws e hva hvb he hw hws hc
        have hpd : pair_differs sb pos width ws nbd x p =
            word_differs a b pos width ws nbd (x / ws * ws) := by simp [pair_differs, h1, h2]
        have hstep := m1 x hx
        rw [hn] at hstep
        have ih' := ih (sbuf_diff_cmp a b pos width e ws).2 k1 (by omega) k4 (by rw [k3, hn]) x hx
        simp only [List.filter_cons, hpd]
        cases hwd : word_differs a b pos width ws nbd (x / ws * ws)
        · simp only [hwd, Bool.false_eq_true, if_false] at hstep ⊢
          rw [hstep] at ih'
          exact ih'
        · simp only [hwd, if_true, List.length_cons] at hstep ⊢
          left
          rcases ih' with h | ⟨h0, h⟩
          · rw [h, hstep]; omega
          · rw [h, hstep, h0]

theorem stream_pairs_length (n : Nat) (h : n ≤ 4) : (stream_pairs n).length ≤ 6 := by
  interval_cases n <;> decide

/-- All unordered pairs, each once: `(j, i)` is listed iff `j < i < n`. -/
theorem mem_stream_pairs (n j i : Nat) : (j, i) ∈ stream_pairs n ↔ j < i ∧ i < n := by
  simp only [stream_pairs, List.mem_flatMap, List.mem_range', List.mem_map, List.mem_range,
    Prod.mk.injEq]
  constructor
  · rintro ⟨a, ⟨k, hk, rfl⟩, b, hb, rfl, rfl⟩
    omega
  · rintro ⟨h1, h2⟩
    exact ⟨i, ⟨i - 1, by omega, by omega⟩, j, h1, rfl, rfl⟩

/-- No pair is listed twice (for the stream counts the driver accepts). -/
theorem stream_pairs_nodup (n : Nat) (h : n ≤ 4) : (stream_pairs n).Nodup := by
  interval_cases n <;> decide

theorem compare_line_counts_pairs (sb : List sbuf) (pos width ws flags : Nat)
    (ignore : Option (List Nat)) (d : sbuf_diff)
    (hvalid : ∀ s, s ∈ sb → s.valid) (hn : sb.length ≤ 4)
    (hd : d.allocated) (hw : width ≤ d.width) (hws : 1 ≤ ws)
    (hig : ignore = some [] ∨ ignore = none) (x : Nat) (hx : x < width) :
    rd (main_compare_line sb pos width ws flags ignore d).cmp x =
      pairs_differing sb pos width ws (main_nbd flags) x := by
  rw [compare_line_no_ignore sb pos width ws flags ignore d hig]
  obtain ⟨r1, r2, r3, r4, r5⟩ := reset_spec d (main_nbd flags) hd
  have hfold := pairs_fold sb pos width ws (main_nbd flags) hvalid hws (stream_pairs sb.length)
    (reset_engine d (main_nbd flags)) r1 (by omega) (by rw [r3]; decide) r4 x hx
  have hlen := stream_pairs_length sb.length hn
  have hle := List.length_filter_le (pair_differs sb pos width ws (main_nbd flags) x)
    (stream_pairs sb.length)
  unfold pairs_differing
  rcases hfold with h | ⟨h0, h⟩
  · refine Eq.trans h ?_
    rw [(r5 x).1]
    omega
  · refine Eq.trans h ?_
    rw [(r5 x).1, h0]

/-- C6: `sbuf_diff_cmp` on an engine that is not reset accumulates.  For every byte
inside the line, `cmp[x]` is incremented (as an `unsigned char`) when the word
containing `x` differs in the pair and is left alone otherwise; bytes outside the line
are left alone; the count grows by `ws` for each differing word (as a `size_t`); and
`sub[x]` is untouched wherever `cmp[x]` was already non-zero.  Hence after the driver's
compares of all pairs of at most 4 streams, with nothing to ignore, `cmp[x]` is the
number of pairs whose word containing `x` differs.  The word size is one the driver
accepts (1..8). -/
theorem cmp_accumulates (sb1 sb2 : sbuf) (pos len ws : Nat) (d : sbuf_diff)
    (sb : List sbuf) (width flags : Nat) (ignore : Option (List Nat)) (e : sbuf_diff)
    (hv1 : sb1.valid) (hv2 : sb2.valid) (hd : d.allocated) (hlen : len ≤ d.width)
    (hws : 1 ≤ ws) (_hws8 : ws ≤ 8) (hcnt : d.cnt < SIZE_T)
    (hvalid : ∀ s, s ∈ sb → s.valid) (hn : sb.length ≤ 4)
    (he : e.allocated) (hw : width ≤ e.width)
    (hig : ignore = some [] ∨ ignore = none) :
    (∀ x, x < len →
      rd (sbuf_diff_cmp sb1 sb2 pos len d ws).2.cmp x =
        if word_differs sb1 sb2 pos len ws d.nbd (x / ws * ws) = true
        then (rd d.cmp x + 1) % 256 else rd d.cmp x) ∧
    (∀ x, len ≤ x → rd (sbuf_diff_cmp sb1 sb2 pos len d ws).2.cmp x = rd d.cmp x) ∧
    (sbuf_diff_cmp sb1 sb2 pos len d ws).2.cnt =
      (d.cnt + ws * differing_words sb1 sb2 pos len ws d.nbd) % SIZE_T ∧
    (∀ x, rd d.cmp x ≠ 0 →
      rd (sbuf_diff_cmp sb1 sb2 pos len d ws).2.sub.ptr x = rd d.sub.ptr x) ∧
    (∀ x, x < width →
      rd (main_compare_line sb pos width ws flags ignore e).cmp x =
        pairs_differing sb pos width ws (main_nbd flags) x) := by
  obtain ⟨h1, h2, h3, h4⟩ := cmp_accumulates_once sb1 sb2 pos len ws d hv1 hv2 hd hlen hws hcnt
  exact ⟨h1, h2, h3, h4, fun x hx =>
    compare_line_counts_pairs sb pos width ws flags ignore e hvalid hn he hw hws hig x hx⟩

theorem cmp_accumulates_witness :
    (∀ x, x < 1 →
      rd (sbuf_diff_cmp demo_s1 demo_s2 0 1
          (sbuf_diff_cmp demo_s0 demo_s1 0 1 (sbuf_diff_init (demo_engine 1)) 1).2 1).2.cmp x =
        if word_differs demo_s1 demo_s2 0 1 1
          (sbuf_diff_cmp demo_s0 demo_s1 0 1 (sbuf_diff_init (demo_engine 1)) 1).2.nbd
          (x / 1 * 1) = true
        then (rd (sbuf_diff_cmp demo_s0 demo_s1 0 1 (sbuf_diff_init (demo_engine 1)) 1).2.cmp x + 1) % 256
        else rd (sbuf_diff_cmp demo_s0 demo_s1 0 1 (sbuf_diff_init (demo_engine 1)) 1).2.cmp x) ∧
    (∀ x, 1 ≤ x →
      rd (sbuf_diff_cmp demo_s1 demo_s2 0 1
          (sbuf_diff_cmp demo_s0 demo_s1 0 1 (sbuf_diff_init (demo_engine 1)) 1).2 1).2.cmp x =
        rd (sbuf_diff_cmp demo_s0 demo_s1 0 1 (sbuf_diff_init (demo_engine 1)) 1).2.cmp x) ∧
    (sbuf_diff_cmp demo_s1 demo_s2 0 1
        (sbuf_diff_cmp demo_s0 demo_s1 0 1 (sbuf_diff_init (demo_engine 1)) 1).2 1).2.cnt =
      ((sbuf_diff_cmp demo_s0 demo_s1 0 1 (sbuf_diff_init (demo_engine 1)) 1).2.cnt +
        1 * differing_words demo_s1 demo_s2 0 1 1
          (sbuf_diff_cmp demo_s0 demo_s1 0 1 (sbuf_diff_init (demo_engine 1)) 1).2.nbd) % SIZE_T ∧
    (∀ x, rd (sbuf_diff_cmp demo_s0 demo_s1 0 1 (sbuf_diff_init (demo_engine 1)) 1).2.cmp x ≠ 0 →
      rd (sbuf_diff_cmp demo_s1 demo_s2 0 1
          (sbuf_diff_cmp demo_s0 demo_s1 0 1 (sbuf_diff_init (demo_engine 1)) 1).2 1).2.sub.ptr x =
        rd (sbuf_diff_cmp demo_s0 demo_s1 0 1 (sbuf_diff_init (demo_engine 1)) 1).2.sub.ptr x) ∧
    (∀ x, x < 1 →
      rd (main_compare_line [demo_s0, demo_s1, demo_s2] 0 1 1 demo_flags (some [])
          (demo_engine 1)).cmp x =
        pairs_differing [demo_s0, demo_s1, demo_s2] 0 1 1 (main_nbd demo_flags) x) :=
  cmp_accumulates demo_s1 demo_s2 0 1 1
    (sbuf_diff_cmp demo_s0 demo_s1 0 1 (sbuf_diff_init (demo_engine 1)) 1).2
    [demo_s0, demo_s1, demo_s2] 1 demo_flags (some []) (demo_engine 1)
    (by decide) (by decide) (by decide) (by decide) (by decide) (by decide) (by decide)
    (by decide) (by decide) (by decide) (by decide) (Or.inl rfl)

/-! ### Swapping the two windows -/

theorem byte_flag_comm (sb1 sb2 : sbuf) (pos len : Nat) (nbd : Int) (i n : Nat) :
    byte_flag sb1 sb2 pos len nbd i n = byte_flag sb2 sb1 pos len nbd i n := by
  simp only [byte_flag]
  rcases line_byte sb1 pos (i + n) with _ | a <;>
  rcases line_byte sb2 pos (i + n) with _ | b <;> simp [ne_comm]

theorem word_flag_comm (sb1 sb2 : sbuf) (pos len : Nat) (nbd : Int) (i n : Nat) :
    word_flag sb1 sb2 pos len nbd i n = word_flag sb2 sb1 pos len nbd i n := by
  unfold word_flag
  congr 1
  funext j
  exact byte_flag_comm sb1 sb2 pos len nbd i j

theorem null_hit_comm (sb1 sb2 : sbuf) (pos len : Nat) (nbd : Int) (k : Nat) :
    null_hit sb1 sb2 pos len nbd k = null_hit sb2 sb1 pos len nbd k := by
  simp only [null_hit]
  rcases line_byte sb1 pos k with _ | a <;>
  rcases line_byte sb2 pos k with _ | b <;> simp

theorem diff_words_comm (sb1 sb2 : sbuf) (pos len ws : Nat) (nbd : Int) (n : Nat) :
    diff_words sb1 sb2 pos len ws nbd n = diff_words sb2 sb1 pos len ws nbd n := by
  unfold diff_words
  congr 2
  funext k
  exact word_flag_comm sb1 sb2 pos len nbd (k * ws) ws

theorem sbuf_eq (a b : sbuf) (h1 : a.ptr = b.ptr) (h2 : a.size = b.size) (h3 : a.pos = b.pos)
    (h4 : a.len = b.len) : a = b := by
  cases a; cases b; simp_all

/-! ### The subtraction bytes of any word, truncated or not -/

theorem word_val_lt (sb sb' : sbuf) (pos len : Nat) (nbd : Int) (i n : Nat) :
    word_val sb sb' pos len nbd i n < SIZE_T := by
  cases n with
  | zero => simp [word_val]
  | succ n => exact Nat.mod_lt _ (by decide)

theorem pow_dvd_size (t : Nat) (h : t ≤ 8) : 256 ^ t ∣ SIZE_T := by
  have : (256 : Nat) ^ t ∣ 256 ^ 8 := pow_dvd_pow 256 h
  simpa [SIZE_T] using this

/-- Past the end of the line the inner loop only shifts: the low bytes of the word
value are zero. -/
theorem word_val_dvd (sb sb' : sbuf) (pos len : Nat) (nbd : Int) (i m : Nat)
    (hout : len ≤ i + m) (n : Nat) (hn : n ≤ m + 8) :
    256 ^ (n - m) ∣ word_val sb sb' pos len nbd i n := by
  induction n with
  | zero => simp
  | succ n ih =>
    by_cases hnm : n + 1 ≤ m
    · have : n + 1 - m = 0 := by omega
      rw [this]; simp
    · have e : n + 1 - m = (n - m) + 1 := by omega
      have hb : byte_val sb sb' pos len nbd (i + n) = 0 := by
        simp only [byte_val]
        have : i + n ≥ len := by omega
        rw [if_pos this]
      rw [e]
      simp only [word_val, hb, Nat.add_zero, Nat.mod_mod, Nat.shiftLeft_eq]
      have h1 := ih (by omega)
      have h2 : 256 ^ (n - m + 1) ∣ word_val sb sb' pos len nbd i n * 2 ^ 8 := by
        rw [pow_succ]
        exact Nat.mul_dvd_mul h1 (by norm_num)
      exact (Nat.dvd_mod_iff (pow_dvd_size _ (by omega))).mpr h2

theorem word_vald_dvd (sb1 sb2 : sbuf) (pos len ws : Nat) (nbd : Int) (i m : Nat)
    (hout : len ≤ i + m) (hws : ws ≤ m + 8) :
    256 ^ (ws - m) ∣ word_vald sb1 sb2 pos len ws nbd i := by
  unfold word_vald
  have hA := word_val_dvd sb1 sb2 pos len nbd i m hout ws hws
  have hB := word_val_dvd sb2 sb1 pos len nbd i m hout ws hws
  have hlt := word_val_lt sb1 sb2 pos len nbd i ws
  have hM := pow_dvd_size (ws - m) (by omega)
  apply (Nat.dvd_mod_iff hM).mpr
  have e : word_val sb2 sb1 pos len nbd i ws + SIZE_T - word_val sb1 sb2 pos len nbd i ws =
      word_val sb2 sb1 pos len nbd i ws + (SIZE_T - word_val sb1 sb2 pos len nbd i ws) := by
    omega
  rw [e]
  exact Nat.dvd_add hB (Nat.dvd_sub' hM hA)

theorem be_value_pad (f : Nat → Nat) (m k : Nat) (hz : ∀ j, m ≤ j → j < m + k → f j = 0) :
    be_value ((List.range (m + k)).map f) = be_value ((List.range m).map f) * 256 ^ k := by
  induction k with
  | zero => simp
  | succ k ih =>
    rw [← Nat.add_assoc, be_value_range_succ, ih (fun j h1 h2 => hz j h1 (by omega)),
      hz (m + k) (by omega) (by omega), pow_succ]
    ring

theorem top_bytes_of_multiple (v m t : Nat) (hd : 256 ^ t ∣ v) :
    ((v >>> (8 * t)) % 256 ^ m) * 256 ^ t = v % 256 ^ (m + t) := by
  have e1 : v >>> (8 * t) = v / 256 ^ t := by
    rw [Nat.shiftRight_eq_div_pow, pow_mul]; norm_num
  have e2 : (256 : Nat) ^ (m + t) = 256 ^ t * 256 ^ m := by rw [pow_add, Nat.mul_comm]
  rw [e1, e2, Nat.mod_mul, (Nat.dvd_iff_mod_eq_zero ..).mp hd, Nat.zero_add, Nat.mul_comm]

theorem fresh_sub_word_any (sb1 sb2 : sbuf) (pos len ws : Nat) (d : sbuf_diff) (nbd : Int)
    (w : Nat) (hd : d.allocated) (hlen : len ≤ d.width) (hws1 : 1 ≤ ws) (hws8 : ws ≤ 8) :
    sub_word (sbuf_diff_cmp sb1 sb2 pos len (reset_engine d nbd) ws).2 (w * ws) ws =
      if word_flag sb1 sb2 pos len nbd (w * ws) ws = true
      then word_vald sb1 sb2 pos len ws nbd (w * ws) % 256 ^ ws else 0 := by
  obtain ⟨-, -, -, -, -, -, -, -, c9⟩ := fresh_cmp_spec sb1 sb2 pos len d nbd ws hws1 hd hlen
  have hi : w * ws % ws = 0 := Nat.mul_mod_left w ws
  unfold sub_word
  cases hw : word_flag sb1 sb2 pos len nbd (w * ws) ws
  · have hz : be_value ((List.range ws).map fun j =>
        rd (sbuf_diff_cmp sb1 sb2 pos len (reset_engine d nbd) ws).2.sub.ptr (w * ws + j)) =
        be_value ((List.range ws).map fun _ => 0) := by
      apply be_value_congr
      intro j hj
      rw [(c9 (w * ws + j)).2.1, (word_start (w * ws) ws j hws1 hi hj).1, hw]
      simp
    rw [hz, be_value_zeros]
    simp
  · simp only [if_true]
    -- number of bytes of the word inside the line
    have hz : be_value ((List.range ws).map fun j =>
        rd (sbuf_diff_cmp sb1 sb2 pos len (reset_engine d nbd) ws).2.sub.ptr (w * ws + j)) =
        be_value ((List.range ws).map fun j =>
          if w * ws + j < len
          then (word_vald sb1 sb2 pos len ws nbd (w * ws) >>> (8 * (ws - 1 - j))) &&& 0xff
          else 0) := by
      apply be_value_congr
      intro j hj
      rw [(c9 (w * ws + j)).2.1, (word_start (w * ws) ws j hws1 hi hj).1, hw]
      have h5 : w * ws + j - w * ws = j := by omega
      simp [h5]
    rw [hz]
    by_cases hfull : w * ws + ws ≤ len
    · have hz2 : be_value ((List.range ws).map fun j =>
          if w * ws + j < len
          then (word_vald sb1 sb2 pos len ws nbd (w * ws) >>> (8 * (ws - 1 - j))) &&& 0xff
          else 0) =
          be_value ((List.range ws).map fun j =>
            (word_vald sb1 sb2 pos len ws nbd (w * ws) >>> (8 * (ws - 1 - j))) &&& 0xff) := by
        apply be_value_congr
        intro j hj
        have : w * ws + j < len := by omega
        simp [this]
      rw [hz2, be_value_bytes _ ws ws (Nat.le_refl ws)]
      simp
    · have hm : ws = (len - w * ws) + (ws - (len - w * ws)) := by omega
      have hpad := be_value_pad (fun j =>
          if w * ws + j < len
          then (word_vald sb1 sb2 pos len ws nbd (w * ws) >>> (8 * (ws - 1 - j))) &&& 0xff
          else 0) (len - w * ws) (ws - (len - w * ws))
          (fun j h1 _ => by
            have : ¬ w * ws + j < len := by omega
            simp [this])
      rw [← hm] at hpad
      rw [hpad]
      have hz3 : be_value ((List.range (len - w * ws)).map fun j =>
          if w * ws + j < len
          then (word_vald sb1 sb2 pos len ws nbd (w * ws) >>> (8 * (ws - 1 - j))) &&& 0xff
          else 0) =
          be_value ((List.range (len - w * ws)).map fun j =>
            (word_vald sb1 sb2 pos len ws nbd (w * ws) >>> (8 * (ws - 1 - j))) &&& 0xff) := by
        apply be_value_congr
        intro j hj
        have : w * ws + j < len := by omega
        simp [this]
      rw [hz3, be_value_bytes _ ws (len - w * ws) (by omega)]
      have hdvd := word_vald_dvd sb1 sb2 pos len ws nbd (w * ws) (len - w * ws) (by omega) (by omega)
      rw [top_bytes_of_multiple _ _ _ hdvd, ← hm]


theorem neg_mod_pow (v1 v2 ws : Nat) (hws : ws ≤ 8) (h : v1 + v2 = 0 ∨ v1 + v2 = SIZE_T) :
    v2 % 256 ^ ws = (256 ^ ws - v1 % 256 ^ ws) % 256 ^ ws := by
  simp only [SIZE_T] at h
  interval_cases ws <;> norm_num <;> omega

theorem word_vald_swap (sb1 sb2 : sbuf) (pos len ws : Nat) (nbd : Int) (i : Nat) :
    word_vald sb1 sb2 pos len ws nbd i + word_vald sb2 sb1 pos len ws nbd i = 0 ∨
    word_vald sb1 sb2 pos len ws nbd i + word_vald sb2 sb1 pos len ws nbd i = SIZE_T := by
  have h1 := word_val_lt sb1 sb2 pos len nbd i ws
  have h2 := word_val_lt sb2 sb1 pos len nbd i ws
  unfold word_vald
  simp only [SIZE_T] at *
  omega

/-- C5: `sbuf_diff_cmp` is commutative up to sign.  Comparing `(A, B)` and comparing
`(B, A)`, each on a freshly reset engine with the same null policy, return the same
count and leave the same `cmp` flags, the same difference count and the same null
counts; and for every word of the line (marked or not) the subtraction word value of
one run is the negation modulo `256 ^ ws` of the other. -/
theorem cmp_commutes_up_to_sign (sb1 sb2 : sbuf) (pos len ws : Nat) (d : sbuf_diff) (nbd : Int)
    (hd : d.allocated) (hlen : len ≤ d.width) (hws1 : 1 ≤ ws) (hws8 : ws ≤ 8) :
    (sbuf_diff_cmp sb1 sb2 pos len (reset_engine d nbd) ws).1 =
      (sbuf_diff_cmp sb2 sb1 pos len (reset_engine d nbd) ws).1 ∧
    (sbuf_diff_cmp sb1 sb2 pos len (reset_engine d nbd) ws).2.cmp =
      (sbuf_diff_cmp sb2 sb1 pos len (reset_engine d nbd) ws).2.cmp ∧
    (sbuf_diff_cmp sb1 sb2 pos len (reset_engine d nbd) ws).2.cnt =
      (sbuf_diff_cmp sb2 sb1 pos len (reset_engine d nbd) ws).2.cnt ∧
    (sbuf_diff_cmp sb1 sb2 pos len (reset_engine d nbd) ws).2.null =
      (sbuf_diff_cmp sb2 sb1 pos len (reset_engine d nbd) ws).2.null ∧
    (∀ w, sub_word (sbuf_diff_cmp sb2 sb1 pos len (reset_engine d nbd) ws).2 (w * ws) ws =
      (256 ^ ws - sub_word (sbuf_diff_cmp sb1 sb2 pos len (reset_engine d nbd) ws).2 (w * ws) ws)
        % 256 ^ ws) := by
  obtain ⟨⟨a1, a2, a3⟩, r2, r3, r4, r5⟩ := reset_spec d nbd hd
  obtain ⟨p1, pf, p3, p4⟩ := cmp_spec sb1 sb2 pos len (reset_engine d nbd) ws hws1
    (by rw [r3]; decide) (by omega) (by omega) (by omega)
  obtain ⟨q1, qf, q3, q4⟩ := cmp_spec sb2 sb1 pos len (reset_engine d nbd) ws hws1
    (by rw [r3]; decide) (by omega) (by omega) (by omega)
  obtain ⟨-, -, -, -, -, -, pn1, pn2, pn3, pl1, -, pl3⟩ := pf
  obtain ⟨-, -, -, -, -, -, qn1, qn2, qn3, ql1, -, ql3⟩ := qf
  simp only at pn1 pn2 pn3 pl1 pl3 qn1 qn2 qn3 ql1 ql3
  have hcnt : (sbuf_diff_cmp sb1 sb2 pos len (reset_engine d nbd) ws).2.cnt =
      (sbuf_diff_cmp sb2 sb1 pos len (reset_engine d nbd) ws).2.cnt := by
    rw [p3, q3, diff_words_comm]
  refine ⟨by rw [p1, q1, hcnt], ?_, hcnt, ?_, ?_⟩
  · apply list_ext_rd _ _ (by rw [pl1, ql1])
    intro x _
    rw [(p4 x).1, (q4 x).1, word_flag_comm]
  · apply sbuf_eq _ _ _ (by rw [pn3, qn3]) (by rw [pn1, qn1]) (by rw [pn2, qn2])
    apply list_ext_rd _ _ (by rw [pl3, ql3])
    intro x _
    rw [(p4 x).2.2, (q4 x).2.2, null_hit_comm]
  · intro w
    rw [fresh_sub_word_any sb2 sb1 pos len ws d nbd w hd hlen hws1 hws8,
      fresh_sub_word_any sb1 sb2 pos len ws d nbd w hd hlen hws1 hws8,
      word_flag_comm sb2 sb1]
    cases word_flag sb1 sb2 pos len nbd (w * ws) ws
    · simp
    · simp only [if_true]
      exact neg_mod_pow _ _ ws hws8 (word_vald_swap sb1 sb2 pos len ws nbd (w * ws))

theorem cmp_commutes_up_to_sign_witness :
    (sbuf_diff_cmp demo_p demo_q 0 3 (reset_engine (demo_engine 3) 1) 2).1 =
      (sbuf_diff_cmp demo_q demo_p 0 3 (reset_engine (demo_engine 3) 1) 2).1 ∧
    (sbuf_diff_cmp demo_p demo_q 0 3 (reset_engine (demo_engine 3) 1) 2).2.cmp =
      (sbuf_diff_cmp demo_q demo_p 0 3 (reset_engine (demo_engine 3) 1) 2).2.cmp ∧
    (sbuf_diff_cmp demo_p demo_q 0 3 (reset_engine (demo_engine 3) 1) 2).2.cnt =
      (sbuf_diff_cmp demo_q demo_p 0 3 (reset_engine (demo_engine 3) 1) 2).2.cnt ∧
    (sbuf_diff_cmp demo_p demo_q 0 3 (reset_engine (demo_engine 3) 1) 2).2.null =
      (sbuf_diff_cmp demo_q demo_p 0 3 (reset_engine (demo_engine 3) 1) 2).2.null ∧
    (∀ w, sub_word (sbuf_diff_cmp demo_q demo_p 0 3 (reset_engine (demo_engine 3) 1) 2).2 (w * 2) 2 =
      (256 ^ 2 - sub_word (sbuf_diff_cmp demo_p demo_q 0 3 (reset_engine (demo_engine 3) 1) 2).2
        (w * 2) 2) % 256 ^ 2) :=
  cmp_commutes_up_to_sign demo_p demo_q 0 3 2 (demo_engine 3) 1
    (by decide) (by decide) (by decide) (by decide)

/-! ### Unmarking the only differing word -/

theorem rd_wr_zero (l : List Nat) (j x : Nat) :
    rd (wr l j 0) x = if j = x then 0 else rd l x := by
  rw [rd_wr]
  by_cases h : j = x
  · subst h
    by_cases h2 : j < l.length
    · simp [h2]
    · simp [h2, rd_ge l j (by omega)]
  · simp [h]

theorem rd_map_range (f : Nat → Nat) (n i : Nat) :
    rd ((List.range n).map f) i = if i < n then f i else 0 := by
  unfold rd
  by_cases h : i < n
  · simp [List.getD_eq_getElem?_getD, List.getElem?_range, h]
  · have e : (List.range n)[i]? = none := by
      apply List.getElem?_eq_none
      simp only [List.length_range]
      omega
    simp [List.getD_eq_getElem?_getD, h, e]

theorem length_memmove_front (p : List Nat) (off n : Nat) :
    (memmove_front p off n).length = p.length := by
  simp [memmove_front]

theorem rd_memmove_front (p : List Nat) (off n i : Nat) (h : i < n) :
    rd (memmove_front p off n) i = rd p (i + off) := by
  unfold memmove_front
  rw [rd_map_range]
  split_ifs with h1
  · rfl
  · symm; apply rd_ge; omega

theorem rd_memmove_front_rest (p : List Nat) (off n i : Nat) (h : n ≤ i) :
    rd (memmove_front p off n) i = rd p i := by
  unfold memmove_front
  rw [rd_map_range]
  split_ifs with h1 h2
  · omega
  · rfl
  · symm; apply rd_ge; omega

theorem memmove_front_lt_256 (p : List Nat) (off n : Nat) (hp : ∀ b ∈ p, b < 256) :
    ∀ b ∈ memmove_front p off n, b < 256 := by
  intro b hb
  simp only [memmove_front, List.mem_map, List.mem_range] at hb
  obtain ⟨i, _, hi⟩ := hb
  subst hi
  split_ifs
  · exact rd_lt_256 p _ hp
  · exact rd_lt_256 p _ hp

theorem sbuf_reduce_size (sb : sbuf) (pos : Nat) : (sbuf_reduce sb pos).size = sb.size := by
  unfold sbuf_reduce
  simp only
  split_ifs <;> rfl

theorem sbuf_reduce_len_le (sb : sbuf) (pos : Nat) : (sbuf_reduce sb pos).len ≤ sb.len := by
  unfold sbuf_reduce
  simp only
  split_ifs <;> simp

theorem sbuf_reduce_before (sb : sbuf) (pos : Nat) (h : pos ≤ sb.pos) :
    sbuf_reduce sb pos = sb := by
  unfold sbuf_reduce
  rw [if_pos h]

theorem sbuf_reduce_slide (sb : sbuf) (pos : Nat) (h1 : sb.pos < pos)
    (h2 : pos < sb.pos + sb.len) (hpos : pos < SIZE_T) :
    sbuf_reduce sb pos =
      { sb with
        ptr := memmove_front sb.ptr (pos - sb.pos) (sb.len - (pos - sb.pos))
        pos := pos
        len := sb.len - (pos - sb.pos) } := by
  unfold sbuf_reduce
  rw [if_neg (by omega)]
  simp only
  rw [if_pos (by omega)]
  have e : (sb.pos + (pos - sb.pos)) % SIZE_T = pos := by
    rw [Nat.add_sub_cancel' (le_of_lt h1)]
    exact Nat.mod_eq_of_lt hpos
  rw [e]

theorem sbuf_reduce_drop (sb : sbuf) (pos : Nat) (h1 : sb.pos < pos)
    (h2 : sb.pos + sb.len ≤ pos) (hpos : pos < SIZE_T) :
    sbuf_reduce sb pos = { sb with pos := sb.pos + sb.len, len := 0 } := by
  unfold sbuf_reduce
  rw [if_neg (by omega)]
  simp only
  rw [if_neg (by omega)]
  have e : (sb.pos + sb.len) % SIZE_T = sb.pos + sb.len :=
    Nat.mod_eq_of_lt (lt_of_le_of_lt h2 hpos)
  rw [e]

/-- C11: for a position strictly before the base position of a window,
`sbuf_before` is the distance `sb.pos - pos` to the base and `sbuf_avail` is
`sbuf_before` plus the length, as the `size_t` sum the source computes; it is the
exact sum whenever the window ends below `2 ^ 64`. -/
theorem avail_before_base (sb : sbuf) (pos : Nat) (h : pos < sb.pos) :
    sbuf_before sb pos = sb.pos - pos ∧
    sbuf_avail sb pos = (sbuf_before sb pos + sb.len) % SIZE_T ∧
    (sb.pos + sb.len < SIZE_T → sbuf_avail sb pos = sbuf_before sb pos + sb.len) := by
  have hb : sbuf_before sb pos = sb.pos - pos := by
    unfold sbuf_before
    rw [if_neg (by omega), if_pos h]
  have ha : sbuf_avail sb pos = (sb.pos - pos + sb.len) % SIZE_T := by
    unfold sbuf_avail
    rw [if_neg (by omega), if_pos h]
  refine ⟨hb, ?_, ?_⟩
  · rw [ha, hb]
  · intro hw
    rw [ha, hb]
    apply Nat.mod_eq_of_lt
    omega

theorem avail_before_base_witness :
    1 < demo_mid.pos ∧ sbuf_before demo_mid 1 = demo_mid.pos - 1 ∧
    sbuf_avail demo_mid 1 = (sbuf_before demo_mid 1 + demo_mid.len) % SIZE_T ∧
    (demo_mid.pos + demo_mid.len < SIZE_T →
      sbuf_avail demo_mid 1 = sbuf_before demo_mid 1 + demo_mid.len) :=
  ⟨by decide, avail_before_base demo_mid 1 (by decide)⟩

/-- C12, the claim as written fails: reducing the window holding two bytes at
positions 0 and 1 to position 5, which is beyond its data, leaves the base position
at 2 (the old end of the data), not at 5. -/
theorem reduce_past_end_base_is_not_pos :
    demo_two.pos + demo_two.len < 5 ∧ (sbuf_reduce demo_two 5).len = 0 ∧
    (sbuf_reduce demo_two 5).pos = 2 ∧ (sbuf_reduce demo_two 5).pos ≠ 5 := by
  decide

/-- C12 (amended): for a position beyond the real data of a window entirely,
`sbuf_reduce` drops everything: it leaves length 0 and moves the base position to
the old end of the data `sb.pos + sb.len`, which is below `pos`; the stored bytes
and the capacity are untouched. -/
theorem reduce_past_end (sb : sbuf) (pos : Nat) (h : sb.pos + sb.len < pos)
    (hpos : pos < SIZE_T) :
    (sbuf_reduce sb pos).len = 0 ∧ (sbuf_reduce sb pos).pos = sb.pos + sb.len ∧
    (sbuf_reduce sb pos).pos < pos ∧ (sbuf_reduce sb pos).ptr = sb.ptr ∧
    (sbuf_reduce sb pos).size = sb.size := by
  rw [sbuf_reduce_drop sb pos (by omega) (by omega) hpos]
  exact ⟨rfl, rfl, h, rfl, rfl⟩

theorem reduce_past_end_witness :
    (sbuf_reduce demo_two 5).len = 0 ∧ (sbuf_reduce demo_two 5).pos = demo_two.pos + demo_two.len ∧
    (sbuf_reduce demo_two 5).pos < 5 ∧ (sbuf_reduce demo_two 5).ptr = demo_two.ptr ∧
    (sbuf_reduce demo_two 5).size = demo_two.size :=
  reduce_past_end demo_two 5 (by decide) (by decide)

/-- C13: `sbuf_reduce` is idempotent: reducing a window to `pos` a second time
gives the very window state (stored bytes, capacity, base position, length) the
first reduction gave. -/
theorem reduce_idempotent (sb : sbuf) (pos : Nat) (hpos : pos < SIZE_T) :
    sbuf_reduce (sbuf_reduce sb pos) pos = sbuf_reduce sb pos := by
  by_cases h0 : pos ≤ sb.pos
  · rw [sbuf_reduce_before sb pos h0, sbuf_reduce_before sb pos h0]
  · by_cases h1 : pos < sb.pos + sb.len
    · rw [sbuf_reduce_slide sb pos (by omega) h1 hpos]
      exact sbuf_reduce_before _ pos (le_refl _)
    · rw [sbuf_reduce_drop sb pos (by omega) (by omega) hpos]
      by_cases h2 : pos = sb.pos + sb.len
      · exact sbuf_reduce_before _ pos (le_of_eq h2)
      · rw [sbuf_reduce_drop _ pos (by simp only; omega) (by simp only; omega) hpos]
        simp only [Nat.add_zero]

theorem reduce_idempotent_witness :
    sbuf_reduce (sbuf_reduce demo_two 1) 1 = sbuf_reduce demo_two 1 ∧
    sbuf_reduce demo_two 1 = { ptr := [20, 20, 0, 0], size := 4, pos := 1, len := 1 } :=
  ⟨reduce_idempotent demo_two 1 (by decide), by decide⟩

/-- C14: `sbuf_reduce(sb, pos)` only discards data strictly before `pos`: at every
position `q >= pos` the window answers `sbuf_char` after the reduction with the
same byte, or the same absence, as before it; and when `pos` lies strictly inside
the data (`sb.pos < pos < sb.pos + sb.len`) the new base position is `pos` and the
new length is `sb.len - (pos - sb.pos)`. -/
theorem reduce_keeps_data_from_pos (sb : sbuf) (pos q : Nat) (hpos : pos < SIZE_T)
    (hq : pos ≤ q) :
    sbuf_char (sbuf_reduce sb pos) q = sbuf_char sb q ∧
    (sb.pos < pos → pos < sb.pos + sb.len →
      (sbuf_reduce sb pos).pos = pos ∧
      (sbuf_reduce sb pos).len = sb.len - (pos - sb.pos)) := by
  constructor
  · by_cases h0 : pos ≤ sb.pos
    · rw [sbuf_reduce_before sb pos h0]
    · by_cases h1 : pos < sb.pos + sb.len
      · rw [sbuf_reduce_slide sb pos (by omega) h1 hpos]
        unfold sbuf_char
        simp only
        have e : pos + (sb.len - (pos - sb.pos)) = sb.pos + sb.len := by omega
        have hq1 : ¬ q < pos := by omega
        have hq2 : ¬ q < sb.pos := by omega
        simp only [e, hq1, hq2, if_false]
        split_ifs with h2
        · rfl
        · have hle : (sb.pos + sb.len) % SIZE_T ≤ sb.pos + sb.len := Nat.mod_le _ _
          rw [rd_memmove_front _ _ _ _ (by omega)]
          congr 2
          omega
      · rw [sbuf_reduce_drop sb pos (by omega) (by omega) hpos]
        have hle : (sb.pos + sb.len) % SIZE_T ≤ sb.pos + sb.len := Nat.mod_le _ _
        unfold sbuf_char
        simp only [Nat.add_zero]
        have hq1 : ¬ q < sb.pos + sb.len := by omega
        have hq3 : q ≥ (sb.pos + sb.len) % SIZE_T := by omega
        simp only [hq1, hq3, if_false, if_true]
        split_ifs <;> rfl
  · intro h1 h2
    rw [sbuf_reduce_slide sb pos h1 h2 hpos]
    exact ⟨rfl, rfl⟩

theorem reduce_keeps_data_from_pos_witness :
    sbuf_char (sbuf_reduce demo_mid 5) 6 = sbuf_char demo_mid 6 ∧
    sbuf_char demo_mid 6 = some 4 ∧
    (demo_mid.pos < 5 → 5 < demo_mid.pos + demo_mid.len →
      (sbuf_reduce demo_mid 5).pos = 5 ∧
      (sbuf_reduce demo_mid 5).len = demo_mid.len - (5 - demo_mid.pos)) :=
  ⟨(reduce_keeps_data_from_pos demo_mid 5 6 (by decide) (by decide)).1, by decide,
    (reduce_keeps_data_from_pos demo_mid 5 6 (by decide) (by decide)).2⟩

/-- C16, the claim as written fails: queried at position 5, beyond the two bytes it
holds at positions 0 and 1, the window answers `sbuf_rpos` with 5, which is past
the end of its real data. -/
theorem rpos_past_end_of_data :
    sbuf_rpos demo_two 5 = 5 ∧ ¬ sbuf_rpos demo_two 5 ≤ demo_two.pos + demo_two.len := by
  decide

/-- C16 (amended): `sbuf_rpos(sb, pos)` returns `max(pos, sb.pos)`; the result is at
most the end `sb.pos + sb.len` of the real data exactly when `pos` is, and for a
`pos` past that end it is `pos` itself. -/
theorem rpos_is_max (sb : sbuf) (pos : Nat) :
    sbuf_rpos sb pos = max pos sb.pos ∧
    (sbuf_rpos sb pos ≤ sb.pos + sb.len ↔ pos ≤ sb.pos + sb.len) ∧
    (sb.pos + sb.len < pos → sbuf_rpos sb pos = pos) := by
  have h : sbuf_rpos sb pos = max pos sb.pos := by
    unfold sbuf_rpos
    split_ifs with h1 h2 h3
    · rw [max_eq_left (by omega)]
    · rw [max_eq_right (by omega)]
    · rw [max_eq_left (by omega)]
    · rw [max_eq_left (by omega)]
  refine ⟨h, ?_, ?_⟩
  · rw [h]
    constructor
    · intro h1
      exact le_trans (le_max_left _ _) h1
    · intro h1
      exact max_le h1 (Nat.le_add_right _ _)
  · intro h1
    rw [h, max_eq_left (by omega)]

/-- C17, the claim as written fails: the window at position 1 that holds no byte has
`sbuf_len` 0 both at its base position and before it, and `sbuf_ptr` returns the
start of the buffer, not `NULL`, in both cases.  And for the window that holds 4
bytes from position `2^64 - 2` on, `sbuf_len` compares with the wrapped sum
`sb.pos + sb.len = 2` and is 0 at position `2^64 - 1`, where `sbuf_ptr` returns the
pointer to the second stored byte. -/
theorem ptr_of_empty_window_not_null :
    (demo_empty.len = 0 ∧
      sbuf_len demo_empty 0 = 0 ∧ sbuf_ptr demo_empty 0 = some 0 ∧
      sbuf_len demo_empty 1 = 0 ∧ sbuf_ptr demo_empty 1 = some 0) ∧
    (sbuf_len demo_wrap (SIZE_T - 1) = 0 ∧ sbuf_ptr demo_wrap (SIZE_T - 1) = some 1) := by
  decide

/-- C17 (amended): for every window whose data ends below `2^64`
(`sb.pos + sb.len < 2^64`) and every `pos`, except a window that holds no byte
queried at or before its base position: `sbuf_len(sb, pos)` is 0 exactly when
`sbuf_ptr(sb, pos)` is `NULL`, and a non-`NULL` result is the pointer to stored index
`sbuf_rpos(sb, pos) - sb.pos`, from which `sbuf_len(sb, pos) >= 1` real bytes run up
to the end of the data.  In the excepted case `sbuf_len` is 0 and `sbuf_ptr` returns
the start of the buffer, which is stored index `sbuf_rpos(sb, pos) - sb.pos = 0`.  A
`NULL` result always comes with `sbuf_len(sb, pos) = 0`, and for a `pos` before the
base position `sbuf_ptr` returns the start of the buffer whatever the length. -/
theorem ptr_null_iff_len_zero (sb : sbuf) (pos : Nat) (hw : sb.pos + sb.len < SIZE_T) :
    (¬ (sb.len = 0 ∧ pos ≤ sb.pos) →
      (sbuf_len sb pos = 0 ↔ sbuf_ptr sb pos = none) ∧
      (∀ k, sbuf_ptr sb pos = some k →
        k = sbuf_rpos sb pos - sb.pos ∧ 1 ≤ sbuf_len sb pos ∧
        k + sbuf_len sb pos = sb.len)) ∧
    (sb.len = 0 ∧ pos ≤ sb.pos →
      sbuf_len sb pos = 0 ∧ sbuf_ptr sb pos = some 0 ∧ sbuf_rpos sb pos - sb.pos = 0) ∧
    (sbuf_ptr sb pos = none → sbuf_len sb pos = 0) ∧
    (pos < sb.pos → sbuf_ptr sb pos = some 0) := by
  have e : (sb.pos + sb.len) % SIZE_T = sb.pos + sb.len := Nat.mod_eq_of_lt hw
  have hptr : sbuf_ptr sb pos =
      if pos > sb.pos ∧ pos - sb.pos ≥ sb.len then none
      else if pos ≤ sb.pos then some 0 else some (pos - sb.pos) := by
    unfold sbuf_ptr
    split_ifs <;> first | rfl | omega
  have hlen : sbuf_len sb pos =
      if pos ≥ sb.pos + sb.len then 0
      else if pos ≤ sb.pos then sb.len else sb.len - (pos - sb.pos) := by
    unfold sbuf_len
    rw [e]
    split_ifs <;> first | rfl | omega
  have hrpos : sbuf_rpos sb pos = max pos sb.pos := by
    unfold sbuf_rpos
    split_ifs with h1 h2 h3
    · rw [max_eq_left (by omega)]
    · rw [max_eq_right (by omega)]
    · rw [max_eq_left (by omega)]
    · rw [max_eq_left (by omega)]
  refine ⟨?_, ?_, ?_, ?_⟩
  · intro hex
    rw [hptr, hlen, hrpos]
    by_cases h1 : pos > sb.pos ∧ pos - sb.pos ≥ sb.len
    · rw [if_pos h1, if_pos (by omega)]
      exact ⟨⟨fun _ => rfl, fun _ => rfl⟩, fun k hk => by cases hk⟩
    · rw [if_neg h1, if_neg (by omega)]
      by_cases h2 : pos ≤ sb.pos
      · rw [if_pos h2, if_pos h2, max_eq_right h2]
        refine ⟨⟨fun h => by omega, fun h => by cases h⟩, ?_⟩
        intro k hk
        simp only [Option.some.injEq] at hk
        omega
      · rw [if_neg h2, if_neg h2, max_eq_left (by omega)]
        refine ⟨⟨fun h => by omega, fun h => by cases h⟩, ?_⟩
        intro k hk
        simp only [Option.some.injEq] at hk
        omega
  · rintro ⟨h0, hle⟩
    have hp : sbuf_ptr sb pos = some 0 := by
      rw [hptr, if_neg (by omega), if_pos hle]
    have hl : sbuf_len sb pos = 0 := by
      rw [hlen]
      split_ifs <;> omega
    refine ⟨hl, hp, ?_⟩
    rw [hrpos, max_eq_right hle]
    omega
  · intro hn
    rw [hptr] at hn
    rw [hlen]
    split_ifs at hn with h1
    rw [if_pos (by omega)]
  · intro h1
    rw [hptr, if_neg (by omega), if_pos (by omega)]

theorem ptr_null_iff_len_zero_witness :
    demo_mid.pos + demo_mid.len < SIZE_T ∧ ¬ (demo_mid.len = 0 ∧ 5 ≤ demo_mid.pos) ∧
    sbuf_ptr demo_mid 5 = some 2 ∧ sbuf_len demo_mid 5 = 2 ∧ sbuf_ptr demo_mid 7 = none ∧
    ((sbuf_len demo_mid 5 = 0 ↔ sbuf_ptr demo_mid 5 = none) ∧
      (∀ k, sbuf_ptr demo_mid 5 = some k →
        k = sbuf_rpos demo_mid 5 - demo_mid.pos ∧ 1 ≤ sbuf_len demo_mid 5 ∧
        k + sbuf_len demo_mid 5 = demo_mid.len)) ∧
    (sbuf_len demo_empty 5 = 0 ↔ sbuf_ptr demo_empty 5 = none) :=
  ⟨by decide, by decide, by decide, by decide, by decide,
   (ptr_null_iff_len_zero demo_mid 5 (by decide)).1 (by decide),
   ((ptr_null_iff_len_zero demo_empty 5 (by decide)).1 (by decide)).1⟩

/-! ### `sbuf_word` on every position -/

theorem byte_or_zero_lt (sb : sbuf) (q : Nat) (hv : sb.valid) : byte_or_zero sb q < 256 := by
  unfold byte_or_zero
  split_ifs
  · exact rd_lt_256 _ _ hv.2.2
  · norm_num

theorem length_read_store (p : List Nat) (off : Nat) (bytes : List Nat) (n : Nat) :
    (read_store p off bytes n).length = p.length := by
  simp [read_store]

/-- Under the window invariant the count `sfile_read` requests is at most the spare
capacity. -/
theorem read_size_le (sb : sbuf) (h : sb.len ≤ sb.size) :
    (sb.size + SIZE_T - sb.len) % SIZE_T ≤ sb.size - sb.len := by
  rw [show sb.size + SIZE_T - sb.len = sb.size - sb.len + SIZE_T by omega, Nat.add_mod_right]
  exact Nat.mod_le _ _

theorem sfile_read_size (sf : sfile) (sb : sbuf) (o : read_outcome) :
    (sfile_read sf sb o).2.2.size = sb.size := by
  unfold sfile_read
  simp only
  split_ifs <;> rfl

theorem sfile_read_at_eof (sf : sfile) (sb : sbuf) (o : read_outcome) (h : sf.eof ≠ 0) :
    sfile_read sf sb o = (0, sf, sb) := by
  unfold sfile_read
  rw [if_pos h]

theorem sfile_reads_cons (sf : sfile) (sb : sbuf) (o : read_outcome) (os : List read_outcome) :
    sfile_reads sf sb (o :: os) =
      sfile_reads (sfile_read sf sb o).2.1 (sfile_read sf sb o).2.2 os := rfl

theorem sfile_reads_append (sf : sfile) (sb : sbuf) (os1 os2 : List read_outcome) :
    sfile_reads sf sb (os1 ++ os2) =
      sfile_reads (sfile_reads sf sb os1).1 (sfile_reads sf sb os1).2 os2 := by
  unfold sfile_reads
  rw [List.foldl_append]

theorem sfile_reads_at_eof (sf : sfile) (sb : sbuf) (os : List read_outcome) (h : sf.eof ≠ 0) :
    sfile_reads sf sb os = (sf, sb) := by
  induction os with
  | nil => rfl
  | cons o os ih => rw [sfile_reads_cons, sfile_read_at_eof sf sb o h]; exact ih

/-- One call sets the flag only when it called `read` and `read` returned 0. -/
theorem sfile_read_sets_eof (sf : sfile) (sb : sbuf) (o : read_outcome) (h : sf.eof = 0)
    (h1 : (sfile_read sf sb o).2.1.eof ≠ 0) :
    o.br = 0 ∧ (sb.size + SIZE_T - sb.len) % SIZE_T ≠ 0 := by
  unfold sfile_read at h1
  rw [if_neg (by rw [h]; simp)] at h1
  simp only at h1
  split_ifs at h1 with h2 h3 h4
  · exact absurd h h1
  · exact absurd h h1
  · exact ⟨h4, h2⟩
  · exact absurd h h1

theorem sfile_reads_no_eof (os : List read_outcome) :
    ∀ (sf : sfile) (sb : sbuf), sf.eof = 0 → (∀ o ∈ os, o.br ≠ 0) →
      (sfile_reads sf sb os).1.eof = 0 := by
  induction os with
  | nil => intro sf sb h _; exact h
  | cons o os ih =>
    intro sf sb h hos
    rw [sfile_reads_cons]
    apply ih
    · by_contra hc
      exact hos o (List.mem_cons_self _ _) (sfile_read_sets_eof sf sb o h hc).1
    · intro o1 ho1
      exact hos o1 (List.mem_cons_of_mem _ ho1)

theorem sfile_eoo_no_eof (sf : sfile) (sb : sbuf) (pos : Nat) (h : sf.eof = 0) :
    sfile_eoo sf sb pos = 0 := by
  unfold sfile_eoo
  rw [if_neg]
  intro hc
  exact hc.1 h

/-- C18: the window invariant `len <= size`: it holds for the window `sbuf_malloc`
returns, and `sbuf_reduce`, `sfile_shift` and `sfile_read` (when the underlying
`read` returns at most the count requested of it) take a window that satisfies it
to a window that satisfies it; none of the four changes `size` (for `sbuf_malloc`:
it is the size asked for). -/
theorem len_le_size_invariant (sf : sfile) (sb : sbuf) (n pos len : Nat) (o : read_outcome)
    (h : sb.len ≤ sb.size) (hcount : o.br ≤ (((sb.size + SIZE_T - sb.len) % SIZE_T : Nat) : Int)) :
    (∀ sb0, sbuf_malloc n = some sb0 → sb0.len ≤ sb0.size ∧ sb0.size = n) ∧
    ((sbuf_reduce sb pos).len ≤ (sbuf_reduce sb pos).size ∧
      (sbuf_reduce sb pos).size = sb.size) ∧
    ((sfile_shift sf sb len).2.len ≤ (sfile_shift sf sb len).2.size ∧
      (sfile_shift sf sb len).2.size = sb.size) ∧
    ((sfile_read sf sb o).2.2.len ≤ (sfile_read sf sb o).2.2.size ∧
      (sfile_read sf sb o).2.2.size = sb.size) := by
  refine ⟨?_, ⟨?_, sbuf_reduce_size sb pos⟩, ⟨h, rfl⟩, ⟨?_, sfile_read_size sf sb o⟩⟩
  · intro sb0 h0
    unfold sbuf_malloc at h0
    split_ifs at h0
    simp only [Option.some.injEq] at h0
    subst h0
    exact ⟨Nat.zero_le _, rfl⟩
  · rw [sbuf_reduce_size]
    exact le_trans (sbuf_reduce_len_le sb pos) h
  · rw [sfile_read_size]
    have hrs := read_size_le sb h
    unfold sfile_read
    simp only
    split_ifs with h1 h2 h3 h4
    · exact h
    · exact h
    · simp only
      have hle : (sb.len + o.br.toNat) % SIZE_T ≤ sb.len + o.br.toNat := Nat.mod_le _ _
      have hbr : (o.br.toNat : Int) = o.br := Int.toNat_of_nonneg (le_of_lt h3)
      omega
    · exact h
    · exact h

theorem len_le_size_invariant_witness :
    demo_two.len ≤ demo_two.size ∧
    (sfile_read sfile_malloc demo_two demo_read2).2.2 =
      { ptr := [10, 20, 7, 8], size := 4, pos := 0, len := 4 } ∧
    ((∀ sb0, sbuf_malloc 4 = some sb0 → sb0.len ≤ sb0.size ∧ sb0.size = 4) ∧
    ((sbuf_reduce demo_two 1).len ≤ (sbuf_reduce demo_two 1).size ∧
      (sbuf_reduce demo_two 1).size = demo_two.size) ∧
    ((sfile_shift sfile_malloc demo_two 3).2.len ≤ (sfile_shift sfile_malloc demo_two 3).2.size ∧
      (sfile_shift sfile_malloc demo_two 3).2.size = demo_two.size) ∧
    ((sfile_read sfile_malloc demo_two demo_read2).2.2.len ≤
        (sfile_read sfile_malloc demo_two demo_read2).2.2.size ∧
      (sfile_read sfile_malloc demo_two demo_read2).2.2.size = demo_two.size)) :=
  ⟨by decide, by decide,
    len_le_size_invariant sfile_malloc demo_two 4 1 3 demo_read2 (by decide) (by decide)⟩

/-- C19: over any sequence of `sfile_read` calls, whatever the underlying reads
return: a call sets the eof flag only if it called `read` and `read` returned
exactly 0; a call made with the flag set returns 0 and leaves reader and window as
they are, so the flag stays set and nothing changes over any later calls; and from
a reader whose flag is clear, as long as no read has returned 0 the flag is clear
and `sfile_eoo` is 0 at every position. -/
theorem eof_only_after_zero_read (sf : sfile) (sb : sbuf) (o : read_outcome)
    (os later : List read_outcome) :
    (sf.eof = 0 → (sfile_read sf sb o).2.1.eof ≠ 0 →
      o.br = 0 ∧ (sb.size + SIZE_T - sb.len) % SIZE_T ≠ 0) ∧
    (sf.eof ≠ 0 → sfile_read sf sb o = (0, sf, sb)) ∧
    ((sfile_reads sf sb os).1.eof ≠ 0 →
      sfile_reads sf sb (os ++ later) = sfile_reads sf sb os) ∧
    (sf.eof = 0 → (∀ o1 ∈ os, o1.br ≠ 0) →
      (sfile_reads sf sb os).1.eof = 0 ∧
      ∀ pos, sfile_eoo (sfile_reads sf sb os).1 (sfile_reads sf sb os).2 pos = 0) := by
  refine ⟨sfile_read_sets_eof sf sb o, sfile_read_at_eof sf sb o, ?_, ?_⟩
  · intro h
    rw [sfile_reads_append]
    exact sfile_reads_at_eof _ _ later h
  · intro h hos
    have h1 := sfile_reads_no_eof os sf sb h hos
    exact ⟨h1, fun pos => sfile_eoo_no_eof _ _ pos h1⟩

theorem eof_only_after_zero_read_witness :
    (sfile_reads sfile_malloc demo_empty [demo_read0]).1.eof ≠ 0 ∧
    sfile_reads sfile_malloc demo_empty ([demo_read0] ++ [demo_read2]) =
      sfile_reads sfile_malloc demo_empty [demo_read0] ∧
    ((sfile_reads sfile_malloc demo_two [demo_read2]).1.eof = 0 ∧
      ∀ pos, sfile_eoo (sfile_reads sfile_malloc demo_two [demo_read2]).1
        (sfile_reads sfile_malloc demo_two [demo_read2]).2 pos = 0) :=
  ⟨by decide,
    (eof_only_after_zero_read sfile_malloc demo_empty demo_read0 [demo_read0]
      [demo_read2]).2.2.1 (by decide),
    (eof_only_after_zero_read sfile_malloc demo_two demo_read2 [demo_read2] []).2.2.2
      (by decide) (by decide)⟩

/-- C20: when the window has no spare capacity (`len = size`) and the eof flag is
clear, `sfile_read` returns -1, a negative result and not the end-of-file result 0;
it does not call `read` (the result is the same whatever `read` would have done)
and it leaves the window and the reader exactly as they were. -/
theorem read_full_window_fails (sf : sfile) (sb : sbuf) (o : read_outcome)
    (hfull : sb.len = sb.size) (heof : sf.eof = 0) :
    (sfile_read sf sb o).1 = -1 ∧ (sfile_read sf sb o).1 < 0 ∧
    (sfile_read sf sb o).2 = (sf, sb) ∧
    ∀ o1, sfile_read sf sb o1 = sfile_read sf sb o := by
  have hz : (sb.size + SIZE_T - sb.len) % SIZE_T = 0 := by
    rw [hfull, Nat.add_sub_cancel_left, Nat.mod_self]
  have key : ∀ o1, sfile_read sf sb o1 = (-1, sf, sb) := by
    intro o1
    unfold sfile_read
    rw [if_neg (by rw [heof]; simp)]
    simp only
    rw [if_pos hz]
  refine ⟨?_, ?_, ?_, ?_⟩
  · rw [key]
  · rw [key]
    show (-1 : Int) < 0
    decide
  · rw [key]
  · intro o1
    rw [key, key]

theorem read_full_window_fails_witness :
    demo_mid.len = demo_mid.size ∧ sfile_malloc.eof = 0 ∧
    (sfile_read sfile_malloc demo_mid demo_read2).1 = -1 ∧
    (sfile_read sfile_malloc demo_mid demo_read2).1 < 0 ∧
    (sfile_read sfile_malloc demo_mid demo_read2).2 = (sfile_malloc, demo_mid) ∧
    ∀ o1, sfile_read sfile_malloc demo_mid o1 = sfile_read sfile_malloc demo_mid demo_read2 :=
  ⟨by decide, by decide, read_full_window_fails sfile_malloc demo_mid demo_read2 (by decide)
    (by decide)⟩

/-! ### The display decision -/

theorem print_lines_snoc (flags file_cnt context : Nat) (h : List Nat) (x ca : Nat) :
    (main_print_lines flags file_cnt context (h ++ [x]) ca).2 =
      (main_print_line flags file_cnt x (main_print_lines flags file_cnt context h ca).2
        context).2 := by
  induction h generalizing ca with
  | nil => simp [main_print_lines]
  | cons y h ih => simp only [List.cons_append, main_print_lines]; exact ih _

/-- The counter after a history without a differing line is still the initial one. -/
theorem counter_no_diff (flags file_cnt context : Nat) (hv : flags &&& FLAG_VERBOSE = 0)
    (hf : file_cnt ≠ 1) (hctx : context < SIZE_T) (h : List Nat) :
    (∀ x ∈ h, x = 0) →
      (main_print_lines flags file_cnt context h MAX_LENGTH).2 = MAX_LENGTH := by
  induction h using List.reverseRecOn with
  | nil => intro _; rfl
  | append_singleton h x ih =>
    intro hz
    have hx : x = 0 := hz x (by simp)
    rw [print_lines_snoc, ih (fun y hy => hz y (by simp [hy])), hx]
    have h1 : ¬ (flags &&& FLAG_VERBOSE ≠ 0 ∨ file_cnt = 1) := by
      intro hc
      rcases hc with hc | hc
      · exact hc hv
      · exact hf hc
    have h2 : ¬ MAX_LENGTH < context := by
      simp only [MAX_LENGTH, SIZE_T] at *
      omega
    simp only [main_print_line, h1, if_false, gt_iff_lt, lt_self_iff_false, h2]

/-- The counter after a history with a differing line counts the lines since the
last one, up to `context`. -/
theorem counter_since_diff (flags file_cnt context : Nat) (hv : flags &&& FLAG_VERBOSE = 0)
    (hf : file_cnt ≠ 1) (hctx : context < SIZE_T) (h : List Nat) :
    ∀ a d z, h = a ++ d :: z → d ≠ 0 → (∀ x ∈ z, x = 0) →
      (main_print_lines flags file_cnt context h MAX_LENGTH).2 = min z.length context := by
  have h1 : ¬ (flags &&& FLAG_VERBOSE ≠ 0 ∨ file_cnt = 1) := by
    intro hc
    rcases hc with hc | hc
    · exact hc hv
    · exact hf hc
  induction h using List.reverseRecOn with
  | nil =>
    intro a d z he
    simp at he
  | append_singleton h x ih =>
    intro a d z he hd hz
    rw [print_lines_snoc]
    rcases List.eq_nil_or_concat z with hzn | ⟨z0, y, hzy⟩
    · subst hzn
      have he2 : h ++ [x] = a ++ [d] := he
      have hx : x = d := by
        have := congrArg List.getLast? he2
        simpa using this
      subst hx
      have hpos : x > 0 := Nat.pos_of_ne_zero hd
      simp only [main_print_line, h1, if_false, hpos, if_true, List.length_nil, Nat.zero_min]
    · rw [List.concat_eq_append] at hzy
      subst hzy
      have he2 : h ++ [x] = (a ++ d :: z0) ++ [y] := by
        rw [he]; simp
      have hh : h = a ++ d :: z0 := List.append_inj_left' he2 rfl
      have hxy : x = y := by
        have := List.append_inj_right' he2 rfl
        simpa using this
      have hy0 : y = 0 := hz y (by simp)
      rw [ih a d z0 hh hd (fun w hw => hz w (by simp [hw])), hxy, hy0]
      have hn : ¬ (0 > 0) := by omega
      simp only [main_print_line, h1, if_false, hn, List.length_append, List.length_singleton]
      by_cases hlt : min z0.length context < context
      · simp only [hlt, if_true]
        have hl : z0.length < context := by
          rcases Nat.lt_or_ge z0.length context with h3 | h3
          · exact h3
          · rw [min_eq_right h3] at hlt; omega
        rw [min_eq_left (le_of_lt hl), min_eq_left (by omega)]
        apply Nat.mod_eq_of_lt
        omega
      · simp only [hlt, if_false]
        have hl : context ≤ z0.length := by
          rcases Nat.lt_or_ge z0.length context with h3 | h3
          · rw [min_eq_left (le_of_lt h3)] at hlt; omega
          · exact h3
        rw [min_eq_right hl, min_eq_right (by omega)]

/-- A history with a differing line splits at its last differing line. -/
theorem exists_last_diff (h : List Nat) :
    (∃ x ∈ h, x ≠ 0) → ∃ a d z, h = a ++ d :: z ∧ d ≠ 0 ∧ ∀ x ∈ z, x = 0 := by
  induction h using List.reverseRecOn with
  | nil => intro ⟨x, hx, _⟩; simp at hx
  | append_singleton h y ih =>
    intro ⟨x, hx, hx0⟩
    by_cases hy : y = 0
    · have hxh : x ∈ h := by
        simp only [List.mem_append, List.mem_singleton] at hx
        rcases hx with hx | hx
        · exact hx
        · exact absurd (hx.trans hy) hx0
      obtain ⟨a, d, z, he, hd, hz⟩ := ih ⟨x, hxh, hx0⟩
      refine ⟨a, d, z ++ [y], by rw [he]; simp, hd, ?_⟩
      intro w hw
      simp only [List.mem_append, List.mem_singleton] at hw
      rcases hw with hw | hw
      · exact hz w hw
      · exact hw.trans hy
    · exact ⟨h, y, [], rfl, hy, by simp⟩

/-- C26: the display decision as a state machine over the counter `context_after`
(initially `MAX_LENGTH`): a line is displayed iff the verbose flag is set, or there
is one file only, or its difference count is not zero, or the counter is below
`context`; consequently, without the verbose flag and with two or more files, after
any history of lines a line without difference is displayed iff the history has a
differing line and fewer than `context` lines (all without difference) follow the
last differing one. -/
theorem display_decision (flags file_cnt context cnt ca : Nat) (history : List Nat)
    (hctx : context < SIZE_T) :
    ((main_print_line flags file_cnt cnt ca context).1 = true ↔
      (flags &&& FLAG_VERBOSE ≠ 0 ∨ file_cnt = 1 ∨ cnt ≠ 0 ∨ ca < context)) ∧
    (flags &&& FLAG_VERBOSE = 0 → file_cnt ≠ 1 →
      ((main_print_line flags file_cnt 0
          (main_print_lines flags file_cnt context history MAX_LENGTH).2 context).1 = true ↔
        ∃ a d z, history = a ++ d :: z ∧ d ≠ 0 ∧ (∀ x ∈ z, x = 0) ∧ z.length < context)) := by
  have first : ∀ cnt ca, ((main_print_line flags file_cnt cnt ca context).1 = true ↔
      (flags &&& FLAG_VERBOSE ≠ 0 ∨ file_cnt = 1 ∨ cnt ≠ 0 ∨ ca < context)) := by
    intro cnt ca
    unfold main_print_line
    split_ifs with h1 h2 h3
    · simp only [true_iff]
      rcases h1 with h1 | h1
      · exact Or.inl h1
      · exact Or.inr (Or.inl h1)
    · simp only [true_iff]
      exact Or.inr (Or.inr (Or.inl (by omega)))
    · simp only [true_iff]
      exact Or.inr (Or.inr (Or.inr h3))
    · simp only [Bool.false_eq_true, false_iff]
      intro hc
      rcases hc with hc | hc | hc | hc
      · exact h1 (Or.inl hc)
      · exact h1 (Or.inr hc)
      · omega
      · exact h3 hc
  refine ⟨first cnt ca, ?_⟩
  intro hv hf
  rw [first]
  constructor
  · intro hc
    rcases hc with hc | hc | hc | hc
    · exact absurd hv hc
    · exact absurd hc hf
    · exact absurd rfl hc
    · by_cases hex : ∃ x ∈ history, x ≠ 0
      · obtain ⟨a, d, z, he, hd, hz⟩ := exists_last_diff history hex
        refine ⟨a, d, z, he, hd, hz, ?_⟩
        rw [counter_since_diff flags file_cnt context hv hf hctx history a d z he hd hz] at hc
        rcases Nat.lt_or_ge z.length context with h3 | h3
        · exact h3
        · rw [min_eq_right h3] at hc; omega
      · have hall : ∀ x ∈ history, x = 0 := by
          intro x hx
          by_contra hx0
          exact hex ⟨x, hx, hx0⟩
        rw [counter_no_diff flags file_cnt context hv hf hctx history hall] at hc
        simp only [MAX_LENGTH, SIZE_T] at *
        omega
  · intro ⟨a, d, z, he, hd, hz, hl⟩
    right; right; right
    rw [counter_since_diff flags file_cnt context hv hf hctx history a d z he hd hz]
    rw [min_eq_left (le_of_lt hl)]
    exact hl

theorem display_decision_witness :
    (2 : Nat) < SIZE_T ∧
    (main_print_lines demo_flags 2 2 [0, 5, 0, 0, 0] MAX_LENGTH).1 =
      [false, true, true, true, false] ∧
    ((main_print_line demo_flags 2 0
        (main_print_lines demo_flags 2 2 [0, 5, 0] MAX_LENGTH).2 2).1 = true ↔
      ∃ a d z, [0, 5, 0] = a ++ d :: z ∧ d ≠ 0 ∧ (∀ x ∈ z, x = 0) ∧ z.length < 2) :=
  ⟨by decide, by decide,
    (display_decision demo_flags 2 2 0 0 [0, 5, 0] (by decide)).2 (by decide) (by decide)⟩

/-! ### The cache allocation and the end offset -/

/-- C25: `sbuf_cache_malloc` returns a cache whose two lists are whatever the fresh
memory held: it stores `max_buf_len` only and never calls `llq_list_init`.  On
memory in which the `size` field of the active list is 1 (and the pointers are
`NULL`) the new cache does not have size 0, and a first `cache_add` with
`max_lines = 1` never leaves its eviction loop; only on memory that happens to hold
two initialised lists does the new cache behave as an empty one
(`sbuf_cache_remove` returns `NULL`, the first `sbuf_cache_append` allocates a node
and leaves the inactive list empty). -/
theorem cache_malloc_leaves_lists_unset :
    (∀ w mem, (sbuf_cache_malloc w mem).active = mem.active ∧
      (sbuf_cache_malloc w mem).inactive = mem.inactive ∧
      (sbuf_cache_malloc w mem).max_buf_len = w) ∧
    (sbuf_cache_malloc 8 demo_stale).active.size = 1 ∧
    cache_add demo_two (sbuf_cache_malloc 8 demo_stale) 0 1 = none ∧
    (∀ w m, (sbuf_cache_remove (sbuf_cache_malloc w (empty_cache m))).1 = none ∧
      (sbuf_cache_append (sbuf_cache_malloc w (empty_cache m)) none 0 0).1 =
        sbuf_cache_node_malloc w ∧
      (sbuf_cache_append (sbuf_cache_malloc w (empty_cache m)) none 0 0).2.inactive.nodes = [] ∧
      (sbuf_cache_append (sbuf_cache_malloc w (empty_cache m)) none 0 0).2.active.nodes =
        [sbuf_cache_node_malloc w]) := by
  refine ⟨fun w mem => ⟨rfl, rfl, rfl⟩, by decide, by decide, ?_⟩
  intro w m
  refine ⟨rfl, ?_, rfl, ?_⟩
  · simp [sbuf_cache_append, sbuf_cache_malloc, empty_cache, llq_remove, sbuf_cache_node_malloc]
  · simp [sbuf_cache_append, sbuf_cache_malloc, empty_cache, llq_remove, sbuf_cache_node_malloc,
      llq_append]

theorem rd_take (l : List Nat) (n k : Nat) (h : k < n) : rd (l.take n) k = rd l k := by
  simp only [rd, List.getD_eq_getElem?_getD, List.getElem?_take]
  rw [if_pos h]

theorem rd_drop (l : List Nat) (n k : Nat) : rd (l.drop n) k = rd l (n + k) := by
  simp only [rd, List.getD_eq_getElem?_getD, List.getElem?_drop]

theorem rd_replicate_zero (n k : Nat) : rd (List.replicate n 0) k = 0 := by
  by_cases h : k < n
  · simp [rd, List.getD_eq_getElem?_getD, List.getElem?_replicate, h]
  · exact rd_ge _ _ (by simp; omega)

theorem rd_read_store (p : List Nat) (off : Nat) (bytes : List Nat) (n i : Nat)
    (hi : i < p.length) :
    rd (read_store p off bytes n) i =
      if off ≤ i ∧ i < off + n then rd bytes (i - off) else rd p i := by
  unfold read_store
  rw [rd_map_range, if_pos hi]

theorem pipe_script_length (sizes : List Nat) :
    ∀ stream, (pipe_script stream sizes).length = sizes.length := by
  induction sizes with
  | nil => intro _; rfl
  | cons n ns ih => intro stream; simp [pipe_script, ih]

/-- A read that delivers `n > 0` bytes into a window with room for them. -/
theorem sfile_read_some (sf : sfile) (sb : sbuf) (bytes : List Nat) (n : Nat) (heof : sf.eof = 0)
    (hn : 0 < n) (hroom : sb.len + n ≤ sb.size) (hsz : sb.size < SIZE_T)
    (hbr : sf.bytes_read + n < SIZE_T) :
    sfile_read sf sb { br := (n : Int), bytes := bytes } =
      ((n : Int), { sf with bytes_read := sf.bytes_read + n },
        { sb with ptr := read_store sb.ptr sb.len bytes n, len := sb.len + n }) := by
  have h1 : ¬ sf.eof ≠ 0 := by rw [heof]; simp
  have h2 : ¬ (sb.size + SIZE_T - sb.len) % SIZE_T = 0 := by
    rw [show sb.size + SIZE_T - sb.len = sb.size - sb.len + SIZE_T by omega, Nat.add_mod_right,
      Nat.mod_eq_of_lt (by omega)]
    omega
  have h3 : ((n : Int)) > 0 := by omega
  have e1 : (sb.len + n) % SIZE_T = sb.len + n := Nat.mod_eq_of_lt (by omega)
  have e2 : (sf.bytes_read + n) % SIZE_T = sf.bytes_read + n := Nat.mod_eq_of_lt hbr
  simp only [sfile_read, h1, if_false, h2, h3, if_true, Int.toNat_ofNat, e1, e2]

theorem rd_memmove_front_lt (p : List Nat) (off n i : Nat) (h : i < n) :
    rd (memmove_front p off n) i = rd p (i + off) := rd_memmove_front p off n i h

/-- Reducing a window to its own end empties it there. -/
theorem sbuf_reduce_to_end (sb : sbuf) (T : Nat) (hT : sb.pos + sb.len = T) (hm : T < SIZE_T) :
    sbuf_reduce sb T = { sb with pos := T, len := 0 } := by
  by_cases h0 : sb.len = 0
  · have hp : sb.pos = T := by omega
    rw [sbuf_reduce_before sb T (by omega)]
    cases sb
    simp only at h0 hp
    simp [h0, hp]
  · rw [sbuf_reduce_drop sb T (by omega) (by omega) hm, hT]

/-- A call that gets as far as `read` takes the first outcome of the script. -/
theorem sfile_read_src_cons (sf : sfile) (sb : sbuf) (o : read_outcome)
    (rest : List read_outcome) (heof : sf.eof = 0) (hroom : sb.len < sb.size)
    (hsz : sb.size < SIZE_T) :
    sfile_read_src sf sb (o :: rest) =
      ((sfile_read sf sb o).1, (sfile_read sf sb o).2.1, (sfile_read sf sb o).2.2, rest) := by
  have h2 : ¬ (sb.size + SIZE_T - sb.len) % SIZE_T = 0 := by
    rw [show sb.size + SIZE_T - sb.len = sb.size - sb.len + SIZE_T by omega, Nat.add_mod_right,
      Nat.mod_eq_of_lt (by omega)]
    omega
  have h1 : ¬ (sf.eof ≠ 0 ∨ (sb.size + SIZE_T - sb.len) % SIZE_T = 0) := by
    intro hc
    rcases hc with hc | hc
    · exact hc heof
    · exact h2 hc
  simp only [sfile_read_src, h1, if_false, List.headD_cons, List.tail_cons]

/-- A positive result of `sfile_read` on a script has used one outcome of it. -/
theorem sfile_read_src_pos (sf : sfile) (sb : sbuf) (src : List read_outcome)
    (h : (sfile_read_src sf sb src).1 > 0) :
    (sfile_read_src sf sb src).2.2.2.length + 1 ≤ src.length := by
  unfold sfile_read_src at h ⊢
  simp only at h ⊢
  by_cases hc : sf.eof ≠ 0 ∨ (sb.size + SIZE_T - sb.len) % SIZE_T = 0
  · rw [if_pos hc] at h
    simp only at h
    exfalso
    unfold sfile_read at h
    rcases hc with hc | hc
    · rw [if_pos hc] at h
      simp at h
    · simp only [hc, if_true] at h
      split_ifs at h
      · simp at h
      · simp at h
  · rw [if_neg hc] at h ⊢
    simp only at h ⊢
    cases src with
    | nil =>
      exfalso
      simp only [List.headD_nil] at h
      unfold sfile_read at h
      simp only [read_eof] at h
      split_ifs at h <;> simp at h
    | cons o rest => simp

/-- The loop of `sfile_seek` ends within the length of the script plus one passes. -/
theorem sfile_seek_loop_total (pos : Nat) (fuel : Nat) :
    ∀ (sf : sfile) (sb : sbuf) (src : List read_outcome), src.length + 1 ≤ fuel →
      (sfile_seek_loop pos fuel sf sb src).isSome = true := by
  induction fuel with
  | zero => intro sf sb src h; omega
  | succ fuel ih =>
    intro sf sb src h
    unfold sfile_seek_loop
    by_cases h1 : sb.pos < pos
    · rw [if_pos h1]
      simp only
      by_cases h2 : (sfile_read_src sf (sbuf_reduce sb ((sb.pos + sb.len) % SIZE_T)) src).1 ≤ 0
      · rw [if_pos h2]; rfl
      · rw [if_neg h2]
        have h3 := sfile_read_src_pos sf (sbuf_reduce sb ((sb.pos + sb.len) % SIZE_T)) src
          (by omega)
        split_ifs
        · exact ih _ _ _ (by omega)
        · exact ih _ _ _ (by omega)
    · rw [if_neg h1]; rfl

theorem seek_loop_done (pos fuel : Nat) (sf : sfile) (sb : sbuf) (src : List read_outcome)
    (h : ¬ sb.pos < pos) : sfile_seek_loop pos fuel sf sb src = some (sf, sb, src) := by
  cases fuel with
  | zero => simp only [sfile_seek_loop, h, if_false]
  | succ fuel => simp only [sfile_seek_loop, h, if_false]

/-- The loop of `sfile_seek` read by read: it stops with the first read that brings
the total to `pos` or beyond, with the window at `pos` holding the bytes read from
`pos` on. -/
theorem seek_loop_spec (pos cap : Nat) (D : List Nat) (hcap : 0 < cap)
    (hm : pos + cap < SIZE_T) (sizes : List Nat) :
    ∀ (fuel T : Nat) (sf : sfile) (sb : sbuf), sb.pos + sb.len = T → T < pos →
      sb.size = cap → sb.ptr.length = cap → sf.eof = 0 → sf.bytes_read = T →
      (∀ n ∈ sizes, 0 < n ∧ n ≤ cap) → pos ≤ T + sizes.sum → sizes.length + 1 ≤ fuel →
      ∃ m sf1 sb1, sfile_seek_loop pos fuel sf sb (pipe_script (D.drop T) sizes) =
          some (sf1, sb1, pipe_script (D.drop (T + (sizes.take m).sum)) (sizes.drop m)) ∧
        1 ≤ m ∧ m ≤ sizes.length ∧ pos ≤ T + (sizes.take m).sum ∧
        T + (sizes.take m).sum < pos + cap ∧
        T + (sizes.take (m - 1)).sum < pos ∧
        sb1.pos = pos ∧ sb1.len = T + (sizes.take m).sum - pos ∧ sb1.size = cap ∧
        sf1.bytes_read = T + (sizes.take m).sum ∧ sf1.eof = 0 ∧
        sf1.start_pos = sf.start_pos ∧
        ∀ k, k < T + (sizes.take m).sum - pos → rd sb1.ptr k = rd D (pos + k) := by
  induction sizes with
  | nil =>
    intro fuel T sf sb _ hT _ _ _ _ _ hsum _
    simp only [List.sum_nil] at hsum
    omega
  | cons n ns ih =>
    intro fuel T sf sb hTe hT hsize hlen heof hbr hsz hsum hfuel
    simp only [List.sum_cons] at hsum
    simp only [List.length_cons] at hfuel
    obtain ⟨hn0, hncap⟩ := hsz n (by simp)
    obtain ⟨f, hf⟩ : ∃ f, fuel = f + 1 := ⟨fuel - 1, by omega⟩
    subst hf
    have hpos : sb.pos < pos := by omega
    have eT : (sb.pos + sb.len) % SIZE_T = T := by rw [hTe]; exact Nat.mod_eq_of_lt (by omega)
    have hred := sbuf_reduce_to_end sb T hTe (by omega)
    have hrd : sfile_read_src sf { sb with pos := T, len := 0 }
        (pipe_script (D.drop T) (n :: ns)) =
        ((n : Int), { sf with bytes_read := T + n },
          { sb with pos := T, ptr := read_store sb.ptr 0 ((D.drop T).take n) n, len := n },
          pipe_script ((D.drop T).drop n) ns) := by
      simp only [pipe_script]
      rw [sfile_read_src_cons _ _ _ _ heof (by simp only; omega) (by simp only; omega)]
      rw [sfile_read_some sf _ _ n heof hn0 (by simp only; omega) (by simp only; omega)
        (by omega)]
      simp only [Nat.zero_add, hbr]
    have hn1 : ¬ ((n : Int) ≤ 0) := by omega
    have eTn : (T + n) % SIZE_T = T + n := Nat.mod_eq_of_lt (by omega)
    simp only [sfile_seek_loop, hpos, if_true, eT, hred, hrd, hn1, if_false, eTn]
    have e3 : List.drop n (List.drop T D) = List.drop (T + n) D := by
      rw [List.drop_drop]
    have e4 : (List.take 1 (n :: ns)).sum = n := by simp
    by_cases hreach : pos ≤ T + n
    · rw [if_pos ⟨hT, hreach⟩]
      by_cases hin : pos < T + n
      · rw [sbuf_reduce_slide _ pos (by simp only; exact hT) (by simp only; exact hin) (by omega)]
        rw [seek_loop_done _ _ _ _ _ (by simp only; omega)]
        refine ⟨1, { sf with bytes_read := T + n },
          { ptr := memmove_front (read_store sb.ptr 0 ((D.drop T).take n) n) (pos - T)
              (n - (pos - T)), size := sb.size, pos := pos, len := n - (pos - T) },
          ?_, le_refl _, by simp, ?_, ?_, ?_, rfl, ?_, hsize, ?_, heof, rfl, ?_⟩
        · simp only [e4, e3, List.drop_succ_cons, List.drop_zero]
        · rw [e4]; exact hreach
        · rw [e4]; omega
        · simp only [Nat.sub_self, List.take_zero, List.sum_nil, Nat.add_zero]; exact hT
        · rw [e4]; simp only; omega
        · rw [e4]
        · intro k hk
          rw [e4] at hk
          simp only
          rw [rd_memmove_front _ _ _ _ (by omega), rd_read_store _ _ _ _ _ (by omega),
            if_pos (by omega), Nat.sub_zero, rd_take _ _ _ (by omega), rd_drop]
          congr 1
          omega
      · have hpe : pos = T + n := by omega
        rw [sbuf_reduce_drop _ pos (by simp only; exact hT) (by simp only; omega) (by omega)]
        rw [seek_loop_done _ _ _ _ _ (by simp only; omega)]
        refine ⟨1, { sf with bytes_read := T + n },
          { ptr := read_store sb.ptr 0 ((D.drop T).take n) n, size := sb.size, pos := T + n,
            len := 0 },
          ?_, le_refl _, by simp, ?_, ?_, ?_, hpe.symm, ?_, hsize, ?_, heof, rfl, ?_⟩
        · simp only [e4, e3, List.drop_succ_cons, List.drop_zero]
        · rw [e4]; exact hreach
        · rw [e4]; omega
        · simp only [Nat.sub_self, List.take_zero, List.sum_nil, Nat.add_zero]; exact hT
        · rw [e4]; simp only; omega
        · rw [e4]
        · intro k hk
          rw [e4] at hk
          omega
    · rw [if_neg (fun hc => hreach hc.2)]
      have hsz2 : ∀ x ∈ ns, 0 < x ∧ x ≤ cap := fun x hx => hsz x (by simp [hx])
      obtain ⟨m, sf1, sb1, h1, h2, h3, h4, hb, h5, h6, h7, h8, h9, h10, h11, h12⟩ :=
        ih f (T + n) { sf with bytes_read := T + n }
          { sb with pos := T, ptr := read_store sb.ptr 0 ((D.drop T).take n) n, len := n }
          rfl (by omega) hsize (by simp only [length_read_store]; exact hlen) heof rfl hsz2
          (by omega) (by omega)
      refine ⟨m + 1, sf1, sb1, ?_, by omega, by simp; omega, ?_, ?_, ?_, h6, ?_, h8, ?_, h10,
        h11, ?_⟩
      · rw [e3, h1]
        simp only [List.take_succ_cons, List.sum_cons, List.drop_succ_cons, Nat.add_assoc]
      · simp only [List.take_succ_cons, List.sum_cons]; omega
      · simp only [List.take_succ_cons, List.sum_cons]; omega
      · simp only [Nat.add_sub_cancel]
        obtain ⟨m0, hm0⟩ : ∃ m0, m = m0 + 1 := ⟨m - 1, by omega⟩
        subst hm0
        simp only [List.take_succ_cons, List.sum_cons, Nat.add_sub_cancel] at h5 ⊢
        omega
      · simp only [List.take_succ_cons, List.sum_cons]; rw [h7]; omega
      · simp only [List.take_succ_cons, List.sum_cons]; rw [h9]; omega
      · intro k hk
        simp only [List.take_succ_cons, List.sum_cons] at hk
        exact h12 k (by omega)

/-- C22: on a source that cannot be positioned (`lseek` fails), `sfile_seek` to
`pos > 0` on a fresh window, for a stream that holds at least `pos` bytes and is
delivered by reads of any non-empty sizes (each at most the buffer size), ends: it
stops with the first read that brings the number of bytes read to `pos` or more,
with `sb.pos = pos`, the window holding exactly the bytes read from offset `pos`
on (`sbuf_char(pos + k)` points to `stream[pos + k]`, nothing at or after the
number of bytes read), and `bytes_read` equal to the number of bytes read minus
`pos`. -/
theorem seek_by_reading (size pos : Nat) (off : Int) (stream sizes : List Nat) (sb0 : sbuf)
    (hm : sbuf_malloc size = some sb0) (hoff : off < 0) (hpos : 0 < pos)
    (hsz : ∀ n ∈ sizes, 0 < n ∧ n ≤ size) (_hlen : sizes.sum ≤ stream.length)
    (hreach : pos ≤ sizes.sum) (hw : pos + size < SIZE_T) :
    ∃ m sf sb, sfile_seek sfile_malloc sb0 pos off (pipe_script stream sizes) =
        some (0, sf, sb, pipe_script (stream.drop (sizes.take m).sum) (sizes.drop m)) ∧
      1 ≤ m ∧ m ≤ sizes.length ∧ pos ≤ (sizes.take m).sum ∧ (sizes.take (m - 1)).sum < pos ∧
      sb.pos = pos ∧ sb.len = (sizes.take m).sum - pos ∧
      (∀ k, k < (sizes.take m).sum - pos → sbuf_char sb (pos + k) = some (rd stream (pos + k))) ∧
      (∀ q, (sizes.take m).sum ≤ q → sbuf_char sb q = none) ∧
      sf.bytes_read = (sizes.take m).sum - pos ∧ sf.eof = 0 := by
  have hsb0 : sb0 = { ptr := List.replicate size 0, size := size, pos := 0, len := 0 } ∧
      0 < size := by
    unfold sbuf_malloc at hm
    split_ifs at hm with h0
    simp only [Option.some.injEq] at hm
    exact ⟨hm.symm, by omega⟩
  obtain ⟨hsb, hcap⟩ := hsb0
  subst hsb
  obtain ⟨m, sf1, sb1, h1, h2, h3, h4, hb, h5, h6, h7, _, h9, h10, _, h12⟩ :=
    seek_loop_spec pos size stream hcap hw sizes ((pipe_script stream sizes).length + 1) 0
      sfile_malloc { ptr := List.replicate size 0, size := size, pos := 0, len := 0 }
      rfl hpos rfl (by simp) rfl rfl hsz (by omega) (by rw [pipe_script_length])
  simp only [Nat.zero_add, List.drop_zero] at h1 h4 hb h5 h7 h9 h12
  have hne : ¬ pos = 0 := by omega
  have eT : (pos + ((sizes.take m).sum - pos)) % SIZE_T = (sizes.take m).sum := by
    rw [Nat.add_sub_cancel' h4]
    exact Nat.mod_eq_of_lt (by omega)
  refine ⟨m, { sf1 with bytes_read := if sf1.bytes_read > pos then sf1.bytes_read - pos else 0 },
    sb1, ?_, h2, h3, h4, h5, h6, h7, ?_, ?_, ?_, h10⟩
  · simp only [sfile_seek, hne, if_false, hoff, if_true, h1]
  · intro k hk
    unfold sbuf_char
    rw [h6, h7, eT, if_neg (by omega), if_neg (by omega), Nat.add_sub_cancel_left, h12 k hk]
  · intro q hq
    unfold sbuf_char
    rw [h6, h7, eT]
    split_ifs <;> rfl
  · simp only [h9]
    split_ifs <;> omega

theorem seek_by_reading_witness :
    ∃ m sf sb, sfile_seek sfile_malloc ⟨List.replicate 4 0, 4, 0, 0⟩ 5 (-1)
        (pipe_script [1, 2, 3, 4, 5, 6, 7, 8] [3, 4, 1]) =
        some (0, sf, sb, pipe_script (List.drop (List.take m [3, 4, 1]).sum [1, 2, 3, 4, 5, 6, 7, 8])
          (List.drop m [3, 4, 1])) ∧
      1 ≤ m ∧ m ≤ [3, 4, 1].length ∧ 5 ≤ (List.take m [3, 4, 1]).sum ∧
      (List.take (m - 1) [3, 4, 1]).sum < 5 ∧
      sb.pos = 5 ∧ sb.len = (List.take m [3, 4, 1]).sum - 5 ∧
      (∀ k, k < (List.take m [3, 4, 1]).sum - 5 →
        sbuf_char sb (5 + k) = some (rd [1, 2, 3, 4, 5, 6, 7, 8] (5 + k))) ∧
      (∀ q, (List.take m [3, 4, 1]).sum ≤ q → sbuf_char sb q = none) ∧
      sf.bytes_read = (List.take m [3, 4, 1]).sum - 5 ∧ sf.eof = 0 :=
  seek_by_reading 4 5 (-1) [1, 2, 3, 4, 5, 6, 7, 8] [3, 4, 1] ⟨List.replicate 4 0, 4, 0, 0⟩
    (by decide) (by decide) (by decide) (by decide) (by decide) (by decide) (by decide)

/-! ### The cache -/

theorem length_memcpy (dst src : List Nat) (n : Nat) : (memcpy dst src n).length = dst.length := by
  simp [memcpy]

theorem rd_memcpy (dst src : List Nat) (n i : Nat) (hi : i < dst.length) (hn : i < n) :
    rd (memcpy dst src n) i = rd src i := by
  unfold memcpy
  rw [rd_map_range, if_pos hi, if_pos hn]

/-- `cache_add` is its eviction loop followed by one `sbuf_cache_append`. -/
theorem cache_add_eq (sb : sbuf) (c : sbuf_cache) (pos k : Nat) :
    cache_add sb c pos k =
      (cache_add_evict k (c.active.size + 1) c 0).map fun r =>
        (r.2, (sbuf_cache_append r.1 (cache_add_args r.1.max_buf_len sb pos).1
          (cache_add_args r.1.max_buf_len sb pos).2.1
          (cache_add_args r.1.max_buf_len sb pos).2.2).2) := by
  unfold cache_add
  cases cache_add_evict k (c.active.size + 1) c 0 with
  | none => rfl
  | some r =>
    obtain ⟨c1, removed⟩ := r
    simp only [Option.map_some', cache_add_args]
    split_ifs <;> rfl

theorem size_dec_mod (n : Nat) (h : n < SIZE_T) : (n + 1 + SIZE_T - 1) % SIZE_T = n := by
  rw [show n + 1 + SIZE_T - 1 = n + SIZE_T by omega, Nat.add_mod_right]
  exact Nat.mod_eq_of_lt h

/-- The node `sbuf_cache_append` fills, for a node with a buffer of `w` cells. -/
theorem append_node (obj : sbuf) (w : Nat) (src : List Nat) (pos l : Nat)
    (h1 : obj.size = w) (h2 : obj.ptr.length = w) (hl : l ≤ w) (e : sbuf)
    (he : e = if l > 0 then ⟨memcpy obj.ptr src l, obj.size, pos, l⟩
      else ⟨obj.ptr, obj.size, pos, l⟩) :
    e.size = w ∧ e.ptr.length = w ∧
      entry_view e = (pos, l, (List.range l).map fun i => rd src i) := by
  subst he
  refine ⟨?_, ?_, ?_⟩
  · split_ifs <;> exact h1
  · split_ifs
    · simp only [length_memcpy]; exact h2
    · exact h2
  · unfold entry_view
    by_cases hpos : l > 0
    · simp only [hpos, if_true, Prod.mk.injEq, true_and]
      apply List.map_congr_left
      intro i hi
      rw [List.mem_range] at hi
      exact rd_memcpy _ _ _ _ (by omega) hi
    · have h0 : l = 0 := by omega
      subst h0
      simp only [gt_iff_lt, lt_self_iff_false, if_false, List.range_zero, List.map_nil]

theorem append_len (buf : Option (List Nat)) (len w sz : Nat) (h : sz = w) :
    (if (if (if buf = none then 0 else len) > w then w
      else (if buf = none then 0 else len)) > sz then sz
      else (if (if buf = none then 0 else len) > w then w
        else (if buf = none then 0 else len))) = min (if buf = none then 0 else len) w := by
  subst h
  split_ifs <;> omega

/-- What `sbuf_cache_append` does to a cache whose nodes have buffers of
`max_buf_len` cells. -/
theorem append_spec (c : sbuf_cache) (buf : Option (List Nat)) (pos len : Nat)
    (ha : c.active.wf) (hi : c.inactive.wf)
    (hn : ∀ e ∈ c.inactive.nodes, e.size = c.max_buf_len ∧ e.ptr.length = c.max_buf_len)
    (hal : c.active.nodes.length + 1 < SIZE_T) (hil : c.inactive.nodes.length < SIZE_T) :
    (sbuf_cache_append c buf pos len).2.active.nodes =
        c.active.nodes ++ [(sbuf_cache_append c buf pos len).1] ∧
      (sbuf_cache_append c buf pos len).2.active.wf ∧
      (sbuf_cache_append c buf pos len).2.inactive.nodes = c.inactive.nodes.tail ∧
      (sbuf_cache_append c buf pos len).2.inactive.wf ∧
      (sbuf_cache_append c buf pos len).2.max_buf_len = c.max_buf_len ∧
      (sbuf_cache_append c buf pos len).1.size = c.max_buf_len ∧
      (sbuf_cache_append c buf pos len).1.ptr.length = c.max_buf_len ∧
      entry_view (sbuf_cache_append c buf pos len).1 =
        (pos, min (if buf = none then 0 else len) c.max_buf_len,
          (List.range (min (if buf = none then 0 else len) c.max_buf_len)).map
            fun i => rd (buf.getD []) i) := by
  obtain ⟨⟨asz, an⟩, ⟨isz, inn⟩, w⟩ := c
  simp only [llq_list.wf] at ha hi
  simp only at hn hal hil
  subst ha
  subst hi
  have hasz : (an.length + 1) % SIZE_T = an.length + 1 := Nat.mod_eq_of_lt hal
  cases inn with
  | nil =>
    obtain ⟨e1, e2, e3⟩ := append_node (sbuf_cache_node_malloc w) w (buf.getD []) pos
      (min (if buf = none then 0 else len) w) rfl (by simp [sbuf_cache_node_malloc])
      (min_le_right _ _)
      (sbuf_cache_append ⟨⟨an.length, an⟩, ⟨0, []⟩, w⟩ buf pos len).1
      (by
        simp only [sbuf_cache_append, llq_remove]
        rw [append_len buf len w (sbuf_cache_node_malloc w).size rfl])
    refine ⟨rfl, ?_, rfl, rfl, rfl, e1, e2, e3⟩
    simp only [sbuf_cache_append, llq_append, llq_list.wf, hasz, List.length_append,
      List.length_singleton]
  | cons x rest =>
    obtain ⟨e1, e2, e3⟩ := append_node x w (buf.getD []) pos
      (min (if buf = none then 0 else len) w) (hn x (by simp)).1 (hn x (by simp)).2
      (min_le_right _ _)
      (sbuf_cache_append ⟨⟨an.length, an⟩, ⟨(x :: rest).length, x :: rest⟩, w⟩ buf pos len).1
      (by
        simp only [sbuf_cache_append, llq_remove]
        rw [append_len buf len w x.size (hn x (by simp)).1])
    simp only [List.length_cons] at hil
    refine ⟨rfl, ?_, rfl, ?_, rfl, e1, e2, e3⟩
    · simp only [sbuf_cache_append, llq_append, llq_list.wf, hasz, List.length_append,
        List.length_singleton]
    · simp only [sbuf_cache_append, llq_remove, llq_list.wf, List.length_cons]
      exact size_dec_mod _ (by omega)

theorem remove_cons (asz isz w : Nat) (x : sbuf) (rest inn : List sbuf) :
    sbuf_cache_remove ⟨⟨asz, x :: rest⟩, ⟨isz, inn⟩, w⟩ =
      (some x, ⟨⟨(asz + SIZE_T - 1) % SIZE_T, rest⟩, ⟨(isz + 1) % SIZE_T, inn ++ [x]⟩, w⟩) := by
  simp only [sbuf_cache_remove, llq_remove, llq_append]

theorem remove_nil (asz isz w : Nat) (inn : List sbuf) :
    sbuf_cache_remove ⟨⟨asz, []⟩, ⟨isz, inn⟩, w⟩ = (none, ⟨⟨asz, []⟩, ⟨isz, inn⟩, w⟩) := by
  simp only [sbuf_cache_remove, llq_remove]

/-- The eviction loop of `cache_add` on a cache that is kept well: one line is
evicted when the cache is full, none otherwise. -/
theorem evict_ok (c : sbuf_cache) (k : Nat) (hok : c.ok k) (hk : 1 ≤ k) (hkm : k < SIZE_T) :
    cache_add_evict k (c.active.size + 1) c 0 =
      some (if c.active.nodes.length = k then
          (⟨⟨k - 1, c.active.nodes.tail⟩, ⟨1, c.active.nodes.take 1⟩, c.max_buf_len⟩, 1)
        else (c, 0)) := by
  obtain ⟨⟨asz, an⟩, ⟨isz, inn⟩, w⟩ := c
  obtain ⟨ha, hi, htot, _⟩ := hok
  simp only [llq_list.wf] at ha hi htot
  subst ha
  subst hi
  simp only
  by_cases hfull : an.length = k
  · rw [if_pos hfull]
    have hinn : inn = [] := by
      apply List.eq_nil_of_length_eq_zero
      omega
    subst hinn
    cases an with
    | nil => simp only [List.length_nil] at hfull; omega
    | cons x rest =>
      simp only [List.length_cons] at hfull
      have e1 : (rest.length + 1 + SIZE_T - 1) % SIZE_T = rest.length := size_dec_mod _ (by omega)
      have e2 : (0 + 1) % SIZE_T = 1 := by decide
      have c1 : rest.length + 1 ≥ k := by omega
      have c2 : ¬ rest.length ≥ k := by omega
      simp only [cache_add_evict, List.length_cons, c1, if_true, remove_cons, e1,
        List.length_nil, e2, List.nil_append, List.tail_cons, List.take_succ_cons,
        List.take_zero, Int.zero_add]
      rw [show k - 1 = rest.length by omega]
      cases hr : rest.length with
      | zero => simp only [cache_add_evict, hr] at c2 ⊢; simp only [c2, if_false]
      | succ m => simp only [cache_add_evict, hr] at c2 ⊢; simp only [c2, if_false]
  · rw [if_neg hfull]
    have c1 : ¬ an.length ≥ k := by omega
    simp only [cache_add_evict, c1, if_false]

/-- One `cache_add` on a cache that is kept well. -/
theorem cache_add_ok (sb : sbuf) (c : sbuf_cache) (pos k : Nat) (hok : c.ok k) (hk : 1 ≤ k)
    (hkm : k < SIZE_T) :
    ∃ e c1, cache_add sb c pos k =
        some ((if c.active.nodes.length = k then 1 else 0 : Int), c1) ∧
      c1.ok k ∧ c1.max_buf_len = c.max_buf_len ∧
      c1.active.nodes =
        (if c.active.nodes.length = k then c.active.nodes.tail else c.active.nodes) ++ [e] ∧
      c1.inactive.nodes = (if c.active.nodes.length = k then [] else c.inactive.nodes.tail) ∧
      cache_nodes c ≤ cache_nodes c1 ∧
      entry_view e = append_view c.max_buf_len (cache_add_args c.max_buf_len sb pos) := by
  rw [cache_add_eq, evict_ok c k hok hk hkm]
  obtain ⟨⟨asz, an⟩, ⟨isz, inn⟩, w⟩ := c
  obtain ⟨ha, hi, htot, hsz⟩ := hok
  simp only [llq_list.wf] at ha hi htot hsz
  subst ha
  subst hi
  simp only [Option.map_some']
  by_cases hfull : an.length = k
  · simp only [hfull, if_true]
    have hinn : inn = [] := by
      apply List.eq_nil_of_length_eq_zero
      omega
    subst hinn
    cases an with
    | nil => simp only [List.length_nil] at hfull; omega
    | cons x rest =>
      simp only [List.length_cons] at hfull
      simp only [List.tail_cons, List.take_succ_cons, List.take_zero]
      have hx := hsz x (by simp)
      obtain ⟨a1, a2, a3, a4, a5, a6, a7, a8⟩ := append_spec
        ⟨⟨k - 1, rest⟩, ⟨1, [x]⟩, w⟩ (cache_add_args w sb pos).1 (cache_add_args w sb pos).2.1
        (cache_add_args w sb pos).2.2 (by simp only [llq_list.wf]; omega) rfl
        (by intro e he; simp only [List.mem_singleton] at he; subst he; exact hx)
        (by simp only; omega) (by simp only [List.length_singleton]; decide)
      simp only at a1 a2 a3 a4 a5 a6 a7 a8
      refine ⟨_, _, rfl, ⟨a2, a4, ?_, ?_⟩, a5, a1, ?_, ?_, a8⟩
      · rw [a1, a3]
        simp only [List.length_append, List.length_singleton, List.tail_cons, List.length_nil]
        omega
      · intro e he
        rw [a1, a3, a5] at *
        simp only [List.tail_cons, List.append_nil, List.mem_append, List.mem_singleton] at he
        rcases he with he | he
        · exact hsz e (by simp [he])
        · subst he; exact ⟨a6, a7⟩
      · rw [a3]; rfl
      · simp only [cache_nodes, a1, a3, List.length_append, List.length_singleton,
          List.tail_cons, List.length_nil, List.length_cons]
        omega
  · simp only [hfull, if_false]
    obtain ⟨a1, a2, a3, a4, a5, a6, a7, a8⟩ := append_spec
      ⟨⟨an.length, an⟩, ⟨inn.length, inn⟩, w⟩ (cache_add_args w sb pos).1
      (cache_add_args w sb pos).2.1 (cache_add_args w sb pos).2.2 rfl rfl
      (by intro e he; exact hsz e (by simp [he])) (by simp only; omega) (by simp only; omega)
    simp only at a1 a2 a3 a4 a5 a6 a7 a8
    refine ⟨_, _, rfl, ⟨a2, a4, ?_, ?_⟩, a5, a1, a3, ?_, a8⟩
    · rw [a1, a3]
      simp only [List.length_append, List.length_singleton, List.length_tail]
      omega
    · intro e he
      rw [a1, a3, a5] at *
      simp only [List.mem_append, List.mem_singleton] at he
      rcases he with (he | he) | he
      · exact hsz e (by simp [he])
      · subst he; exact ⟨a6, a7⟩
      · exact hsz e (by simp [List.mem_of_mem_tail he])
    · simp only [cache_nodes, a1, a3, List.length_append, List.length_singleton,
        List.length_tail]
      omega

/-- The snapshot of a window is what `cache_add` hands on, viewed. -/
theorem snapshot_eq (w : Nat) (x : sbuf × Nat) :
    snapshot w x = some (append_view w (cache_add_args w x.1 x.2)) := by
  obtain ⟨e, c1, h1, _, _, h4, _, _, h7⟩ := cache_add_ok x.1 (empty_cache w) x.2 1
    (by simp [sbuf_cache.ok, empty_cache, llq_list.wf]) (le_refl 1) (by decide)
  have hne : ¬ (empty_cache w).active.nodes.length = 1 := by simp [empty_cache]
  simp only [hne, if_false] at h1 h4
  have hl : c1.active.nodes.getLast? = some e := by
    rw [h4]
    simp [empty_cache]
  simp only [snapshot, h1, hl, Option.map_some', h7]
  rfl

/-! ### Sequences of cache operations -/

/-- `sbuf_cache_remove` on a cache that is kept well and holds a line. -/
theorem remove_ok (c : sbuf_cache) (k : Nat) (x : sbuf) (rest : List sbuf) (hok : c.ok k)
    (hkm : k < SIZE_T) (hx : c.active.nodes = x :: rest) :
    (sbuf_cache_remove c).1 = some x ∧ (sbuf_cache_remove c).2.ok k ∧
      (sbuf_cache_remove c).2.active.nodes = rest ∧
      (sbuf_cache_remove c).2.inactive.nodes = c.inactive.nodes ++ [x] ∧
      (sbuf_cache_remove c).2.max_buf_len = c.max_buf_len ∧
      cache_nodes (sbuf_cache_remove c).2 = cache_nodes c := by
  obtain ⟨⟨asz, an⟩, ⟨isz, inn⟩, w⟩ := c
  obtain ⟨ha, hi, htot, hsz⟩ := hok
  simp only [llq_list.wf] at ha hi htot hsz hx
  subst ha
  subst hi
  subst hx
  simp only [List.length_cons] at htot
  have e1 : (rest.length + 1 + SIZE_T - 1) % SIZE_T = rest.length := size_dec_mod _ (by omega)
  have e2 : (inn.length + 1) % SIZE_T = inn.length + 1 := Nat.mod_eq_of_lt (by omega)
  rw [remove_cons]
  refine ⟨rfl, ⟨?_, ?_, ?_, ?_⟩, rfl, rfl, rfl, ?_⟩
  · exact e1
  · show (inn.length + 1) % SIZE_T = (inn ++ [x]).length
    rw [e2, List.length_append, List.length_singleton]
  · show rest.length + (inn ++ [x]).length ≤ k
    rw [List.length_append, List.length_singleton]
    omega
  · intro e he
    apply hsz e
    clear e1 e2
    simp only [List.mem_append, List.mem_cons, List.not_mem_nil, or_false] at he ⊢
    rcases he with he | he | he
    · exact Or.inl (Or.inr he)
    · exact Or.inr he
    · exact Or.inl (Or.inl he)
  · clear e1 e2
    show rest.length + (inn ++ [x]).length = (x :: rest).length + inn.length
    rw [List.length_append, List.length_singleton, List.length_cons]
    omega

/-- `sbuf_cache_remove` on a cache whose active list is empty. -/
theorem remove_empty (c : sbuf_cache) (hx : c.active.nodes = []) :
    sbuf_cache_remove c = (none, c) := by
  obtain ⟨⟨asz, an⟩, ⟨isz, inn⟩, w⟩ := c
  simp only at hx
  subst hx
  exact remove_nil _ _ _ _

/-- Successive removals return the lines held, oldest first. -/
theorem removes_spec (k : Nat) (hkm : k < SIZE_T) (n : Nat) :
    ∀ c : sbuf_cache, c.ok k → n ≤ c.active.nodes.length →
      (cache_removes n c).1 = (c.active.nodes.take n).map some ∧
      (cache_removes n c).2.ok k ∧
      (cache_removes n c).2.active.nodes = c.active.nodes.drop n ∧
      (cache_removes n c).2.inactive.nodes = c.inactive.nodes ++ c.active.nodes.take n ∧
      (cache_removes n c).2.max_buf_len = c.max_buf_len := by
  induction n with
  | zero =>
    intro c hok _
    simp [cache_removes, hok]
  | succ n ih =>
    intro c hok hn
    cases hx : c.active.nodes with
    | nil => rw [hx] at hn; simp at hn
    | cons x rest =>
      obtain ⟨r1, r2, r3, r4, r5, _⟩ := remove_ok c k x rest hok hkm hx
      rw [hx] at hn
      simp only [List.length_cons] at hn
      obtain ⟨i1, i2, i3, i4, i5⟩ := ih (sbuf_cache_remove c).2 r2 (by rw [r3]; omega)
      simp only [cache_removes, r1, i1, r3, i2, i3, i4, r4, i5, r5, List.take_succ_cons,
        List.map_cons, List.drop_succ_cons, List.append_assoc, List.singleton_append,
        and_self]

/-- A sequence of `cache_add` calls on a cache that is kept well and has no
inactive node: the lines evicted are counted, the last `k` snapshots are held. -/
theorem cache_adds_spec (k : Nat) (hk : 1 ≤ k) (hkm : k < SIZE_T) (xs : List (sbuf × Nat)) :
    ∀ c : sbuf_cache, c.ok k → c.inactive.nodes = [] →
      ∃ c1, cache_adds k xs c =
          some (((c.active.nodes.length + xs.length - k : Nat) : Int), c1) ∧
        c1.ok k ∧ c1.max_buf_len = c.max_buf_len ∧ c1.inactive.nodes = [] ∧
        c1.active.nodes.map entry_view =
          (c.active.nodes.map entry_view ++
            xs.map fun x => append_view c.max_buf_len (cache_add_args c.max_buf_len x.1 x.2)).drop
              (c.active.nodes.length + xs.length - k) := by
  induction xs with
  | nil =>
    intro c hok hin
    have ha : c.active.nodes.length ≤ k := by
      have := hok.2.2.1
      omega
    refine ⟨c, ?_, hok, rfl, hin, ?_⟩
    · simp only [cache_adds, List.length_nil, Nat.add_zero]
      rw [show c.active.nodes.length - k = 0 by omega]
      rfl
    · simp only [List.length_nil, Nat.add_zero, List.map_nil, List.append_nil]
      rw [show c.active.nodes.length - k = 0 by omega]
      rfl
  | cons x xs ih =>
    intro c hok hin
    have ha : c.active.nodes.length ≤ k := by
      have := hok.2.2.1
      omega
    obtain ⟨e, c1, h1, h2, h3, h4, h5, _, h7⟩ := cache_add_ok x.1 c x.2 k hok hk hkm
    have hin1 : c1.inactive.nodes = [] := by
      rw [h5, hin]
      split_ifs <;> rfl
    obtain ⟨c2, i1, i2, i3, i4, i5⟩ := ih c1 h2 hin1
    refine ⟨c2, ?_, i2, by rw [i3, h3], i4, ?_⟩
    · simp only [cache_adds, h1, i1, Option.some.injEq, Prod.mk.injEq, and_true]
      rw [h4]
      by_cases hfull : c.active.nodes.length = k
      · simp only [hfull, if_true, List.length_append, List.length_tail, List.length_singleton,
          List.length_cons, List.length_nil]
        omega
      · simp only [hfull, if_false, List.length_append, List.length_singleton, List.length_cons,
          List.length_nil]
        omega
    · rw [i5, h3, h4]
      by_cases hfull : c.active.nodes.length = k
      · simp only [hfull, if_true, List.length_append, List.length_tail, List.length_singleton,
          List.length_cons, List.map_append, List.map_cons, List.map_nil, h7, List.length_nil,
          List.nil_append]
        cases hc : c.active.nodes with
        | nil => rw [hc] at hfull; simp only [List.length_nil] at hfull; omega
        | cons y rest =>
          rw [hc] at hfull
          simp only [List.length_cons] at hfull
          simp only [List.tail_cons, List.map_cons, List.cons_append, List.append_assoc,
            List.singleton_append]
          rw [show k - 1 + (0 + 1) + xs.length - k = xs.length by omega,
            show k + (xs.length + 1) - k = xs.length + 1 by omega, List.drop_succ_cons,
            List.nil_append]
      · simp only [hfull, if_false, List.length_append, List.length_singleton, List.length_cons,
          List.map_append, List.map_cons, List.map_nil, h7, List.append_assoc,
          List.singleton_append, List.length_nil, List.nil_append]
        rw [show c.active.nodes.length + (0 + 1) + xs.length =
          c.active.nodes.length + (xs.length + 1) by omega]

/-- C23: the cache is a FIFO: starting from the empty cache, after `N` calls of
`cache_add` with `max_lines = k`, `1 <= k < N`, the calls have evicted `N - k` entries
in all (the sum of the values they return), the active list holds `k` entries, `k`
successive `sbuf_cache_remove` calls return the snapshots (position, length,
bytes) of the `k` most recent calls in the order of the calls, and the next
`sbuf_cache_remove` returns `NULL`. -/
theorem cache_is_fifo (w k : Nat) (xs : List (sbuf × Nat)) (hk : 1 ≤ k) (hkn : k < xs.length)
    (hkm : k < SIZE_T) :
    ∃ c, cache_adds k xs (empty_cache w) = some (((xs.length - k : Nat) : Int), c) ∧
      c.active.size = k ∧ c.active.nodes.length = k ∧
      (cache_removes k c).1.map (Option.map entry_view) =
        (xs.drop (xs.length - k)).map (snapshot w) ∧
      (sbuf_cache_remove (cache_removes k c).2).1 = none := by
  have hok0 : (empty_cache w).ok k := by
    simp [sbuf_cache.ok, empty_cache, llq_list.wf]
  obtain ⟨c, h1, h2, h3, h4, h5⟩ := cache_adds_spec k hk hkm xs (empty_cache w) hok0 rfl
  simp only [empty_cache, List.length_nil, Nat.zero_add, List.map_nil, List.nil_append] at h1 h5
  have hlen : c.active.nodes.length = k := by
    have := congrArg List.length h5
    simp only [List.length_map, List.length_drop] at this
    omega
  obtain ⟨r1, r2, r3, r4, r5⟩ := removes_spec k hkm k c h2 (by omega)
  refine ⟨c, h1, ?_, hlen, ?_, ?_⟩
  · rw [h2.1, hlen]
  · rw [r1, List.take_of_length_le (by omega), List.map_map]
    have : (List.map (Option.map entry_view ∘ some) c.active.nodes) =
        (c.active.nodes.map entry_view).map some := by
      simp only [List.map_map]
      rfl
    rw [this, h5, ← List.map_drop, List.map_map]
    apply List.map_congr_left
    intro x _
    simp only [Function.comp, snapshot_eq]
  · rw [remove_empty _ (by rw [r3, List.drop_of_length_le (by omega)])]

theorem cache_is_fifo_witness :
    (∃ c, cache_adds 2 [(demo_mid, 0), (demo_two, 0), (demo_mid, 4), (demo_late, 1)]
        (empty_cache 4) =
        some ((([(demo_mid, 0), (demo_two, 0), (demo_mid, 4), (demo_late, 1)].length - 2 : Nat) :
          Int), c) ∧
      c.active.size = 2 ∧ c.active.nodes.length = 2 ∧
      (cache_removes 2 c).1.map (Option.map entry_view) =
        (List.drop ([(demo_mid, 0), (demo_two, 0), (demo_mid, 4), (demo_late, 1)].length - 2)
          [(demo_mid, 0), (demo_two, 0), (demo_mid, 4), (demo_late, 1)]).map (snapshot 4) ∧
      (sbuf_cache_remove (cache_removes 2 c).2).1 = none) ∧
    [snapshot 4 (demo_mid, 4), snapshot 4 (demo_late, 1)] =
      [some (4, 3, [2, 3, 4]), some (1, 1, [5])] :=
  ⟨cache_is_fifo 4 2 [(demo_mid, 0), (demo_two, 0), (demo_mid, 4), (demo_late, 1)] (by decide)
    (by decide) (by decide), by decide⟩

theorem cache_run_append (k : Nat) (ops more : List cache_op) :
    ∀ c, cache_run k (ops ++ more) c = (cache_run k ops c).bind (cache_run k more) := by
  induction ops with
  | nil => intro c; rfl
  | cons op ops ih =>
    intro c
    cases op with
    | add sb pos =>
      simp only [List.cons_append, cache_run]
      cases cache_add sb c pos k with
      | none => rfl
      | some r => exact ih r.2
    | remove =>
      simp only [List.cons_append, cache_run]
      exact ih _

/-- Every sequence of operations keeps a cache well and never lowers its number of
nodes. -/
theorem cache_run_ok (k : Nat) (hk : 1 ≤ k) (hkm : k < SIZE_T) (ops : List cache_op) :
    ∀ c : sbuf_cache, c.ok k →
      ∃ c1, cache_run k ops c = some c1 ∧ c1.ok k ∧ c1.max_buf_len = c.max_buf_len ∧
        cache_nodes c ≤ cache_nodes c1 := by
  induction ops with
  | nil => intro c hok; exact ⟨c, rfl, hok, rfl, le_refl _⟩
  | cons op ops ih =>
    intro c hok
    cases op with
    | add sb pos =>
      obtain ⟨e, c1, h1, h2, h3, _, _, h6, _⟩ := cache_add_ok sb c pos k hok hk hkm
      obtain ⟨c2, i1, i2, i3, i4⟩ := ih c1 h2
      exact ⟨c2, by simp only [cache_run, h1, i1], i2, by rw [i3, h3], le_trans h6 i4⟩
    | remove =>
      cases hx : c.active.nodes with
      | nil =>
        rw [show cache_run k (cache_op.remove :: ops) c = cache_run k ops (sbuf_cache_remove c).2
          from rfl, remove_empty c hx]
        exact ih c hok
      | cons x rest =>
        obtain ⟨_, r2, _, _, r5, r6⟩ := remove_ok c k x rest hok hkm hx
        obtain ⟨c2, i1, i2, i3, i4⟩ := ih (sbuf_cache_remove c).2 r2
        exact ⟨c2, i1, i2, by rw [i3, r5], by rw [← r6]; exact i4⟩

/-- C24: for every sequence of `cache_add` (with a fixed `max_lines = k >= 1`) and
`sbuf_cache_remove` operations from the empty cache: every operation ends, the
active list never holds more than `k` entries (its counter is the number of its
nodes), the number of nodes, active and inactive, never exceeds `k` and is not
lowered by any further operations, and every node has a buffer of `max_buf_len`
(the line width) cells. -/
theorem cache_nodes_bounded (w k : Nat) (ops more : List cache_op) (hk : 1 ≤ k)
    (hkm : k < SIZE_T) :
    ∃ c c2, cache_run k ops (empty_cache w) = some c ∧
      cache_run k (ops ++ more) (empty_cache w) = some c2 ∧
      c.active.size = c.active.nodes.length ∧ c.active.nodes.length ≤ k ∧
      cache_nodes c ≤ k ∧ cache_nodes c ≤ cache_nodes c2 ∧
      c.max_buf_len = w ∧
      ∀ e ∈ c.active.nodes ++ c.inactive.nodes, e.size = w ∧ e.ptr.length = w := by
  have hok0 : (empty_cache w).ok k := by
    simp [sbuf_cache.ok, empty_cache, llq_list.wf]
  obtain ⟨c, h1, h2, h3, _⟩ := cache_run_ok k hk hkm ops (empty_cache w) hok0
  obtain ⟨c2, i1, _, _, i4⟩ := cache_run_ok k hk hkm more c h2
  have hw : c.max_buf_len = w := h3
  refine ⟨c, c2, h1, ?_, h2.1, ?_, h2.2.2.1, i4, hw, ?_⟩
  · rw [cache_run_append, h1]
    exact i1
  · have := h2.2.2.1
    omega
  · intro e he
    have := h2.2.2.2 e he
    rw [hw] at this
    exact this

theorem cache_nodes_bounded_witness :
    ∃ c c2, cache_run 2 [cache_op.add demo_mid 0, cache_op.add demo_two 0, cache_op.remove,
          cache_op.add demo_mid 4] (empty_cache 4) = some c ∧
      cache_run 2 ([cache_op.add demo_mid 0, cache_op.add demo_two 0, cache_op.remove,
          cache_op.add demo_mid 4] ++ [cache_op.remove, cache_op.remove]) (empty_cache 4) =
        some c2 ∧
      c.active.size = c.active.nodes.length ∧ c.active.nodes.length ≤ 2 ∧
      cache_nodes c ≤ 2 ∧ cache_nodes c ≤ cache_nodes c2 ∧
      c.max_buf_len = 4 ∧
      ∀ e ∈ c.active.nodes ++ c.inactive.nodes, e.size = 4 ∧ e.ptr.length = 4 :=
  cache_nodes_bounded 4 2 [cache_op.add demo_mid 0, cache_op.add demo_two 0, cache_op.remove,
    cache_op.add demo_mid 4] [cache_op.remove, cache_op.remove] (by decide) (by decide)

/-! ### The caches of the driver over a run of lines -/

theorem caches_hold_le (k a : Nat) (cache : List sbuf_cache) (h : caches_hold k a cache)
    (hne : cache ≠ []) : a ≤ k := by
  cases cache with
  | nil => exact absurd rfl hne
  | cons c cs =>
    obtain ⟨hok, ha⟩ := h c (by simp)
    have := hok.2.2.1
    omega

theorem cache0_size_hold (k a : Nat) (cache : List sbuf_cache) (h : caches_hold k a cache)
    (hne : cache ≠ []) : cache0_size cache = a := by
  cases cache with
  | nil => exact absurd rfl hne
  | cons c cs =>
    obtain ⟨hok, ha⟩ := h c (by simp)
    simp only [cache0_size]
    rw [hok.1, ha]

/-- Adding a line to every cache: each call evicts one line when the caches are
full, none otherwise. -/
theorem main_cache_adds_spec (pos k a : Nat) (hk : 1 ≤ k) (hkm : k < SIZE_T) (sbs : List sbuf) :
    ∀ cache : List sbuf_cache, sbs.length = cache.length → caches_hold k a cache →
      ∃ rs, main_cache_adds pos k sbs cache = some rs ∧ rs.length = cache.length ∧
        (∀ r ∈ rs, r.1 = if a = k then 1 else 0) ∧
        caches_hold k (if a = k then k else a + 1) (rs.map Prod.snd) := by
  induction sbs with
  | nil =>
    intro cache hlen _
    cases cache with
    | nil => exact ⟨[], rfl, rfl, by simp, by simp [caches_hold]⟩
    | cons c cs => simp at hlen
  | cons sb sbs ih =>
    intro cache hlen hc
    cases cache with
    | nil => simp at hlen
    | cons c cs =>
      simp only [List.length_cons, Nat.add_right_cancel_iff] at hlen
      obtain ⟨hok, ha⟩ := hc c (by simp)
      obtain ⟨e, c1, h1, h2, _, h4, _, _, _⟩ := cache_add_ok sb c pos k hok hk hkm
      obtain ⟨rs, i1, i2, i3, i4⟩ := ih cs hlen (fun x hx => hc x (by simp [hx]))
      rw [ha] at h1 h4
      refine ⟨((if a = k then 1 else 0 : Int), c1) :: rs, ?_, ?_, ?_, ?_⟩
      · simp only [main_cache_adds, h1, i1]
      · simp only [List.length_cons, i2]
      · intro r hr
        simp only [List.mem_cons] at hr
        rcases hr with hr | hr
        · rw [hr]
        · exact i3 r hr
      · intro x hx
        simp only [List.map_cons, List.mem_cons] at hx
        rcases hx with hx | hx
        · subst hx
          refine ⟨h2, ?_⟩
          rw [h4]
          by_cases hfull : a = k
          · simp only [hfull, if_true, List.length_append, List.length_tail,
              List.length_singleton]
            omega
          · simp only [hfull, if_false, List.length_append, List.length_singleton, ha]
        · exact i4 x hx

theorem first_removed_spec (rs : List (Int × sbuf_cache)) (v : Int) (hne : rs ≠ [])
    (h : ∀ r ∈ rs, r.1 = v) : first_removed rs = v := by
  cases rs with
  | nil => exact absurd rfl hne
  | cons r rs => exact h r (by simp)

theorem print_line_quiet (flags file_cnt cnt ca context : Nat)
    (h : (main_print_line flags file_cnt cnt ca context).1 = false) :
    main_print_line flags file_cnt cnt ca context = (false, ca) := by
  unfold main_print_line at h ⊢
  split_ifs at h ⊢
  rfl

/-- The output part of the pass for a quiet line. -/
theorem quiet_line (flags context width end_pos pos a : Nat) (sb : List sbuf) (cnt : Nat)
    (t : main_track) (hctx : context < SIZE_T)
    (hq : (main_print_line flags sb.length cnt t.context_after context).1 = false)
    (hc : 0 < context → caches_hold context a t.cache ∧ t.cache ≠ [] ∧
      sb.length = t.cache.length)
    (h0 : context = 0 → a = 0) :
    ∃ t1, main_output_line flags context width end_pos pos sb cnt t =
        some (t1, if t.spacer_printed = 0 ∧ a = context then [out_event.spacer] else []) ∧
      t1.context_after = t.context_after ∧
      t1.spacer_printed = (if t.spacer_printed = 0 ∧ a = context then 1 else t.spacer_printed) ∧
      t1.cache.length = t.cache.length ∧
      (0 < context → caches_hold context (if a = context then context else a + 1) t1.cache) := by
  have hp := print_line_quiet _ _ _ _ _ hq
  unfold main_output_line
  simp only [hp, Bool.false_eq_true, if_false]
  by_cases hpos : 0 < context
  · obtain ⟨hh, hne, hlen⟩ := hc hpos
    obtain ⟨rs, r1, r2, r3, r4⟩ := main_cache_adds_spec pos context a hpos hctx sb t.cache hlen hh
    have hrs : rs ≠ [] := by
      intro hc2
      rw [hc2] at r2
      exact hne (List.eq_nil_of_length_eq_zero r2.symm)
    have hf := first_removed_spec rs _ hrs r3
    rw [if_pos hpos, r1]
    simp only [hf]
    by_cases hfull : a = context
    · simp only [hfull, if_true, and_true, ne_eq, one_ne_zero, not_false_eq_true] at r4 ⊢
      by_cases hs : t.spacer_printed = 0
      · simp only [hs, if_true]
        exact ⟨_, rfl, rfl, rfl, by simp only [List.length_map]; exact r2, fun _ => r4⟩
      · simp only [hs, if_false]
        exact ⟨_, rfl, rfl, rfl, by simp only [List.length_map]; exact r2, fun _ => r4⟩
    · simp only [hfull, if_false, and_false, ne_eq, not_true_eq_false] at r4 ⊢
      exact ⟨_, rfl, rfl, rfl, by simp only [List.length_map]; exact r2, fun _ => r4⟩
  · have hz : context = 0 := by omega
    have ha : a = 0 := h0 hz
    subst hz
    subst ha
    simp only [lt_self_iff_false, if_false, and_true]
    by_cases hs : t.spacer_printed = 0
    · simp only [hs, if_true]
      exact ⟨_, rfl, rfl, rfl, rfl, by intro h; exact absurd h (by simp)⟩
    · simp only [hs, if_false]
      exact ⟨_, rfl, rfl, rfl, rfl, by intro h; exact absurd h (by simp)⟩

/-- The output part of the passes over a run of quiet lines: the gap marker is
handed over on the line on which the caches first evict. -/
theorem quiet_run (flags context width end_pos : Nat) (hctx : context < SIZE_T)
    (run : List (List sbuf × Nat)) :
    ∀ (pos a : Nat) (t : main_track),
      (∀ l ∈ run, (main_print_line flags l.1.length l.2 t.context_after context).1 = false) →
      (0 < context → caches_hold context a t.cache ∧ t.cache ≠ [] ∧
        ∀ l ∈ run, l.1.length = t.cache.length) →
      (context = 0 → a = 0) → a ≤ context →
      ∃ t1, main_output_lines flags context width end_pos pos run t =
          some (t1, (List.range run.length).map fun j =>
            if t.spacer_printed = 0 ∧ a + j = context then [out_event.spacer] else []) ∧
        t1.context_after = t.context_after ∧
        t1.cache.length = t.cache.length ∧
        (run = [] → t1 = t) ∧
        (0 < context → caches_hold context (min (a + run.length) context) t1.cache) ∧
        t1.spacer_printed =
          (if t.spacer_printed = 0 ∧ a + run.length > context then 1 else t.spacer_printed) := by
  induction run with
  | nil =>
    intro pos a t _ hc _ ha
    refine ⟨t, rfl, rfl, rfl, fun _ => rfl, ?_, ?_⟩
    · intro hpos
      simp only [List.length_nil, Nat.add_zero, min_eq_left ha]
      exact (hc hpos).1
    · simp only [List.length_nil, Nat.add_zero]
      split_ifs <;> first | rfl | omega
  | cons l run ih =>
    intro pos a t hq hc h0 ha
    obtain ⟨t1, q1, q2, q3, q4, q5⟩ := quiet_line flags context width end_pos pos a l.1 l.2 t hctx
      (hq l (by simp))
      (fun hpos => ⟨(hc hpos).1, (hc hpos).2.1, (hc hpos).2.2 l (by simp)⟩) h0
    have ha1 : (if context = 0 then 0 else if a = context then context else a + 1) ≤ context := by
      split_ifs <;> omega
    obtain ⟨t2, i1, i2, i3, _, i5, i6⟩ := ih (pos + width)
      (if context = 0 then 0 else if a = context then context else a + 1) t1
      (by rw [q2]; exact fun x hx => hq x (by simp [hx]))
      (by
        intro hpos
        have hne : ¬ context = 0 := by omega
        simp only [hne, if_false]
        refine ⟨q5 hpos, ?_, ?_⟩
        · intro hnil
          rw [hnil] at q4
          exact (hc hpos).2.1 (List.eq_nil_of_length_eq_zero q4.symm)
        · intro x hx
          rw [q4]
          exact (hc hpos).2.2 x (by simp [hx]))
      (by intro hz; simp only [hz, if_true])
      ha1
    refine ⟨t2, ?_, by rw [i2, q2], by rw [i3, q4], by simp, ?_, ?_⟩
    · simp only [main_output_lines, q1, i1, List.length_cons, List.range_succ_eq_map,
        List.map_cons, List.map_map, Nat.add_zero, Option.some.injEq, Prod.mk.injEq,
        List.cons.injEq, true_and]
      apply List.map_congr_left
      intro j _
      simp only [Function.comp, q3]
      by_cases hz : context = 0
      · have ha0 := h0 hz
        subst hz
        subst ha0
        simp only [if_true, and_true, Nat.zero_add]
        by_cases hs : t.spacer_printed = 0
        · simp only [hs, if_true, one_ne_zero, false_and, if_false]
          simp only [true_and, Nat.succ_ne_zero, if_false]
        · simp only [hs, if_false, false_and]
      · simp only [hz, if_false]
        by_cases hfull : a = context
        · simp only [hfull, if_true, and_true]
          by_cases hs : t.spacer_printed = 0
          · simp only [hs, if_true, one_ne_zero, false_and, if_false]
            simp only [true_and]
            split_ifs <;> first | rfl | omega
          · simp only [hs, if_false, false_and]
        · simp only [hfull, if_false, and_false]
          rw [show a + 1 + j = a + j.succ by omega]
    · intro hpos
      have hne : ¬ context = 0 := by omega
      have := i5 hpos
      simp only [hne, if_false] at this
      simp only [List.length_cons]
      by_cases hfull : a = context
      · simp only [hfull, if_true] at this
        rw [min_eq_right (show context ≤ context + run.length by omega)] at this
        rw [hfull, min_eq_right (show context ≤ context + (run.length + 1) by omega)]
        exact this
      · simp only [hfull, if_false] at this
        rw [show a + (run.length + 1) = a + 1 + run.length by omega]
        exact this
    · rw [i6, q3]
      simp only [List.length_cons]
      by_cases hz : context = 0
      · have ha0 := h0 hz
        subst hz
        subst ha0
        simp only [if_true, and_true, Nat.zero_add]
        by_cases hs : t.spacer_printed = 0
        · simp only [hs, if_true, one_ne_zero, false_and, if_false]
          simp only [true_and]
          split_ifs <;> first | rfl | omega
        · simp only [hs, if_false, false_and]
      · simp only [hz, if_false]
        by_cases hfull : a = context
        · simp only [hfull, if_true, and_true]
          by_cases hs : t.spacer_printed = 0
          · simp only [hs, if_true, one_ne_zero, false_and, if_false]
            simp only [true_and]
            split_ifs <;> first | rfl | omega
          · simp only [hs, if_false, false_and]
        · simp only [hfull, if_false, and_false]
          by_cases hs : t.spacer_printed = 0
          · simp only [hs, true_and]
            by_cases hgt : a + 1 + run.length > context
            · rw [if_pos hgt, if_pos (by omega)]
            · rw [if_neg hgt, if_neg (by omega)]
          · simp only [hs, false_and, if_false]

/-! ### Draining the caches before a displayed line -/

/-- The position the drain loop reconstructs is the truncated difference. -/
theorem tmp_pos_eq (m pos x : Nat) (hp : pos < m) (hx : x < m) :
    (if (pos + m - x % m) % m > pos then 0 else (pos + m - x % m) % m) = pos - x := by
  rw [Nat.mod_eq_of_lt hx]
  by_cases h : x ≤ pos
  · have e : pos + m - x = (pos - x) + m := by omega
    rw [e, Nat.add_mod_right, Nat.mod_eq_of_lt (by omega), if_neg (by omega)]
  · rw [Nat.mod_eq_of_lt (by omega), if_pos (by omega)]
    omega

/-- One pass of the drain loop on caches that all hold `a + 1` lines. -/
theorem drain_step (k a : Nat) (hkm : k < SIZE_T) (cache : List sbuf_cache)
    (h : caches_hold k (a + 1) cache) :
    caches_hold k a (cache.map fun c => (sbuf_cache_remove c).2) ∧
      (cache.map fun c => (sbuf_cache_remove c).1) = cache.map (fun c => c.active.nodes[0]?) ∧
      ∀ j, (cache.map fun c => (sbuf_cache_remove c).2).map (fun c => c.active.nodes[j]?) =
        cache.map (fun c => c.active.nodes[j + 1]?) := by
  have key : ∀ c ∈ cache, ∃ x rest, c.active.nodes = x :: rest ∧ rest.length = a := by
    intro c hc
    obtain ⟨_, hl⟩ := h c hc
    cases hn : c.active.nodes with
    | nil => rw [hn] at hl; simp at hl
    | cons x rest =>
      rw [hn] at hl
      exact ⟨x, rest, rfl, by simpa using hl⟩
  refine ⟨?_, ?_, ?_⟩
  · intro c1 hc1
    simp only [List.mem_map] at hc1
    obtain ⟨c, hc, rfl⟩ := hc1
    obtain ⟨x, rest, hx, hr⟩ := key c hc
    obtain ⟨_, r2, r3, _⟩ := remove_ok c k x rest (h c hc).1 hkm hx
    exact ⟨r2, by rw [r3, hr]⟩
  · apply List.map_congr_left
    intro c hc
    obtain ⟨x, rest, hx, _⟩ := key c hc
    obtain ⟨r1, _⟩ := remove_ok c k x rest (h c hc).1 hkm hx
    rw [r1, hx]
    simp only [List.getElem?_cons_zero]
  · intro j
    rw [List.map_map]
    apply List.map_congr_left
    intro c hc
    obtain ⟨x, rest, hx, _⟩ := key c hc
    obtain ⟨_, _, r3, _⟩ := remove_ok c k x rest (h c hc).1 hkm hx
    simp only [Function.comp, r3, hx, List.getElem?_cons_succ]

theorem cached_range_succ (a : Nat)
    (f : Nat → Nat) (g : Nat → List (Option sbuf)) :
    (List.range (a + 1)).map (fun j => out_event.cached (f j) (g j)) =
      out_event.cached (f 0) (g 0) ::
        (List.range a).map (fun j => out_event.cached (f (j + 1)) (g (j + 1))) := by
  rw [List.range_succ_eq_map, List.map_cons, List.map_map]
  rfl

/-- The drain loop on caches that all hold `a` lines: `a` passes, the `j`-th hands
over the `j`-th oldest line of every cache, and the caches are left empty. -/
theorem main_drain_spec (k width pos : Nat) (hk : 0 < k) (hkm : k < SIZE_T) (a : Nat) :
    ∀ (cache : List sbuf_cache) (out : List out_event), cache ≠ [] → caches_hold k a cache →
      ∃ cache1, main_drain k width pos a cache out =
          some (cache1, out ++ (List.range a).map fun j =>
            out_event.cached
              (if (pos + SIZE_T - ((a - j) * width) % SIZE_T) % SIZE_T > pos then 0
                else (pos + SIZE_T - ((a - j) * width) % SIZE_T) % SIZE_T)
              (cache.map fun c => c.active.nodes[j]?)) ∧
        caches_hold k 0 cache1 ∧ cache1.length = cache.length := by
  induction a with
  | zero =>
    intro cache out hne h
    have h0 := cache0_size_hold k 0 cache h hne
    refine ⟨cache, ?_, h, rfl⟩
    simp only [main_drain, h0, lt_self_iff_false, and_false, gt_iff_lt, if_false,
      List.range_zero, List.map_nil, List.append_nil]
  | succ a ih =>
    intro cache out hne h
    have h0 := cache0_size_hold k (a + 1) cache h hne
    obtain ⟨d1, d2, d3⟩ := drain_step k a hkm cache h
    have hne1 : (cache.map fun c => (sbuf_cache_remove c).2) ≠ [] := by
      intro hc
      exact hne (List.map_eq_nil_iff.mp hc)
    obtain ⟨cache1, i1, i2, i3⟩ := ih (cache.map fun c => (sbuf_cache_remove c).2)
      (out ++ [out_event.cached
        (if (pos + SIZE_T - ((a + 1) * width) % SIZE_T) % SIZE_T > pos then 0
          else (pos + SIZE_T - ((a + 1) * width) % SIZE_T) % SIZE_T)
        (cache.map fun c => (sbuf_cache_remove c).1)]) hne1 d1
    refine ⟨cache1, ?_, i2, by rw [i3, List.length_map]⟩
    have hcond : k > 0 ∧ a + 1 > 0 := ⟨hk, by omega⟩
    simp only [main_drain, h0, hcond, and_self, if_true]
    rw [i1, d2]
    simp only [d3, List.append_assoc, List.singleton_append, Option.some.injEq, Prod.mk.injEq,
      true_and, List.append_cancel_left_eq]
    rw [cached_range_succ a
      (fun j => if (pos + SIZE_T - ((a + 1 - j) * width) % SIZE_T) % SIZE_T > pos then 0
        else (pos + SIZE_T - ((a + 1 - j) * width) % SIZE_T) % SIZE_T)
      (fun j => cache.map fun c => c.active.nodes[j]?)]
    simp only [Nat.sub_zero, Nat.add_sub_add_right]

theorem main_drain_off (width pos fuel : Nat) (cache : List sbuf_cache) (out : List out_event) :
    main_drain 0 width pos fuel cache out = some (cache, out) := by
  cases fuel <;> simp [main_drain]

/-- The output part of the pass for a displayed line. -/
theorem shown_line (flags context width end_pos pos a : Nat) (sb : List sbuf) (cnt : Nat)
    (t : main_track) (hctx : context < SIZE_T)
    (hp : (main_print_line flags sb.length cnt t.context_after context).1 = true)
    (hc : 0 < context → caches_hold context a t.cache ∧ t.cache ≠ []) :
    ∃ t1, main_output_line flags context width end_pos pos sb cnt t =
        some (t1,
          (if 0 < context then (List.range a).map fun j =>
            out_event.cached
              (if (pos + SIZE_T - ((a - j) * width) % SIZE_T) % SIZE_T > pos then 0
                else (pos + SIZE_T - ((a - j) * width) % SIZE_T) % SIZE_T)
              (t.cache.map fun c => c.active.nodes[j]?)
           else []) ++ [out_event.line pos (main_mlw pos width end_pos) cnt]) ∧
      t1.spacer_printed = 0 ∧
      t1.context_after = (main_print_line flags sb.length cnt t.context_after context).2 ∧
      t1.cache.length = t.cache.length ∧
      (0 < context → caches_hold context 0 t1.cache) := by
  unfold main_output_line
  simp only [hp, if_true]
  by_cases hpos : 0 < context
  · obtain ⟨hh, hne⟩ := hc hpos
    obtain ⟨cache1, d1, d2, d3⟩ := main_drain_spec context width pos hpos hctx a t.cache [] hne hh
    rw [cache0_size_hold context a t.cache hh hne, d1]
    simp only [hpos, if_true, List.nil_append]
    exact ⟨_, rfl, rfl, rfl, d3, fun _ => d2⟩
  · have hz : context = 0 := by omega
    subst hz
    rw [main_drain_off]
    simp only [lt_self_iff_false, if_false, List.nil_append]
    exact ⟨_, rfl, rfl, rfl, rfl, by intro h; exact absurd h (by simp)⟩

/-- The passes over a run of lines followed by one more line. -/
theorem output_lines_snoc (flags context width end_pos : Nat) (l : List sbuf × Nat)
    (run : List (List sbuf × Nat)) :
    ∀ (pos : Nat) (t t1 t2 : main_track) (outs : List (List out_event)) (ev : List out_event),
      main_output_lines flags context width end_pos pos run t = some (t1, outs) →
      main_output_line flags context width end_pos (pos + run.length * width) l.1 l.2 t1 =
        some (t2, ev) →
      main_output_lines flags context width end_pos pos (run ++ [l]) t =
        some (t2, outs ++ [ev]) := by
  induction run with
  | nil =>
    intro pos t t1 t2 outs ev h1 h2
    simp only [main_output_lines, Option.some.injEq, Prod.mk.injEq] at h1
    obtain ⟨rfl, rfl⟩ := h1
    simp only [List.length_nil, Nat.zero_mul, Nat.add_zero] at h2
    simp only [List.nil_append, main_output_lines, h2]
  | cons x run ih =>
    intro pos t t1 t2 outs ev h1 h2
    simp only [main_output_lines] at h1
    cases hx : main_output_line flags context width end_pos pos x.1 x.2 t with
    | none => rw [hx] at h1; simp at h1
    | some r =>
      rw [hx] at h1
      simp only at h1
      cases hr : main_output_lines flags context width end_pos (pos + width) run r.1 with
      | none => rw [hr] at h1; simp at h1
      | some r2 =>
        rw [hr] at h1
        simp only [Option.some.injEq, Prod.mk.injEq] at h1
        obtain ⟨e1, e2⟩ := h1
        have hpos : pos + (x :: run).length * width = pos + width + run.length * width := by
          rw [List.length_cons, Nat.succ_mul]
          omega
        rw [hpos] at h2
        have := ih (pos + width) r.1 t1 t2 r2.2 ev (by rw [hr, ← e1]) h2
        have this2 : main_output_lines flags context width end_pos (pos + width)
            (run.append [l]) r.1 = some (t2, r2.2 ++ [ev]) := this
        simp only [List.cons_append, main_output_lines, hx, ← e2]
        rw [this2]

/-! ### The gap marker and the drain of the caches -/

/-- C29: when the line at `pos` is displayed while every cache holds `n` lines (then
`n <= context`), the pass first hands over `n` cached lines, the `j`-th made of the
`j`-th oldest entry of every cache and carrying the position `pos - (n - j) * width`
cut off at 0, then the line itself, and leaves the active list of every cache
empty.  If the `n` lines were cached by the passes over a run of quiet lines from
`p0` on, a line every `width` bytes up to `pos`, entered with empty caches, then
`n = min (length of the run) context` and these positions are the positions of the
last `n` lines of the run.  (Positions are `size_t`: `pos` and `n * width` are below
`2^64`.) -/
theorem drain_before_displayed_line (flags context width end_pos pos n : Nat)
    (sb : List sbuf) (cnt : Nat) (t : main_track)
    (hctx : 0 < context) (hctxm : context < SIZE_T)
    (hd : (main_print_line flags sb.length cnt t.context_after context).1 = true)
    (hc : caches_hold context n t.cache) (hne : t.cache ≠ [])
    (hpos : pos < SIZE_T) (hw : n * width < SIZE_T) :
    n ≤ context ∧
    (∃ t1, main_output_line flags context width end_pos pos sb cnt t =
        some (t1, (List.range n).map (fun j =>
            out_event.cached (pos - (n - j) * width) (t.cache.map fun c => c.active.nodes[j]?)) ++
          [out_event.line pos (main_mlw pos width end_pos) cnt]) ∧
      t1.cache.length = t.cache.length ∧
      ∀ c ∈ t1.cache, c.active.nodes = [] ∧ c.active.size = 0) ∧
    (∀ (p0 : Nat) (run : List (List sbuf × Nat)) (t0 : main_track)
      (outs : List (List out_event)),
      (∀ l ∈ run, (main_print_line flags l.1.length l.2 t0.context_after context).1 = false) →
      caches_hold context 0 t0.cache → t0.cache ≠ [] →
      (∀ l ∈ run, l.1.length = t0.cache.length) →
      main_output_lines flags context width end_pos p0 run t0 = some (t, outs) →
      pos = p0 + run.length * width →
      n = min run.length context ∧
        ∀ j, j < n → pos - (n - j) * width = p0 + (run.length - n + j) * width) := by
  refine ⟨caches_hold_le context n t.cache hc hne, ?_, ?_⟩
  · obtain ⟨t1, s1, _, _, s4, s5⟩ := shown_line flags context width end_pos pos n sb cnt t hctxm
      hd (fun _ => ⟨hc, hne⟩)
    have e : ((List.range n).map fun j =>
        out_event.cached
          (if (pos + SIZE_T - ((n - j) * width) % SIZE_T) % SIZE_T > pos then 0
            else (pos + SIZE_T - ((n - j) * width) % SIZE_T) % SIZE_T)
          (t.cache.map fun c => c.active.nodes[j]?)) =
        (List.range n).map fun j =>
          out_event.cached (pos - (n - j) * width) (t.cache.map fun c => c.active.nodes[j]?) := by
      apply List.map_congr_left
      intro j _
      have hx : (n - j) * width < SIZE_T :=
        Nat.lt_of_le_of_lt (Nat.mul_le_mul_right width (Nat.sub_le n j)) hw
      rw [tmp_pos_eq SIZE_T pos ((n - j) * width) hpos hx]
    rw [if_pos hctx, e] at s1
    refine ⟨t1, s1, s4, ?_⟩
    intro c hcm
    obtain ⟨hok, hl⟩ := s5 hctx c hcm
    have hnil : c.active.nodes = [] := List.eq_nil_of_length_eq_zero hl
    refine ⟨hnil, ?_⟩
    have := hok.1
    unfold llq_list.wf at this
    rw [this, hl]
  · intro p0 run t0 outs hq hc0 hne0 hlen hrun hp
    obtain ⟨t1, q1, _, _, _, q5, _⟩ := quiet_run flags context width end_pos hctxm run p0 0 t0 hq
      (fun _ => ⟨hc0, hne0, hlen⟩) (fun h => absurd h (by omega)) (Nat.zero_le _)
    rw [hrun] at q1
    simp only [Option.some.injEq, Prod.mk.injEq] at q1
    have ht : t = t1 := q1.1
    have h5 := q5 hctx
    rw [← ht, Nat.zero_add] at h5
    have hn : n = min run.length context := by
      cases hcache : t.cache with
      | nil => exact absurd hcache hne
      | cons c cs =>
        have a1 := (hc c (by rw [hcache]; simp)).2
        have a2 := (h5 c (by rw [hcache]; simp)).2
        omega
    refine ⟨hn, ?_⟩
    intro j hj
    have hle : n ≤ run.length := by rw [hn]; exact Nat.min_le_left _ _
    have hsplit : run.length * width = (run.length - n + j) * width + (n - j) * width := by
      rw [← Nat.add_mul]
      congr 1
      omega
    rw [hp, hsplit]
    omega

theorem drain_before_displayed_line_witness :
    1 ≤ 2 ∧
    (∃ t1, main_output_line 7 2 4 100 7 [demo_two, demo_mid] 1 demo_track1 =
        some (t1, (List.range 1).map (fun j =>
            out_event.cached (7 - (1 - j) * 4)
              (demo_track1.cache.map fun c => c.active.nodes[j]?)) ++
          [out_event.line 7 (main_mlw 7 4 100) 1]) ∧
      t1.cache.length = demo_track1.cache.length ∧
      ∀ c ∈ t1.cache, c.active.nodes = [] ∧ c.active.size = 0) :=
  ⟨(drain_before_displayed_line 7 2 4 100 7 1 [demo_two, demo_mid] 1 demo_track1
      (by decide) (by decide) (by decide) (by decide) (by decide) (by decide) (by decide)).1,
   (drain_before_displayed_line 7 2 4 100 7 1 [demo_two, demo_mid] 1 demo_track1
      (by decide) (by decide) (by decide) (by decide) (by decide) (by decide) (by decide)).2.1⟩

/-! ### The main loop on identical streams -/

theorem byte_differs_self (nbd : Int) (x : Option Nat) : byte_differs nbd x x = false := by
  cases x with
  | none => rfl
  | some a => simp [byte_differs]

theorem word_differs_self (a : sbuf) (pos len ws : Nat) (nbd : Int) (i : Nat) :
    word_differs a a pos len ws nbd i = false := by
  unfold word_differs
  rw [List.any_eq_false]
  intro j _
  rw [byte_differs_self]
  simp

theorem differing_words_self (a : sbuf) (pos len ws : Nat) (nbd : Int) :
    differing_words a a pos len ws nbd = 0 := by
  unfold differing_words
  rw [List.length_eq_zero, List.filter_eq_nil_iff]
  intro k _
  rw [word_differs_self]
  simp

/-- Compares of a window with itself leave the count at 0. -/
theorem pairs_fold_same (a : sbuf) (sb : List sbuf) (hall : ∀ s ∈ sb, s = a) (ha : a.valid)
    (pos width ws : Nat) (hws : 1 ≤ ws) (ps : List (Nat × Nat)) :
    ∀ e : sbuf_diff, e.allocated → width ≤ e.width → e.cnt = 0 →
      (ps.foldl (fun d p =>
          match sb[p.1]?, sb[p.2]? with
          | some a, some b => (sbuf_diff_cmp a b pos width d ws).2
          | _, _ => d) e).allocated ∧
      (ps.foldl (fun d p =>
          match sb[p.1]?, sb[p.2]? with
          | some a, some b => (sbuf_diff_cmp a b pos width d ws).2
          | _, _ => d) e).width = e.width ∧
      (ps.foldl (fun d p =>
          match sb[p.1]?, sb[p.2]? with
          | some a, some b => (sbuf_diff_cmp a b pos width d ws).2
          | _, _ => d) e).cnt = 0 := by
  induction ps with
  | nil =>
    intro e he _ hc
    exact ⟨he, rfl, hc⟩
  | cons p ps ih =>
    intro e he hw hc
    rw [List.foldl_cons]
    rcases h1 : sb[p.1]? with _ | x
    · exact ih e he hw hc
    · rcases h2 : sb[p.2]? with _ | y
      · exact ih e he hw hc
      · have hx : x = a := hall x (List.getElem?_mem h1)
        have hy : y = a := hall y (List.getElem?_mem h2)
        rw [hx, hy]
        have hcl : e.cnt < SIZE_T := by rw [hc]; decide
        obtain ⟨k1, k2, _, _⟩ := cmp_keeps a a pos width ws e he hw hws hcl
        obtain ⟨_, _, m3, _⟩ := cmp_accumulates_once a a pos width ws e ha ha he hw hws hcl
        rw [differing_words_self, hc] at m3
        have m3' : (sbuf_diff_cmp a a pos width e ws).2.cnt = 0 := by
          rw [m3]
          simp
        obtain ⟨i1, i2, i3⟩ := ih (sbuf_diff_cmp a a pos width e ws).2 k1 (by omega) m3'
        exact ⟨i1, by rw [i2, k2], i3⟩

/-- The per-line comparison of streams whose windows are one and the same finds no
difference. -/
theorem compare_line_same (a : sbuf) (sb : List sbuf) (hall : ∀ s ∈ sb, s = a) (ha : a.valid)
    (pos width ws flags : Nat) (ignore : Option (List Nat)) (d : sbuf_diff)
    (hd : d.allocated) (hw : width ≤ d.width) (hws : 1 ≤ ws)
    (hig : ignore = some [] ∨ ignore = none) :
    (main_compare_line sb pos width ws flags ignore d).allocated ∧
      (main_compare_line sb pos width ws flags ignore d).width = d.width ∧
      (main_compare_line sb pos width ws flags ignore d).cnt = 0 := by
  rw [compare_line_no_ignore sb pos width ws flags ignore d hig]
  obtain ⟨r1, r2, r3, _, _⟩ := reset_spec d (main_nbd flags) hd
  obtain ⟨i1, i2, i3⟩ := pairs_fold_same a sb hall ha pos width ws hws (stream_pairs sb.length)
    (reset_engine d (main_nbd flags)) r1 (by omega) r3
  exact ⟨i1, i2.trans r2, i3⟩

/-- The top-up at the head of a pass does nothing when no stream needs it. -/
theorem fill_all_idle (pos width : Nat) (streams : List main_stream)
    (h : ∀ s ∈ streams, ¬ (s.sf.eof = 0 ∧ sbuf_avail s.sb pos < width)) :
    main_fill_all pos width streams = some streams := by
  induction streams with
  | nil => rfl
  | cons s rest ih =>
    have hs := h s (by simp)
    have hr := ih (fun x hx => h x (by simp [hx]))
    simp only [main_fill_all, main_fill, hs, if_false, hr]

/-- The set-up of a stream of the scenario. -/
theorem scenario_stream_spec (buf_size : Nat) (D : List Nat) (hD : 0 < D.length)
    (hbytes : ∀ b ∈ D, b < 256) (hb : D.length < buf_size) (hbm : buf_size < SIZE_T) :
    ∃ s, scenario_stream buf_size D = some s ∧ s.src = [] ∧ s.sb.pos = 0 ∧
      s.sb.len = D.length ∧ s.sb.size = buf_size ∧ s.sb.valid ∧ s.sf.eof = 0 ∧
      s.sf.start_pos = 0 ∧ s.sf.bytes_read = D.length ∧
      ∀ k, k < D.length → sbuf_char s.sb k = D[k]? := by
  have hne : ¬ buf_size = 0 := by omega
  have hread := sfile_read_some sfile_malloc
    { ptr := List.replicate buf_size 0, size := buf_size, pos := 0, len := 0 }
    (D.take D.length) D.length rfl hD (by simp only; omega) hbm
    (by simp only [sfile_malloc]; omega)
  have hsrc := sfile_read_src_cons sfile_malloc
    { ptr := List.replicate buf_size 0, size := buf_size, pos := 0, len := 0 }
    { br := (D.length : Int), bytes := D.take D.length } [] rfl (by simp only; omega) hbm
  refine ⟨⟨⟨-1, 0, 0, D.length⟩,
    ⟨read_store (List.replicate buf_size 0) 0 D D.length, buf_size, 0, D.length⟩, []⟩, ?_, ?_⟩
  · unfold scenario_stream main_open
    simp only [sbuf_malloc, hne, if_false, pipe_script, sfile_shift, Nat.add_zero, Nat.zero_mod,
      lt_self_iff_false, gt_iff_lt]
    have e0 : (⟨sfile_malloc.fd, sfile_malloc.eof, sfile_malloc.start_pos % SIZE_T,
        sfile_malloc.bytes_read⟩ : sfile) = sfile_malloc := rfl
    rw [e0, hsrc, hread]
    simp only [sfile_malloc, Nat.zero_add, List.take_length]
  · simp only [sfile_malloc, Nat.zero_add, List.take_length]
    refine ⟨trivial, trivial, trivial, trivial, ?_, trivial, trivial, trivial, ?_⟩
    · refine ⟨?_, by simp only; omega, ?_⟩
      · simp only [length_read_store, List.length_replicate]
      · intro b hbmem
        simp only [read_store, List.mem_map, List.mem_range, List.length_replicate] at hbmem
        obtain ⟨i, _, hi⟩ := hbmem
        rw [← hi]
        split_ifs
        · exact rd_lt_256 D _ hbytes
        · rw [rd_replicate_zero]
          decide
    · intro k hk
      unfold sbuf_char
      simp only [Nat.zero_add, Nat.not_lt_zero, if_false, Nat.sub_zero]
      rw [Nat.mod_eq_of_lt (by omega), if_neg (by omega),
        rd_read_store _ _ _ _ _ (by rw [List.length_replicate]; omega),
        if_pos ⟨Nat.zero_le _, by omega⟩]
      simp [rd, List.getD_eq_getElem?_getD, List.getElem?_eq_getElem hk]

/-- A read from an exhausted source into a window with room: the reader is at end of
file afterwards, the window is as before. -/
theorem read_src_exhausted (sf : sfile) (w : sbuf) (hroom : w.len < w.size)
    (hsz : w.size < SIZE_T) :
    ∃ sf1, sfile_read_src sf w [] = (0, sf1, w, []) ∧ sf1.eof ≠ 0 ∧
      sf1.start_pos = sf.start_pos ∧ sf1.bytes_read = sf.bytes_read := by
  have h2 : ¬ (w.size + SIZE_T - w.len) % SIZE_T = 0 := by
    rw [show w.size + SIZE_T - w.len = w.size - w.len + SIZE_T by omega, Nat.add_mod_right,
      Nat.mod_eq_of_lt (by omega)]
    omega
  by_cases he : sf.eof ≠ 0
  · refine ⟨sf, ?_, he, rfl, rfl⟩
    simp only [sfile_read_src, sfile_read, he, ne_eq, not_false_eq_true, true_or, if_true,
      List.headD_nil]
  · have he0 : sf.eof = 0 := by
      by_contra hc
      exact he hc
    refine ⟨{ sf with eof := 1 }, ?_, by simp, rfl, rfl⟩
    simp only [sfile_read_src, sfile_read, he0, h2, ne_eq, not_true_eq_false, or_self, if_false,
      List.headD_nil, read_eof, gt_iff_lt, lt_self_iff_false, if_true, List.tail_nil]

/-- A pass of the scenario over a line inside the data: the line is compared, found
quiet and cached, and the loop goes on. -/
theorem scenario_pass (w : sbuf) (sf : sfile) (st : main_state) (a : Nat)
    (hw1 : w.pos = 0) (hw2 : w.len = 32) (hw3 : 32 < w.size) (hw4 : w.size < SIZE_T)
    (hw5 : w.valid)
    (hstreams : st.streams = List.replicate 3 ⟨sf, w, []⟩)
    (hp : st.pos + 8 ≤ 32)
    (hd1 : st.diff.allocated) (hd2 : st.diff.width = 8)
    (hca : st.track.context_after = MAX_LENGTH)
    (hch : caches_hold 2 a st.track.cache) (hcl : st.track.cache.length = 3) :
    ∃ st1 sf1, main_pass scenario_cfg st = some (st1, true) ∧
      st1.streams = List.replicate 3 ⟨sf1, w, []⟩ ∧ sf1.eof ≠ 0 ∧
      sf1.start_pos = sf.start_pos ∧ sf1.bytes_read = sf.bytes_read ∧
      st1.pos = st.pos + 8 ∧ st1.diff.allocated ∧ st1.diff.width = 8 ∧
      st1.track.context_after = MAX_LENGTH ∧
      caches_hold 2 (if a = 2 then 2 else a + 1) st1.track.cache ∧
      st1.track.cache.length = 3 ∧
      st1.track.spacer_printed =
        (if st.track.spacer_printed = 0 ∧ a = 2 then 1 else st.track.spacer_printed) ∧
      st1.lines = st.lines ++ [st.pos] ∧
      st1.out = st.out ++
        (if st.track.spacer_printed = 0 ∧ a = 2 then [out_event.spacer] else []) := by
  have hfill : main_fill_all st.pos scenario_cfg.width st.streams = some st.streams := by
    apply fill_all_idle
    rw [hstreams]
    intro s hs
    rw [List.mem_replicate] at hs
    rw [hs.2]
    intro hc
    have h := hc.2
    simp only [sbuf_avail, hw1, hw2] at h
    have hwd : scenario_cfg.width = 8 := rfl
    rw [hwd] at h
    split_ifs at h <;> omega
  have heoo : main_eoo_cnt st.pos st.streams = 0 := by
    unfold main_eoo_cnt
    rw [List.length_eq_zero, List.filter_eq_nil_iff, hstreams]
    intro s hs
    rw [List.mem_replicate] at hs
    rw [hs.2]
    have : ¬ (sf.eof ≠ 0 ∧ st.pos ≥ w.pos ∧ st.pos - w.pos ≥ w.len) := by
      rw [hw1, hw2]
      omega
    simp only [sfile_eoo, this, if_false, bne_self_eq_false, Bool.false_eq_true,
      not_false_eq_true]
  have hlen : st.streams.length = 3 := by rw [hstreams, List.length_replicate]
  have hall : ∀ s ∈ st.streams.map (fun s => s.sb), s = w := by
    intro s hs
    rw [hstreams] at hs
    simp only [List.map_replicate, List.mem_replicate] at hs
    exact hs.2
  obtain ⟨c1, c2, c3⟩ := compare_line_same w (st.streams.map fun s => s.sb) hall hw5 st.pos
    scenario_cfg.width scenario_cfg.hl_width scenario_cfg.flags scenario_cfg.ignore st.diff hd1
    (by rw [hd2]; decide) (by decide) (Or.inl rfl)
  obtain ⟨t1, q1, q2, q3, q4, q5⟩ := quiet_line scenario_cfg.flags scenario_cfg.context
    scenario_cfg.width scenario_cfg.end_pos st.pos a (st.streams.map fun s => s.sb)
    (main_compare_line (st.streams.map fun s => s.sb) st.pos scenario_cfg.width
      scenario_cfg.hl_width scenario_cfg.flags scenario_cfg.ignore st.diff).cnt
    st.track (by decide)
    (by rw [c3, hca, List.length_map, hlen]; decide)
    (fun _ => ⟨hch, by intro hnil; rw [hnil] at hcl; simp at hcl,
      by rw [List.length_map, hlen, hcl]⟩)
    (fun h => absurd h (by decide))
  obtain ⟨sf1, r1, r2, r3, r4⟩ := read_src_exhausted sf w (by omega) hw4
  have hre : main_reread st.streams = List.replicate 3 ⟨sf1, w, []⟩ := by
    unfold main_reread
    rw [hstreams, List.map_replicate]
    simp only [r1]
  have hctx : scenario_cfg.context = 2 := rfl
  have hwd : scenario_cfg.width = 8 := rfl
  have hend : scenario_cfg.end_pos = SIZE_T - 1 := by decide
  have hmod : (st.pos + 8) % SIZE_T = st.pos + 8 := Nat.mod_eq_of_lt (by omega)
  rw [hctx] at q3 q5 q1
  refine ⟨⟨List.replicate 3 ⟨sf1, w, []⟩,
    main_compare_line (st.streams.map fun s => s.sb) st.pos scenario_cfg.width
      scenario_cfg.hl_width scenario_cfg.flags scenario_cfg.ignore st.diff, t1, st.pos + 8,
    st.lines ++ [st.pos],
    st.out ++ (if st.track.spacer_printed = 0 ∧ a = 2 then [out_event.spacer] else [])⟩,
    sf1, ?_, rfl, r2, r3, r4, rfl, c1, c2.trans hd2, ?_, ?_, ?_, ?_, rfl, rfl⟩
  · unfold main_pass
    rw [hfill]
    simp only [heoo, hlen, OfNat.zero_ne_ofNat, if_false, hctx]
    rw [q1]
    simp only [hwd, hmod, hend]
    rw [if_neg (by omega), if_neg (by omega), hre]
  · exact q2.trans hca
  · exact q5 (by decide)
  · exact q4.trans hcl
  · exact q3

/-- The pass of the scenario at the end of the data: every stream is at end of
output and the loop ends. -/
theorem scenario_last_pass (w : sbuf) (sf : sfile) (st : main_state)
    (hw1 : w.pos = 0) (hw2 : w.len = 32) (hsf : sf.eof ≠ 0)
    (hstreams : st.streams = List.replicate 3 ⟨sf, w, []⟩) (hp : st.pos = 32) :
    main_pass scenario_cfg st = some (st, false) ∧ main_eoo_cnt st.pos st.streams = 3 := by
  have hfill : main_fill_all st.pos scenario_cfg.width st.streams = some st.streams := by
    apply fill_all_idle
    rw [hstreams]
    intro s hs
    rw [List.mem_replicate] at hs
    rw [hs.2]
    intro hc
    exact hsf hc.1
  have heoo : main_eoo_cnt st.pos st.streams = 3 := by
    unfold main_eoo_cnt
    rw [hstreams]
    have : sf.eof ≠ 0 ∧ st.pos ≥ w.pos ∧ st.pos - w.pos ≥ w.len := by
      rw [hw1, hw2, hp]
      exact ⟨hsf, by omega, by omega⟩
    simp [List.replicate, sfile_eoo, this]
  have hlen : st.streams.length = 3 := by rw [hstreams, List.length_replicate]
  refine ⟨?_, heoo⟩
  unfold main_pass
  rw [hfill]
  simp only [heoo, hlen, if_true]

/-- C28: three streams with the same 32 bytes `D`, width 8, context 2, the default
flags (verbose off), no offsets, no length limit and nothing to ignore; every
stream has a buffer of `buf_size > 32` bytes and its source delivers `D` with the
first `read`, and the lists of the caches are empty when the loop is entered.  The
set-up of the streams and of the engine succeeds, and the main loop ends after
exactly five passes: it has compared the four lines at 0, 8, 16 and 24, has handed
nothing to the printing layer but one gap marker (no line, no cached line), stands
at position 32 with all three streams at end of output, and the summary that
follows reports 32 bytes for each stream and adds no marker. -/
theorem three_identical_streams (buf_size : Nat) (D : List Nat) (hlen : D.length = 32)
    (hbytes : ∀ b ∈ D, b < 256) (hb : 32 < buf_size) (hbm : buf_size < SIZE_T) :
    ∃ s d st, scenario_stream buf_size D = some s ∧ sbuf_diff_malloc 8 = some d ∧
      (∀ k, main_loop scenario_cfg (k + 5) (scenario_start s d) = some st) ∧
      main_loop scenario_cfg 4 (scenario_start s d) = none ∧
      st.lines = [0, 8, 16, 24] ∧ st.out = [out_event.spacer] ∧ st.pos = 32 ∧
      st.streams.length = 3 ∧ main_eoo_cnt st.pos st.streams = 3 ∧
      (main_finish scenario_cfg st).out = [out_event.spacer, out_event.bytes [32, 32, 32]] := by
  obtain ⟨s, o1, o2, o3, o4, o5, o6, o7, o8, o9, _⟩ :=
    scenario_stream_spec buf_size D (by omega) hbytes (by omega) hbm
  rw [hlen] at o4 o9
  obtain ⟨d, hd, hda, hdw⟩ : ∃ d, sbuf_diff_malloc 8 = some d ∧ d.allocated ∧ d.width = 8 :=
    ⟨_, rfl, by decide, by decide⟩
  have hp0 : (scenario_start s d).pos = 0 := rfl
  have hs0 : (scenario_start s d).streams = List.replicate 3 ⟨s.sf, s.sb, []⟩ := by
    rw [← o2]
    rfl
  obtain ⟨st1, sf1, p1, a1, a2, a3, a4, a5, a6, a7, a8, a9, a10, a11, a12, a13⟩ :=
    scenario_pass s.sb s.sf (scenario_start s d) 0 o3 o4 (by omega) (by omega) o6 hs0
      (by show 0 + 8 ≤ 32; decide) hda hdw rfl
      (by show caches_hold 2 0 (List.replicate 3 (sbuf_cache_malloc 8 (empty_cache 0))); decide)
      rfl
  obtain ⟨st2, sf2, p2, b1, b2, b3, b4, b5, b6, b7, b8, b9, b10, b11, b12, b13⟩ :=
    scenario_pass s.sb sf1 st1 1 o3 o4 (by omega) (by omega) o6 a1
      (by rw [a5, hp0]; decide) a6 a7 a8 a9 a10
  obtain ⟨st3, sf3, p3, c1, c2, c3, c4, c5, c6, c7, c8, c9, c10, c11, c12, c13⟩ :=
    scenario_pass s.sb sf2 st2 2 o3 o4 (by omega) (by omega) o6 b1
      (by rw [b5, a5, hp0]; decide) b6 b7 b8 b9 b10
  obtain ⟨st4, sf4, p4, e1, e2, e3, e4, e5, e6, e7, e8, e9, e10, e11, e12, e13⟩ :=
    scenario_pass s.sb sf3 st3 2 o3 o4 (by omega) (by omega) o6 c1
      (by rw [c5, b5, a5, hp0]) c6 c7 c8 c9 c10
  have hpos4 : st4.pos = 32 := by rw [e5, c5, b5, a5, hp0]
  obtain ⟨p5, heoo⟩ := scenario_last_pass s.sb sf4 st4 o3 o4 e2 e1 hpos4
  have hsp0 : (scenario_start s d).track.spacer_printed = 0 := rfl
  have hsp1 : st1.track.spacer_printed = 0 := by rw [a11, hsp0]; rfl
  have hsp2 : st2.track.spacer_printed = 0 := by rw [b11, hsp1]; rfl
  have hsp3 : st3.track.spacer_printed = 1 := by rw [c11, hsp2]; rfl
  have hsp4 : st4.track.spacer_printed = 1 := by rw [e11, hsp3]; rfl
  have hl : st4.lines = [0, 8, 16, 24] := by
    rw [e12, c12, b12, a12, c5, b5, a5, hp0]
    rfl
  have ho : st4.out = [out_event.spacer] := by
    rw [e13, c13, b13, a13, hsp0, hsp1, hsp2, hsp3]
    rfl
  have hst : sf4.start_pos = 0 := by rw [e3, c3, b3, a3, o8]
  have hbr : sf4.bytes_read = 32 := by rw [e4, c4, b4, a4, o9]
  refine ⟨s, d, st4, o1, hd, ?_, ?_, hl, ho, hpos4, by rw [e1]; rfl, heoo, ?_⟩
  · intro k
    simp only [main_loop, p1, p2, p3, p4, p5]
  · simp only [main_loop, p1, p2, p3, p4]
  · have hq : scenario_cfg.flags &&& FLAG_QUIET1 = 0 := by decide
    have hend : scenario_cfg.end_pos = SIZE_T - 1 := by decide
    have hb32 : main_bytes scenario_cfg.end_pos sf4 = 32 := by
      unfold main_bytes
      rw [hend, hst, hbr]
      decide
    unfold main_finish
    simp only [hq, if_true, hsp4, one_ne_zero, and_false, if_false, ho, e1, List.map_replicate,
      hb32]
    rfl

theorem three_identical_streams_witness :
    ∃ s d st, scenario_stream 64 (List.range 32) = some s ∧ sbuf_diff_malloc 8 = some d ∧
      (∀ k, main_loop scenario_cfg (k + 5) (scenario_start s d) = some st) ∧
      main_loop scenario_cfg 4 (scenario_start s d) = none ∧
      st.lines = [0, 8, 16, 24] ∧ st.out = [out_event.spacer] ∧ st.pos = 32 ∧
      st.streams.length = 3 ∧ main_eoo_cnt st.pos st.streams = 3 ∧
      (main_finish scenario_cfg st).out = [out_event.spacer, out_event.bytes [32, 32, 32]] :=
  three_identical_streams 64 (List.range 32) (by decide) (by decide) (by decide) (by decide)

/-! ### The three accessors of a window agree -/

/-- The number of `q < n` in the interval from `a` to `a + l`. -/
theorem count_interval (p : Nat → Bool) (a l : Nat) (hp : ∀ q, p q = true ↔ a ≤ q ∧ q < a + l) :
    ∀ n, ((List.range n).filter p).length = min (a + l) n - min a n := by
  intro n
  induction n with
  | zero => simp
  | succ n ih =>
    rw [List.range_succ, List.filter_append, List.length_append, ih]
    cases h : p n with
    | true =>
      have := (hp n).mp h
      simp only [List.filter_cons, h, if_true, List.filter_nil, List.length_singleton]
      omega
    | false =>
      have hn : ¬ (a ≤ n ∧ n < a + l) := by
        intro hc
        rw [(hp n).mpr hc] at h
        exact Bool.noConfusion h
      simp only [List.filter_cons, h, Bool.false_eq_true, if_false, List.filter_nil,
        List.length_nil]
      omega

theorem sbuf_char_some_iff (sb : sbuf) (q : Nat) (h : sb.pos + sb.len < SIZE_T) :
    (sbuf_char sb q).isSome = true ↔ sb.pos ≤ q ∧ q < sb.pos + sb.len := by
  unfold sbuf_char
  rw [Nat.mod_eq_of_lt h]
  split_ifs with h1 h2
  · simp only [Option.isSome_none, Bool.false_eq_true, false_iff]
    omega
  · simp only [Option.isSome_none, Bool.false_eq_true, false_iff]
    omega
  · simp only [Option.isSome_some, true_iff]
    omega

/-- The real bytes from `sbuf_rpos(sb, pos)` on are the `sbuf_len(sb, pos)` positions
that follow it. -/
theorem real_interval (sb : sbuf) (pos q : Nat) (h : sb.pos + sb.len < SIZE_T) :
    (sbuf_rpos sb pos ≤ q ∧ (sbuf_char sb q).isSome = true) ↔
      (sbuf_rpos sb pos ≤ q ∧ q < sbuf_rpos sb pos + sbuf_len sb pos) := by
  rw [sbuf_char_some_iff sb q h]
  unfold sbuf_rpos sbuf_len
  rw [Nat.mod_eq_of_lt h]
  split_ifs <;> omega

/-- For a window whose end `sb.pos + sb.len` reaches `2^64` the sum computed by
`sbuf_avail` and the test of `sbuf_len` work on wrapped values, and the two
accessors disagree at every position. -/
theorem accessors_wrapped (w : sbuf) (q : Nat) (hp : w.pos < SIZE_T) (hl : w.len < SIZE_T)
    (hq : q < SIZE_T) (hwrap : SIZE_T ≤ w.pos + w.len) :
    sbuf_avail w q ≠ sbuf_before w q + sbuf_len w q := by
  have hE : (w.pos + w.len) % SIZE_T = w.pos + w.len - SIZE_T := by
    rw [show w.pos + w.len = w.pos + w.len - SIZE_T + SIZE_T by omega, Nat.add_mod_right,
      Nat.mod_eq_of_lt (by omega)]
    omega
  unfold sbuf_avail sbuf_before sbuf_len
  rw [hE]
  by_cases h1 : q > w.pos ∧ q - w.pos ≥ w.len
  · omega
  · rw [if_neg h1, if_neg h1]
    by_cases h2 : q < w.pos
    · rw [if_pos h2, if_pos h2]
      by_cases h3 : SIZE_T ≤ w.pos - q + w.len
      · have hA : (w.pos - q + w.len) % SIZE_T = w.pos - q + w.len - SIZE_T := by
          rw [show w.pos - q + w.len = w.pos - q + w.len - SIZE_T + SIZE_T by omega,
            Nat.add_mod_right, Nat.mod_eq_of_lt (by omega)]
          omega
        rw [hA]
        split_ifs <;> omega
      · rw [Nat.mod_eq_of_lt (by omega)]
        split_ifs <;> omega
    · rw [if_neg h2, if_neg h2]
      split_ifs <;> omega

/-- C38, the claim as written fails: the window that holds 4 bytes from position
`2^64 - 2` on (the set-up of a stream shifted by `2^64 - 2` builds it), queried at
`2^64 - 3`: `sbuf_avail` is 5 and `sbuf_before` is 1, but `sbuf_len` is 0, because
it compares the position with the wrapped sum `sb.pos + sb.len = 2`. -/
theorem accessors_disagree_on_wrapped_window :
    (main_open 0 4 0 (SIZE_T - 2) (-1) (pipe_script [1, 2, 3, 4] [4])).map (fun s => s.sb) =
      some demo_wrap ∧
    sbuf_avail demo_wrap (SIZE_T - 3) = 5 ∧ sbuf_before demo_wrap (SIZE_T - 3) = 1 ∧
    sbuf_len demo_wrap (SIZE_T - 3) = 0 ∧
    sbuf_avail demo_wrap (SIZE_T - 3) ≠
      sbuf_before demo_wrap (SIZE_T - 3) + sbuf_len demo_wrap (SIZE_T - 3) := by
  decide

/-- C38 (amended): for every window whose data ends below `2^64`
(`sb.pos + sb.len < 2^64`) and every `pos` (before, within or after the data, empty
window included) the three accessors agree: `sbuf_avail(sb, pos) = sbuf_before(sb,
pos) + sbuf_len(sb, pos)`, and the positions `q >= sbuf_rpos(sb, pos)` at which
`sbuf_char` points to a byte are the `sbuf_len(sb, pos)` positions from
`sbuf_rpos(sb, pos)` on, so that `sbuf_len(sb, pos)` is their number.  The condition
cannot be dropped: for a window whose end reaches `2^64` the first equation fails at
every position. -/
theorem accessors_agree (sb : sbuf) (pos : Nat) (h : sb.pos + sb.len < SIZE_T) :
    sbuf_avail sb pos = sbuf_before sb pos + sbuf_len sb pos ∧
    (∀ q, (sbuf_rpos sb pos ≤ q ∧ (sbuf_char sb q).isSome = true) ↔
      (sbuf_rpos sb pos ≤ q ∧ q < sbuf_rpos sb pos + sbuf_len sb pos)) ∧
    (∀ n, sb.pos + sb.len ≤ n → real_from sb (sbuf_rpos sb pos) n = sbuf_len sb pos) ∧
    (∀ q, sb.pos + sb.len ≤ q → sbuf_char sb q = none) ∧
    (∀ (w : sbuf) (q : Nat), w.pos < SIZE_T → w.len < SIZE_T → q < SIZE_T →
      SIZE_T ≤ w.pos + w.len → sbuf_avail w q ≠ sbuf_before w q + sbuf_len w q) := by
  refine ⟨?_, fun q => real_interval sb pos q h, ?_, ?_, accessors_wrapped⟩
  · unfold sbuf_avail sbuf_before sbuf_len
    rw [Nat.mod_eq_of_lt h]
    have hm : sb.pos - pos + sb.len < SIZE_T := by omega
    split_ifs <;> first | omega | (rw [Nat.mod_eq_of_lt hm])
  · intro n hn
    unfold real_from
    rw [count_interval _ (sbuf_rpos sb pos) (sbuf_len sb pos)]
    · have hle : sbuf_rpos sb pos + sbuf_len sb pos ≤ n ∨ sbuf_len sb pos = 0 := by
        unfold sbuf_rpos sbuf_len
        rw [Nat.mod_eq_of_lt h]
        split_ifs <;> omega
      rcases hle with hle | hle
      · omega
      · rw [hle]
        omega
    · intro q
      rw [Bool.and_eq_true, decide_eq_true_eq]
      exact real_interval sb pos q h
  · intro q hq
    unfold sbuf_char
    rw [Nat.mod_eq_of_lt h]
    split_ifs <;> rfl

theorem accessors_agree_witness :
    sbuf_avail demo_mid 1 = sbuf_before demo_mid 1 + sbuf_len demo_mid 1 ∧
    (∀ q, (sbuf_rpos demo_mid 1 ≤ q ∧ (sbuf_char demo_mid q).isSome = true) ↔
      (sbuf_rpos demo_mid 1 ≤ q ∧ q < sbuf_rpos demo_mid 1 + sbuf_len demo_mid 1)) ∧
    (∀ n, demo_mid.pos + demo_mid.len ≤ n →
      real_from demo_mid (sbuf_rpos demo_mid 1) n = sbuf_len demo_mid 1) ∧
    (∀ q, demo_mid.pos + demo_mid.len ≤ q → sbuf_char demo_mid q = none) :=
  ⟨(accessors_agree demo_mid 1 (by decide)).1, (accessors_agree demo_mid 1 (by decide)).2.1,
   (accessors_agree demo_mid 1 (by decide)).2.2.1,
   (accessors_agree demo_mid 1 (by decide)).2.2.2.1⟩

/-! ### The null counts of one compare -/

/-- C33, the claim as written fails: the window `demo_short` holds one byte, so at
offset 1 of the line at 0 both operands of its compare with itself are absent; the
null count of that offset is 1, not 2. -/
theorem null_count_both_absent_is_one :
    line_byte demo_short 0 1 = none ∧
    (sbuf_diff_cmp demo_short demo_short 0 4 (sbuf_diff_init (demo_engine 4)) 1).2.null.ptr =
      [0, 1, 1, 1] ∧
    rd (sbuf_diff_cmp demo_short demo_short 0 4 (sbuf_diff_init (demo_engine 4)) 1).2.null.ptr 1
      ≠ 2 := by
  decide

/-- C33 (amended): after `sbuf_diff_init` and one `sbuf_diff_cmp` with the null
policy off, the null count of each byte index `i` of the line is 1 when at least one
of the two operands is absent at `pos + i` (one of them or both), and 0 when both are
real; outside the line it is 0. -/
theorem null_count_is_a_flag (sb1 sb2 : sbuf) (pos len ws : Nat) (d : sbuf_diff)
    (hd : d.allocated) (hlen : len ≤ d.width) (hws : 1 ≤ ws) :
    (∀ i, i < len →
      rd (sbuf_diff_cmp sb1 sb2 pos len (sbuf_diff_init d) ws).2.null.ptr i =
        if line_byte sb1 pos i = none ∨ line_byte sb2 pos i = none then 1 else 0) ∧
    (∀ i, len ≤ i → rd (sbuf_diff_cmp sb1 sb2 pos len (sbuf_diff_init d) ws).2.null.ptr i = 0) := by
  obtain ⟨-, -, -, -, -, -, -, -, c9⟩ := fresh_cmp_spec sb1 sb2 pos len d 0 ws hws hd hlen
  have e0 : reset_engine d 0 = sbuf_diff_init d := rfl
  rw [e0] at c9
  constructor
  · intro i hi
    rw [(c9 i).2.2]
    unfold null_hit
    rcases h1 : line_byte sb1 pos i with _ | a <;> rcases h2 : line_byte sb2 pos i with _ | b <;>
      simp [hi]
  · intro i hi
    rw [(c9 i).2.2]
    have : null_hit sb1 sb2 pos len 0 i = false := by
      unfold null_hit
      have : ¬ i < len := by omega
      simp [this]
    rw [this]
    rfl

theorem null_count_is_a_flag_witness :
    (∀ i, i < 4 →
      rd (sbuf_diff_cmp demo_a demo_short 0 4 (sbuf_diff_init (demo_engine 4)) 1).2.null.ptr i =
        if line_byte demo_a 0 i = none ∨ line_byte demo_short 0 i = none then 1 else 0) ∧
    (∀ i, 4 ≤ i →
      rd (sbuf_diff_cmp demo_a demo_short 0 4 (sbuf_diff_init (demo_engine 4)) 1).2.null.ptr i
        = 0) :=
  null_count_is_a_flag demo_a demo_short 0 4 1 (demo_engine 4) (by decide) (by decide)
    (by decide)

/-! ### The eviction loop of `cache_add` -/

/-- The eviction loop on a cache whose active list has `n` nodes and a counter that
says so: it ends within `n + 1` passes, after `n + 1 - k` evictions. -/
theorem evict_general (k : Nat) (hk : 1 ≤ k) :
    ∀ (fuel n : Nat) (c : sbuf_cache) (r : Int),
      c.active.wf → c.active.nodes.length = n → n < SIZE_T → n + 1 ≤ fuel →
      ∃ c1, cache_add_evict k fuel c r = some (c1, r + ((n + 1 - k : Nat) : Int)) ∧
        c1.active.wf ∧ c1.active.nodes = c.active.nodes.drop (n + 1 - k) ∧
        c1.max_buf_len = c.max_buf_len := by
  intro fuel
  induction fuel with
  | zero =>
    intro n c r _ _ _ hf
    omega
  | succ fuel ih =>
    intro n c r hwf hn hm hf
    obtain ⟨⟨asz, an⟩, ⟨isz, inn⟩, w⟩ := c
    simp only [llq_list.wf] at hwf hn
    subst hwf
    by_cases hge : an.length ≥ k
    · cases an with
      | nil => simp only [List.length_nil] at hge; omega
      | cons x rest =>
        simp only [List.length_cons] at hge hn hm
        have e1 : (rest.length + 1 + SIZE_T - 1) % SIZE_T = rest.length :=
          size_dec_mod _ (by omega)
        obtain ⟨c1, i1, i2, i3, i4⟩ := ih rest.length
          ⟨⟨rest.length, rest⟩, ⟨(isz + 1) % SIZE_T, inn ++ [x]⟩, w⟩ (r + 1) rfl rfl (by omega)
          (by omega)
        refine ⟨c1, ?_, i2, ?_, i4⟩
        · simp only [cache_add_evict, List.length_cons, hge, if_true, remove_cons, e1]
          rw [i1]
          have e2 : ((n + 1 - k : Nat) : Int) = 1 + ((rest.length + 1 - k : Nat) : Int) := by
            omega
          rw [e2, Int.add_assoc]
        · rw [i3]
          simp only
          rw [show n + 1 - k = (rest.length + 1 - k) + 1 by omega, List.drop_succ_cons]
    · have e0 : n + 1 - k = 0 := by omega
      refine ⟨⟨⟨an.length, an⟩, ⟨isz, inn⟩, w⟩, ?_, rfl, ?_, rfl⟩
      · simp only [cache_add_evict, hge, if_false, e0, Nat.cast_zero, Int.add_zero]
      · rw [e0]
        rfl

/-- With `max_lines = 0` the eviction loop does not end within any number of
passes. -/
theorem evict_zero_never_ends :
    ∀ (fuel : Nat) (c : sbuf_cache) (r : Int), cache_add_evict 0 fuel c r = none := by
  intro fuel
  induction fuel with
  | zero =>
    intro c r
    simp only [cache_add_evict, ge_iff_le, Nat.zero_le, if_true]
  | succ fuel ih =>
    intro c r
    simp only [cache_add_evict, ge_iff_le, Nat.zero_le, if_true]
    exact ih _ _

/-- With `context = 0` the output part of a pass leaves the caches alone. -/
theorem output_line_no_context (flags width end_pos pos : Nat) (sb : List sbuf) (cnt : Nat)
    (t : main_track) :
    ∃ r, main_output_line flags 0 width end_pos pos sb cnt t = some r ∧ r.1.cache = t.cache := by
  unfold main_output_line
  simp only [main_drain_off, lt_self_iff_false, gt_iff_lt, if_false]
  split_ifs <;> exact ⟨_, rfl, rfl⟩

/-- C39: `cache_add` with `max_lines >= 1`, on every cache whose active list is a
list as `llq` keeps it (the counter is the number of nodes), ends: its loop makes
`max(0, active.size - max_lines + 1)` evictions, of the oldest lines, and the call
returns that number.  With `max_lines = 0` the loop `while (active.size >=
max_lines)` does not end within any number of passes, whatever the cache; the
driver makes no call with `context = 0`, it leaves the caches alone then.  (The
counter `removed` is an `int`: the number of evictions is below `2^31`.) -/
theorem cache_add_ends (sb : sbuf) (c : sbuf_cache) (pos max_lines : Nat) (hk : 1 ≤ max_lines)
    (hwf : c.active.wf) (hsz : c.active.size < SIZE_T)
    (_hint : c.active.size + 1 - max_lines < 2147483648) :
    (∃ c0 c1, cache_add_evict max_lines (c.active.size + 1) c 0 =
        some (c0, ((c.active.size + 1 - max_lines : Nat) : Int)) ∧
      c0.active.nodes = c.active.nodes.drop (c.active.size + 1 - max_lines) ∧
      cache_add sb c pos max_lines =
        some (((c.active.size + 1 - max_lines : Nat) : Int), c1) ∧
      ((c.active.size + 1 - max_lines : Nat) : Int) =
        max 0 ((c.active.size : Int) - (max_lines : Int) + 1)) ∧
    (∀ (fuel : Nat) (c2 : sbuf_cache) (r : Int), cache_add_evict 0 fuel c2 r = none) ∧
    (∀ (sb2 : sbuf) (c2 : sbuf_cache) (p : Nat), cache_add sb2 c2 p 0 = none) ∧
    (∀ (flags width end_pos p : Nat) (sbs : List sbuf) (cnt : Nat) (t : main_track),
      ∃ r, main_output_line flags 0 width end_pos p sbs cnt t = some r ∧
        r.1.cache = t.cache) := by
  have hwf2 : c.active.size = c.active.nodes.length := hwf
  obtain ⟨c0, e1, _, e3, _⟩ := evict_general max_lines hk (c.active.size + 1)
    c.active.nodes.length c 0 hwf rfl (by omega) (by omega)
  rw [Int.zero_add, ← hwf2] at e1
  rw [← hwf2] at e3
  have hadd : ∃ c1, cache_add sb c pos max_lines =
      some (((c.active.size + 1 - max_lines : Nat) : Int), c1) := by
    rw [cache_add_eq, e1]
    exact ⟨_, rfl⟩
  obtain ⟨c1, hc1⟩ := hadd
  refine ⟨⟨c0, c1, e1, e3, hc1, by omega⟩, evict_zero_never_ends, ?_, ?_⟩
  · intro sb2 c2 p
    rw [cache_add_eq, evict_zero_never_ends]
    rfl
  · intro flags width end_pos p sbs cnt t
    exact output_line_no_context flags width end_pos p sbs cnt t

theorem cache_add_ends_witness :
    (∃ c0 c1, cache_add_evict 1 (demo_cache1.active.size + 1) demo_cache1 0 =
        some (c0, ((demo_cache1.active.size + 1 - 1 : Nat) : Int)) ∧
      c0.active.nodes = demo_cache1.active.nodes.drop (demo_cache1.active.size + 1 - 1) ∧
      cache_add demo_two demo_cache1 0 1 =
        some (((demo_cache1.active.size + 1 - 1 : Nat) : Int), c1) ∧
      ((demo_cache1.active.size + 1 - 1 : Nat) : Int) =
        max 0 ((demo_cache1.active.size : Int) - ((1 : Nat) : Int) + 1)) :=
  (cache_add_ends demo_two demo_cache1 0 1 (by decide) (by decide) (by decide) (by decide)).1

/-! ### The top-up loop of the driver -/

/-- A call of `sfile_read` on a window with room, the reader not at end of file,
returns what `read` returned. -/
theorem read_with_room (sf : sfile) (sb : sbuf) (o : read_outcome) (heof : sf.eof = 0)
    (hroom : sb.len < sb.size) (hsz : sb.size < SIZE_T) :
    (sb.size + SIZE_T - sb.len) % SIZE_T ≠ 0 ∧ (sfile_read sf sb o).1 = o.br := by
  have h2 : ¬ (sb.size + SIZE_T - sb.len) % SIZE_T = 0 := by
    rw [show sb.size + SIZE_T - sb.len = sb.size - sb.len + SIZE_T by omega, Nat.add_mod_right,
      Nat.mod_eq_of_lt (by omega)]
    omega
  refine ⟨h2, ?_⟩
  unfold sfile_read
  rw [if_neg (by rw [heof]; simp)]
  simp only
  rw [if_neg h2]
  split_ifs <;> rfl

/-- The top-up loop ends only with the end of the file seen, with a read that
returned a negative value, or with a line's worth of data available. -/
theorem main_fill_exit (pos width : Nat) :
    ∀ (fuel : Nat) (sf : sfile) (sb : sbuf) (src : List read_outcome)
      (r : sfile × sbuf × List read_outcome),
      main_fill pos width fuel sf sb src = some r →
      r.1.eof ≠ 0 ∨ sbuf_avail r.2.1 pos ≥ width ∨
        ∃ sf1 sb1 src1, (sf1.eof = 0 ∧ sbuf_avail sb1 pos < width) ∧
          (sfile_read_src sf1 (sbuf_reduce sb1 pos) src1).1 < 0 ∧
          r = (sfile_read_src sf1 (sbuf_reduce sb1 pos) src1).2 := by
  intro fuel
  induction fuel with
  | zero =>
    intro sf sb src r h
    simp only [main_fill] at h
    split_ifs at h with hc
    simp only [Option.some.injEq] at h
    subst h
    simp only
    by_cases he : sf.eof = 0
    · right; left
      have : ¬ sbuf_avail sb pos < width := fun hlt => hc ⟨he, hlt⟩
      omega
    · left; exact he
  | succ fuel ih =>
    intro sf sb src r h
    simp only [main_fill] at h
    split_ifs at h with hc hneg
    · simp only [Option.some.injEq] at h
      right; right
      exact ⟨sf, sb, src, hc, hneg, h.symm⟩
    · exact ih _ _ _ _ h
    · simp only [Option.some.injEq] at h
      subst h
      simp only
      by_cases he : sf.eof = 0
      · right; left
        have : ¬ sbuf_avail sb pos < width := fun hlt => hc ⟨he, hlt⟩
        omega
      · left; exact he

/-- In the top-up loop the window is without room after `sbuf_reduce` in one case
only: the position lies before the base of a full window and the sum that
`sbuf_avail` computes has wrapped. -/
theorem topup_room_iff (sb : sbuf) (pos width : Nat) (hsize : width ≤ sb.size)
    (hlen : sb.len ≤ sb.size) (hcond : sbuf_avail sb pos < width) :
    (¬ (sbuf_reduce sb pos).len < (sbuf_reduce sb pos).size ↔
      pos < sb.pos ∧ sb.len = sb.size ∧ SIZE_T ≤ sb.pos - pos + sb.len) ∧
    (pos < sb.pos → sbuf_reduce sb pos = sb) := by
  have hred : pos < sb.pos → sbuf_reduce sb pos = sb := by
    intro h
    unfold sbuf_reduce
    rw [if_pos (by omega)]
  refine ⟨?_, hred⟩
  by_cases h1 : pos < sb.pos
  · rw [hred h1]
    unfold sbuf_avail at hcond
    rw [if_neg (by omega), if_pos h1] at hcond
    by_cases h2 : SIZE_T ≤ sb.pos - pos + sb.len
    · constructor
      · intro h
        exact ⟨h1, by omega, h2⟩
      · intro h
        omega
    · rw [Nat.mod_eq_of_lt (by omega)] at hcond
      constructor
      · intro h
        omega
      · intro h
        exact absurd h.2.2 h2
  · constructor
    · intro h
      exfalso
      apply h
      unfold sbuf_avail at hcond
      unfold sbuf_reduce
      simp only
      split_ifs at hcond ⊢ <;> first | omega | (simp only; omega)
    · intro h
      exact absurd h.1 h1

/-- C40, the claim as written fails: for a stream shifted by `2^64 - 1`, with a
buffer of 8 bytes and lines of 8 bytes, the set-up leaves a full window of capacity
8 at base `2^64 - 1` and `eof` unset.  At position 0 the sum `(sb.pos - pos) + len`
of `sbuf_avail` wraps to 7, so the loop condition holds; `sbuf_reduce` changes
nothing, the window has no room, and `sfile_read` returns -1 for lack of capacity. -/
theorem topup_read_without_room :
    main_open 0 8 0 (SIZE_T - 1) (-1) (pipe_script (List.range 16) [8, 8]) =
      some ⟨⟨-1, 0, SIZE_T - 1, 8⟩, demo_top, [⟨8, [8, 9, 10, 11, 12, 13, 14, 15]⟩]⟩ ∧
    8 ≤ demo_top.size ∧ demo_top.len ≤ demo_top.size ∧
    sbuf_avail demo_top 0 = 7 ∧ sbuf_reduce demo_top 0 = demo_top ∧
    ¬ (sbuf_reduce demo_top 0).len < (sbuf_reduce demo_top 0).size ∧
    sfile_read_src ⟨-1, 0, SIZE_T - 1, 8⟩ (sbuf_reduce demo_top 0)
        [⟨8, [8, 9, 10, 11, 12, 13, 14, 15]⟩] =
      (-1, ⟨-1, 0, SIZE_T - 1, 8⟩, demo_top, [⟨8, [8, 9, 10, 11, 12, 13, 14, 15]⟩]) ∧
    main_fill 0 8 2 ⟨-1, 0, SIZE_T - 1, 8⟩ demo_top [⟨8, [8, 9, 10, 11, 12, 13, 14, 15]⟩] =
      some (⟨-1, 0, SIZE_T - 1, 8⟩, demo_top, [⟨8, [8, 9, 10, 11, 12, 13, 14, 15]⟩]) := by
  decide

/-- C40 (amended): in the top-up loop of the driver, for a window with
`size >= width` and `len <= size`, whenever the loop condition holds (`eof` not set
and `sbuf_avail(sb, pos) < width`): after `sbuf_reduce(sb, pos)` the window has room
(`len < size`) except in one case, namely when `pos` lies before the base of the
window, the window is full and the sum `(sb.pos - pos) + sb.len` that `sbuf_avail`
computes has wrapped past `2^64`; in particular it has room whenever
`sb.pos + sb.len < 2^64`.  With room the count `sfile_read` asks for is not 0, the
call does not take its branch for a full buffer and returns what `read` returned;
in the excepted case `sbuf_reduce` has changed nothing and `sfile_read` returns -1
for lack of capacity.  The loop ends only with `eof` set, with a call of
`sfile_read` that returned a negative value, or with `sbuf_avail(sb, pos) >= width`.
(The capacity is a `size_t`: `sb.size < 2^64`.) -/
theorem topup_read_has_room (sf : sfile) (sb : sbuf) (pos width : Nat) (o : read_outcome)
    (hsize : width ≤ sb.size) (hlen : sb.len ≤ sb.size)
    (hsz : sb.size < SIZE_T) (hcond : sf.eof = 0 ∧ sbuf_avail sb pos < width) :
    (¬ (sbuf_reduce sb pos).len < (sbuf_reduce sb pos).size ↔
      pos < sb.pos ∧ sb.len = sb.size ∧ SIZE_T ≤ sb.pos - pos + sb.len) ∧
    (sb.pos + sb.len < SIZE_T → (sbuf_reduce sb pos).len < (sbuf_reduce sb pos).size) ∧
    ((sbuf_reduce sb pos).len < (sbuf_reduce sb pos).size →
      ((sbuf_reduce sb pos).size + SIZE_T - (sbuf_reduce sb pos).len) % SIZE_T ≠ 0 ∧
      (sfile_read sf (sbuf_reduce sb pos) o).1 = o.br) ∧
    (¬ (sbuf_reduce sb pos).len < (sbuf_reduce sb pos).size →
      sbuf_reduce sb pos = sb ∧ sfile_read sf (sbuf_reduce sb pos) o = (-1, sf, sb)) ∧
    (∀ (fuel : Nat) (sf0 : sfile) (sb0 : sbuf) (src : List read_outcome)
      (r : sfile × sbuf × List read_outcome),
      main_fill pos width fuel sf0 sb0 src = some r →
      r.1.eof ≠ 0 ∨ sbuf_avail r.2.1 pos ≥ width ∨
        ∃ sf1 sb1 src1, (sf1.eof = 0 ∧ sbuf_avail sb1 pos < width) ∧
          (sfile_read_src sf1 (sbuf_reduce sb1 pos) src1).1 < 0 ∧
          r = (sfile_read_src sf1 (sbuf_reduce sb1 pos) src1).2) := by
  obtain ⟨hiff, hred⟩ := topup_room_iff sb pos width hsize hlen hcond.2
  refine ⟨hiff, ?_, ?_, ?_, main_fill_exit pos width⟩
  · intro hw
    by_contra hno
    have := hiff.mp hno
    omega
  · intro hroom
    exact read_with_room sf (sbuf_reduce sb pos) o hcond.1 hroom
      (by rw [sbuf_reduce_size]; exact hsz)
  · intro hno
    obtain ⟨h1, h2, _⟩ := hiff.mp hno
    rw [hred h1]
    refine ⟨rfl, ?_⟩
    have hfull : (sb.size + SIZE_T - sb.len) % SIZE_T = 0 := by
      rw [h2, show sb.size + SIZE_T - sb.size = SIZE_T by omega, Nat.mod_self]
    unfold sfile_read
    simp only [hcond.1, ne_eq, not_true_eq_false, if_false, hfull, if_true]

theorem topup_read_has_room_witness :
    (sbuf_reduce demo_full 4).len < (sbuf_reduce demo_full 4).size ∧
    ((sbuf_reduce demo_full 4).size + SIZE_T - (sbuf_reduce demo_full 4).len) % SIZE_T ≠ 0 ∧
    (sfile_read sfile_malloc (sbuf_reduce demo_full 4) demo_read2).1 = demo_read2.br :=
  ⟨(topup_read_has_room sfile_malloc demo_full 4 8 demo_read2 (by decide) (by decide)
      (by decide) (by decide)).2.1 (by decide),
   ((topup_read_has_room sfile_malloc demo_full 4 8 demo_read2 (by decide) (by decide)
      (by decide) (by decide)).2.2.1 (by decide)).1,
   ((topup_read_has_room sfile_malloc demo_full 4 8 demo_read2 (by decide) (by decide)
      (by decide) (by decide)).2.2.1 (by decide)).2⟩

/-! ### The calls of `sfile_read` made by the driver -/

theorem read_finds_full_iff (sb : sbuf) (hlen : sb.len ≤ sb.size) (hsz : sb.size < SIZE_T) :
    read_finds_full sb ↔ sb.len = sb.size := by
  unfold read_finds_full
  rw [show sb.size + SIZE_T - sb.len = sb.size - sb.len + SIZE_T by omega, Nat.add_mod_right,
    Nat.mod_eq_of_lt (by omega)]
  omega

/-- `main_open` is the positioning followed by the initial read. -/
theorem main_open_eq (start_pos buf_size seek shift : Nat) (off : Int)
    (src : List read_outcome) :
    main_open start_pos buf_size seek shift off src =
      (main_position start_pos buf_size seek shift off src).map fun p =>
        { sf := (sfile_read_src p.1 p.2.1 p.2.2).2.1,
          sb := (sfile_read_src p.1 p.2.1 p.2.2).2.2.1,
          src := (sfile_read_src p.1 p.2.1 p.2.2).2.2.2 } := by
  unfold main_open main_position
  cases sbuf_malloc buf_size with
  | none => rfl
  | some sb0 =>
    simp only
    split_ifs
    · cases sfile_seek sfile_malloc sb0 ((start_pos + seek) % SIZE_T - shift) off src with
      | none => rfl
      | some r => rfl
    · rfl

/-- A call of `sfile_read` on an empty window: a result that is not positive leaves
the window alone, a positive result is the number of bytes now held. -/
theorem read_src_empty (sf : sfile) (sb : sbuf) (src : List read_outcome) (b : Nat)
    (hlen : sb.len = 0) (hs : ∀ o ∈ src, o.br ≤ (b : Int)) :
    ((sfile_read_src sf sb src).1 ≤ 0 → (sfile_read_src sf sb src).2.2.1 = sb) ∧
    ((sfile_read_src sf sb src).1 > 0 →
      (sfile_read_src sf sb src).2.2.1.pos = sb.pos ∧
      (sfile_read_src sf sb src).2.2.1.size = sb.size ∧
      (sfile_read_src sf sb src).2.2.1.len ≤ b) ∧
    (∀ o ∈ (sfile_read_src sf sb src).2.2.2, o.br ≤ (b : Int)) := by
  have htail : ∀ o ∈ src.tail, o.br ≤ (b : Int) := fun o ho => hs o (List.mem_of_mem_tail ho)
  have hhead : (src.headD read_eof).br ≤ (b : Int) := by
    cases src with
    | nil => simp only [List.headD_nil, read_eof]; omega
    | cons o rest => exact hs o (by simp)
  unfold sfile_read_src sfile_read
  simp only [hlen, Nat.zero_add, Nat.sub_zero]
  refine ⟨?_, ?_, ?_⟩
  · split_ifs <;> first | (intro _; rfl) | (intro h; simp only at h; omega)
  · split_ifs <;> first
      | (intro h; simp only at h; omega)
      | (intro _
         refine ⟨rfl, rfl, ?_⟩
         simp only
         have : (src.headD read_eof).br.toNat ≤ b := by omega
         exact le_trans (Nat.mod_le _ _) this)
  · split_ifs <;> first | exact hs | exact htail

/-- The loop of `sfile_seek` leaves a window with room. -/
theorem seek_loop_room (pos b : Nat) (hb : 0 < b) (hw : pos + b < SIZE_T) :
    ∀ (fuel : Nat) (sf : sfile) (sb : sbuf) (src : List read_outcome)
      (r : sfile × sbuf × List read_outcome),
      sb.size = b → (∀ o ∈ src, o.br ≤ (b : Int)) →
      ((sb.pos + sb.len < pos ∧ sb.len ≤ sb.size) ∨ (¬ sb.pos < pos ∧ sb.len < sb.size)) →
      sfile_seek_loop pos fuel sf sb src = some r →
      r.2.1.len < r.2.1.size ∧ r.2.1.size = b := by
  intro fuel
  induction fuel with
  | zero =>
    intro sf sb src r hsz _ hk h
    simp only [sfile_seek_loop] at h
    split_ifs at h with hc
    simp only [Option.some.injEq] at h
    subst h
    rcases hk with hk | hk
    · omega
    · exact ⟨hk.2, hsz⟩
  | succ fuel ih =>
    intro sf sb src r hsz hs hk h
    simp only [sfile_seek_loop] at h
    by_cases hc : sb.pos < pos
    · rw [if_pos hc] at h
      have hk1 : sb.pos + sb.len < pos ∧ sb.len ≤ sb.size := by
        rcases hk with hk | hk
        · exact hk
        · exact absurd hc hk.1
      have hE : (sb.pos + sb.len) % SIZE_T = sb.pos + sb.len := Nat.mod_eq_of_lt (by omega)
      have hred : sbuf_reduce sb ((sb.pos + sb.len) % SIZE_T) =
          { sb with pos := sb.pos + sb.len, len := 0 } := by
        rw [hE]
        exact sbuf_reduce_to_end sb _ rfl (by omega)
      rw [hred] at h
      obtain ⟨q1, q2, q3⟩ := read_src_empty sf { sb with pos := sb.pos + sb.len, len := 0 } src b
        rfl hs
      rcases hrr : sfile_read_src sf { sb with pos := sb.pos + sb.len, len := 0 } src with
        ⟨br, sf1, sb1, src1⟩
      rw [hrr] at h q1 q2 q3
      simp only at h q1 q2 q3
      by_cases hr : br ≤ 0
      · rw [if_pos hr] at h
        simp only [Option.some.injEq] at h
        subst h
        have e1 := q1 hr
        subst e1
        have h2 := sbuf_reduce_len_le { sb with pos := sb.pos + sb.len, len := 0 } pos
        have h3 := sbuf_reduce_size { sb with pos := sb.pos + sb.len, len := 0 } pos
        simp only at h2 h3
        show (sbuf_reduce { sb with pos := sb.pos + sb.len, len := 0 } pos).len <
            (sbuf_reduce { sb with pos := sb.pos + sb.len, len := 0 } pos).size ∧
          (sbuf_reduce { sb with pos := sb.pos + sb.len, len := 0 } pos).size = b
        rw [h3]
        exact ⟨by omega, hsz⟩
      · rw [if_neg hr] at h
        obtain ⟨p1, p2, p3⟩ := q2 (by omega)
        have hmod : (sb1.pos + sb1.len) % SIZE_T = sb1.pos + sb1.len :=
          Nat.mod_eq_of_lt (by omega)
        rw [hmod] at h
        split_ifs at h with hin
        · apply ih _ _ _ r (by rw [sbuf_reduce_size, p2]; exact hsz) q3 _ h
          right
          by_cases hend : pos < sb1.pos + sb1.len
          · rw [sbuf_reduce_slide _ pos hin.1 hend (by omega)]
            simp only
            omega
          · rw [sbuf_reduce_drop _ pos hin.1 (by omega) (by omega)]
            simp only
            omega
        · apply ih _ _ _ r (by rw [p2]; exact hsz) q3 _ h
          left
          omega
    · rw [if_neg hc] at h
      simp only [Option.some.injEq] at h
      subst h
      rcases hk with hk | hk
      · omega
      · exact ⟨hk.2, hsz⟩

/-- The window on which the initial read is made has room. -/
theorem position_room (start_pos buf_size seek shift : Nat) (off : Int)
    (src : List read_outcome) (p : sfile × sbuf × List read_outcome)
    (hs : ∀ o ∈ src, o.br ≤ (buf_size : Int))
    (hw : (start_pos + seek) % SIZE_T - shift + buf_size < SIZE_T)
    (h : main_position start_pos buf_size seek shift off src = some p) :
    p.2.1.len < p.2.1.size ∧ p.2.1.size = buf_size := by
  unfold main_position sbuf_malloc at h
  by_cases h0 : buf_size = 0
  · simp only [h0, if_true] at h
    exact Option.noConfusion h
  · simp only [h0, if_false] at h
    split_ifs at h with hgt
    · unfold sfile_seek at h
      have hp : ¬ (start_pos + seek) % SIZE_T - shift = 0 := by omega
      rw [if_neg hp] at h
      by_cases hoff : off < 0
      · rw [if_pos hoff] at h
        cases hl : sfile_seek_loop ((start_pos + seek) % SIZE_T - shift) (src.length + 1)
            sfile_malloc { ptr := List.replicate buf_size 0, size := buf_size, pos := 0, len := 0 }
            src with
        | none => rw [hl] at h; exact Option.noConfusion h
        | some r =>
          rw [hl] at h
          simp only [Option.some.injEq] at h
          subst h
          obtain ⟨a1, a2⟩ := seek_loop_room ((start_pos + seek) % SIZE_T - shift) buf_size
            (by omega) hw (src.length + 1) sfile_malloc
            { ptr := List.replicate buf_size 0, size := buf_size, pos := 0, len := 0 } src r rfl hs
            (Or.inl ⟨by simp only; omega, by simp only; omega⟩) hl
          exact ⟨a1, a2⟩
      · rw [if_neg hoff] at h
        simp only [Option.some.injEq] at h
        subst h
        exact ⟨by simp only; omega, rfl⟩
    · simp only [Option.some.injEq] at h
      subst h
      exact ⟨by simp only [sfile_shift]; omega, rfl⟩

/-- A call of `sfile_read` on a window without room, the reader not at end of file:
the result is -1, and reader, window and source are as before. -/
theorem read_src_full (sf : sfile) (sb : sbuf) (src : List read_outcome)
    (hfull : read_finds_full sb) (heof : sf.eof = 0) :
    sfile_read_src sf sb src = (-1, sf, sb, src) := by
  unfold read_finds_full at hfull
  unfold sfile_read_src sfile_read
  simp only [hfull, heof, ne_eq, not_true_eq_false, or_true, if_true, if_false]

/-- C31, the claim as written fails: two streams of 16 bytes read 8 bytes at a time,
buffer capacity 8 and width 8 (the configuration check `buf_size < width` passes).
The initial read fills the window; the first pass needs no top-up, compares the line
and moves on, and its re-read calls `sfile_read` on the full window: the call takes
the branch for a full buffer and returns -1. -/
theorem reread_finds_full_window :
    ∃ s d, main_open 0 8 0 0 (-1) (pipe_script (List.range 16) [8, 8]) = some s ∧
      sbuf_diff_malloc 8 = some d ∧
      demo_cfg8.width ≤ s.sb.size ∧
      main_fill_all 0 demo_cfg8.width [s, s] = some [s, s] ∧
      (main_pass demo_cfg8 (main_enter 0 [s, s] d [])).map (fun r => (r.2, r.1.streams)) =
        some (true, main_reread [s, s]) ∧
      s.sf.eof = 0 ∧ read_finds_full s.sb ∧
      sfile_read_src s.sf s.sb s.src = (-1, s.sf, s.sb, s.src) := by
  refine ⟨⟨⟨-1, 0, 0, 8⟩, ⟨[0, 1, 2, 3, 4, 5, 6, 7], 8, 0, 8⟩,
    [⟨8, [8, 9, 10, 11, 12, 13, 14, 15]⟩]⟩, sbuf_diff_init (demo_engine 8), ?_⟩
  decide

/-- C31 (amended): with a buffer capacity of at least one line width.  The initial
read of a stream is made on a window with room (for a seek made by reading the
stream: each `read` returns at most the capacity, and the position sought plus the
capacity is below `2^64`).  A read of the top-up loop is made on a window with room
except in one case: the position lies before the base of the window, the window is
full and the sum `(sb.pos - pos) + sb.len` that `sbuf_avail` computes has wrapped
past `2^64`; in particular never when `sb.pos + sb.len < 2^64`.  The re-read after
the position has moved is made on a window without room whenever the window is
full and the end of the file has not been seen: that call takes the branch for a
full buffer of `sfile_read` and returns -1, which the driver does not look at, and
reader, window and source are left as they were.  (The capacity is a `size_t`.) -/
theorem reads_on_windows_with_room (start_pos buf_size seek shift : Nat) (off : Int)
    (src : List read_outcome) (p : sfile × sbuf × List read_outcome)
    (sf : sfile) (sb : sbuf) (pos width : Nat)
    (hs : ∀ o ∈ src, o.br ≤ (buf_size : Int))
    (hw : (start_pos + seek) % SIZE_T - shift + buf_size < SIZE_T)
    (hp : main_position start_pos buf_size seek shift off src = some p)
    (hsize : width ≤ sb.size) (hlen : sb.len ≤ sb.size)
    (hsz : sb.size < SIZE_T) (hcond : sf.eof = 0 ∧ sbuf_avail sb pos < width) :
    (main_open start_pos buf_size seek shift off src =
        some { sf := (sfile_read_src p.1 p.2.1 p.2.2).2.1,
               sb := (sfile_read_src p.1 p.2.1 p.2.2).2.2.1,
               src := (sfile_read_src p.1 p.2.1 p.2.2).2.2.2 } ∧
      ¬ read_finds_full p.2.1) ∧
    (read_finds_full (sbuf_reduce sb pos) ↔
      pos < sb.pos ∧ sb.len = sb.size ∧ SIZE_T ≤ sb.pos - pos + sb.len) ∧
    (sb.pos + sb.len < SIZE_T → ¬ read_finds_full (sbuf_reduce sb pos)) ∧
    (∀ (s : main_stream), read_finds_full s.sb → s.sf.eof = 0 →
      sfile_read_src s.sf s.sb s.src = (-1, s.sf, s.sb, s.src) ∧ main_reread [s] = [s]) := by
  obtain ⟨hiff, -⟩ := topup_room_iff sb pos width hsize hlen hcond.2
  have hfull : read_finds_full (sbuf_reduce sb pos) ↔
      ¬ (sbuf_reduce sb pos).len < (sbuf_reduce sb pos).size := by
    have hl := sbuf_reduce_len_le sb pos
    have hz := sbuf_reduce_size sb pos
    rw [read_finds_full_iff _ (by omega) (by rw [hz]; exact hsz)]
    omega
  refine ⟨⟨?_, ?_⟩, hfull.trans hiff, ?_, ?_⟩
  · rw [main_open_eq, hp]
    rfl
  · obtain ⟨a1, a2⟩ := position_room start_pos buf_size seek shift off src p hs hw hp
    rw [read_finds_full_iff p.2.1 (by omega) (by omega)]
    omega
  · intro hw2 hf
    have := (hfull.trans hiff).mp hf
    omega
  · intro s hfull heof
    have := read_src_full s.sf s.sb s.src hfull heof
    refine ⟨this, ?_⟩
    simp only [main_reread, List.map_cons, List.map_nil, this]

theorem reads_on_windows_with_room_witness :
    (main_open 0 8 0 0 (-1) [demo_read2] =
        some { sf := (sfile_read_src sfile_malloc ⟨List.replicate 8 0, 8, 0, 0⟩ [demo_read2]).2.1,
               sb := (sfile_read_src sfile_malloc ⟨List.replicate 8 0, 8, 0, 0⟩
                 [demo_read2]).2.2.1,
               src := (sfile_read_src sfile_malloc ⟨List.replicate 8 0, 8, 0, 0⟩
                 [demo_read2]).2.2.2 } ∧
      ¬ read_finds_full (⟨List.replicate 8 0, 8, 0, 0⟩ : sbuf)) ∧
    ¬ read_finds_full (sbuf_reduce demo_full 4) :=
  ⟨(reads_on_windows_with_room 0 8 0 0 (-1) [demo_read2]
      (sfile_malloc, ⟨List.replicate 8 0, 8, 0, 0⟩, [demo_read2]) sfile_malloc demo_full 4 8
      (by decide) (by decide) (by decide) (by decide) (by decide) (by decide)
      (by decide)).1,
   (reads_on_windows_with_room 0 8 0 0 (-1) [demo_read2]
      (sfile_malloc, ⟨List.replicate 8 0, 8, 0, 0⟩, [demo_read2]) sfile_malloc demo_full 4 8
      (by decide) (by decide) (by decide) (by decide) (by decide) (by decide)
      (by decide)).2.2.1 (by decide)⟩

/-! ### The snapshot `cache_add` takes of a window -/

/-- The snapshot of a window read at or after its base: position `sbuf_rpos`, the
real bytes from `pos` on, at most `w` of them. -/
theorem snapshot_inside (w : Nat) (sb : sbuf) (pos : Nat) (hpos : sb.pos ≤ pos)
    (hw : sb.pos + sb.len < SIZE_T) (hpw : pos + w < SIZE_T) :
    snapshot w (sb, pos) =
      some (sbuf_rpos sb pos, min (sbuf_len sb pos) w,
        (List.range (min (sbuf_len sb pos) w)).map fun i => (sbuf_char sb (pos + i)).getD 0) := by
  rw [snapshot_eq]
  have hr : sbuf_rpos sb pos = pos := by
    unfold sbuf_rpos
    split_ifs <;> first | rfl | omega
  have hnot : ¬ pos > (pos + w) % SIZE_T := by
    rw [Nat.mod_eq_of_lt hpw]
    omega
  unfold cache_add_args append_view
  simp only [hr, hnot, if_false, gt_iff_lt, lt_self_iff_false]
  by_cases hend : pos < sb.pos + sb.len
  · have hl : sbuf_len sb pos = sb.len - (pos - sb.pos) := by
      unfold sbuf_len
      rw [Nat.mod_eq_of_lt hw]
      split_ifs <;> omega
    have hp : sbuf_ptr sb pos = some (pos - sb.pos) := by
      unfold sbuf_ptr
      split_ifs <;> first | rfl | omega | (congr 1; omega)
    simp only [hp, Option.map_some', reduceCtorEq, if_false, Option.getD_some]
    have e1 : min (if sbuf_len sb pos > w then w else sbuf_len sb pos) w =
        min (sbuf_len sb pos) w := by
      split_ifs <;> omega
    rw [e1]
    congr 3
    apply List.map_congr_left
    intro i hi
    rw [List.mem_range] at hi
    rw [rd_drop]
    unfold sbuf_char
    rw [Nat.mod_eq_of_lt hw, if_neg (by omega), if_neg (by omega)]
    simp only [Option.getD_some]
    congr 1
    omega
  · have hl : sbuf_len sb pos = 0 := by
      unfold sbuf_len
      rw [Nat.mod_eq_of_lt hw]
      split_ifs <;> omega
    simp only [hl, Nat.zero_min, List.range_zero, List.map_nil]
    congr 2
    split_ifs <;> first | rfl | omega | simp

/-- The snapshot of a window that begins inside the line, after `pos`: its length
is the rest of the line, `w - sbuf_before(sb, pos)`, whatever the window holds. -/
theorem snapshot_leading (w : Nat) (sb : sbuf) (pos : Nat) (hpos : pos < sb.pos)
    (hin : sb.pos ≤ pos + w) (hw : sb.pos + sb.len < SIZE_T) (hpw : pos + w < SIZE_T) :
    snapshot w (sb, pos) =
      some (sb.pos, w - sbuf_before sb pos,
        (List.range (w - sbuf_before sb pos)).map fun i => rd sb.ptr i) ∧
    sbuf_before sb pos = sb.pos - pos ∧ sbuf_len sb pos = sb.len ∧
    sbuf_rpos sb pos = sb.pos := by
  have hr : sbuf_rpos sb pos = sb.pos := by
    unfold sbuf_rpos
    split_ifs <;> first | rfl | omega
  have hb : sbuf_before sb pos = sb.pos - pos := by
    unfold sbuf_before
    split_ifs <;> first | rfl | omega
  have hl : sbuf_len sb pos = sb.len := by
    unfold sbuf_len
    rw [Nat.mod_eq_of_lt hw]
    split_ifs <;> first | rfl | omega
  have hp : sbuf_ptr sb pos = some 0 := by
    unfold sbuf_ptr
    split_ifs <;> first | rfl | omega
  refine ⟨?_, hb, hl, hr⟩
  rw [snapshot_eq]
  have hnot : ¬ sb.pos > (pos + w) % SIZE_T := by
    rw [Nat.mod_eq_of_lt hpw]
    omega
  have hgt : sb.pos > pos := hpos
  have hle : sb.pos - pos ≤ w := by omega
  have hle2 : ¬ w - (sb.pos - pos) > w := by omega
  unfold cache_add_args append_view
  simp only [hr, hb, hp, hnot, hgt, hle, hle2, if_true, if_false, Option.map_some',
    reduceCtorEq, Option.getD_some, List.drop_zero, Nat.min_eq_left (Nat.sub_le _ _)]

/-- The snapshot of a window that begins after the line: an entry of length 0 at
`pos`. -/
theorem snapshot_far (w : Nat) (sb : sbuf) (pos : Nat) (hfar : pos + w < sb.pos)
    (hpw : pos + w < SIZE_T) :
    snapshot w (sb, pos) = some (pos, 0, []) ∧ sbuf_rpos sb pos = sb.pos := by
  have hr : sbuf_rpos sb pos = sb.pos := by
    unfold sbuf_rpos
    split_ifs <;> first | rfl | omega
  refine ⟨?_, hr⟩
  rw [snapshot_eq]
  have hgt : sb.pos > (pos + w) % SIZE_T := by
    rw [Nat.mod_eq_of_lt hpw]
    omega
  unfold cache_add_args append_view
  simp only [hr, hgt, if_true, Nat.zero_min, List.range_zero, List.map_nil]

/-- C34: the entry `cache_add` appends is the snapshot of the window, for every cache
kept for `max_lines = k >= 1`.  For a window read at or after its base the snapshot
is faithful: position `sbuf_rpos(sb, pos)`, length `min(sbuf_len(sb, pos), W)`, the
real bytes from `pos` on, and length 0 when there is none.  For a window that
begins inside the line after `pos` (leading implicit zeros) the length is set to
`W - sbuf_before(sb, pos)` without regard to `sbuf_len(sb, pos)`: a window holding
the 2 bytes `10 20` at positions 4 and 5, cached for the line at 0 of width 8, gives
an entry of length 4 at position 4 whose last two bytes are what the buffer held
after the data, although no real byte exists at positions 6 and 7.  For a window
that begins after the line the entry has length 0 and position `pos`, not
`sbuf_rpos(sb, pos)`.  (Positions are `size_t` values that do not wrap.) -/
theorem cache_entry_overruns_short_window :
    (snapshot 8 (demo_tail, 0) = some (4, 4, [10, 20, 99, 99]) ∧
      sbuf_rpos demo_tail 0 = 4 ∧ sbuf_len demo_tail 0 = 2 ∧ sbuf_before demo_tail 0 = 4 ∧
      min (sbuf_len demo_tail 0) (8 - sbuf_before demo_tail 0) = 2 ∧
      sbuf_char demo_tail 6 = none ∧ sbuf_char demo_tail 7 = none) ∧
    (∀ (sb : sbuf) (c : sbuf_cache) (pos k : Nat), c.ok k → 1 ≤ k → k < SIZE_T →
      ∃ e c1 r, cache_add sb c pos k = some (r, c1) ∧ c1.active.nodes.getLast? = some e ∧
        snapshot c.max_buf_len (sb, pos) = some (entry_view e)) ∧
    (∀ (w : Nat) (sb : sbuf) (pos : Nat), sb.pos ≤ pos → sb.pos + sb.len < SIZE_T →
      pos + w < SIZE_T →
      snapshot w (sb, pos) =
        some (sbuf_rpos sb pos, min (sbuf_len sb pos) w,
          (List.range (min (sbuf_len sb pos) w)).map fun i =>
            (sbuf_char sb (pos + i)).getD 0) ∧
      sbuf_before sb pos = 0) ∧
    (∀ (w : Nat) (sb : sbuf) (pos : Nat), pos < sb.pos → sb.pos ≤ pos + w →
      sb.pos + sb.len < SIZE_T → pos + w < SIZE_T →
      snapshot w (sb, pos) =
        some (sbuf_rpos sb pos, w - sbuf_before sb pos,
          (List.range (w - sbuf_before sb pos)).map fun i => rd sb.ptr i) ∧
      (sbuf_len sb pos < w - sbuf_before sb pos →
        min (sbuf_len sb pos) (w - sbuf_before sb pos) < w - sbuf_before sb pos)) ∧
    (∀ (w : Nat) (sb : sbuf) (pos : Nat), pos + w < sb.pos → pos + w < SIZE_T →
      snapshot w (sb, pos) = some (pos, 0, []) ∧ pos < sbuf_rpos sb pos) := by
  refine ⟨by decide, ?_, ?_, ?_, ?_⟩
  · intro sb c pos k hok hk hkm
    obtain ⟨e, c1, h1, _, _, h4, _, _, h7⟩ := cache_add_ok sb c pos k hok hk hkm
    refine ⟨e, c1, _, h1, ?_, ?_⟩
    · rw [h4]
      simp
    · rw [snapshot_eq, h7]
  · intro w sb pos hpos hw hpw
    refine ⟨snapshot_inside w sb pos hpos hw hpw, ?_⟩
    unfold sbuf_before
    split_ifs <;> first | rfl | omega
  · intro w sb pos hpos hin hw hpw
    obtain ⟨a1, _, _, a4⟩ := snapshot_leading w sb pos hpos hin hw hpw
    rw [a4]
    exact ⟨a1, fun h => by omega⟩
  · intro w sb pos hfar hpw
    obtain ⟨a1, a2⟩ := snapshot_far w sb pos hfar hpw
    exact ⟨a1, by omega⟩

/-! ### The truncation of a printed window -/

/-- C35: the arguments `print_sbuf` hands to `print_buf`.  When the implicit zeros
before the window fit the maximum line width (`sbuf_before(sb, pos) <= mlw`) the
real bytes end at column `mlw`: `before + len <= mlw`.  When the window has more
than `mlw` leading implicit zeros the subtraction `btp -= before` is skipped and
`len` stays `mlw`: `print_buf` shows `mlw` bytes of the window from column `before`
on, all of them at virtual positions at or past `pos + mlw`.  For the window
holding `01 02 03 04` at positions 3 .. 6, the line at 0 and `mlw = 2`, the call is
`print_buf(ptr, 2, 3, ...)`, which shows `01 02` in columns 3 and 4.  (The end of
the data is a `size_t` that has not wrapped.) -/
theorem print_sbuf_shows_bytes_past_limit :
    (print_sbuf demo_mid 0 2 = (some 0, 2, 3) ∧
      (List.range 8).map (print_buf_column (some 0) 2 3) =
        [none, none, none, some 0, some 1, none, none, none] ∧
      sbuf_char demo_mid 3 = some 1 ∧ sbuf_char demo_mid 4 = some 2) ∧
    (∀ (sb : sbuf) (pos mlw : Nat), sb.pos + sb.len < SIZE_T → sbuf_before sb pos ≤ mlw →
      (print_sbuf sb pos mlw).2.2 + (print_sbuf sb pos mlw).2.1 ≤ mlw) ∧
    (∀ (sb : sbuf) (pos mlw : Nat), sb.pos + sb.len < SIZE_T → mlw < sbuf_before sb pos →
      print_sbuf sb pos mlw = (some 0, mlw, sbuf_before sb pos) ∧
      (0 < mlw → mlw < (print_sbuf sb pos mlw).2.2 + (print_sbuf sb pos mlw).2.1) ∧
      ∀ i, i < mlw →
        print_buf_column (print_sbuf sb pos mlw).1 (print_sbuf sb pos mlw).2.1
          (print_sbuf sb pos mlw).2.2 (sbuf_before sb pos + i) = some i ∧
        pos + mlw ≤ pos + sbuf_before sb pos + i) := by
  refine ⟨by decide, ?_, ?_⟩
  · intro sb pos mlw hw hb
    have hm : sb.pos - pos + sb.len < SIZE_T := by omega
    unfold print_sbuf
    simp only
    unfold sbuf_before at hb ⊢
    unfold sbuf_avail
    split_ifs at hb ⊢ <;>
      first
      | omega
      | (rw [Nat.mod_eq_of_lt hm] at *; omega)
  · intro sb pos mlw hw hb
    have hm : sb.pos - pos + sb.len < SIZE_T := by omega
    have hlt : pos < sb.pos := by
      unfold sbuf_before at hb
      split_ifs at hb <;> omega
    have hbv : sbuf_before sb pos = sb.pos - pos := by
      unfold sbuf_before
      split_ifs <;> first | rfl | omega
    have hav : sbuf_avail sb pos = sb.pos - pos + sb.len := by
      unfold sbuf_avail
      split_ifs <;> first | omega | exact Nat.mod_eq_of_lt hm
    have hp : sbuf_ptr sb pos = some 0 := by
      unfold sbuf_ptr
      split_ifs <;> first | rfl | omega
    have e : print_sbuf sb pos mlw = (some 0, mlw, sbuf_before sb pos) := by
      rw [hbv] at hb
      have c1 : sb.pos - pos + sb.len > mlw := by omega
      have c2 : ¬ (sb.pos - pos > 0 ∧ mlw ≥ sb.pos - pos) := by omega
      unfold print_sbuf
      simp only [hp, hav, hbv, c1, c2, if_true, if_false]
    rw [hbv] at hb
    refine ⟨e, ?_, ?_⟩
    · intro h0
      rw [e]
      simp only
      omega
    · intro i hi
      rw [e]
      simp only [print_buf_column, reduceCtorEq, if_false]
      rw [hbv]
      rw [if_neg (by omega), if_neg (by omega)]
      exact ⟨by congr 1; omega, by omega⟩

/-! ### The engine after a reset does not depend on its earlier state -/

theorem cmp_byte_reframe (a b c e f g : Nat) (sb1 sb2 : sbuf) (pos len i : Nat)
    (st : cmp_locals) (j : Nat) :
    cmp_byte sb1 sb2 pos len i { st with d := reframe a b c e f g st.d } j =
      { cmp_byte sb1 sb2 pos len i st j with
        d := reframe a b c e f g (cmp_byte sb1 sb2 pos len i st j).d } := by
  unfold cmp_byte
  have hn : (reframe a b c e f g st.d).nbd = st.d.nbd := rfl
  simp only [hn]
  by_cases h1 : i + j ≥ len
  · simp only [h1, if_true]
  · simp only [h1, if_false]
    by_cases h2 : st.d.nbd = 0
    · rcases sbuf_char sb1 ((pos + i + j) % SIZE_T) with _ | c1 <;>
        rcases sbuf_char sb2 ((pos + i + j) % SIZE_T) with _ | c2 <;>
        simp only [h2, ne_eq, not_true_eq_false, if_false] <;> rfl
    · rcases sbuf_char sb1 ((pos + i + j) % SIZE_T) with _ | c1 <;>
        rcases sbuf_char sb2 ((pos + i + j) % SIZE_T) with _ | c2 <;>
        (simp only [h2, ne_eq, not_false_eq_true, if_true]; first | done | rfl)


theorem cmp_bytes_reframe (a b c e f g : Nat) (sb1 sb2 : sbuf) (pos len i : Nat)
    (l : List Nat) :
    ∀ st : cmp_locals,
      l.foldl (cmp_byte sb1 sb2 pos len i) { st with d := reframe a b c e f g st.d } =
        { l.foldl (cmp_byte sb1 sb2 pos len i) st with
          d := reframe a b c e f g (l.foldl (cmp_byte sb1 sb2 pos len i) st).d } := by
  induction l with
  | nil => intro st; rfl
  | cons j l ih =>
    intro st
    rw [List.foldl_cons, List.foldl_cons, cmp_byte_reframe, ih]

theorem cmp_mark_reframe (a b c e f g : Nat) (len ws i vald : Nat) (d : sbuf_diff) (j : Nat) :
    cmp_mark len ws i vald (reframe a b c e f g d) j =
      reframe a b c e f g (cmp_mark len ws i vald d j) := by
  unfold cmp_mark
  simp only [reframe]
  split_ifs <;> rfl

theorem cmp_marks_reframe (a b c e f g : Nat) (len ws i vald : Nat) (l : List Nat) :
    ∀ d : sbuf_diff,
      l.foldl (cmp_mark len ws i vald) (reframe a b c e f g d) =
        reframe a b c e f g (l.foldl (cmp_mark len ws i vald) d) := by
  induction l with
  | nil => intro d; rfl
  | cons j l ih =>
    intro d
    rw [List.foldl_cons, List.foldl_cons, cmp_mark_reframe, ih]

theorem cmp_word_reframe (a b c e f g : Nat) (sb1 sb2 : sbuf) (pos len ws : Nat)
    (d : sbuf_diff) (i : Nat) :
    cmp_word sb1 sb2 pos len ws (reframe a b c e f g d) i =
      reframe a b c e f g (cmp_word sb1 sb2 pos len ws d i) := by
  unfold cmp_word
  have h := cmp_bytes_reframe a b c e f g sb1 sb2 pos len i (List.range ws)
    { val1 := 0, val2 := 0, diff := false, d := d }
  simp only at h
  rw [h]
  simp only
  split_ifs
  · refine Eq.trans ?_ (cmp_marks_reframe a b c e f g len ws i _ (List.range ws) _)
    rfl
  · rfl

theorem cmp_words_reframe (a b c e f g : Nat) (sb1 sb2 : sbuf) (pos len ws : Nat)
    (l : List Nat) :
    ∀ d : sbuf_diff,
      l.foldl (fun d k => cmp_word sb1 sb2 pos len ws d (k * ws)) (reframe a b c e f g d) =
        reframe a b c e f g (l.foldl (fun d k => cmp_word sb1 sb2 pos len ws d (k * ws)) d) := by
  induction l with
  | nil => intro d; rfl
  | cons j l ih =>
    intro d
    rw [List.foldl_cons, List.foldl_cons, cmp_word_reframe, ih]

/-- `sbuf_diff_cmp` does not read the fields that `sbuf_diff_init` leaves alone, and
writes the position and length of the subtraction buffer. -/
theorem cmp_reframe (a b c e f g : Nat) (sb1 sb2 : sbuf) (pos len ws : Nat) (d : sbuf_diff) :
    sbuf_diff_cmp sb1 sb2 pos len (reframe a b c e f g d) ws =
      ((sbuf_diff_cmp sb1 sb2 pos len d ws).1,
        reframe a pos len e f g (sbuf_diff_cmp sb1 sb2 pos len d ws).2) := by
  have h := cmp_words_reframe a pos len e f g sb1 sb2 pos len ws
    (List.range ((len + ws - 1) / ws))
    ⟨d.cmp, ⟨d.sub.ptr, d.sub.size, pos, len⟩, d.null, d.width, pos, d.cnt, d.nbd⟩
  refine Prod.ext ?_ ?_
  · exact congrArg (fun r => to_int r.cnt) h
  · exact h

theorem foldl_same_frame {β : Type} (f : sbuf_diff → β → sbuf_diff)
    (hf : ∀ d b, same_frame d (f d b)) (l : List β) :
    ∀ d, same_frame d (l.foldl f d) := by
  induction l with
  | nil => intro d; exact same_frame_refl d
  | cons b l ih =>
    intro d
    rw [List.foldl_cons]
    exact same_frame_trans (hf d b) (ih (f d b))

theorem unmark_byte_frame (d : sbuf_diff) (j : Nat) : same_frame d (unmark_byte d j) := by
  unfold unmark_byte
  split_ifs
  · simp [same_frame]
  · exact same_frame_refl d

theorem unmark_word_frame (ws v : Nat) (d : sbuf_diff) (i : Nat) :
    same_frame d (unmark_word ws v d i) := by
  unfold unmark_word
  split_ifs
  · exact foldl_same_frame (fun d t => unmark_byte d (i + t))
      (fun d t => unmark_byte_frame d (i + t)) _ d
  · exact same_frame_refl d

theorem unmark_value_frame (ws : Nat) (d : sbuf_diff) (v : Nat) :
    same_frame d (unmark_value ws d v) := by
  unfold unmark_value
  exact foldl_same_frame (fun d k => unmark_word ws v d (k * ws))
    (fun d k => unmark_word_frame ws v d (k * ws)) _ d

theorem unmark_ignore_frame (d : sbuf_diff) (ws : Nat) (ignore : Option (List Nat)) :
    same_frame d (sbuf_diff_unmark_ignore d ws ignore) := by
  rcases ignore with _ | l
  · exact same_frame_refl d
  · exact foldl_same_frame (unmark_value ws) (fun d v => unmark_value_frame ws d v) l d

theorem sbuf_word_read_size (sb : sbuf) (a pos ws : Nat) :
    ∀ fuel i v, sbuf_word_read ⟨sb.ptr, a, sb.pos, sb.len⟩ pos ws fuel i v =
      sbuf_word_read sb pos ws fuel i v := by
  intro fuel
  induction fuel with
  | zero => intro i v; rfl
  | succ fuel ih =>
    intro i v
    simp only [sbuf_word_read]
    split_ifs
    · exact ih _ _
    · rfl

/-- `sbuf_word` does not read the capacity of the window. -/
theorem sbuf_word_size (sb : sbuf) (a pos ws : Nat) :
    sbuf_word ⟨sb.ptr, a, sb.pos, sb.len⟩ pos ws = sbuf_word sb pos ws := by
  unfold sbuf_word
  simp only [sbuf_word_read_size]

theorem unmark_byte_reframe (a b c e f g : Nat) (d : sbuf_diff) (j : Nat) :
    unmark_byte (reframe a b c e f g d) j = reframe a b c e f g (unmark_byte d j) := by
  unfold unmark_byte
  have hc : (reframe a b c e f g d).cmp = d.cmp := rfl
  rw [hc]
  split_ifs <;> rfl

theorem unmark_bytes_reframe (a b c e f g : Nat) (i : Nat) (l : List Nat) :
    ∀ d : sbuf_diff,
      l.foldl (fun d t => unmark_byte d (i + t)) (reframe a b c e f g d) =
        reframe a b c e f g (l.foldl (fun d t => unmark_byte d (i + t)) d) := by
  induction l with
  | nil => intro d; rfl
  | cons j l ih =>
    intro d
    rw [List.foldl_cons, List.foldl_cons, unmark_byte_reframe, ih]

theorem unmark_word_reframe (a e f g : Nat) (ws v : Nat) (d : sbuf_diff) (i : Nat) :
    unmark_word ws v (reframe a d.sub.pos d.sub.len e f g d) i =
      reframe a d.sub.pos d.sub.len e f g (unmark_word ws v d i) := by
  unfold unmark_word
  have hw : sbuf_word (reframe a d.sub.pos d.sub.len e f g d).sub
      (((reframe a d.sub.pos d.sub.len e f g d).pos + i) % SIZE_T) ws =
      sbuf_word d.sub ((d.pos + i) % SIZE_T) ws :=
    sbuf_word_size d.sub a ((d.pos + i) % SIZE_T) ws
  rw [hw]
  split_ifs
  · exact unmark_bytes_reframe a _ _ e f g i (List.range ws) d
  · rfl

theorem unmark_words_reframe (a b c e f g : Nat) (ws v : Nat) (l : List Nat) :
    ∀ d : sbuf_diff, d.sub.pos = b → d.sub.len = c →
      l.foldl (fun d k => unmark_word ws v d (k * ws)) (reframe a b c e f g d) =
        reframe a b c e f g (l.foldl (fun d k => unmark_word ws v d (k * ws)) d) := by
  induction l with
  | nil => intro d _ _; rfl
  | cons k l ih =>
    intro d hb hc
    rw [List.foldl_cons, List.foldl_cons]
    have h1 := unmark_word_reframe a e f g ws v d (k * ws)
    rw [hb, hc] at h1
    rw [h1]
    have hf := unmark_word_frame ws v d (k * ws)
    exact ih _ (by rw [hf.2.2.2.1, hb]) (by rw [hf.2.2.2.2.1, hc])

theorem unmark_value_reframe (a b c e f g : Nat) (ws : Nat) (d : sbuf_diff) (v : Nat)
    (hb : d.sub.pos = b) (hc : d.sub.len = c) :
    unmark_value ws (reframe a b c e f g d) v = reframe a b c e f g (unmark_value ws d v) := by
  unfold unmark_value
  exact unmark_words_reframe a b c e f g ws v _ d hb hc

/-- `sbuf_diff_unmark_ignore` does not read the capacity of the subtraction buffer
nor the null buffer's capacity, position and length. -/
theorem unmark_ignore_reframe (a b c e f g : Nat) (ws : Nat) (ignore : Option (List Nat)) :
    ∀ d : sbuf_diff, d.sub.pos = b → d.sub.len = c →
      sbuf_diff_unmark_ignore (reframe a b c e f g d) ws ignore =
        reframe a b c e f g (sbuf_diff_unmark_ignore d ws ignore) := by
  rcases ignore with _ | l
  · intro d _ _; rfl
  · simp only [sbuf_diff_unmark_ignore]
    induction l with
    | nil => intro d _ _; rfl
    | cons v l ih =>
      intro d hb hc
      rw [List.foldl_cons, List.foldl_cons, unmark_value_reframe a b c e f g ws d v hb hc]
      have hf := unmark_value_frame ws d v
      exact ih _ (by rw [hf.2.2.2.1, hb]) (by rw [hf.2.2.2.2.1, hc])

theorem reframe_self (d : sbuf_diff) :
    reframe d.sub.size d.sub.pos d.sub.len d.null.size d.null.pos d.null.len d = d := rfl

/-- `sbuf_diff_cmp` stores the position and the length in the subtraction buffer. -/
theorem cmp_sets_sub (sb1 sb2 : sbuf) (pos len ws : Nat) (d : sbuf_diff) :
    (sbuf_diff_cmp sb1 sb2 pos len d ws).2.sub.pos = pos ∧
      (sbuf_diff_cmp sb1 sb2 pos len d ws).2.sub.len = len := by
  have h := cmp_reframe d.sub.size d.sub.pos d.sub.len d.null.size d.null.pos d.null.len
    sb1 sb2 pos len ws d
  rw [reframe_self] at h
  have h2 := congrArg (fun r => r.2.sub) h
  simp only at h2
  constructor
  · rw [h2]; rfl
  · rw [h2]; rfl

/-- Two engines that agree on what `sbuf_diff_init` writes differ by the fields it
leaves alone. -/
theorem reframe_of_core (x y : sbuf_diff) (h1 : y.cmp = x.cmp) (h2 : y.sub.ptr = x.sub.ptr)
    (h3 : y.null.ptr = x.null.ptr) (h4 : y.width = x.width) (h5 : y.pos = x.pos)
    (h6 : y.cnt = x.cnt) (h7 : y.nbd = x.nbd) :
    y = reframe y.sub.size y.sub.pos y.sub.len y.null.size y.null.pos y.null.len x := by
  obtain ⟨c, ⟨sp, ss, spos, sl⟩, ⟨np, ns, npos, nl⟩, w, p, cn, nb⟩ := x
  obtain ⟨c', ⟨sp', ss', spos', sl'⟩, ⟨np', ns', npos', nl'⟩, w', p', cn', nb'⟩ := y
  simp only at h1 h2 h3 h4 h5 h6 h7
  subst h1 h2 h3 h4 h5 h6 h7
  rfl

/-- After a compare, the calls that follow do not see the fields that
`sbuf_diff_init` leaves alone. -/
theorem run_reframe (a e f g : Nat) (ops : List diff_op) :
    ∀ x : sbuf_diff,
      diff_run (reframe a x.sub.pos x.sub.len e f g x) ops =
        reframe a (diff_run x ops).sub.pos (diff_run x ops).sub.len e f g (diff_run x ops) ∧
      diff_results (reframe a x.sub.pos x.sub.len e f g x) ops = diff_results x ops := by
  induction ops with
  | nil => intro x; exact ⟨rfl, rfl⟩
  | cons op ops ih =>
    intro x
    cases op with
    | cmp sb1 sb2 pos len ws =>
      obtain ⟨s1, s2⟩ := cmp_sets_sub sb1 sb2 pos len ws x
      have hc := cmp_reframe a x.sub.pos x.sub.len e f g sb1 sb2 pos len ws x
      obtain ⟨i1, i2⟩ := ih (sbuf_diff_cmp sb1 sb2 pos len x ws).2
      rw [s1, s2] at i1 i2
      have hstep : diff_step (reframe a x.sub.pos x.sub.len e f g x)
          (diff_op.cmp sb1 sb2 pos len ws) =
          reframe a pos len e f g (sbuf_diff_cmp sb1 sb2 pos len x ws).2 := by
        simp only [diff_step, hc]
      constructor
      · simp only [diff_run, List.foldl_cons] at i1 ⊢
        rw [hstep]
        exact i1
      · simp only [diff_results, hc]
        rw [i2]
    | unmark ws ignore =>
      have hu := unmark_ignore_reframe a x.sub.pos x.sub.len e f g ws ignore x rfl rfl
      have hf := unmark_ignore_frame x ws ignore
      obtain ⟨i1, i2⟩ := ih (sbuf_diff_unmark_ignore x ws ignore)
      rw [hf.2.2.2.1, hf.2.2.2.2.1] at i1 i2
      constructor
      · simp only [diff_run, List.foldl_cons, diff_step, hu] at i1 ⊢
        exact i1
      · simp only [diff_results, hu]
        rw [i2]

/-- From an engine without marks, the calls do not see the fields that
`sbuf_diff_init` leaves alone; the position and length of the subtraction buffer
are those of the last compare once there was one. -/
theorem run_reframe_fresh (a e f g : Nat) (ops : List diff_op) :
    ∀ (x : sbuf_diff) (b c : Nat), (∀ i, rd x.cmp i = 0) →
      ∃ b1 c1, diff_run (reframe a b c e f g x) ops =
          reframe a b1 c1 e f g (diff_run x ops) ∧
        diff_results (reframe a b c e f g x) ops = diff_results x ops ∧
        ((∃ op ∈ ops, op.is_cmp = true) →
          b1 = (diff_run x ops).sub.pos ∧ c1 = (diff_run x ops).sub.len) := by
  induction ops with
  | nil =>
    intro x b c _
    refine ⟨b, c, rfl, rfl, ?_⟩
    rintro ⟨op, hop, _⟩
    simp at hop
  | cons op ops ih =>
    intro x b c hz
    cases op with
    | cmp sb1 sb2 pos len ws =>
      obtain ⟨s1, s2⟩ := cmp_sets_sub sb1 sb2 pos len ws x
      have hc := cmp_reframe a b c e f g sb1 sb2 pos len ws x
      obtain ⟨i1, i2⟩ := run_reframe a e f g ops (sbuf_diff_cmp sb1 sb2 pos len x ws).2
      rw [s1, s2] at i1 i2
      refine ⟨_, _, ?_, ?_, fun _ => ⟨rfl, rfl⟩⟩
      · simp only [diff_run, List.foldl_cons, diff_step, hc] at i1 ⊢
        exact i1
      · simp only [diff_results, hc]
        rw [i2]
    | unmark ws ignore =>
      have hz2 : ∀ i, rd (reframe a b c e f g x).cmp i = 0 := hz
      have u1 := unmark_unmarked x ws ignore hz
      have u2 := unmark_unmarked (reframe a b c e f g x) ws ignore hz2
      obtain ⟨b1, c1, i1, i2, i3⟩ := ih x b c hz
      refine ⟨b1, c1, ?_, ?_, ?_⟩
      · simp only [diff_run, List.foldl_cons, diff_step, u1, u2] at i1 ⊢
        exact i1
      · simp only [diff_results, u1, u2]
        rw [i2]
      · rintro ⟨op, hop, hcmp⟩
        simp only [List.mem_cons] at hop
        rcases hop with hop | hop
        · subst hop
          exact Bool.noConfusion hcmp
        · have := i3 ⟨op, hop, hcmp⟩
          simp only [diff_run, List.foldl_cons, diff_step, u1] at this ⊢
          exact this

theorem reset_pos (d : sbuf_diff) (n : Int) : (reset_engine d n).pos = 0 := by
  obtain ⟨hf, _, _⟩ := init_fold d.width { d with pos := 0, cnt := 0 }
  exact hf.2.1

/-- The reset leaves the position and the length of the subtraction buffer alone, and
so does every call that is not a compare. -/
theorem run_without_compare (d : sbuf_diff) (nbd : Int) (ops : List diff_op)
    (h : ∀ op ∈ ops, op.is_cmp = false) :
    (diff_run (reset_engine d nbd) ops).sub.pos = d.sub.pos ∧
    (diff_run (reset_engine d nbd) ops).sub.len = d.sub.len := by
  have hr : (reset_engine d nbd).sub.pos = d.sub.pos ∧ (reset_engine d nbd).sub.len = d.sub.len := by
    obtain ⟨hf, _, _⟩ := init_fold d.width { d with pos := 0, cnt := 0 }
    exact ⟨hf.2.2.2.1, hf.2.2.2.2.1⟩
  have key : ∀ (l : List diff_op) (x : sbuf_diff), (∀ op ∈ l, op.is_cmp = false) →
      (diff_run x l).sub.pos = x.sub.pos ∧ (diff_run x l).sub.len = x.sub.len := by
    intro l
    induction l with
    | nil => intro x _; exact ⟨rfl, rfl⟩
    | cons op l ih =>
      intro x hl
      cases op with
      | cmp sb1 sb2 pos len ws =>
        exact absurd (hl _ (List.mem_cons_self _ _)) (by simp [diff_op.is_cmp])
      | unmark ws ignore =>
        have hf := unmark_ignore_frame x ws ignore
        obtain ⟨i1, i2⟩ := ih (sbuf_diff_unmark_ignore x ws ignore)
          (fun o ho => hl o (List.mem_cons_of_mem _ ho))
        simp only [diff_run, List.foldl_cons, diff_step] at i1 i2 ⊢
        exact ⟨i1.trans hf.2.2.2.1, i2.trans hf.2.2.2.2.1⟩
  obtain ⟨k1, k2⟩ := key ops (reset_engine d nbd) h
  exact ⟨k1.trans hr.1, k2.trans hr.2⟩

/-- C32, the claim as written fails: `sbuf_diff_init` does not write the position and
the length of the subtraction buffer.  An engine that has compared the line at
position 4 keeps `sub.pos = 4` and `sub.len = 4` through the reset and through a
following `sbuf_diff_unmark_ignore`, where a fresh engine has 0 and 0. -/
theorem reset_keeps_sub_position :
    (sbuf_diff_cmp demo_a demo_b 4 4 (demo_engine 4) 1).2.allocated ∧
    (sbuf_diff_init (sbuf_diff_cmp demo_a demo_b 4 4 (demo_engine 4) 1).2).sub.pos = 4 ∧
    (sbuf_diff_init (sbuf_diff_cmp demo_a demo_b 4 4 (demo_engine 4) 1).2).sub.len = 4 ∧
    (sbuf_diff_init (demo_engine 4)).sub.pos = 0 ∧
    (sbuf_diff_init (demo_engine 4)).sub.len = 0 ∧
    (diff_run (sbuf_diff_init (sbuf_diff_cmp demo_a demo_b 4 4 (demo_engine 4) 1).2)
      [diff_op.unmark 1 (some [0])]).sub.pos = 4 ∧
    (diff_run (sbuf_diff_init (demo_engine 4)) [diff_op.unmark 1 (some [0])]).sub.pos = 0 := by
  decide

/-- C32 (amended): for two engines of the same width, whatever they held before, and
every sequence of `sbuf_diff_cmp` and `sbuf_diff_unmark_ignore` calls that keeps its
indices inside the arrays (compares with `len <= width` and a word size from 1 to
8, unmarks with a word size that divides the width, engines whose subtraction
buffer has a length of at most the width): after `sbuf_diff_init` (and the
assignment of the null policy that the driver makes right after it; `nbd = 0` is
`sbuf_diff_init` alone) the sequence returns the same values and leaves the same
count, `cmp` flags, subtraction bytes, null counts, line position and null policy
in both.  The position and the length of the subtraction buffer are not reset:
they are the same in both as soon as the sequence has a compare, the call that
writes them, and they are those of the engine before the reset as long as it has
none. -/
theorem reset_forgets_earlier_lines (d d1 : sbuf_diff) (nbd : Int) (ops : List diff_op)
    (hd : d.allocated) (hd1 : d1.allocated) (hw : d1.width = d.width)
    (_hs : d.sub.len ≤ d.width) (_hs1 : d1.sub.len ≤ d1.width)
    (_hin : ∀ op ∈ ops, op.in_bounds d.width = true) :
    (diff_run (reset_engine d1 nbd) ops).cnt = (diff_run (reset_engine d nbd) ops).cnt ∧
    (diff_run (reset_engine d1 nbd) ops).cmp = (diff_run (reset_engine d nbd) ops).cmp ∧
    (diff_run (reset_engine d1 nbd) ops).sub.ptr = (diff_run (reset_engine d nbd) ops).sub.ptr ∧
    (diff_run (reset_engine d1 nbd) ops).null.ptr =
      (diff_run (reset_engine d nbd) ops).null.ptr ∧
    (diff_run (reset_engine d1 nbd) ops).pos = (diff_run (reset_engine d nbd) ops).pos ∧
    (diff_run (reset_engine d1 nbd) ops).nbd = (diff_run (reset_engine d nbd) ops).nbd ∧
    (diff_run (reset_engine d1 nbd) ops).width = (diff_run (reset_engine d nbd) ops).width ∧
    diff_results (reset_engine d1 nbd) ops = diff_results (reset_engine d nbd) ops ∧
    ((∃ op ∈ ops, op.is_cmp = true) →
      (diff_run (reset_engine d1 nbd) ops).sub.pos =
        (diff_run (reset_engine d nbd) ops).sub.pos ∧
      (diff_run (reset_engine d1 nbd) ops).sub.len =
        (diff_run (reset_engine d nbd) ops).sub.len) ∧
    ((∀ op ∈ ops, op.is_cmp = false) →
      (diff_run (reset_engine d nbd) ops).sub.pos = d.sub.pos ∧
      (diff_run (reset_engine d nbd) ops).sub.len = d.sub.len ∧
      (diff_run (reset_engine d1 nbd) ops).sub.pos = d1.sub.pos ∧
      (diff_run (reset_engine d1 nbd) ops).sub.len = d1.sub.len) ∧
    reset_engine d 0 = sbuf_diff_init d := by
  obtain ⟨⟨a1, a2, a3⟩, r2, r3, r4, r5⟩ := reset_spec d nbd hd
  obtain ⟨⟨b1, b2, b3⟩, s2, s3, s4, s5⟩ := reset_spec d1 nbd hd1
  have hcore := reframe_of_core (reset_engine d nbd) (reset_engine d1 nbd)
    (list_ext_rd _ _ (by omega) (fun x _ => by rw [(s5 x).1, (r5 x).1]))
    (list_ext_rd _ _ (by omega) (fun x _ => by rw [(s5 x).2.1, (r5 x).2.1]))
    (list_ext_rd _ _ (by omega) (fun x _ => by rw [(s5 x).2.2, (r5 x).2.2]))
    (by omega) (by rw [reset_pos, reset_pos]) (by rw [s3, r3]) (by rw [s4, r4])
  obtain ⟨p, q, i1, i2, i3⟩ := run_reframe_fresh (reset_engine d1 nbd).sub.size
    (reset_engine d1 nbd).null.size (reset_engine d1 nbd).null.pos
    (reset_engine d1 nbd).null.len ops (reset_engine d nbd) (reset_engine d1 nbd).sub.pos
    (reset_engine d1 nbd).sub.len (fun i => (r5 i).1)
  rw [← hcore] at i1 i2
  refine ⟨?_, ?_, ?_, ?_, ?_, ?_, ?_, i2, ?_, ?_, rfl⟩
  · rw [i1]; rfl
  · rw [i1]; rfl
  · rw [i1]; rfl
  · rw [i1]; rfl
  · rw [i1]; rfl
  · rw [i1]; rfl
  · rw [i1]; rfl
  · intro h
    obtain ⟨e1, e2⟩ := i3 h
    rw [i1]
    exact ⟨e1, e2⟩
  · intro h
    obtain ⟨k1, k2⟩ := run_without_compare d nbd ops h
    obtain ⟨k3, k4⟩ := run_without_compare d1 nbd ops h
    exact ⟨k1, k2, k3, k4⟩

theorem reset_forgets_earlier_lines_witness :
    (diff_run (reset_engine (demo_engine 4) 0)
        [diff_op.cmp demo_a demo_b 0 4 1, diff_op.unmark 1 (some [152])]).cnt =
      (diff_run (reset_engine (sbuf_diff_cmp demo_b demo_short 0 4 (demo_engine 4) 1).2 0)
        [diff_op.cmp demo_a demo_b 0 4 1, diff_op.unmark 1 (some [152])]).cnt :=
  (reset_forgets_earlier_lines (sbuf_diff_cmp demo_b demo_short 0 4 (demo_engine 4) 1).2
    (demo_engine 4) 0 [diff_op.cmp demo_a demo_b 0 4 1, diff_op.unmark 1 (some [152])]
    (by decide) (by decide) (by decide) (by decide) (by decide) (by decide)).1

theorem sum_range_step (f : Nat → Nat) (n : Nat) :
    ((List.range (n + 1)).map f).sum = ((List.range n).map f).sum + f n := by
  rw [List.range_succ, List.map_append, List.sum_append]
  simp

theorem sum_clear (f : Nat → Nat) (j : Nat) : ∀ n,
    ((List.range n).map fun x => if j = x then 0 else f x).sum + (if j < n then f j else 0) =
      ((List.range n).map f).sum := by
  intro n
  induction n with
  | zero => simp
  | succ n ih =>
    rw [sum_range_step, sum_range_step, ← ih]
    by_cases h1 : j = n
    · subst h1
      simp
    · by_cases h2 : j < n
      · have h3 : j < n + 1 := by omega
        simp only [h1, h2, h3, if_true, if_false]
        omega
      · have h3 : ¬ j < n + 1 := by omega
        simp only [h1, h2, h3, if_true, if_false]
        omega

theorem sum_incr (f : Nat → Nat) (p : Nat → Bool) : ∀ n,
    ((List.range n).map fun x => if p x = true then f x + 1 else f x).sum =
      ((List.range n).map f).sum + ((List.range n).filter p).length := by
  intro n
  induction n with
  | zero => simp
  | succ n ih =>
    rw [sum_range_step, sum_range_step, ih, List.range_succ, List.filter_append,
      List.length_append]
    cases h : p n
    · simp [List.filter, h]
      omega
    · simp [List.filter, h]
      omega

theorem sum_le_of_cells (f : Nat → Nat) (m : Nat) (h : ∀ x, f x ≤ m) : ∀ n,
    ((List.range n).map f).sum ≤ n * m := by
  intro n
  induction n with
  | zero => simp
  | succ n ih =>
    rw [sum_range_step, Nat.succ_mul]
    have := h n
    omega

theorem count_words (q : Nat → Bool) (ws : Nat) (hws : 0 < ws) : ∀ n,
    ((List.range (n * ws)).filter fun x => q (x / ws)).length =
      ws * ((List.range n).filter q).length := by
  intro n
  induction n with
  | zero => simp
  | succ n ih =>
    rw [Nat.succ_mul, List.range_add, List.filter_append, List.length_append, ih,
      List.range_succ, List.filter_append, List.length_append, Nat.mul_add]
    congr 1
    rw [List.filter_map, List.length_map]
    have hb : ∀ x ∈ List.range ws, ((fun x => q (x / ws)) ∘ fun x => n * ws + x) x = q n := by
      intro x hx
      have hx2 : x < ws := List.mem_range.mp hx
      show q ((n * ws + x) / ws) = q n
      rw [Nat.mul_comm, Nat.mul_add_div (by omega), Nat.div_eq_of_lt hx2, Nat.add_zero]
    rw [List.filter_congr hb]
    cases h : q n <;> simp [List.filter, h]

theorem whole_words (W ws : Nat) (hws : 0 < ws) (hdiv : ws ∣ W) :
    (W + ws - 1) / ws = W / ws ∧ W / ws * ws = W := by
  obtain ⟨k, rfl⟩ := hdiv
  have h1 : ws * k / ws = k := Nat.mul_div_cancel_left k hws
  refine ⟨?_, by rw [h1, Nat.mul_comm]⟩
  rw [h1]
  have h2 : ws * k + ws - 1 = ws - 1 + ws * k := by omega
  rw [h2, Nat.add_mul_div_left _ _ hws, Nat.div_eq_of_lt (by omega)]
  omega

theorem foldl_invariant {α β : Type} (P : α → Prop) (f : α → β → α) (l : List β)
    (hf : ∀ a, ∀ b ∈ l, P a → P (f a b)) : ∀ a, P a → P (l.foldl f a) := by
  induction l with
  | nil => intro a h; exact h
  | cons b l ih =>
    intro a h
    rw [List.foldl_cons]
    exact ih (fun a c hc => hf a c (List.mem_cons_of_mem _ hc)) _
      (hf a b (List.mem_cons_self _ _) h)

theorem count_inv_mono (W m k : Nat) (d : sbuf_diff) (hk : m ≤ k) (h : count_inv W m d) :
    count_inv W k d := by
  obtain ⟨ha, hW, hc, hb, hl⟩ := h
  refine ⟨ha, hW, hc, fun x => le_trans (hb x) hk, le_trans hl (Nat.mul_le_mul_left _ hk)⟩

theorem cmp_count_inv (sb1 sb2 : sbuf) (pos ws W m : Nat) (d : sbuf_diff)
    (hws : 1 ≤ ws) (hdiv : ws ∣ W) (hm : m < 255) (hsz : W * 255 < SIZE_T)
    (h : count_inv W m d) : count_inv W (m + 1) (sbuf_diff_cmp sb1 sb2 pos W d ws).2 := by
  obtain ⟨ha, hW, hc, hb, hl⟩ := h
  have hle : W * m ≤ W * 254 := Nat.mul_le_mul_left _ (by omega)
  have hcnt : d.cnt < SIZE_T := by omega
  obtain ⟨a1, a2, a3⟩ := ha
  obtain ⟨-, -, c3, cx⟩ := cmp_spec sb1 sb2 pos W d ws hws hcnt (by omega) (by omega) (by omega)
  obtain ⟨k1, k2, -, -⟩ := cmp_keeps sb1 sb2 pos W ws d ⟨a1, a2, a3⟩ (by omega) hws hcnt
  obtain ⟨w1, w2⟩ := whole_words W ws hws hdiv
  have hdw := diff_words_le sb1 sb2 pos W ws d.nbd (W / ws)
  have hwn : ws * diff_words sb1 sb2 pos W ws d.nbd (W / ws) ≤ W := by
    calc ws * diff_words sb1 sb2 pos W ws d.nbd (W / ws) ≤ ws * (W / ws) :=
          Nat.mul_le_mul_left _ hdw
      _ = W := by rw [Nat.mul_comm, w2]
  have hsum : cmp_sum (sbuf_diff_cmp sb1 sb2 pos W d ws).2 =
      cmp_sum d + ws * diff_words sb1 sb2 pos W ws d.nbd (W / ws) := by
    unfold cmp_sum
    rw [k2, hW]
    have hcong : ∀ x ∈ List.range W, rd (sbuf_diff_cmp sb1 sb2 pos W d ws).2.cmp x =
        (fun x => if (fun y => word_flag sb1 sb2 pos W d.nbd (y / ws * ws) ws) x = true
          then rd d.cmp x + 1 else rd d.cmp x) x := by
      intro x hx
      have hx2 : x < W := List.mem_range.mp hx
      rw [(cx x).1]
      have hbx := hb x
      by_cases hf : word_flag sb1 sb2 pos W d.nbd (x / ws * ws) ws = true
      · simp only [hx2, hf, and_self, if_true]
        exact Nat.mod_eq_of_lt (by omega)
      · simp [hf]
    rw [List.map_congr_left hcong, sum_incr]
    congr 1
    have hcw := count_words (fun k => word_flag sb1 sb2 pos W d.nbd (k * ws) ws) ws hws (W / ws)
    rw [w2] at hcw
    rw [hcw]
    rfl
  refine ⟨k1, by rw [k2, hW], ?_, ?_, ?_⟩
  · rw [hsum, c3, w1, ← hc]
    exact Nat.mod_eq_of_lt (by omega)
  · intro x
    rw [(cx x).1]
    have hbx := hb x
    split_ifs
    · rw [Nat.mod_eq_of_lt (by omega)]
      omega
    · omega
  · rw [c3, w1, Nat.mod_eq_of_lt (by omega), Nat.mul_succ]
    omega

theorem unmark_byte_count_inv (W m : Nat) (d : sbuf_diff) (j : Nat) (hj : j < W)
    (hsz : W * m < SIZE_T) (h : count_inv W m d) : count_inv W m (unmark_byte d j) := by
  obtain ⟨ha, hW, hc, hb, hl⟩ := h
  obtain ⟨a1, a2, a3⟩ := ha
  unfold unmark_byte
  split_ifs with hpos
  · have hs := sum_clear (fun x => rd d.cmp x) j d.width
    rw [if_pos (by omega)] at hs
    have hsum : cmp_sum d = ((List.range d.width).map fun x => rd d.cmp x).sum := rfl
    have hcj : rd d.cmp j ≤ d.cnt := by omega
    have hval : (d.cnt + SIZE_T - rd d.cmp j) % SIZE_T = d.cnt - rd d.cmp j := by
      have e : d.cnt + SIZE_T - rd d.cmp j = d.cnt - rd d.cmp j + SIZE_T := by omega
      rw [e, Nat.add_mod_right, Nat.mod_eq_of_lt (by omega)]
    refine ⟨⟨?_, ?_, ?_⟩, hW, ?_, ?_, ?_⟩
    · show (wr d.cmp j 0).length = d.width
      rw [length_wr]; exact a1
    · show (wr d.sub.ptr j 0).length = d.width
      rw [length_wr]; exact a2
    · show (wr d.null.ptr j 0).length = d.width
      rw [length_wr]; exact a3
    · show (d.cnt + SIZE_T - rd d.cmp j) % SIZE_T =
        ((List.range d.width).map fun x => rd (wr d.cmp j 0) x).sum
      simp only [rd_wr_zero]
      rw [hval]
      omega
    · intro x
      show rd (wr d.cmp j 0) x ≤ m
      rw [rd_wr_zero]
      have := hb x
      split_ifs <;> omega
    · show (d.cnt + SIZE_T - rd d.cmp j) % SIZE_T ≤ W * m
      rw [hval]
      omega
  · exact ⟨⟨a1, a2, a3⟩, hW, hc, hb, hl⟩

theorem unmark_word_count_inv (W m ws v : Nat) (d : sbuf_diff) (i : Nat) (hi : i + ws ≤ W)
    (hsz : W * m < SIZE_T) (h : count_inv W m d) : count_inv W m (unmark_word ws v d i) := by
  unfold unmark_word
  split_ifs
  · refine foldl_invariant (count_inv W m) (fun d t => unmark_byte d (i + t)) _ ?_ d h
    intro a t ht ha
    have ht2 : t < ws := List.mem_range.mp ht
    exact unmark_byte_count_inv W m a (i + t) (by omega) hsz ha
  · exact h

theorem unmark_value_count_inv (W m ws : Nat) (d : sbuf_diff) (v : Nat) (hws : 1 ≤ ws)
    (hdiv : ws ∣ W) (hsz : W * m < SIZE_T) (h : count_inv W m d) :
    count_inv W m (unmark_value ws d v) := by
  unfold unmark_value
  obtain ⟨w1, w2⟩ := whole_words W ws hws hdiv
  refine foldl_invariant (count_inv W m) (fun d k => unmark_word ws v d (k * ws)) _ ?_ d h
  intro a k hk ha
  have hk2 : k < (d.width + ws - 1) / ws := List.mem_range.mp hk
  rw [h.2.1, w1] at hk2
  have hk3 : (k + 1) * ws ≤ W / ws * ws := Nat.mul_le_mul_right _ hk2
  rw [w2, Nat.succ_mul] at hk3
  exact unmark_word_count_inv W m ws v a (k * ws) hk3 hsz ha

theorem unmark_ignore_count_inv (W m ws : Nat) (d : sbuf_diff) (ignore : Option (List Nat))
    (hws : 1 ≤ ws) (hdiv : ws ∣ W) (hsz : W * m < SIZE_T) (h : count_inv W m d) :
    count_inv W m (sbuf_diff_unmark_ignore d ws ignore) := by
  rcases ignore with _ | l
  · exact h
  · exact foldl_invariant (count_inv W m) (unmark_value ws) l
      (fun a v _ ha => unmark_value_count_inv W m ws a v hws hdiv hsz ha) d h

theorem run_count_inv (W ws : Nat) (hws : 1 ≤ ws) (hdiv : ws ∣ W) (hsz : W * 255 < SIZE_T) :
    ∀ (ops : List diff_op) (d : sbuf_diff) (m : Nat), count_inv W m d →
      (∀ op ∈ ops, op.regular ws W = true) →
      m + (ops.filter diff_op.is_cmp).length ≤ 255 →
      count_inv W (m + (ops.filter diff_op.is_cmp).length) (diff_run d ops) := by
  intro ops
  induction ops with
  | nil => intro d m h _ _; exact h
  | cons op ops ih =>
    intro d m h hreg hn
    have hreg1 := hreg op (List.mem_cons_self _ _)
    have hreg2 : ∀ o ∈ ops, o.regular ws W = true :=
      fun o ho => hreg o (List.mem_cons_of_mem _ ho)
    show count_inv W _ (diff_run (diff_step d op) ops)
    rcases op with ⟨sb1, sb2, pos, len, word_size⟩ | ⟨word_size, ignore⟩
    · simp only [diff_op.regular, Bool.and_eq_true, decide_eq_true_eq] at hreg1
      obtain ⟨e1, e2⟩ := hreg1
      subst e1 e2
      have hf : (List.filter diff_op.is_cmp (diff_op.cmp sb1 sb2 pos len word_size :: ops)).length =
          (ops.filter diff_op.is_cmp).length + 1 := by
        simp [List.filter, diff_op.is_cmp]
      rw [hf] at hn ⊢
      have h1 := cmp_count_inv sb1 sb2 pos word_size len m d hws hdiv (by omega) hsz h
      have h2 := ih _ (m + 1) h1 hreg2 (by omega)
      have e : m + ((ops.filter diff_op.is_cmp).length + 1) =
          m + 1 + (ops.filter diff_op.is_cmp).length := by omega
      rw [e]
      exact h2
    · simp only [diff_op.regular, decide_eq_true_eq] at hreg1
      subst hreg1
      have hf : (List.filter diff_op.is_cmp (diff_op.unmark word_size ignore :: ops)).length =
          (ops.filter diff_op.is_cmp).length := by
        simp [List.filter, diff_op.is_cmp]
      rw [hf] at hn ⊢
      have hmm : W * m < SIZE_T :=
        lt_of_le_of_lt (Nat.mul_le_mul_left _ (by omega)) hsz
      have h1 := unmark_ignore_count_inv W m word_size d ignore hws hdiv hmm h
      exact ih _ m h1 hreg2 hn

theorem reset_count_inv (d : sbuf_diff) (nbd : Int) (hd : d.allocated) :
    count_inv d.width 0 (reset_engine d nbd) := by
  obtain ⟨r1, r2, r3, -, rx⟩ := reset_spec d nbd hd
  refine ⟨r1, r2, ?_, fun x => by rw [(rx x).1], by rw [r3]; omega⟩
  rw [r3]
  unfold cmp_sum
  symm
  rw [List.sum_eq_zero_iff]
  intro y hy
  obtain ⟨x, -, rfl⟩ := List.mem_map.mp hy
  exact (rx x).1

/-- C37: when the word size divides the line width and every compare uses
`len = width`, `d->cnt` is the sum of the flags `cmp[i]`, `i < width`, after
`sbuf_diff_init` and after every sequence of `sbuf_diff_cmp` and
`sbuf_diff_unmark_ignore` calls made with that word size, in any order, and one more
call keeps the invariant from any state that has it; so no flag exceeds the count (the
subtraction of `sbuf_diff_unmark_ignore` does not underflow) and the count is 0 iff no
byte is marked.  Limits of the machine: at most 255 compares since the reset (a flag
is an `unsigned char`) and `255 * width < 2^64`. -/
theorem count_is_sum_of_flags (d : sbuf_diff) (nbd : Int) (ws : Nat) (ops : List diff_op)
    (hd : d.allocated) (hws : 1 ≤ ws) (hdiv : ws ∣ d.width)
    (hreg : ∀ op ∈ ops, op.regular ws d.width = true)
    (hcmp : (ops.filter diff_op.is_cmp).length ≤ 255) (hsz : d.width * 255 < SIZE_T) :
    (sbuf_diff_init d).cnt = cmp_sum (sbuf_diff_init d) ∧
    (diff_run (reset_engine d nbd) ops).cnt = cmp_sum (diff_run (reset_engine d nbd) ops) ∧
    (∀ j, j < d.width →
      rd (diff_run (reset_engine d nbd) ops).cmp j ≤ (diff_run (reset_engine d nbd) ops).cnt) ∧
    ((diff_run (reset_engine d nbd) ops).cnt = 0 ↔
      ∀ i, i < d.width → rd (diff_run (reset_engine d nbd) ops).cmp i = 0) ∧
    (∀ (e : sbuf_diff) (m : Nat) (op : diff_op), count_inv d.width m e → m < 255 →
      op.regular ws d.width = true → count_inv d.width (m + 1) (diff_step e op)) := by
  have h0 := reset_count_inv d 0 hd
  have hrun := run_count_inv d.width ws hws hdiv hsz ops (reset_engine d nbd) 0
    (reset_count_inv d nbd hd) hreg (by omega)
  obtain ⟨-, rW, rc, -, -⟩ := hrun
  have hsum : cmp_sum (diff_run (reset_engine d nbd) ops) =
      ((List.range d.width).map fun i => rd (diff_run (reset_engine d nbd) ops).cmp i).sum := by
    unfold cmp_sum
    rw [rW]
  refine ⟨h0.2.2.1, rc, ?_, ?_, ?_⟩
  · intro j hj
    have hs := sum_clear (fun i => rd (diff_run (reset_engine d nbd) ops).cmp i) j d.width
    rw [if_pos hj, ← hsum, ← rc] at hs
    omega
  · rw [rc, hsum, List.sum_eq_zero_iff]
    constructor
    · intro h i hi
      exact h _ (List.mem_map.mpr ⟨i, List.mem_range.mpr hi, rfl⟩)
    · intro h y hy
      obtain ⟨i, hi, rfl⟩ := List.mem_map.mp hy
      exact h i (List.mem_range.mp hi)
  · intro e m op he hm hop
    have h1 := run_count_inv d.width ws hws hdiv hsz [op] e m he
      (fun o ho => by rw [List.mem_singleton.mp ho]; exact hop)
      (by
        have := List.length_filter_le diff_op.is_cmp [op]
        simp only [List.length_singleton] at this
        omega)
    refine count_inv_mono d.width _ (m + 1) _ ?_ h1
    have := List.length_filter_le diff_op.is_cmp [op]
    simp only [List.length_singleton] at this
    omega

theorem count_is_sum_of_flags_witness :
    (diff_run (reset_engine (demo_engine 4) 0)
        [diff_op.cmp demo_a demo_b 0 4 2, diff_op.unmark 2 (some [151]),
         diff_op.cmp demo_b demo_short 0 4 2]).cnt =
      cmp_sum (diff_run (reset_engine (demo_engine 4) 0)
        [diff_op.cmp demo_a demo_b 0 4 2, diff_op.unmark 2 (some [151]),
         diff_op.cmp demo_b demo_short 0 4 2]) :=
  (count_is_sum_of_flags (demo_engine 4) 0 2
    [diff_op.cmp demo_a demo_b 0 4 2, diff_op.unmark 2 (some [151]),
     diff_op.cmp demo_b demo_short 0 4 2]
    (by decide) (by decide) (by decide) (by decide) (by decide) (by decide)).2.1

theorem pair_step_marked (a b : sbuf) (pos width ws m : Nat) (e : sbuf_diff) (x : Nat)
    (he : e.allocated) (hw : width ≤ e.width) (hc : e.cnt < SIZE_T) (hws : 1 ≤ ws)
    (h1 : 1 ≤ rd e.cmp x) (h2 : rd e.cmp x ≤ m) (hm : m < 255) :
    rd (sbuf_diff_cmp a b pos width e ws).2.sub.ptr x = rd e.sub.ptr x ∧
    1 ≤ rd (sbuf_diff_cmp a b pos width e ws).2.cmp x ∧
    rd (sbuf_diff_cmp a b pos width e ws).2.cmp x ≤ m + 1 := by
  obtain ⟨a1, a2, a3⟩ := he
  obtain ⟨-, -, -, cx⟩ := cmp_spec a b pos width e ws hws hc (by omega) (by omega) (by omega)
  obtain ⟨c1, c2, -⟩ := cx x
  rw [c1, c2]
  refine ⟨?_, ?_, ?_⟩
  · rw [if_neg]
    intro h
    omega
  · split_ifs <;> omega
  · split_ifs <;> omega

theorem fold_keeps_marked (pos width ws : Nat) (hws : 1 ≤ ws) (x : Nat)
    (f : sbuf_diff → Nat × Nat → sbuf_diff)
    (hf : ∀ d p, f d p = d ∨ ∃ a b, f d p = (sbuf_diff_cmp a b pos width d ws).2) :
    ∀ (ps : List (Nat × Nat)) (e : sbuf_diff) (m : Nat), e.allocated → width ≤ e.width →
      e.cnt < SIZE_T → 1 ≤ rd e.cmp x → rd e.cmp x ≤ m → m + ps.length ≤ 255 →
      rd (ps.foldl f e).sub.ptr x = rd e.sub.ptr x ∧ 1 ≤ rd (ps.foldl f e).cmp x := by
  intro ps
  induction ps with
  | nil => intro e m _ _ _ h1 _ _; exact ⟨rfl, h1⟩
  | cons p ps ih =>
    intro e m he hw hc h1 h2 hm
    rw [List.foldl_cons]
    simp only [List.length_cons] at hm
    rcases hf e p with h | ⟨a, b, h⟩
    · rw [h]
      exact ih e m he hw hc h1 h2 (by omega)
    · rw [h]
      obtain ⟨k1, k2, -, k4⟩ := cmp_keeps a b pos width ws e he hw hws hc
      obtain ⟨s1, s2, s3⟩ := pair_step_marked a b pos width ws m e x he hw hc hws h1 h2 (by omega)
      obtain ⟨i1, i2⟩ := ih _ (m + 1) k1 (by omega) k4 s2 s3 (by omega)
      exact ⟨i1.trans s1, i2⟩

/-- With nothing to ignore the per-line comparison is a fold over the stream pairs of a
step that is the compare of the two windows of the pair. -/
theorem compare_line_as_fold (sb : List sbuf) (pos width ws flags : Nat)
    (ignore : Option (List Nat)) (d : sbuf_diff) (h : ignore = some [] ∨ ignore = none) :
    ∃ P : sbuf_diff → Nat × Nat → sbuf_diff,
      (∀ e p, P e p = e ∨ ∃ a b, P e p = (sbuf_diff_cmp a b pos width e ws).2) ∧
      (∀ e j i a b, sb[j]? = some a → sb[i]? = some b →
        P e (j, i) = (sbuf_diff_cmp a b pos width e ws).2) ∧
      main_compare_line sb pos width ws flags ignore d =
        (stream_pairs sb.length).foldl P (reset_engine d (main_nbd flags)) := by
  refine ⟨_, ?_, ?_, compare_line_no_ignore sb pos width ws flags ignore d h⟩
  · intro e p
    rcases h1 : sb[p.1]? with _ | a
    · left; simp only [h1]
    · rcases h2 : sb[p.2]? with _ | b
      · left; simp only [h1, h2]
      · right; exact ⟨a, b, by simp only [h1, h2]⟩
  · intro e j i a b h1 h2
    simp only [h1, h2]

theorem stream_pairs_first (n : Nat) (h2 : 2 ≤ n) (h4 : n ≤ 4) :
    stream_pairs n = (0, 1) :: (stream_pairs n).tail ∧ (stream_pairs n).tail.length ≤ 5 := by
  interval_cases n <;> decide

theorem stream_pairs_second (n : Nat) (h3 : 3 ≤ n) (h4 : n ≤ 4) :
    stream_pairs n = (0, 1) :: (0, 2) :: (stream_pairs n).tail.tail ∧
      (stream_pairs n).tail.tail.length ≤ 4 := by
  interval_cases n <;> decide

/-- When the compare of streams 0 and 1 marks the word at `i`, the subtraction bytes of
the word after the whole line are those of that compare. -/
theorem sub_of_first_pair (a b : sbuf) (rest : List sbuf) (pos width ws flags : Nat)
    (ignore : Option (List Nat)) (d : sbuf_diff) (i : Nat)
    (hn : rest.length ≤ 2) (hd : d.allocated) (hw : width ≤ d.width) (hws : 1 ≤ ws)
    (hig : ignore = some [] ∨ ignore = none) (hi : i % ws = 0) (hin : i + ws ≤ width)
    (hflag : word_flag a b pos width (main_nbd flags) i ws = true) (t : Nat) (ht : t < ws) :
    rd (main_compare_line (a :: b :: rest) pos width ws flags ignore d).sub.ptr (i + t) =
      rd (sbuf_diff_cmp a b pos width (reset_engine d (main_nbd flags)) ws).2.sub.ptr (i + t) ∧
    1 ≤ rd (main_compare_line (a :: b :: rest) pos width ws flags ignore d).cmp (i + t) := by
  obtain ⟨P, hP, hP2, hcl⟩ := compare_line_as_fold (a :: b :: rest) pos width ws flags ignore d hig
  have hlen : (a :: b :: rest).length = rest.length + 2 := rfl
  obtain ⟨hsp, htl⟩ := stream_pairs_first (rest.length + 2) (by omega) (by omega)
  rw [hlen, hsp, List.foldl_cons, hP2 _ 0 1 a b (by simp) (by simp)] at hcl
  rw [hcl]
  obtain ⟨-, f2, f3, -, -, -, -, f8, fx⟩ :=
    fresh_cmp_spec a b pos width d (main_nbd flags) ws hws hd hw
  obtain ⟨s1, -⟩ := word_start i ws t hws hi ht
  have hc1 : rd (sbuf_diff_cmp a b pos width (reset_engine d (main_nbd flags)) ws).2.cmp (i + t)
      = 1 := by
    rw [(fx (i + t)).1, s1, hflag]
    simp only [and_true]
    rw [if_pos (by omega)]
  exact fold_keeps_marked pos width ws hws (i + t) P hP (stream_pairs (rest.length + 2)).tail
    _ 1 f2 (by omega)
    (by rw [f8]; exact Nat.mod_lt _ (by decide)) (by omega) (by omega) (by omega)

/-- When the compare of streams 0 and 1 leaves the word at `i` unmarked and the compare
of streams 0 and 2 marks it, the subtraction bytes of the word after the whole line are
those of the compare of streams 0 and 2. -/
theorem sub_of_second_pair (a b c : sbuf) (rest : List sbuf) (pos width ws flags : Nat)
    (ignore : Option (List Nat)) (d : sbuf_diff) (i : Nat)
    (hn : rest.length ≤ 1) (hd : d.allocated) (hw : width ≤ d.width) (hws : 1 ≤ ws)
    (hig : ignore = some [] ∨ ignore = none) (hi : i % ws = 0) (hin : i + ws ≤ width)
    (hab : word_flag a b pos width (main_nbd flags) i ws = false)
    (hac : word_flag a c pos width (main_nbd flags) i ws = true) (t : Nat) (ht : t < ws) :
    rd (main_compare_line (a :: b :: c :: rest) pos width ws flags ignore d).sub.ptr (i + t) =
      rd (sbuf_diff_cmp a c pos width (reset_engine d (main_nbd flags)) ws).2.sub.ptr (i + t) ∧
    1 ≤ rd (main_compare_line (a :: b :: c :: rest) pos width ws flags ignore d).cmp (i + t) := by
  obtain ⟨P, hP, hP2, hcl⟩ :=
    compare_line_as_fold (a :: b :: c :: rest) pos width ws flags ignore d hig
  have hlen : (a :: b :: c :: rest).length = rest.length + 3 := rfl
  obtain ⟨hsp, htl⟩ := stream_pairs_second (rest.length + 3) (by omega) (by omega)
  rw [hlen, hsp, List.foldl_cons, List.foldl_cons, hP2 _ 0 1 a b (by simp) (by simp),
    hP2 _ 0 2 a c (by simp) (by simp)] at hcl
  rw [hcl]
  obtain ⟨-, f2, f3, f4, -, -, -, f8, fx⟩ :=
    fresh_cmp_spec a b pos width d (main_nbd flags) ws hws hd hw
  obtain ⟨-, -, -, -, -, -, -, -, gx⟩ :=
    fresh_cmp_spec a c pos width d (main_nbd flags) ws hws hd hw
  obtain ⟨s1, -⟩ := word_start i ws t hws hi ht
  have hcnt1 : (sbuf_diff_cmp a b pos width (reset_engine d (main_nbd flags)) ws).2.cnt <
      SIZE_T := by
    rw [f8]; exact Nat.mod_lt _ (by decide)
  have hc1 : rd (sbuf_diff_cmp a b pos width (reset_engine d (main_nbd flags)) ws).2.cmp (i + t)
      = 0 := by
    rw [(fx (i + t)).1, s1, hab]
    simp
  obtain ⟨b1, b2, b3⟩ := f2
  obtain ⟨-, -, -, cx⟩ := cmp_spec a c pos width
    (sbuf_diff_cmp a b pos width (reset_engine d (main_nbd flags)) ws).2 ws hws hcnt1
    (by omega) (by omega) (by omega)
  obtain ⟨k1, k2, -, k4⟩ := cmp_keeps a c pos width ws
    (sbuf_diff_cmp a b pos width (reset_engine d (main_nbd flags)) ws).2 ⟨b1, b2, b3⟩
    (by omega) hws hcnt1
  have hx : i + t < width := by omega
  have hc2 : rd (sbuf_diff_cmp a c pos width
      (sbuf_diff_cmp a b pos width (reset_engine d (main_nbd flags)) ws).2 ws).2.cmp (i + t)
      = 1 := by
    rw [(cx (i + t)).1, s1, f4, hac, hc1]
    simp [hx]
  have hs2 : rd (sbuf_diff_cmp a c pos width
      (sbuf_diff_cmp a b pos width (reset_engine d (main_nbd flags)) ws).2 ws).2.sub.ptr (i + t)
      = rd (sbuf_diff_cmp a c pos width (reset_engine d (main_nbd flags)) ws).2.sub.ptr
        (i + t) := by
    rw [(cx (i + t)).2.1, (gx (i + t)).2.1, s1, f4, hac, hc1]
    simp [hx]
  obtain ⟨r1, r2⟩ := fold_keeps_marked pos width ws hws (i + t) P hP
    (stream_pairs (rest.length + 3)).tail.tail _ 1 k1 (by omega)
    k4 (by omega) (by omega) (by omega)
  exact ⟨r1.trans hs2, r2⟩

theorem flag_of_words_differ (a b : sbuf) (pos len ws : Nat) (nbd : Int) (i : Nat)
    (hva : a.valid) (hvb : b.valid) (hws8 : ws ≤ 8) (hin : i + ws ≤ len)
    (hreal : ∀ j, j < ws → line_byte a pos (i + j) ≠ none ∧ line_byte b pos (i + j) ≠ none)
    (hne : window_word a pos i ws ≠ window_word b pos i ws) :
    word_flag a b pos len nbd i ws = true := by
  cases hw : word_flag a b pos len nbd i ws
  · exfalso
    have heq := (word_flag_eq a b pos len nbd i hva hvb ws).2 hw
    rw [word_val_real a b pos len nbd i ws hva hws8 hin hreal,
      word_val_real b a pos len nbd i ws hvb hws8 hin
        (fun j hj => ⟨(hreal j hj).2, (hreal j hj).1⟩)] at heq
    exact hne heq
  · rfl

theorem flag_of_bytes_agree (a b : sbuf) (pos len ws : Nat) (nbd : Int) (i : Nat)
    (hva : a.valid) (hvb : b.valid)
    (hsame : ∀ j, j < ws → line_byte a pos (i + j) = line_byte b pos (i + j)) :
    word_flag a b pos len nbd i ws = false := by
  rw [word_flag_differs a b pos len ws nbd i hva hvb]
  unfold word_differs
  rw [List.any_eq_false]
  intro j hj
  rw [hsame j (List.mem_range.mp hj), byte_differs_self]
  simp

theorem wrapped_ne_zero (x y n : Nat) (hx : x < n) (hy : y < n) (hne : x ≠ y) :
    (y + n - x) % n ≠ 0 := by
  rcases Nat.lt_or_gt_of_ne hne with h | h
  · have e : y + n - x = y - x + n := by omega
    rw [e, Nat.add_mod_right, Nat.mod_eq_of_lt (by omega)]
    omega
  · rw [Nat.mod_eq_of_lt (by omega)]
    omega

/-- C36: the usage text promises the subtraction of file 1 and file 0 only, but the
engine keeps the subtraction of the first pair of streams that marks the word, and the
driver compares the pairs (0,1), (0,2), (1,2), ... in that order.  For the one-byte
streams `00`, `00`, `01` the byte is marked and its subtraction byte is `01`, not
`00 - 00`.  In general, with nothing to ignore and all bytes of the word present: when
streams 0 and 1 differ on the word its subtraction bytes are (word of stream 1 - word
of stream 0) mod 256^ws, for 2 to 4 streams; when streams 0 and 1 agree on it and
stream 2 differs from stream 0, the word is marked and its subtraction bytes are (word
of stream 2 - word of stream 0) mod 256^ws, which is not the value of file 1 minus
file 0 (that is 0). -/
theorem subtraction_is_of_first_marking_pair :
    (rd (main_compare_line [demo_s0, demo_s0, demo_s1] 0 1 1 demo_flags (some [])
        (demo_engine 1)).cmp 0 = 2 ∧
      sub_word (main_compare_line [demo_s0, demo_s0, demo_s1] 0 1 1 demo_flags (some [])
        (demo_engine 1)) 0 1 = 1 ∧
      (window_word demo_s0 0 0 1 + 256 ^ 1 - window_word demo_s0 0 0 1) % 256 ^ 1 = 0) ∧
    (∀ (a b : sbuf) (rest : List sbuf) (pos width ws flags : Nat) (ignore : Option (List Nat))
        (d : sbuf_diff) (i : Nat),
      a.valid → b.valid → rest.length ≤ 2 → d.allocated → width ≤ d.width → 1 ≤ ws → ws ≤ 8 →
      (ignore = some [] ∨ ignore = none) → i % ws = 0 → i + ws ≤ width →
      (∀ j, j < ws → line_byte a pos (i + j) ≠ none ∧ line_byte b pos (i + j) ≠ none) →
      window_word a pos i ws ≠ window_word b pos i ws →
      (∀ t, t < ws →
        1 ≤ rd (main_compare_line (a :: b :: rest) pos width ws flags ignore d).cmp (i + t)) ∧
      sub_word (main_compare_line (a :: b :: rest) pos width ws flags ignore d) i ws =
        (window_word b pos i ws + 256 ^ ws - window_word a pos i ws) % 256 ^ ws) ∧
    (∀ (a b c : sbuf) (rest : List sbuf) (pos width ws flags : Nat)
        (ignore : Option (List Nat)) (d : sbuf_diff) (i : Nat),
      a.valid → b.valid → c.valid → rest.length ≤ 1 → d.allocated → width ≤ d.width →
      1 ≤ ws → ws ≤ 8 → (ignore = some [] ∨ ignore = none) → i % ws = 0 → i + ws ≤ width →
      (∀ j, j < ws → line_byte a pos (i + j) ≠ none ∧ line_byte c pos (i + j) ≠ none) →
      (∀ j, j < ws → line_byte a pos (i + j) = line_byte b pos (i + j)) →
      window_word a pos i ws ≠ window_word c pos i ws →
      (∀ t, t < ws →
        1 ≤ rd (main_compare_line (a :: b :: c :: rest) pos width ws flags ignore d).cmp
          (i + t)) ∧
      sub_word (main_compare_line (a :: b :: c :: rest) pos width ws flags ignore d) i ws =
        (window_word c pos i ws + 256 ^ ws - window_word a pos i ws) % 256 ^ ws ∧
      (window_word b pos i ws + 256 ^ ws - window_word a pos i ws) % 256 ^ ws = 0 ∧
      sub_word (main_compare_line (a :: b :: c :: rest) pos width ws flags ignore d) i ws ≠
        (window_word b pos i ws + 256 ^ ws - window_word a pos i ws) % 256 ^ ws) := by
  refine ⟨by decide, ?_, ?_⟩
  · intro a b rest pos width ws flags ignore d i hva hvb hn hd hw hws1 hws8 hig hi hin hreal hne
    have hflag := flag_of_words_differ a b pos width ws (main_nbd flags) i hva hvb hws8 hin
      hreal hne
    have hb := sub_of_first_pair a b rest pos width ws flags ignore d i hn hd hw hws1 hig hi
      hin hflag
    refine ⟨fun t ht => (hb t ht).2, ?_⟩
    rw [← fresh_sub_word a b pos width ws d (main_nbd flags) i hva hvb hd hw hws1 hws8 hi hin
      hreal]
    unfold sub_word
    exact be_value_congr _ _ ws (fun t ht => (hb t ht).1)
  · intro a b c rest pos width ws flags ignore d i hva hvb hvc hn hd hw hws1 hws8 hig hi hin
      hreal hsame hne
    have hab := flag_of_bytes_agree a b pos width ws (main_nbd flags) i hva hvb hsame
    have hac := flag_of_words_differ a c pos width ws (main_nbd flags) i hva hvc hws8 hin
      hreal hne
    have hb := sub_of_second_pair a b c rest pos width ws flags ignore d i hn hd hw hws1 hig
      hi hin hab hac
    have hsub : sub_word (main_compare_line (a :: b :: c :: rest) pos width ws flags ignore d)
        i ws = (window_word c pos i ws + 256 ^ ws - window_word a pos i ws) % 256 ^ ws := by
      rw [← fresh_sub_word a c pos width ws d (main_nbd flags) i hva hvc hd hw hws1 hws8 hi
        hin hreal]
      unfold sub_word
      exact be_value_congr _ _ ws (fun t ht => (hb t ht).1)
    have hwab : window_word b pos i ws = window_word a pos i ws := by
      unfold window_word
      exact be_value_congr _ _ ws (fun j hj => by rw [hsame j hj])
    have hzero : (window_word b pos i ws + 256 ^ ws - window_word a pos i ws) % 256 ^ ws = 0 := by
      rw [hwab, Nat.add_sub_cancel_left, Nat.mod_self]
    refine ⟨fun t ht => (hb t ht).2, hsub, hzero, ?_⟩
    rw [hsub, hzero]
    exact wrapped_ne_zero _ _ _ (window_word_lt a pos i ws hva) (window_word_lt c pos i ws hvc)
      hne

end hexdiff
